import Mathlib

/-! # FlowNet: the RPPA parser and the Petri-net code generator

A shallow embedding of `src/engine.cpp` (AST, Petri-net model with its two
serializers, `CodegenVisitor`) and of `src/rppa_parser.cpp` (`Tokenizer`, `Parser`),
followed by theorems about the embedded functions.

Modelling conventions.
* `std::string` is `String`; `std::vector` is `List` (push_back appends at the end).
* `std::map<string, V>` is an association list with unique keys (`mapFind`, `mapAssign`).
* `unique_ptr<AstNode>` children built by the parser are never null and are plain
  `AstNode` values; the only null root is the one `modules[name]` creates for an
  absent key, modelled by `FlowDef.root = none`.
* `int counter` is a `Nat`; `counter++` at `INT_MAX` is signed overflow (undefined
  behaviour) and is reported as `Fault.intOverflow`.
* `generate` and `compileExpr` are mutually recursive and need not terminate, so the
  embedding carries a recursion bound; `Fault.outOfFuel` means the bound was reached.
* The third-party type `nlohmann::json` is the inductive type `Json` with the three
  operations `to_json` uses; `ostringstream` is a `String` that is appended to.
* The `int`s that count positions (`line`, `col`, `arcId`) are natural numbers.
-/

namespace FlowNet

/-! ## AST (engine.cpp, lines 13-68) -/

inductive AstNode where
  | ActionNode (name : String)
  | SequenceNode (children : List AstNode)
  | ParallelNode (left right : AstNode)
  | ChoiceNode (left right : AstNode)
  | PrioNode (priority : Int) (child : AstNode)
  | CallModuleNode (moduleName : String)

/-! ## Petri net (engine.cpp, lines 70-90) -/

structure Place where
  id : String
  deriving DecidableEq, Repr

structure Transition where
  id : String
  priority : Int := 0
  deriving DecidableEq, Repr

inductive ArcType where
  | PLACE_TO_TRANS
  | TRANS_TO_PLACE
  deriving DecidableEq, Repr

structure Arc where
  type : ArcType
  src : String
  dst : String
  deriving DecidableEq, Repr

structure PetriModule where
  moduleName : String
  entry : Place
  exit : Place
  places : List Place
  transitions : List Transition
  arcs : List Arc
  deriving DecidableEq, Repr

/-! ## Compiler state (engine.cpp, lines 176-192) -/

/-- The registry entry of a module; `root = none` is the null pointer of a
default-constructed `FlowDef`. -/
structure FlowDef where
  root : Option AstNode

/-- Lookup in a `std::map<string, V>`. -/
def mapFind {V : Type} (m : List (String × V)) (k : String) : Option V :=
  match m with
  | [] => none
  | (k', v) :: rest => if k' = k then some v else mapFind rest k

/-- The assignment `m[k] = v` on a `std::map<string, V>`. -/
def mapAssign {V : Type} (m : List (String × V)) (k : String) (v : V) : List (String × V) :=
  (k, v) :: m.filter (fun p => !decide (p.1 = k))

structure CodegenVisitor where
  modules : List (String × FlowDef)
  generated : List (String × PetriModule)
  counter : Nat

/-- A freshly constructed `CodegenVisitor`: both maps empty, `counter = 0`. -/
def CodegenVisitor.init : CodegenVisitor :=
  { modules := [], generated := [], counter := 0 }

/-- Ways in which an evaluation yields no C++ result. -/
inductive Fault where
  | outOfFuel
  | intOverflow
  deriving DecidableEq, Repr

/-- The largest value of a 32-bit `int`. -/
def INT_MAX : Nat := 2147483647

/-- The method `fresh(base)`: `base + to_string(counter++)`. -/
def fresh (cg : CodegenVisitor) (base : String) : Except Fault (String × CodegenVisitor) :=
  if cg.counter < INT_MAX then
    .ok (base ++ toString cg.counter, { cg with counter := cg.counter + 1 })
  else .error .intOverflow

/-- The method `register_module(name, root)`: `modules[name] = FlowDef{root}`. -/
def register_module (cg : CodegenVisitor) (name : String) (root : AstNode) : CodegenVisitor :=
  { cg with modules := mapAssign cg.modules name ⟨some root⟩ }

/-- The type of `compileExpr` once the recursion bound is fixed. -/
abbrev Compile : Type :=
  AstNode → String → String → CodegenVisitor → PetriModule →
    Except Fault (CodegenVisitor × PetriModule)

/-- The `for` loop of the `SequenceNode` branch (engine.cpp, lines 216-223), started at
child `i` with `current` as its input place; `rec` is the recursive `compileExpr`. -/
def seqLoop (rec : Compile) (out : String) :
    List AstNode → String → CodegenVisitor → PetriModule →
      Except Fault (CodegenVisitor × PetriModule)
  | [], _, cg, m => .ok (cg, m)
  | c :: cs, current, cg, m =>
    match cs with
    | [] => rec c current out cg m
    | _ :: _ =>
      match fresh cg "P" with
      | .error e => .error e
      | .ok (next, cg1) =>
        match rec c current next cg1 { m with places := m.places ++ [⟨next⟩] } with
        | .error e => .error e
        | .ok (cg2, m2) => seqLoop rec out cs next cg2 m2

/-- The body of `generate` (engine.cpp, lines 194-207); `rec` is `compileExpr`. -/
def generateWith (rec : Compile) (cg : CodegenVisitor) (moduleName : String) :
    Except Fault (PetriModule × CodegenVisitor) :=
  match mapFind cg.generated moduleName with
  | some m => .ok (m, cg)
  | none =>
    match fresh cg "entry" with
    | .error e => .error e
    | .ok (entryId, cg1) =>
      match fresh cg1 "exit" with
      | .error e => .error e
      | .ok (exitId, cg2) =>
        let m : PetriModule :=
          { moduleName := moduleName, entry := ⟨entryId⟩, exit := ⟨exitId⟩,
            places := [⟨entryId⟩, ⟨exitId⟩], transitions := [], arcs := [] }
        -- modules[moduleName] inserts a default FlowDef (null root) for an absent key
        match mapFind cg2.modules moduleName with
        | none =>
          let cg3 := { cg2 with modules := mapAssign cg2.modules moduleName ⟨none⟩ }
          -- every dynamic_cast of a null pointer fails: compileExpr does nothing
          .ok (m, { cg3 with generated := mapAssign cg3.generated moduleName m })
        | some ⟨none⟩ =>
          .ok (m, { cg2 with generated := mapAssign cg2.generated moduleName m })
        | some ⟨some root⟩ =>
          match rec root entryId exitId cg2 m with
          | .error e => .error e
          | .ok (cg3, m3) =>
            .ok (m3, { cg3 with generated := mapAssign cg3.generated moduleName m3 })

open ArcType in
/-- The method `compileExpr(node, in, out, m)` (engine.cpp, lines 209-267) with a bound
on the depth of the recursion through `compileExpr` and `generate`. -/
def compileExpr : Nat → Compile
  | 0, _, _, _, _, _ => .error .outOfFuel
  | fuel + 1, node, inp, out, cg, m =>
    match node with
    | .ActionNode _ =>
      match fresh cg "T" with
      | .error e => .error e
      | .ok (tid, cg1) =>
        .ok (cg1, { m with
          transitions := m.transitions ++ [⟨tid, 0⟩],
          arcs := m.arcs ++ [⟨PLACE_TO_TRANS, inp, tid⟩, ⟨TRANS_TO_PLACE, tid, out⟩] })
    | .SequenceNode children => seqLoop (compileExpr fuel) out children inp cg m
    | .ParallelNode left right =>
      match fresh cg "P" with
      | .error e => .error e
      | .ok (leftIn, cg1) =>
      match fresh cg1 "P" with
      | .error e => .error e
      | .ok (rightIn, cg2) =>
      match fresh cg2 "P" with
      | .error e => .error e
      | .ok (leftOut, cg3) =>
      match fresh cg3 "P" with
      | .error e => .error e
      | .ok (rightOut, cg4) =>
      match fresh cg4 "T" with
      | .error e => .error e
      | .ok (fork, cg5) =>
      match fresh cg5 "T" with
      | .error e => .error e
      | .ok (join, cg6) =>
        let m1 : PetriModule := { m with
          places := m.places ++ [⟨leftIn⟩, ⟨rightIn⟩, ⟨leftOut⟩, ⟨rightOut⟩],
          transitions := m.transitions ++ [⟨fork, 0⟩, ⟨join, 0⟩],
          arcs := m.arcs ++ [⟨PLACE_TO_TRANS, inp, fork⟩, ⟨TRANS_TO_PLACE, fork, leftIn⟩,
            ⟨TRANS_TO_PLACE, fork, rightIn⟩] }
        match compileExpr fuel left leftIn leftOut cg6 m1 with
        | .error e => .error e
        | .ok (cg7, m2) =>
        match compileExpr fuel right rightIn rightOut cg7 m2 with
        | .error e => .error e
        | .ok (cg8, m3) =>
          .ok (cg8, { m3 with
            arcs := m3.arcs ++ [⟨PLACE_TO_TRANS, leftOut, join⟩,
              ⟨PLACE_TO_TRANS, rightOut, join⟩, ⟨TRANS_TO_PLACE, join, out⟩] })
    | .ChoiceNode left right =>
      match compileExpr fuel left inp out cg m with
      | .error e => .error e
      | .ok (cg1, m1) => compileExpr fuel right inp out cg1 m1
    | .PrioNode priority child =>
      match fresh cg "P" with
      | .error e => .error e
      | .ok (mid, cg1) =>
      match fresh cg1 "T" with
      | .error e => .error e
      | .ok (tid, cg2) =>
        compileExpr fuel child mid out cg2 { m with
          places := m.places ++ [⟨mid⟩],
          transitions := m.transitions ++ [⟨tid, priority⟩],
          arcs := m.arcs ++ [⟨PLACE_TO_TRANS, inp, tid⟩, ⟨TRANS_TO_PLACE, tid, mid⟩] }
    | .CallModuleNode moduleName =>
      match generateWith (compileExpr fuel) cg moduleName with
      | .error e => .error e
      | .ok (sub, cg1) =>
      match fresh cg1 "T_call" with
      | .error e => .error e
      | .ok (callT, cg2) =>
      match fresh cg2 "T_ret" with
      | .error e => .error e
      | .ok (retT, cg3) =>
        .ok (cg3, { m with
          places := m.places ++ sub.places,
          transitions := m.transitions ++ sub.transitions ++ [⟨callT, 0⟩, ⟨retT, 0⟩],
          arcs := m.arcs ++ sub.arcs ++ [⟨PLACE_TO_TRANS, inp, callT⟩,
            ⟨TRANS_TO_PLACE, callT, sub.entry.id⟩, ⟨PLACE_TO_TRANS, sub.exit.id, retT⟩,
            ⟨TRANS_TO_PLACE, retT, out⟩] })

/-- The method `generate(moduleName)` with recursion bound `fuel`. -/
def generate (fuel : Nat) (cg : CodegenVisitor) (moduleName : String) :
    Except Fault (PetriModule × CodegenVisitor) :=
  generateWith (compileExpr fuel) cg moduleName

/-- A session: the given `register_module` calls, in order, on a fresh visitor. -/
def session (regs : List (String × AstNode)) : CodegenVisitor :=
  regs.foldl (fun cg r => register_module cg r.1 r.2) CodegenVisitor.init

/-! ## Serializers (engine.cpp, lines 92-171) -/

/-- The values of the library type `nlohmann::json` that `to_json` builds. An object is
the list of its members; the library keeps them sorted by key, an order that nothing
here depends on. -/
inductive Json where
  | null
  | string (s : String)
  | number (n : Int)
  | array (items : List Json)
  | object (members : List (String × Json))

/-- The member `key` of an object, if there is one. -/
def Json.field (j : Json) (key : String) : Option Json :=
  match j with
  | .object members => mapFind members key
  | _ => none

/-- The assignment `j[key] = v`: a null value becomes an object with this one member, an
object gets the member or has it replaced. (On any other value the library throws; this
is not reached.) -/
def Json.set (j : Json) (key : String) (v : Json) : Json :=
  match j with
  | .null => .object [(key, v)]
  | .object members => .object (mapAssign members key v)
  | other => other

/-- The call `j.push_back(v)`: a null value becomes the array `[v]`, an array gets `v`
appended. (On any other value the library throws; this is not reached.) -/
def Json.push_back (j : Json) (v : Json) : Json :=
  match j with
  | .null => .array [v]
  | .array items => .array (items ++ [v])
  | other => other

/-- The statement `j[key].push_back(v)`: `operator[]` yields the member `key`, inserting
a null member first when the object has none. -/
def Json.pushAt (j : Json) (key : String) (v : Json) : Json :=
  j.set key (((j.field key).getD .null).push_back v)

/-- The method `PetriModule::to_json` (engine.cpp, lines 92-124). -/
def PetriModule.to_json (m : PetriModule) : Json :=
  let j := Json.null
  let j := j.set "moduleName" (.string m.moduleName)
  let j := j.set "entry" (.string m.entry.id)
  let j := j.set "exit" (.string m.exit.id)
  let j := m.places.foldl (fun j p => j.pushAt "places" (.object [("id", .string p.id)])) j
  let j := m.transitions.foldl (fun j t => j.pushAt "transitions"
    (.object [("id", .string t.id), ("priority", .number t.priority)])) j
  let j := m.arcs.foldl (fun j a => j.pushAt "arcs"
    (.object [("id", .string (a.src ++ "_to_" ++ a.dst)),
      ("type", .string (if a.type = .PLACE_TO_TRANS then "P2T" else "T2P")),
      ("src", .string a.src), ("dst", .string a.dst)])) j
  j

/-- The method `PetriModule::to_pnml` (engine.cpp, lines 126-171); `os` is the output
stream, `arcId` the running arc number (a natural number: a fragment has fewer than
`2^31` arcs). -/
def PetriModule.to_pnml (m : PetriModule) : String :=
  let os := ""
  let os := os ++ "<?xml version=\"1.0\" encoding=\"UTF-8\"?>\n"
  let os := os ++ "<pnml>\n"
  let os := os ++ "  <net id=\"" ++ m.moduleName
    ++ "\" type=\"http://www.pnml.org/version-2009/grammar/pnml\">\n"
  let os := m.places.foldl (fun os p =>
    let os := os ++ "    <place id=\"" ++ p.id ++ "\">\n"
    let os := os ++ "      <name><text>" ++ p.id ++ "</text></name>\n"
    let os := os ++ "      <initialMarking><text>0</text></initialMarking>\n"
    os ++ "    </place>\n") os
  let os := m.transitions.foldl (fun os t =>
    let os := os ++ "    <transition id=\"" ++ t.id ++ "\">\n"
    let os := os ++ "      <name><text>" ++ t.id ++ "</text></name>\n"
    let os :=
      if t.priority > 0 then
        let os := os ++ "      <toolspecific tool=\"FlowNetDSL\">\n"
        let os := os ++ "        <priority>" ++ toString t.priority ++ "</priority>\n"
        os ++ "      </toolspecific>\n"
      else os
    os ++ "    </transition>\n") os
  let st := m.arcs.foldl (fun (st : String × Nat) a =>
    let os := st.1 ++ "    <arc id=\"a" ++ toString st.2
      ++ "\" source=\"" ++ a.src
      ++ "\" target=\"" ++ a.dst ++ "\">\n"
    let os := os ++ "      <toolspecific tool=\"FlowNetDSL\">\n"
    let os := os ++ "        <type>"
      ++ (if a.type = .PLACE_TO_TRANS then "P2T" else "T2P")
      ++ "</type>\n"
    let os := os ++ "      </toolspecific>\n"
    (os ++ "    </arc>\n", st.2 + 1)) (os, 0)
  let os := st.1 ++ "  </net>\n"
  os ++ "</pnml>\n"

/-! ## Tokenizer (rppa_parser.cpp, lines 15-62)

The input stream is a list of `char`s, each held in a Lean `Char`. A `Tokenizer` state
keeps the current character `ch` as the head of `chars` and the unread rest of the
stream as its tail; `chars = []` is the state in which `in.get()` has hit end of file
(`in.eof()`). The `int` fields `line` and `col` are natural numbers. The character
classes are those of the "C" locale: a character outside ASCII belongs to none. -/

/-- Everything the parser can throw: `ParseError`, the two exceptions of `std::stoi`,
and the bound of the embedding's recursion (no C++ counterpart). -/
inductive Exn where
  | ParseError (msg : String) (line col : Nat)
  | invalid_argument
  | out_of_range
  | outOfFuel
  deriving DecidableEq, Repr

/-- The enum `Token::Type`. -/
inductive TokenType where
  | ID | DOT | PARALLEL | CHOICE | PRIO | LBRACK | RBRACK | LPAREN | RPAREN | END
  deriving DecidableEq, Repr

structure Token where
  type : TokenType
  value : String
  line : Nat
  col : Nat
  deriving DecidableEq, Repr

/-- The C function `isspace` in the "C" locale. -/
def isspace (c : Char) : Bool :=
  decide (c.toNat = 32) || (decide (9 ≤ c.toNat) && decide (c.toNat ≤ 13))

/-- The C function `isalpha` in the "C" locale. -/
def isalpha (c : Char) : Bool :=
  (decide (65 ≤ c.toNat) && decide (c.toNat ≤ 90)) ||
    (decide (97 ≤ c.toNat) && decide (c.toNat ≤ 122))

/-- The C function `isdigit`. -/
def isdigit (c : Char) : Bool :=
  decide (48 ≤ c.toNat) && decide (c.toNat ≤ 57)

/-- The C function `isalnum` in the "C" locale. -/
def isalnum (c : Char) : Bool :=
  isalpha c || isdigit c

/-- The loop condition of the identifier branch: `isalnum(ch) || ch == '_'`. -/
def isIdChar (c : Char) : Bool :=
  isalnum c || decide (c = '_')

structure Tokenizer where
  chars : List Char
  line : Nat
  col : Nat
  deriving DecidableEq, Repr

/-- The state once `ch = in.get()` has delivered the head of `chars` (end of file when
`chars` is empty), with the position update of `next()`:
`++col; if (ch == '\n') { ++line; col = 0; }`. -/
def Tokenizer.read (chars : List Char) (line col : Nat) : Tokenizer :=
  match chars with
  | [] => ⟨[], line, col + 1⟩
  | c :: cs => if c = '\n' then ⟨c :: cs, line + 1, 0⟩ else ⟨c :: cs, line, col + 1⟩

/-- The method `next()`. -/
def Tokenizer.next (tz : Tokenizer) : Tokenizer :=
  Tokenizer.read tz.chars.tail tz.line tz.col

/-- The constructor `Tokenizer(input)`: `line = 1, col = 0`, then `next()`. -/
def Tokenizer.init (input : List Char) : Tokenizer :=
  Tokenizer.read input 1 0

/-- The loops `while (p(ch)) { acc += ch; next(); }` of `next_token`. -/
def Tokenizer.scanWhile (p : Char → Bool) :
    List Char → Nat → Nat → String → String × Tokenizer
  | [], line, col, acc => (acc, ⟨[], line, col⟩)
  | c :: cs, line, col, acc =>
    if p c then
      Tokenizer.scanWhile p cs (Tokenizer.read cs line col).line
        (Tokenizer.read cs line col).col (acc.push c)
    else (acc, ⟨c :: cs, line, col⟩)

/-- The method `next_token()`. -/
def Tokenizer.next_token (tz0 : Tokenizer) : Except Exn (Token × Tokenizer) :=
  -- while (isspace(ch)) next();
  let tz := (Tokenizer.scanWhile isspace tz0.chars tz0.line tz0.col "").2
  match tz.chars with
  | [] => .ok (⟨.END, "", tz.line, tz.col⟩, tz)
  | c :: _ =>
    if isalpha c then
      let r := Tokenizer.scanWhile isIdChar tz.chars tz.line tz.col ""
      .ok (⟨.ID, r.1, r.2.line, r.2.col⟩, r.2)
    else if c = '.' then .ok (⟨.DOT, ".", tz.line, tz.col⟩, tz.next)
    else if c = '|' then
      match tz.next.chars with
      | '|' :: _ => .ok (⟨.PARALLEL, "||", tz.line, tz.col⟩, tz.next.next)
      | _ => .error (.ParseError "Expected '||'" tz.line tz.col)
    else if c = '[' then .ok (⟨.LBRACK, "[", tz.line, tz.col⟩, tz.next)
    else if c = ']' then .ok (⟨.RBRACK, "]", tz.line, tz.col⟩, tz.next)
    else if c = '^' then
      let r := Tokenizer.scanWhile isdigit tz.next.chars tz.next.line tz.next.col ""
      .ok (⟨TokenType.PRIO, r.1, tz.line, tz.col⟩, r.2)
    else if c = '(' then .ok (⟨.LPAREN, "(", tz.line, tz.col⟩, tz.next)
    else if c = ')' then .ok (⟨.RPAREN, ")", tz.line, tz.col⟩, tz.next)
    else .error (.ParseError ("Unknown character: ".push c) tz.line tz.col)

/-! ## Parser (rppa_parser.cpp, lines 64-142) -/

structure Parser where
  tz : Tokenizer
  cur : Token
  deriving DecidableEq, Repr

/-- The method `advance()`: `cur = tz.next_token()`. -/
def Parser.advance (p : Parser) : Except Exn Parser :=
  match p.tz.next_token with
  | .error e => .error e
  | .ok (t, tz) => .ok ⟨tz, t⟩

/-- The method `expect(t)`. -/
def Parser.expect (p : Parser) (t : TokenType) : Except Exn Unit :=
  if p.cur.type ≠ t then .error (.ParseError "Unexpected token" p.cur.line p.cur.col)
  else .ok ()

/-- The value `strtol` accumulates over a run of decimal digits. -/
def digitsValue (ds : List Char) : Nat :=
  ds.foldl (fun acc c => acc * 10 + (c.toNat - 48)) 0

/-- The call `std::stoi(s)` on the value of a PRIO token, which holds decimal digits
only: no digit at the start is `invalid_argument`, a value above `INT_MAX` is
`out_of_range`. -/
def stoi (s : String) : Except Exn Int :=
  match s.data.takeWhile isdigit with
  | [] => .error .invalid_argument
  | d :: ds =>
    if digitsValue (d :: ds) ≤ INT_MAX then .ok (Int.ofNat (digitsValue (d :: ds)))
    else .error .out_of_range

/-- The tail shared by the three branches of `parse_term`:
`if (cur.type == PRIO) { p = stoi(cur.value); advance(); return PrioNode(p, node); }
return node;`. -/
def Parser.optPrio (p : Parser) (node : AstNode) : Except Exn (AstNode × Parser) :=
  if p.cur.type = TokenType.PRIO then
    match stoi p.cur.value with
    | .error e => .error e
    | .ok v =>
      match p.advance with
      | .error e => .error e
      | .ok p1 => .ok (.PrioNode v node, p1)
  else .ok (node, p)

/-- The body of the `while` loop of `parse_expr` after `right` is parsed. -/
def combine (op : TokenType) (left right : AstNode) : AstNode :=
  if op = .DOT then .SequenceNode [left, right]
  else if op = .PARALLEL then .ParallelNode left right
  else .ChoiceNode left right

mutual
/-- The method `parse_term()`, with a bound on the recursion depth. -/
def parse_term : Nat → Parser → Except Exn (AstNode × Parser)
  | 0, _ => .error .outOfFuel
  | fuel + 1, p =>
    if p.cur.type = .ID then
      match p.advance with
      | .error e => .error e
      | .ok p1 =>
        if p1.cur.type = .LPAREN then
          match p1.advance with
          | .error e => .error e
          | .ok p2 =>
            match p2.expect .RPAREN with
            | .error e => .error e
            | .ok _ =>
              match p2.advance with
              | .error e => .error e
              | .ok p3 => p3.optPrio (.CallModuleNode p.cur.value)
        else p1.optPrio (.ActionNode p.cur.value)
    else if p.cur.type = .LBRACK then
      match p.advance with
      | .error e => .error e
      | .ok p1 =>
        match parse_expr fuel p1 with
        | .error e => .error e
        | .ok (node, p2) =>
          match p2.expect .RBRACK with
          | .error e => .error e
          | .ok _ =>
            match p2.advance with
            | .error e => .error e
            | .ok p3 => p3.optPrio node
    else .error (.ParseError "Expected term" p.cur.line p.cur.col)

/-- The method `parse_expr()`: the first term, then the `while` loop. -/
def parse_expr : Nat → Parser → Except Exn (AstNode × Parser)
  | 0, _ => .error .outOfFuel
  | fuel + 1, p =>
    match parse_term fuel p with
    | .error e => .error e
    | .ok (left, p1) => parse_expr_loop fuel left p1

/-- The `while` loop of `parse_expr()` with `left` as accumulated so far. -/
def parse_expr_loop : Nat → AstNode → Parser → Except Exn (AstNode × Parser)
  | 0, _, _ => .error .outOfFuel
  | fuel + 1, left, p =>
    if p.cur.type = .DOT ∨ p.cur.type = .PARALLEL ∨ p.cur.type = .CHOICE then
      match p.advance with
      | .error e => .error e
      | .ok p1 =>
        match parse_term fuel p1 with
        | .error e => .error e
        | .ok (right, p2) => parse_expr_loop fuel (combine p.cur.type left right) p2
    else .ok (left, p)
end

/-- The constructor `Parser(in)`: `tz(in)`, then `advance()`. -/
def Parser.init (input : List Char) : Except Exn Parser :=
  match (Tokenizer.init input).next_token with
  | .error e => .error e
  | .ok (t, tz) => .ok ⟨tz, t⟩

/-- The recursion bound that `parse` hands to `parse_expr`: it is never reached
(`parse_total`). -/
def parseFuel (input : List Char) : Nat :=
  2 * input.length + 4

/-- The method `Parser::parse()` run on a parser constructed over `input`. -/
def parse (input : String) : Except Exn AstNode :=
  match Parser.init input.data with
  | .error e => .error e
  | .ok p =>
    match parse_expr (parseFuel input.data) p with
    | .error e => .error e
    | .ok (ast, p1) =>
      if p1.cur.type ≠ .END then .error (.ParseError "Extra input" p1.cur.line p1.cur.col)
      else .ok ast

/-! ## Specification vocabulary: fragments and the alternation invariant -/

def placeIds (m : PetriModule) : List String := m.places.map (fun p => p.id)
def transIds (m : PetriModule) : List String := m.transitions.map (fun t => t.id)

/-- The arc's kind matches its endpoints: source in `P` and destination in `T` for a
place-to-transition arc, and the other way round for a transition-to-place arc. -/
def Arc.alternates (P T : List String) (a : Arc) : Prop :=
  match a.type with
  | .PLACE_TO_TRANS => a.src ∈ P ∧ a.dst ∈ T
  | .TRANS_TO_PLACE => a.src ∈ T ∧ a.dst ∈ P

/-- The fragment `m1` is `m` with places, transitions and arcs appended. -/
structure Grows (m m1 : PetriModule) : Prop where
  moduleName : m1.moduleName = m.moduleName
  entry : m1.entry = m.entry
  exit : m1.exit = m.exit
  places : m.places <+: m1.places
  transitions : m.transitions <+: m1.transitions
  arcs : m.arcs <+: m1.arcs

def Alternation (m : PetriModule) : Prop :=
  ∀ a ∈ m.arcs, a.alternates (placeIds m) (transIds m)

def MemoAlt (cg : CodegenVisitor) : Prop :=
  ∀ name F, mapFind cg.generated name = some F →
    Alternation F ∧ F.entry.id ∈ placeIds F ∧ F.exit.id ∈ placeIds F

def CompileAlt (rec : Compile) : Prop :=
  ∀ node inp out cg m cg1 m1, rec node inp out cg m = .ok (cg1, m1) →
    MemoAlt cg → Alternation m → inp ∈ placeIds m → out ∈ placeIds m →
    MemoAlt cg1 ∧ Alternation m1 ∧ Grows m m1

open ArcType AstNode

/-! ## Sessions used as concrete instances -/

/-- The registrations `sub := Action(a)`, `main := Sequence(CallModule(sub), CallModule(sub))`. -/
def callTwice : List (String × AstNode) :=
  [("sub", ActionNode "a"),
   ("main", SequenceNode [CallModuleNode "sub", CallModuleNode "sub"])]

/-- The fragment that `generate("sub")` builds inside `generate("main")` on `callTwice`. -/
def callTwiceSub : PetriModule :=
  { moduleName := "sub", entry := ⟨"entry3"⟩, exit := ⟨"exit4"⟩,
    places := [⟨"entry3"⟩, ⟨"exit4"⟩],
    transitions := [⟨"T5", 0⟩],
    arcs := [⟨PLACE_TO_TRANS, "entry3", "T5"⟩, ⟨TRANS_TO_PLACE, "T5", "exit4"⟩] }

/-- The fragment that `generate("main")` returns on `callTwice`. -/
def callTwiceMain : PetriModule :=
  { moduleName := "main", entry := ⟨"entry0"⟩, exit := ⟨"exit1"⟩,
    places := [⟨"entry0"⟩, ⟨"exit1"⟩, ⟨"P2"⟩, ⟨"entry3"⟩, ⟨"exit4"⟩, ⟨"entry3"⟩, ⟨"exit4"⟩],
    transitions := [⟨"T5", 0⟩, ⟨"T_call6", 0⟩, ⟨"T_ret7", 0⟩,
      ⟨"T5", 0⟩, ⟨"T_call8", 0⟩, ⟨"T_ret9", 0⟩],
    arcs := [⟨PLACE_TO_TRANS, "entry3", "T5"⟩, ⟨TRANS_TO_PLACE, "T5", "exit4"⟩,
      ⟨PLACE_TO_TRANS, "entry0", "T_call6"⟩, ⟨TRANS_TO_PLACE, "T_call6", "entry3"⟩,
      ⟨PLACE_TO_TRANS, "exit4", "T_ret7"⟩, ⟨TRANS_TO_PLACE, "T_ret7", "P2"⟩,
      ⟨PLACE_TO_TRANS, "entry3", "T5"⟩, ⟨TRANS_TO_PLACE, "T5", "exit4"⟩,
      ⟨PLACE_TO_TRANS, "P2", "T_call8"⟩, ⟨TRANS_TO_PLACE, "T_call8", "entry3"⟩,
      ⟨PLACE_TO_TRANS, "exit4", "T_ret9"⟩, ⟨TRANS_TO_PLACE, "T_ret9", "exit1"⟩] }

/-- The state in which `generate("main")` leaves the session `callTwice`. -/
def callTwiceAfter : CodegenVisitor :=
  { modules := [("main", ⟨some (SequenceNode [CallModuleNode "sub", CallModuleNode "sub"])⟩),
      ("sub", ⟨some (ActionNode "a")⟩)],
    generated := [("main", callTwiceMain), ("sub", callTwiceSub)],
    counter := 10 }

/-- Every result of `r1` is also the result of `r2` (used to compare recursion bounds). -/
def CompileLe (r1 r2 : Compile) : Prop :=
  ∀ node inp out cg m res, r1 node inp out cg m = .ok res → r2 node inp out cg m = .ok res

open AstNode

/-- The registration `A := CallModule(A)`. -/
def selfCall : List (String × AstNode) := [("A", CallModuleNode "A")]

/-- The registrations `A := CallModule(B)`, `B := CallModule(A)`. -/
def mutualCall : List (String × AstNode) :=
  [("A", CallModuleNode "B"), ("B", CallModuleNode "A")]

/-- The fragment of a module without a body: two places, nothing else. -/
def bareFragment (name entryId exitId : String) : PetriModule :=
  { moduleName := name, entry := ⟨entryId⟩, exit := ⟨exitId⟩,
    places := [⟨entryId⟩, ⟨exitId⟩], transitions := [], arcs := [] }

open ArcType in
/-- The fragment of a module `main` with body `CallModule(name)`, compiled first on a
fresh session in which `name` is not registered. -/
def callBareFragment (main : String) : PetriModule :=
  { moduleName := main, entry := ⟨"entry0"⟩, exit := ⟨"exit1"⟩,
    places := [⟨"entry0"⟩, ⟨"exit1"⟩, ⟨"entry2"⟩, ⟨"exit3"⟩],
    transitions := [⟨"T_call4", 0⟩, ⟨"T_ret5", 0⟩],
    arcs := [⟨PLACE_TO_TRANS, "entry0", "T_call4"⟩, ⟨TRANS_TO_PLACE, "T_call4", "entry2"⟩,
      ⟨PLACE_TO_TRANS, "exit3", "T_ret5"⟩, ⟨TRANS_TO_PLACE, "T_ret5", "exit1"⟩] }

/-! ## Specification vocabulary: concrete syntax and the grammar -/

/-- The string matches `[A-Za-z][A-Za-z0-9_]*`. -/
def IsIdent (s : String) : Prop :=
  ∃ c cs, s.data = c :: cs ∧ isalpha c = true ∧ ∀ d ∈ cs, isIdChar d = true

/-- The string is a non-empty run of decimal digits. -/
def IsDigits (s : String) : Prop :=
  s.data ≠ [] ∧ ∀ d ∈ s.data, isdigit d = true

/-- The decimal value of a digit string: the positional value, least significant digit
last. -/
def decimalValue (s : String) : Nat :=
  Nat.ofDigits 10 (s.data.reverse.map (fun c => c.toNat - 48))

/-- The parser `p` has `cur` of type `ty` with value `val`, and `rest` is what the
tokenizer has not consumed yet. -/
def Parser.At (p : Parser) (ty : TokenType) (val : String) (rest : List Char) : Prop :=
  p.cur.type = ty ∧ p.cur.value = val ∧ p.tz.chars = rest

/-- The first character of `rest`, if any, does not satisfy `q`. -/
def StopsAt (q : Char → Bool) (rest : List Char) : Prop :=
  ∀ c cs, rest = c :: cs → q c = false

/-- The two binary operators of the concrete syntax. -/
inductive BinOp where
  | dot
  | bars
  deriving DecidableEq, Repr

/-- The text of an operator: `.` or `||`. -/
def BinOp.text : BinOp → String
  | .dot => "."
  | .bars => "||"

/-- The node an operator stands for: a two-child Sequence for `.`, a Parallel for `||`. -/
def BinOp.node : BinOp → AstNode → AstNode → AstNode
  | .dot, l, r => .SequenceNode [l, r]
  | .bars, l, r => .ParallelNode l r

/-- The text `o1 x2 o2 x3 ...` of the operators and identifiers after the first one. -/
def chainTail : List (BinOp × String) → String
  | [] => ""
  | (o, x) :: rest => o.text ++ x ++ chainTail rest

/-- The text `x1 o1 x2 ... o(n-1) xn`, written without blanks. -/
def chainText (x1 : String) (rest : List (BinOp × String)) : String :=
  x1 ++ chainTail rest

/-- The left fold of a chain: start from `Action(x1)`, at each step wrap the
accumulated tree and the next action in the operator's node. -/
def leftFold (x1 : String) (rest : List (BinOp × String)) : AstNode :=
  rest.foldl (fun acc p => p.1.node acc (.ActionNode p.2)) (.ActionNode x1)

/-- The token type the tokenizer gives an operator. -/
def BinOp.token : BinOp → TokenType
  | .dot => .DOT
  | .bars => .PARALLEL

/-- The parser stands right after an identifier of a chain: `cur` is the end of input if
nothing follows, else the next operator, with the tokenizer at the next identifier. -/
def Positioned (p : Parser) : List (BinOp × String) → Prop
  | [] => p.cur.type = .END
  | (o, x) :: rest => p.cur.type = o.token ∧ p.tz.chars = x.data ++ (chainTail rest).data

/-- The token sequence the tokenizer delivers from state `tz`: every token up to and
including the first END token. -/
inductive Lexes : Tokenizer → List Token → Prop where
  | last (tz tz1 : Tokenizer) (t : Token) :
      tz.next_token = .ok (t, tz1) → t.type = .END → Lexes tz [t]
  | more (tz tz1 : Tokenizer) (t : Token) (ts : List Token) :
      tz.next_token = .ok (t, tz1) → t.type ≠ .END → Lexes tz1 ts → Lexes tz (t :: ts)

/-- Repeated `next_token()` until END, with a bound on the number of tokens. -/
def tokensFrom : Nat → Tokenizer → Except Exn (List Token)
  | 0, _ => .error .outOfFuel
  | fuel + 1, tz =>
    match tz.next_token with
    | .error e => .error e
    | .ok (t, tz1) =>
      if t.type = .END then .ok [t]
      else
        match tokensFrom fuel tz1 with
        | .error e => .error e
        | .ok ts => .ok (t :: ts)

/-- The whole token sequence of an input text, or the lexical error. Every token but
END consumes a character, so the bound is never reached. -/
def tokenize (input : List Char) : Except Exn (List Token) :=
  tokensFrom (input.length + 1) (Tokenizer.init input)

/-- The nonterminals of the EBNF; `tail` is the repetition `(('.' | '||') term)*`. -/
inductive NT where
  | expr
  | term
  | tail
  deriving DecidableEq, Repr

/-- Derivability in the grammar
`expr ::= term (('.' | '||') term)*`,
`term ::= IDENT ['(' ')'] ['^' DIGITS] | '[' expr ']' ['^' DIGITS]`,
over tokens: a terminal matches a token of its type. -/
inductive Derives : NT → List Token → Prop where
  | ident (i : Token) : i.type = .ID → Derives .term [i]
  | identPrio (i q : Token) : i.type = .ID → q.type = TokenType.PRIO → Derives .term [i, q]
  | call (i l r : Token) :
      i.type = .ID → l.type = .LPAREN → r.type = .RPAREN → Derives .term [i, l, r]
  | callPrio (i l r q : Token) :
      i.type = .ID → l.type = .LPAREN → r.type = .RPAREN → q.type = TokenType.PRIO →
      Derives .term [i, l, r, q]
  | group (l r : Token) (e : List Token) :
      l.type = .LBRACK → Derives .expr e → r.type = .RBRACK → Derives .term (l :: e ++ [r])
  | groupPrio (l r q : Token) (e : List Token) :
      l.type = .LBRACK → Derives .expr e → r.type = .RBRACK → q.type = TokenType.PRIO →
      Derives .term (l :: e ++ [r, q])
  | expr (t rest : List Token) :
      Derives .term t → Derives .tail rest → Derives .expr (t ++ rest)
  | tailNil : Derives .tail []
  | tailCons (op : Token) (t rest : List Token) :
      (op.type = .DOT ∨ op.type = .PARALLEL) → Derives .term t → Derives .tail rest →
      Derives .tail (op :: t ++ rest)

/-- What the parser in state `p` still has in front of it: `cur`, then, unless `cur` is
END, the tokens the tokenizer will deliver. -/
def Rem (p : Parser) (toks : List Token) : Prop :=
  ∃ ts, toks = p.cur :: ts ∧
    ((p.cur.type = .END ∧ ts = []) ∨ (p.cur.type ≠ .END ∧ Lexes p.tz ts))

/-- The priority marker carries a non-empty digit string whose value fits an `int`. -/
def ValidPrio (t : Token) : Prop :=
  t.type = TokenType.PRIO → IsDigits t.value ∧ decimalValue t.value ≤ INT_MAX

/-- A token that may follow a complete term without being taken into it. -/
def EndsTerm (rest : List Token) : Prop :=
  ∃ t ts, rest = t :: ts ∧ t.type ≠ .LPAREN ∧ t.type ≠ TokenType.PRIO

/-- A token that may follow a complete expression without being taken into it. -/
def EndsExpr (rest : List Token) : Prop :=
  ∃ t ts, rest = t :: ts ∧ t.type ≠ .LPAREN ∧ t.type ≠ TokenType.PRIO ∧
    t.type ≠ .DOT ∧ t.type ≠ .PARALLEL ∧ t.type ≠ .CHOICE

/-- No token of the sequence is a choice operator. -/
def NoChoice (toks : List Token) : Prop :=
  ∀ t ∈ toks, t.type ≠ .CHOICE

/-- What a successful run of a parsing function `f` means for the nonterminal `nt`: the
tokens in front of the parser split into a part derivable from `nt` and the part left
in front of the resulting parser. -/
def SoundFor (nt : NT) (f : Parser → Except Exn (AstNode × Parser)) : Prop :=
  ∀ (p p1 : Parser) (ast : AstNode) (toks : List Token),
    f p = .ok (ast, p1) → Rem p toks → NoChoice toks →
    ∃ pre rest, toks = pre ++ rest ∧ Derives nt pre ∧ Rem p1 rest

/-- What a derivation of `pre` from `nt` means for the parser: standing in front of
`pre ++ rest`, with all priority markers of `pre` valid, `rest` starting with a token
that ends the construct, and a recursion bound of at least twice the length of `pre`
plus two, the parsing function of `nt` succeeds and leaves the parser in front of
`rest`. -/
def Accepts : NT → List Token → Prop
  | .term, pre =>
    ∀ (fuel : Nat) (p : Parser) (rest : List Token), 2 * pre.length + 1 ≤ fuel →
      Rem p (pre ++ rest) → (∀ t ∈ pre, ValidPrio t) → EndsTerm rest →
      ∃ ast p1, parse_term fuel p = .ok (ast, p1) ∧ Rem p1 rest
  | .expr, pre =>
    ∀ (fuel : Nat) (p : Parser) (rest : List Token), 2 * pre.length + 2 ≤ fuel →
      Rem p (pre ++ rest) → (∀ t ∈ pre, ValidPrio t) → EndsExpr rest →
      ∃ ast p1, parse_expr fuel p = .ok (ast, p1) ∧ Rem p1 rest
  | .tail, pre =>
    ∀ (fuel : Nat) (p : Parser) (rest : List Token) (left : AstNode),
      2 * pre.length + 1 ≤ fuel →
      Rem p (pre ++ rest) → (∀ t ∈ pre, ValidPrio t) → EndsExpr rest →
      ∃ ast p1, parse_expr_loop fuel left p = .ok (ast, p1) ∧ Rem p1 rest

/-- The token sequence of the text `[a||b]^3`. -/
def groupTokens : List Token :=
  [⟨.LBRACK, "[", 1, 1⟩, ⟨.ID, "a", 1, 3⟩, ⟨.PARALLEL, "||", 1, 3⟩, ⟨.ID, "b", 1, 6⟩,
   ⟨.RBRACK, "]", 1, 6⟩, ⟨TokenType.PRIO, "3", 1, 7⟩, ⟨.END, "", 1, 9⟩]

/-! ## Specification vocabulary: generated identifiers and reachable sessions -/

/-- The prefixes `fresh` is called with in `engine.cpp`. -/
def idBases : List String := ["entry", "exit", "P", "T", "T_call", "T_ret"]

/-- The id `x` was made by `fresh` from a counter value `k` with `lo ≤ k < hi`. -/
def FreshIn (lo hi : Nat) (x : String) : Prop :=
  ∃ base k, base ∈ idBases ∧ lo ≤ k ∧ k < hi ∧ x = base ++ toString k

/-- The ids of all places and transitions of a fragment, taken together. -/
def nodeIds (m : PetriModule) : List String := placeIds m ++ transIds m

/-- The node contains no `CallModuleNode`. -/
inductive CallFree : AstNode → Prop where
  | action (name : String) : CallFree (.ActionNode name)
  | sequence (children : List AstNode) :
      (∀ c ∈ children, CallFree c) → CallFree (.SequenceNode children)
  | parallel (l r : AstNode) : CallFree l → CallFree r → CallFree (.ParallelNode l r)
  | choice (l r : AstNode) : CallFree l → CallFree r → CallFree (.ChoiceNode l r)
  | prio (priority : Int) (child : AstNode) : CallFree child →
      CallFree (.PrioNode priority child)

/-- The ids `fresh` returns for the prefixes `bs`, called in this order from counter
value `c`. -/
def freshIds : List String → Nat → List String
  | [], _ => []
  | b :: bs, c => (b ++ toString c) :: freshIds bs (c + 1)

/-- The node ids of `m` are well formed with respect to the counter range `[lo, hi)`:
no place id twice, no transition id twice, no place id that is a transition id, and
every id made by `fresh` from a counter value of the (possibly empty) range. -/
structure IdsOK (lo hi : Nat) (m : PetriModule) : Prop where
  places : (placeIds m).Nodup
  transitions : (transIds m).Nodup
  disjoint : ∀ x ∈ placeIds m, x ∉ transIds m
  range : ∀ x ∈ nodeIds m, FreshIn lo hi x
  le : lo ≤ hi

/-- The invariant of compiling a node without module calls: well-formed ids stay well
formed, the counter does not decrease. -/
def CompileCF (rec : Compile) : Prop :=
  ∀ node, CallFree node → ∀ (inp out : String) (cg : CodegenVisitor) (m : PetriModule)
    (cg1 : CodegenVisitor) (m1 : PetriModule) (lo : Nat),
    rec node inp out cg m = .ok (cg1, m1) → IdsOK lo cg.counter m →
    IdsOK lo cg1.counter m1 ∧ cg.counter ≤ cg1.counter

/-- Every node id of `m` was made by `fresh` from a counter value below `hi`. -/
def Below (hi : Nat) (m : PetriModule) : Prop :=
  ∀ x ∈ nodeIds m, FreshIn 0 hi x

/-- The entry and exit of the fragment are two different places of it, and no id occurs
twice among its places and transitions taken together. -/
def WellFormedIds (F : PetriModule) : Prop :=
  F.entry.id ∈ placeIds F ∧ F.exit.id ∈ placeIds F ∧ F.entry.id ≠ F.exit.id ∧
    (placeIds F ++ transIds F).Nodup

/-- The invariant of a session in which no module is registered again after it has been
compiled: the ids of every cached fragment were made below the current counter, and the
cached fragment of a module whose registered body has no module call is well formed. -/
structure SessionInv (cg : CodegenVisitor) : Prop where
  ids : ∀ n G, mapFind cg.generated n = some G → Below cg.counter G
  wf : ∀ n G body, mapFind cg.generated n = some G →
    mapFind cg.modules n = some ⟨some body⟩ → CallFree body → WellFormedIds G

/-- The registries of `cg` and `cg1` bind the same names to the same bodies. -/
def ModStable (cg cg1 : CodegenVisitor) : Prop :=
  ∀ n body, mapFind cg1.modules n = some ⟨some body⟩ ↔
    mapFind cg.modules n = some ⟨some body⟩

/-- The invariant of compiling any node: the session invariant is kept, the ids of the
fragment stay below the counter, the counter does not decrease, registered bodies are
not changed and the fragment only grows. -/
def GenInv (rec : Compile) : Prop :=
  ∀ (node : AstNode) (inp out : String) (cg : CodegenVisitor) (m : PetriModule)
    (cg1 : CodegenVisitor) (m1 : PetriModule),
    rec node inp out cg m = .ok (cg1, m1) → SessionInv cg → Below cg.counter m →
    SessionInv cg1 ∧ Below cg1.counter m1 ∧ cg.counter ≤ cg1.counter ∧
      ModStable cg cg1 ∧ Grows m m1

/-- The states a session can reach when no module is registered again after `generate`
has compiled it. -/
inductive Reachable : CodegenVisitor → Prop where
  | init : Reachable CodegenVisitor.init
  | register (cg : CodegenVisitor) (name : String) (root : AstNode) :
      Reachable cg → mapFind cg.generated name = none →
      Reachable (register_module cg name root)
  | generate (cg cg1 : CodegenVisitor) (fuel : Nat) (name : String) (F : PetriModule) :
      Reachable cg → generate fuel cg name = .ok (F, cg1) → Reachable cg1

/-- The session `callTwice` after `generate("main")`, with `main` then registered again
as `Action(b)`. -/
def callTwiceStale : CodegenVisitor :=
  register_module callTwiceAfter "main" (.ActionNode "b")

/-- The size of what the parser has not consumed: the characters left in the stream,
plus one for `cur` unless it is END. -/
def Parser.pending (p : Parser) : Nat :=
  p.tz.chars.length + (if p.cur.type = .END then 0 else 1)

/-! ## Specification vocabulary: what one construct adds -/

/-- The fragment `m` with the places `ps`, the transitions `ts` and the arcs `as` appended. -/
def PetriModule.plus (m : PetriModule) (ps : List Place) (ts : List Transition)
    (as : List Arc) : PetriModule :=
  { m with places := m.places ++ ps, transitions := m.transitions ++ ts, arcs := m.arcs ++ as }

/-- The state `cg` after `k` calls of `fresh`. -/
def CodegenVisitor.bump (cg : CodegenVisitor) (k : Nat) : CodegenVisitor :=
  { cg with counter := cg.counter + k }

/-- The id `x` is a node id of a fragment in the memo of `cg`. -/
def MemoId (cg : CodegenVisitor) (x : String) : Prop :=
  ∃ n G, mapFind cg.generated n = some G ∧ x ∈ nodeIds G

/-- What compiling may change on the way from `(cg, m)` to `(cg1, m1)`: the counter does
not decrease, the fragment only grows, no memo entry is dropped or replaced, and every
node id that is new in the memo or in the fragment was cached before or has just been
made by `fresh`. -/
structure Frame (cg : CodegenVisitor) (m : PetriModule) (cg1 : CodegenVisitor)
    (m1 : PetriModule) : Prop where
  counter : cg.counter ≤ cg1.counter
  grows : Grows m m1
  memo : ∀ n G, mapFind cg.generated n = some G → mapFind cg1.generated n = some G
  memoIds : ∀ x, MemoId cg1 x → MemoId cg x ∨ FreshIn cg.counter cg1.counter x
  ids : ∀ x ∈ nodeIds m1, x ∈ nodeIds m ∨ MemoId cg x ∨ FreshIn cg.counter cg1.counter x

def GenFrame (rec : Compile) : Prop :=
  ∀ (node : AstNode) (inp out : String) (cg : CodegenVisitor) (m : PetriModule)
    (cg1 : CodegenVisitor) (m1 : PetriModule),
    rec node inp out cg m = .ok (cg1, m1) → Frame cg m cg1 m1

/-! ## Specification vocabulary: later states of a session and callers -/

/-- The states a session can move to from `cg`: any `register_module` call, also of a
name that is registered or compiled already, and any returning `generate` call. -/
inductive Later (cg : CodegenVisitor) : CodegenVisitor → Prop where
  | here : Later cg cg
  | register (cg1 : CodegenVisitor) (name : String) (root : AstNode) :
      Later cg cg1 → Later cg (register_module cg1 name root)
  | generate (cg1 cg2 : CodegenVisitor) (fuel : Nat) (name : String) (F : PetriModule) :
      Later cg cg1 → generate fuel cg1 name = .ok (F, cg2) → Later cg cg2

/-- The node contains a `CallModuleNode` of `name`. -/
inductive Calls (name : String) : AstNode → Prop where
  | call : Calls name (.CallModuleNode name)
  | sequence (children : List AstNode) (c : AstNode) :
      c ∈ children → Calls name c → Calls name (.SequenceNode children)
  | parallelLeft (l r : AstNode) : Calls name l → Calls name (.ParallelNode l r)
  | parallelRight (l r : AstNode) : Calls name r → Calls name (.ParallelNode l r)
  | choiceLeft (l r : AstNode) : Calls name l → Calls name (.ChoiceNode l r)
  | choiceRight (l r : AstNode) : Calls name r → Calls name (.ChoiceNode l r)
  | prio (priority : Int) (child : AstNode) : Calls name child →
      Calls name (.PrioNode priority child)

/-- The fragment `G` contains the fragment `F` inlined: the places, the transitions and
the arcs of `F` are contiguous blocks of those of `G`, and `G` has an arc from a
transition into the entry of `F` and an arc from the exit of `F` into a transition. -/
def Inlined (F G : PetriModule) : Prop :=
  F.places <:+: G.places ∧ F.transitions <:+: G.transitions ∧ F.arcs <:+: G.arcs ∧
    ∃ callT retT, (⟨.TRANS_TO_PLACE, callT, F.entry.id⟩ : Arc) ∈ G.arcs ∧
      (⟨.PLACE_TO_TRANS, F.exit.id, retT⟩ : Arc) ∈ G.arcs

/-- The registration `sub := Action(a)`. -/
def subOnly : List (String × AstNode) := [("sub", .ActionNode "a")]

/-- The fragment of `sub`, compiled first on the session `subOnly`. -/
def subOnlyFragment : PetriModule :=
  { moduleName := "sub", entry := ⟨"entry0"⟩, exit := ⟨"exit1"⟩,
    places := [⟨"entry0"⟩, ⟨"exit1"⟩],
    transitions := [⟨"T2", 0⟩],
    arcs := [⟨.PLACE_TO_TRANS, "entry0", "T2"⟩, ⟨.TRANS_TO_PLACE, "T2", "exit1"⟩] }

/-- The state in which `generate("sub")` leaves the session `subOnly`. -/
def subOnlyAfter : CodegenVisitor :=
  { modules := [("sub", ⟨some (.ActionNode "a")⟩)],
    generated := [("sub", subOnlyFragment)],
    counter := 3 }

/-- The input places of the transition `t`: the sources of the place-to-transition arcs
into `t`, in arc order. -/
def PetriModule.inputPlaces (m : PetriModule) (t : String) : List String :=
  (m.arcs.filter (fun a => decide (a.type = .PLACE_TO_TRANS ∧ a.dst = t))).map (fun a => a.src)

/-- The output places of the transition `t`: the destinations of the transition-to-place
arcs out of `t`, in arc order. -/
def PetriModule.outputPlaces (m : PetriModule) (t : String) : List String :=
  (m.arcs.filter (fun a => decide (a.type = .TRANS_TO_PLACE ∧ a.src = t))).map (fun a => a.dst)

/-- The fragment of a module `name` with body `Choice(Action(a), Action(b))`, compiled at
counter value `c`. -/
def choiceFragment (name : String) (c : Nat) : PetriModule :=
  { moduleName := name,
    entry := ⟨"entry" ++ toString c⟩, exit := ⟨"exit" ++ toString (c + 1)⟩,
    places := [⟨"entry" ++ toString c⟩, ⟨"exit" ++ toString (c + 1)⟩],
    transitions := [⟨"T" ++ toString (c + 2), 0⟩, ⟨"T" ++ toString (c + 3), 0⟩],
    arcs := [⟨.PLACE_TO_TRANS, "entry" ++ toString c, "T" ++ toString (c + 2)⟩,
      ⟨.TRANS_TO_PLACE, "T" ++ toString (c + 2), "exit" ++ toString (c + 1)⟩,
      ⟨.PLACE_TO_TRANS, "entry" ++ toString c, "T" ++ toString (c + 3)⟩,
      ⟨.TRANS_TO_PLACE, "T" ++ toString (c + 3), "exit" ++ toString (c + 1)⟩] }

/-- The fragment of a module `name` with body `Priority(5, Action(x))`, the parse of
`x^5`, compiled at counter value `c`. -/
def prioFragment (name : String) (c : Nat) : PetriModule :=
  { moduleName := name,
    entry := ⟨"entry" ++ toString c⟩, exit := ⟨"exit" ++ toString (c + 1)⟩,
    places := [⟨"entry" ++ toString c⟩, ⟨"exit" ++ toString (c + 1)⟩,
      ⟨"P" ++ toString (c + 2)⟩],
    transitions := [⟨"T" ++ toString (c + 3), 5⟩, ⟨"T" ++ toString (c + 4), 0⟩],
    arcs := [⟨.PLACE_TO_TRANS, "entry" ++ toString c, "T" ++ toString (c + 3)⟩,
      ⟨.TRANS_TO_PLACE, "T" ++ toString (c + 3), "P" ++ toString (c + 2)⟩,
      ⟨.PLACE_TO_TRANS, "P" ++ toString (c + 2), "T" ++ toString (c + 4)⟩,
      ⟨.TRANS_TO_PLACE, "T" ++ toString (c + 4), "exit" ++ toString (c + 1)⟩] }

/-- The chain the specification describes for `Sequence(c1..cn)`, `n ≥ 1`, between
`current` and `out`, with `ps` the places it makes: the last child is compiled between
`current` and `out`; any earlier child is compiled between `current` and a place `p`
that `fresh` has just made and that is appended to the fragment, and the chain goes on
from `p` with the state and the fragment the child leaves. -/
inductive SeqChain (rec : Compile) (out : String) :
    List AstNode → String → CodegenVisitor → PetriModule → List String →
      CodegenVisitor → PetriModule → Prop where
  | last (c : AstNode) (current : String) (cg : CodegenVisitor) (m : PetriModule)
      (cg1 : CodegenVisitor) (m1 : PetriModule) :
      rec c current out cg m = .ok (cg1, m1) → SeqChain rec out [c] current cg m [] cg1 m1
  | step (c c2 : AstNode) (cs : List AstNode) (current : String) (cg : CodegenVisitor)
      (m : PetriModule) (cg2 : CodegenVisitor) (m2 : PetriModule) (ps : List String)
      (cg1 : CodegenVisitor) (m1 : PetriModule) :
      cg.counter < INT_MAX →
      rec c current ("P" ++ toString cg.counter) (cg.bump 1)
        (m.plus [⟨"P" ++ toString cg.counter⟩] [] []) = .ok (cg2, m2) →
      SeqChain rec out (c2 :: cs) ("P" ++ toString cg.counter) cg2 m2 ps cg1 m1 →
      SeqChain rec out (c :: c2 :: cs) current cg m (("P" ++ toString cg.counter) :: ps) cg1 m1

/-- The fragment of a module `name` whose body is `Sequence(Action(a), Action(b))`, the
parse of `a.b`, compiled first on a fresh session. -/
def seqFragment (name : String) : PetriModule :=
  { moduleName := name, entry := ⟨"entry0"⟩, exit := ⟨"exit1"⟩,
    places := [⟨"entry0"⟩, ⟨"exit1"⟩, ⟨"P2"⟩],
    transitions := [⟨"T3", 0⟩, ⟨"T4", 0⟩],
    arcs := [⟨.PLACE_TO_TRANS, "entry0", "T3"⟩, ⟨.TRANS_TO_PLACE, "T3", "P2"⟩,
      ⟨.PLACE_TO_TRANS, "P2", "T4"⟩, ⟨.TRANS_TO_PLACE, "T4", "exit1"⟩] }

/-- The fragment of a module `name` whose body is `Parallel(Action(a), Action(b))`, the
parse of `a||b`, compiled first on a fresh session: `T6` is the fork, `T7` the join. -/
def parFragment (name : String) : PetriModule :=
  { moduleName := name, entry := ⟨"entry0"⟩, exit := ⟨"exit1"⟩,
    places := [⟨"entry0"⟩, ⟨"exit1"⟩, ⟨"P2"⟩, ⟨"P3"⟩, ⟨"P4"⟩, ⟨"P5"⟩],
    transitions := [⟨"T6", 0⟩, ⟨"T7", 0⟩, ⟨"T8", 0⟩, ⟨"T9", 0⟩],
    arcs := [⟨.PLACE_TO_TRANS, "entry0", "T6"⟩, ⟨.TRANS_TO_PLACE, "T6", "P2"⟩,
      ⟨.TRANS_TO_PLACE, "T6", "P3"⟩,
      ⟨.PLACE_TO_TRANS, "P2", "T8"⟩, ⟨.TRANS_TO_PLACE, "T8", "P4"⟩,
      ⟨.PLACE_TO_TRANS, "P3", "T9"⟩, ⟨.TRANS_TO_PLACE, "T9", "P5"⟩,
      ⟨.PLACE_TO_TRANS, "P4", "T7"⟩, ⟨.PLACE_TO_TRANS, "P5", "T7"⟩,
      ⟨.TRANS_TO_PLACE, "T7", "exit1"⟩] }

/-- The id `x` is a place of the fragment that is being compiled in state `cg`, made for
this fragment itself: `fresh` has made it, and it is no node id of a cached fragment. -/
def OwnPlace (cg : CodegenVisitor) (x : String) : Prop :=
  FreshIn 0 cg.counter x ∧ ¬ MemoId cg x

/-- The registrations `sub := Action(a)`, `main := CallModule(sub)`. -/
def callOnce : List (String × AstNode) :=
  [("sub", .ActionNode "a"), ("main", .CallModuleNode "sub")]

/-- The fragment that `generate("sub")` builds inside `generate("main")` on `callOnce`. -/
def callOnceSub : PetriModule :=
  { moduleName := "sub", entry := ⟨"entry2"⟩, exit := ⟨"exit3"⟩,
    places := [⟨"entry2"⟩, ⟨"exit3"⟩],
    transitions := [⟨"T4", 0⟩],
    arcs := [⟨.PLACE_TO_TRANS, "entry2", "T4"⟩, ⟨.TRANS_TO_PLACE, "T4", "exit3"⟩] }

/-- The fragment that `generate("main")` returns on `callOnce`. -/
def callOnceMain : PetriModule :=
  { moduleName := "main", entry := ⟨"entry0"⟩, exit := ⟨"exit1"⟩,
    places := [⟨"entry0"⟩, ⟨"exit1"⟩, ⟨"entry2"⟩, ⟨"exit3"⟩],
    transitions := [⟨"T4", 0⟩, ⟨"T_call5", 0⟩, ⟨"T_ret6", 0⟩],
    arcs := [⟨.PLACE_TO_TRANS, "entry2", "T4"⟩, ⟨.TRANS_TO_PLACE, "T4", "exit3"⟩,
      ⟨.PLACE_TO_TRANS, "entry0", "T_call5"⟩, ⟨.TRANS_TO_PLACE, "T_call5", "entry2"⟩,
      ⟨.PLACE_TO_TRANS, "exit3", "T_ret6"⟩, ⟨.TRANS_TO_PLACE, "T_ret6", "exit1"⟩] }

/-! ## Specification vocabulary: independence of action names -/

/-- The two ASTs are identical except for the name strings of their action nodes: same
shape, same priority levels, same called module names. -/
inductive SameShape : AstNode → AstNode → Prop where
  | action (n1 n2 : String) : SameShape (.ActionNode n1) (.ActionNode n2)
  | sequence (cs1 cs2 : List AstNode) :
      List.Forall₂ SameShape cs1 cs2 → SameShape (.SequenceNode cs1) (.SequenceNode cs2)
  | parallel (l1 r1 l2 r2 : AstNode) : SameShape l1 l2 → SameShape r1 r2 →
      SameShape (.ParallelNode l1 r1) (.ParallelNode l2 r2)
  | choice (l1 r1 l2 r2 : AstNode) : SameShape l1 l2 → SameShape r1 r2 →
      SameShape (.ChoiceNode l1 r1) (.ChoiceNode l2 r2)
  | prio (level : Int) (c1 c2 : AstNode) : SameShape c1 c2 →
      SameShape (.PrioNode level c1) (.PrioNode level c2)
  | call (name : String) : SameShape (.CallModuleNode name) (.CallModuleNode name)

/-- The registry entries agree except for the names of the actions in the body. -/
def FlowDefSim (d1 d2 : FlowDef) : Prop :=
  (d1.root = none ∧ d2.root = none) ∨
    ∃ a b, d1.root = some a ∧ d2.root = some b ∧ SameShape a b

/-- The states agree except for the names of the actions in the registered bodies: same
counter, same memo, the same names registered, with bodies of the same shape. -/
structure StateSim (s1 s2 : CodegenVisitor) : Prop where
  modules : ∀ n, (mapFind s1.modules n = none ∧ mapFind s2.modules n = none) ∨
    ∃ d1 d2, mapFind s1.modules n = some d1 ∧ mapFind s2.modules n = some d2 ∧
      FlowDefSim d1 d2
  generated : s1.generated = s2.generated
  counter : s1.counter = s2.counter

/-- The results of two runs of `compileExpr` agree: the same fault, or equal fragments and
states that agree except for the names of the actions in the registered bodies. -/
def ResSim (r1 r2 : Except Fault (CodegenVisitor × PetriModule)) : Prop :=
  match r1, r2 with
  | .ok (s1, m1), .ok (s2, m2) => m1 = m2 ∧ StateSim s1 s2
  | .error e1, .error e2 => e1 = e2
  | _, _ => False

/-- The results of two runs of `generate` agree, in the same sense. -/
def GenSim (r1 r2 : Except Fault (PetriModule × CodegenVisitor)) : Prop :=
  match r1, r2 with
  | .ok (m1, s1), .ok (m2, s2) => m1 = m2 ∧ StateSim s1 s2
  | .error e1, .error e2 => e1 = e2
  | _, _ => False

/-! ## Specification vocabulary: the serialized documents -/

/-- The record of a place in the structured form: its id. -/
def placeRecord (p : Place) : Json := .object [("id", .string p.id)]

/-- The record of a transition in the structured form: its id and its priority. -/
def transitionRecord (t : Transition) : Json :=
  .object [("id", .string t.id), ("priority", .number t.priority)]

/-- The type tag of an arc: `P2T` for place-to-transition, `T2P` for transition-to-place. -/
def typeTag (t : ArcType) : String :=
  match t with
  | .PLACE_TO_TRANS => "P2T"
  | .TRANS_TO_PLACE => "T2P"

/-- The record of an arc in the structured form: the derived id `<src>_to_<dst>`, the type
tag and the raw source and destination. -/
def arcRecord (a : Arc) : Json :=
  .object [("id", .string (a.src ++ "_to_" ++ a.dst)), ("type", .string (typeTag a.type)),
    ("src", .string a.src), ("dst", .string a.dst)]

/-- The member that holds a list of records: the array of the records, and no member at
all when the list is empty. -/
def listMember (items : List Json) : Option Json :=
  match items with
  | [] => none
  | _ :: _ => some (.array items)

/-- The XML element of a place: its id, as attribute and as name, and the initial
marking 0. -/
def placeElement (id : String) : String :=
  "    <place id=\"" ++ id ++ "\">\n"
    ++ "      <name><text>" ++ id ++ "</text></name>\n"
    ++ "      <initialMarking><text>0</text></initialMarking>\n"
    ++ "    </place>\n"

/-- The priority extension block of a transition element. -/
def priorityBlock (priority : Int) : String :=
  "      <toolspecific tool=\"FlowNetDSL\">\n"
    ++ "        <priority>" ++ toString priority ++ "</priority>\n"
    ++ "      </toolspecific>\n"

/-- The XML element of a transition: its id, as attribute and as name, and the priority
extension block exactly when the priority is greater than 0. -/
def transitionElement (id : String) (priority : Int) : String :=
  "    <transition id=\"" ++ id ++ "\">\n"
    ++ "      <name><text>" ++ id ++ "</text></name>\n"
    ++ (if priority > 0 then priorityBlock priority else "")
    ++ "    </transition>\n"

/-- The XML element of the `k`-th arc: the id `a` followed by the decimal numeral of `k`,
the source, the target and the type extension block with the type tag. -/
def arcElement (k : Nat) (src dst tag : String) : String :=
  "    <arc id=\"a" ++ toString k ++ "\" source=\"" ++ src ++ "\" target=\"" ++ dst ++ "\">\n"
    ++ "      <toolspecific tool=\"FlowNetDSL\">\n"
    ++ "        <type>" ++ tag ++ "</type>\n"
    ++ "      </toolspecific>\n"
    ++ "    </arc>\n"

/-- The arc elements of a document, in list order, numbered from 0. -/
def arcElements (arcs : List (String × String × String)) : List String :=
  arcs.enum.map (fun ka => arcElement ka.1 ka.2.1 ka.2.2.1 ka.2.2.2)

/-- The XML document of a net: the header with the module name, one place element per
place id, one transition element per transition, one arc element per arc, numbered from 0
in list order, and the footer. -/
def pnmlDocument (name : String) (places : List String) (transitions : List (String × Int))
    (arcs : List (String × String × String)) : String :=
  "<?xml version=\"1.0\" encoding=\"UTF-8\"?>\n" ++ "<pnml>\n"
    ++ "  <net id=\"" ++ name ++ "\" type=\"http://www.pnml.org/version-2009/grammar/pnml\">\n"
    ++ String.join (places.map placeElement)
    ++ String.join (transitions.map (fun t => transitionElement t.1 t.2))
    ++ String.join (arcElements arcs)
    ++ "  </net>\n" ++ "</pnml>\n"

/-- The records of a list member of the structured form; none when the member is absent. -/
def Json.items (j : Option Json) : List Json :=
  match j with
  | some (.array l) => l
  | _ => []

/-- The string held by member `key` of a record. -/
def Json.str (j : Json) (key : String) : String :=
  match j.field key with
  | some (.string s) => s
  | _ => ""

/-- The number held by member `key` of a record. -/
def Json.num (j : Json) (key : String) : Int :=
  match j.field key with
  | some (.number n) => n
  | _ => 0

/-- The place ids the structured form lists, in order. -/
def jsonPlaceIds (j : Json) : List String :=
  (Json.items (j.field "places")).map (fun r => r.str "id")

/-- The transition ids and priorities the structured form lists, in order. -/
def jsonTransitions (j : Json) : List (String × Int) :=
  (Json.items (j.field "transitions")).map (fun r => (r.str "id", r.num "priority"))

/-- The arc sources, destinations and type tags the structured form lists, in order. -/
def jsonArcs (j : Json) : List (String × String × String) :=
  (Json.items (j.field "arcs")).map (fun r => (r.str "src", r.str "dst", r.str "type"))

/-! ## Specification vocabulary: positions in the input text -/

/-- The line of the character that follows `pre` in a text: 1 plus the number of newline
characters in `pre`. -/
def lineOf (pre : List Char) : Nat := 1 + pre.count '\n'

/-- The column of the character that follows `pre` in a text: its 1-based index within
its line, that is 1 plus the number of characters of `pre` after its last newline. -/
def colOf (pre : List Char) : Nat := (pre.reverse.takeWhile (fun c => c != '\n')).length + 1

/-- The character `c`, followed by `rest`, starts no token: it is neither a letter nor one
of `. [ ] ( ) ^ |`, or it is a `|` that is not followed at once by another `|`. -/
def Offending (c : Char) (rest : List Char) : Prop :=
  (isalpha c = false ∧ c ∉ ['.', '[', ']', '(', ')', '^', '|']) ∨
    (c = '|' ∧ rest.head? ≠ some '|')

/-- The tokenizer state in which the text `pre` has been consumed and `chars` is left,
its head being the current character. -/
def Tokenizer.At (pre chars : List Char) : Tokenizer :=
  Tokenizer.read chars (lineOf pre) (colOf pre - 1)

/-- The tokenizer states in which `next_token` can be requested on the text `input`: the
initial one, and the one any returning `next_token` leaves. -/
inductive TokReach (input : List Char) : Tokenizer → Prop where
  | init : TokReach input (Tokenizer.init input)
  | step (tz : Tokenizer) (t : Token) (tz1 : Tokenizer) :
      TokReach input tz → tz.next_token = .ok (t, tz1) → TokReach input tz1

/-! ## Specification vocabulary: modules without a call cycle -/

/-- Compiling the node with the registry `mods` follows no call cycle: every module it
calls that has a registered body has a body of which the same holds. -/
inductive Halts (mods : List (String × FlowDef)) : AstNode → Prop where
  | action (name : String) : Halts mods (.ActionNode name)
  | sequence (children : List AstNode) :
      (∀ c ∈ children, Halts mods c) → Halts mods (.SequenceNode children)
  | parallel (l r : AstNode) : Halts mods l → Halts mods r → Halts mods (.ParallelNode l r)
  | choice (l r : AstNode) : Halts mods l → Halts mods r → Halts mods (.ChoiceNode l r)
  | prio (priority : Int) (child : AstNode) : Halts mods child →
      Halts mods (.PrioNode priority child)
  | call (name : String) :
      (∀ body, mapFind mods name = some ⟨some body⟩ → Halts mods body) →
      Halts mods (.CallModuleNode name)

/-- Compiling does not change the registered bodies. -/
def GenBodies (rec : Compile) : Prop :=
  ∀ (node : AstNode) (inp out : String) (cg : CodegenVisitor) (m : PetriModule)
    (cg1 : CodegenVisitor) (m1 : PetriModule),
    rec node inp out cg m = .ok (cg1, m1) → ModStable cg cg1

/-- The recursion bound `fuel0` is enough for `node`: at this bound or a larger one, in
every state with the registered bodies of `cg0`, `compileExpr` does not stop at the bound
(it returns, or stops at the overflow of the counter). -/
def Enough (cg0 : CodegenVisitor) (node : AstNode) (fuel0 : Nat) : Prop :=
  ∀ fuel, fuel0 ≤ fuel → ∀ (inp out : String) (cg : CodegenVisitor) (m : PetriModule),
    ModStable cg0 cg → compileExpr fuel node inp out cg m ≠ .error .outOfFuel

/-- Some recursion bound is enough for this compilation: from that bound on,
`compileExpr` does not stop at the bound, so it returns or stops at the overflow of the
counter. -/
def BoundSuffices (node : AstNode) (inp out : String) (cg : CodegenVisitor)
    (m : PetriModule) : Prop :=
  ∃ fuel0, ∀ fuel1, fuel0 ≤ fuel1 → compileExpr fuel1 node inp out cg m ≠ .error .outOfFuel

/-! ## Specification vocabulary: where a memo entry comes from -/

/-- The fragment `G` is what a `generate(name)` call that found no memo entry has
compiled, in a state in which the body registered for `name`, if there was one, contained
no `CallModuleNode`. -/
def CompiledCallFree (name : String) (G : PetriModule) : Prop :=
  ∃ (fuel : Nat) (cg0 cg1 : CodegenVisitor),
    mapFind cg0.generated name = none ∧
    (∀ body, mapFind cg0.modules name = some ⟨some body⟩ → CallFree body) ∧
    generate fuel cg0 name = .ok (G, cg1)

/-- Every memo entry of `cg` is what a `generate` call that found no memo entry has
compiled, in a state whose registered body of that module, if any, is still the one
registered in `cg`. -/
def Provenance (cg : CodegenVisitor) : Prop :=
  ∀ n G, mapFind cg.generated n = some G →
    ∃ (fuel : Nat) (cg0 cg1 : CodegenVisitor), mapFind cg0.generated n = none ∧
      generate fuel cg0 n = .ok (G, cg1) ∧
      ∀ b, mapFind cg0.modules n = some ⟨some b⟩ → mapFind cg.modules n = some ⟨some b⟩

/-- The session `callTwice` after `generate("main")`, with `main` registered again and a
third module `aux := Action(c)` registered after that. -/
def callTwiceAux : CodegenVisitor :=
  register_module callTwiceStale "aux" (ActionNode "c")

/-- The fragment that `generate("aux")` returns in the state `callTwiceAux`. -/
def auxFragment : PetriModule :=
  { moduleName := "aux", entry := ⟨"entry10"⟩, exit := ⟨"exit11"⟩,
    places := [⟨"entry10"⟩, ⟨"exit11"⟩],
    transitions := [⟨"T12", 0⟩],
    arcs := [⟨PLACE_TO_TRANS, "entry10", "T12"⟩, ⟨TRANS_TO_PLACE, "T12", "exit11"⟩] }

/-- The state in which `generate("aux")` leaves `callTwiceAux`. -/
def callTwiceAuxAfter : CodegenVisitor :=
  { callTwiceAux with
    generated := mapAssign callTwiceAux.generated "aux" auxFragment, counter := 13 }

/-- The state inside `generate("main")` on `callTwice` in which `sub` is compiled. -/
def callTwiceInner : CodegenVisitor :=
  { session callTwice with counter := 3 }

/-! # Lemmas and theorems -/

open ArcType AstNode TokenType

theorem fresh_ok {cg cg1 : CodegenVisitor} {base id : String}
    (h : fresh cg base = .ok (id, cg1)) :
    id = base ++ toString cg.counter ∧ cg1 = { cg with counter := cg.counter + 1 } ∧
      cg.counter < INT_MAX := by
  unfold fresh at h
  split at h
  · simp only [Except.ok.injEq, Prod.mk.injEq] at h
    exact ⟨h.1.symm, h.2.symm, by assumption⟩
  · cases h

theorem mapFind_mapAssign_same {V : Type} (m : List (String × V)) (k : String) (v : V) :
    mapFind (mapAssign m k v) k = some v := by
  simp [mapAssign, mapFind]

theorem mapFind_filter_ne {V : Type} (m : List (String × V)) (k k1 : String) (h : k ≠ k1) :
    mapFind (m.filter (fun p => !decide (p.1 = k))) k1 = mapFind m k1 := by
  induction m with
  | nil => rfl
  | cons p rest ih =>
    obtain ⟨a, b⟩ := p
    by_cases hk : a = k
    · subst hk
      simp [List.filter, mapFind, h, ih]
    · simp [List.filter, mapFind, hk, ih]

theorem mapFind_mapAssign_ne {V : Type} (m : List (String × V)) (k k1 : String) (v : V)
    (h : k ≠ k1) : mapFind (mapAssign m k v) k1 = mapFind m k1 := by
  simp [mapAssign, mapFind, h, mapFind_filter_ne]

theorem Arc.alternates_mono {P T P1 T1 : List String} {a : Arc} (hP : P ⊆ P1) (hT : T ⊆ T1)
    (h : a.alternates P T) : a.alternates P1 T1 := by
  unfold Arc.alternates at *
  split <;> simp_all <;> exact ⟨by tauto, by tauto⟩
theorem Grows.refl (m : PetriModule) : Grows m m :=
  ⟨rfl, rfl, rfl, List.prefix_refl _, List.prefix_refl _, List.prefix_refl _⟩

theorem Grows.trans {a b c : PetriModule} (h1 : Grows a b) (h2 : Grows b c) : Grows a c :=
  ⟨h2.moduleName.trans h1.moduleName, h2.entry.trans h1.entry, h2.exit.trans h1.exit,
    h1.places.trans h2.places, h1.transitions.trans h2.transitions, h1.arcs.trans h2.arcs⟩

theorem Grows.placeIds_subset {m m1 : PetriModule} (h : Grows m m1) :
    placeIds m ⊆ placeIds m1 := by
  obtain ⟨ps, hps⟩ := h.places
  intro x hx
  simp only [placeIds, ← hps, List.map_append, List.mem_append]
  exact Or.inl hx

theorem Grows.transIds_subset {m m1 : PetriModule} (h : Grows m m1) :
    transIds m ⊆ transIds m1 := by
  obtain ⟨ts, hts⟩ := h.transitions
  intro x hx
  simp only [transIds, ← hts, List.map_append, List.mem_append]
  exact Or.inl hx

theorem Grows.append (m : PetriModule) (ps : List Place) (ts : List Transition)
    (as : List Arc) :
    Grows m { m with places := m.places ++ ps, transitions := m.transitions ++ ts,
                     arcs := m.arcs ++ as } :=
  ⟨rfl, rfl, rfl, List.prefix_append _ _, List.prefix_append _ _, List.prefix_append _ _⟩

theorem Alternation.extend {m m1 : PetriModule} (h : Alternation m)
    (hg : Grows m m1) (as : List Arc) (harcs : m1.arcs = m.arcs ++ as)
    (hnew : ∀ a ∈ as, a.alternates (placeIds m1) (transIds m1)) : Alternation m1 := by
  intro a ha
  rw [harcs, List.mem_append] at ha
  rcases ha with ha | ha
  · exact Arc.alternates_mono hg.placeIds_subset hg.transIds_subset (h a ha)
  · exact hnew a ha

theorem MemoAlt.of_generated_eq {cg cg1 : CodegenVisitor} (h : MemoAlt cg)
    (hg : cg1.generated = cg.generated) : MemoAlt cg1 := by
  intro name F hF
  rw [hg] at hF
  exact h name F hF

theorem MemoAlt.fresh {cg cg1 : CodegenVisitor} {base id : String} (h : MemoAlt cg)
    (hf : fresh cg base = .ok (id, cg1)) : MemoAlt cg1 :=
  h.of_generated_eq (by rw [(fresh_ok hf).2.1])

theorem MemoAlt.assign {cg : CodegenVisitor} {name : String} {F : PetriModule}
    (h : MemoAlt cg) (hF : Alternation F ∧ F.entry.id ∈ placeIds F ∧ F.exit.id ∈ placeIds F) :
    MemoAlt { cg with generated := mapAssign cg.generated name F } := by
  intro n G hG
  by_cases hn : name = n
  · subst hn
    rw [mapFind_mapAssign_same] at hG
    cases hG
    exact hF
  · rw [mapFind_mapAssign_ne _ _ _ _ hn] at hG
    exact h n G hG

theorem seqLoop_alt {rec : Compile} (hrec : CompileAlt rec) (out : String) :
    ∀ (cs : List AstNode) (current : String) (cg : CodegenVisitor) (m : PetriModule)
      (cg1 : CodegenVisitor) (m1 : PetriModule),
      seqLoop rec out cs current cg m = .ok (cg1, m1) →
      MemoAlt cg → Alternation m → current ∈ placeIds m → out ∈ placeIds m →
      MemoAlt cg1 ∧ Alternation m1 ∧ Grows m m1 := by
  intro cs
  induction cs with
  | nil =>
    intro current cg m cg1 m1 h hmemo halt _ _
    simp only [seqLoop, Except.ok.injEq, Prod.mk.injEq] at h
    obtain ⟨rfl, rfl⟩ := h
    exact ⟨hmemo, halt, Grows.refl _⟩
  | cons c cs ih =>
    intro current cg m cg1 m1 h hmemo halt hcur hout
    cases cs with
    | nil =>
      simp only [seqLoop] at h
      exact hrec c current out cg m cg1 m1 h hmemo halt hcur hout
    | cons c2 cs2 =>
      simp only [seqLoop] at h
      cases hf : fresh cg "P" with
      | error e => simp [hf] at h
      | ok r =>
        obtain ⟨next, cg2⟩ := r
        simp only [hf] at h
        cases hr : rec c current next cg2 { m with places := m.places ++ [⟨next⟩] } with
        | error e => simp [hr] at h
        | ok r2 =>
          obtain ⟨cg3, m3⟩ := r2
          simp only [hr] at h
          have hg2 : Grows m { m with places := m.places ++ [⟨next⟩] } := by
            simpa using Grows.append m [⟨next⟩] [] []
          have halt2 : Alternation { m with places := m.places ++ [⟨next⟩] } :=
            halt.extend hg2 [] (by simp) (by simp)
          have hnext : next ∈ placeIds { m with places := m.places ++ [⟨next⟩] } := by
            simp [placeIds]
          obtain ⟨hm3, ha3, hg3⟩ :=
            hrec c current next cg2 _ cg3 m3 hr (hmemo.fresh hf) halt2
              (hg2.placeIds_subset hcur) hnext
          obtain ⟨hm4, ha4, hg4⟩ :=
            ih next cg3 m3 cg1 m1 h hm3 ha3 (hg3.placeIds_subset hnext)
              (hg3.placeIds_subset (hg2.placeIds_subset hout))
          exact ⟨hm4, ha4, (hg2.trans hg3).trans hg4⟩

theorem generateWith_alt {rec : Compile} (hrec : CompileAlt rec) {cg cg1 : CodegenVisitor}
    {name : String} {F : PetriModule} (h : generateWith rec cg name = .ok (F, cg1))
    (hmemo : MemoAlt cg) :
    MemoAlt cg1 ∧ Alternation F ∧ F.entry.id ∈ placeIds F ∧ F.exit.id ∈ placeIds F := by
  unfold generateWith at h
  cases hg : mapFind cg.generated name with
  | some G =>
    simp only [hg, Except.ok.injEq, Prod.mk.injEq] at h
    obtain ⟨rfl, rfl⟩ := h
    exact ⟨hmemo, hmemo name G hg⟩
  | none =>
    simp only [hg] at h
    cases hf : fresh cg "entry" with
    | error e => simp [hf] at h
    | ok r =>
      obtain ⟨entryId, cg2⟩ := r
      simp only [hf] at h
      cases hf2 : fresh cg2 "exit" with
      | error e => simp [hf2] at h
      | ok r2 =>
        obtain ⟨exitId, cg3⟩ := r2
        simp only [hf2] at h
        have hm3 : MemoAlt cg3 := (hmemo.fresh hf).fresh hf2
        have hbase : Alternation
            { moduleName := name, entry := ⟨entryId⟩, exit := ⟨exitId⟩,
              places := [⟨entryId⟩, ⟨exitId⟩], transitions := [], arcs := [] } := by
          intro a ha
          simp at ha
        split at h
        · simp only [Except.ok.injEq, Prod.mk.injEq] at h
          obtain ⟨rfl, rfl⟩ := h
          have hF := And.intro hbase (show entryId ∈ [entryId, exitId] ∧
            exitId ∈ [entryId, exitId] by simp)
          exact ⟨MemoAlt.assign (hm3.of_generated_eq rfl) hF, hF⟩
        · simp only [Except.ok.injEq, Prod.mk.injEq] at h
          obtain ⟨rfl, rfl⟩ := h
          have hF := And.intro hbase (show entryId ∈ [entryId, exitId] ∧
            exitId ∈ [entryId, exitId] by simp)
          exact ⟨MemoAlt.assign hm3 hF, hF⟩
        · rename_i root _
          cases hr : rec root entryId exitId cg3
              { moduleName := name, entry := ⟨entryId⟩, exit := ⟨exitId⟩,
                places := [⟨entryId⟩, ⟨exitId⟩], transitions := [], arcs := [] } with
          | error e => simp [hr] at h
          | ok r3 =>
            obtain ⟨cg4, m4⟩ := r3
            simp only [hr, Except.ok.injEq, Prod.mk.injEq] at h
            obtain ⟨rfl, rfl⟩ := h
            obtain ⟨hm4, ha4, hg4⟩ := hrec root entryId exitId cg3 _ cg4 m4 hr hm3 hbase
              (by simp [placeIds]) (by simp [placeIds])
            have hF : Alternation m4 ∧ m4.entry.id ∈ placeIds m4 ∧
                m4.exit.id ∈ placeIds m4 := by
              refine ⟨ha4, ?_, ?_⟩
              · rw [hg4.entry]; exact hg4.placeIds_subset (by simp [placeIds])
              · rw [hg4.exit]; exact hg4.placeIds_subset (by simp [placeIds])
            exact ⟨MemoAlt.assign hm4 hF, hF⟩

theorem compileExpr_alt : ∀ fuel : Nat, CompileAlt (compileExpr fuel) := by
  intro fuel
  induction fuel with
  | zero =>
    intro node inp out cg m cg1 m1 h
    simp [compileExpr] at h
  | succ fuel ih =>
    intro node inp out cg m cg1 m1 h hmemo halt hin hout
    cases node with
    | ActionNode name =>
      simp only [compileExpr] at h
      cases hf : fresh cg "T" with
      | error e => simp [hf] at h
      | ok r =>
        obtain ⟨tid, cg2⟩ := r
        simp only [hf, Except.ok.injEq, Prod.mk.injEq] at h
        obtain ⟨rfl, rfl⟩ := h
        have hg := Grows.append m [] [⟨tid, 0⟩]
          [⟨PLACE_TO_TRANS, inp, tid⟩, ⟨TRANS_TO_PLACE, tid, out⟩]
        simp only [List.append_nil] at hg
        refine ⟨hmemo.fresh hf, halt.extend hg _ rfl ?_, hg⟩
        intro a ha
        have hi := hg.placeIds_subset hin
        have ho := hg.placeIds_subset hout
        simp only [List.mem_cons, List.mem_singleton, List.not_mem_nil, or_false] at ha
        rcases ha with rfl | rfl
        · exact ⟨hi, by simp [transIds]⟩
        · exact ⟨by simp [transIds], ho⟩
    | SequenceNode children =>
      simp only [compileExpr] at h
      exact seqLoop_alt ih out children inp cg m cg1 m1 h hmemo halt hin hout
    | ParallelNode left right =>
      simp only [compileExpr] at h
      cases hf1 : fresh cg "P" with
      | error e => simp [hf1] at h
      | ok r1 =>
      obtain ⟨leftIn, cg2⟩ := r1
      simp only [hf1] at h
      cases hf2 : fresh cg2 "P" with
      | error e => simp [hf2] at h
      | ok r2 =>
      obtain ⟨rightIn, cg3⟩ := r2
      simp only [hf2] at h
      cases hf3 : fresh cg3 "P" with
      | error e => simp [hf3] at h
      | ok r3 =>
      obtain ⟨leftOut, cg4⟩ := r3
      simp only [hf3] at h
      cases hf4 : fresh cg4 "P" with
      | error e => simp [hf4] at h
      | ok r4 =>
      obtain ⟨rightOut, cg5⟩ := r4
      simp only [hf4] at h
      cases hf5 : fresh cg5 "T" with
      | error e => simp [hf5] at h
      | ok r5 =>
      obtain ⟨fork, cg6⟩ := r5
      simp only [hf5] at h
      cases hf6 : fresh cg6 "T" with
      | error e => simp [hf6] at h
      | ok r6 =>
      obtain ⟨join, cg7⟩ := r6
      simp only [hf6] at h
      have hg1 := Grows.append m [⟨leftIn⟩, ⟨rightIn⟩, ⟨leftOut⟩, ⟨rightOut⟩]
        [⟨fork, 0⟩, ⟨join, 0⟩]
        [⟨PLACE_TO_TRANS, inp, fork⟩, ⟨TRANS_TO_PLACE, fork, leftIn⟩,
          ⟨TRANS_TO_PLACE, fork, rightIn⟩]
      have ha1 := halt.extend hg1 _ rfl (by
        intro a ha
        have hi := hg1.placeIds_subset hin
        simp only [List.mem_cons, List.mem_singleton, List.not_mem_nil, or_false] at ha
        rcases ha with rfl | rfl | rfl
        · exact ⟨hi, by simp [transIds]⟩
        · exact ⟨by simp [transIds], by simp [placeIds]⟩
        · exact ⟨by simp [transIds], by simp [placeIds]⟩)
      have hm7 : MemoAlt cg7 :=
        (((((hmemo.fresh hf1).fresh hf2).fresh hf3).fresh hf4).fresh hf5).fresh hf6
      cases hl : compileExpr fuel left leftIn leftOut cg7
          { m with
            places := m.places ++ [⟨leftIn⟩, ⟨rightIn⟩, ⟨leftOut⟩, ⟨rightOut⟩],
            transitions := m.transitions ++ [⟨fork, 0⟩, ⟨join, 0⟩],
            arcs := m.arcs ++ [⟨PLACE_TO_TRANS, inp, fork⟩, ⟨TRANS_TO_PLACE, fork, leftIn⟩,
              ⟨TRANS_TO_PLACE, fork, rightIn⟩] } with
      | error e => simp [hl] at h
      | ok rl =>
      obtain ⟨cg8, m8⟩ := rl
      simp only [hl] at h
      obtain ⟨hm8, ha8, hg8⟩ := ih left leftIn leftOut cg7 _ cg8 m8 hl hm7 ha1
        (by simp [placeIds]) (by simp [placeIds])
      have hg18 := hg1.trans hg8
      cases hr : compileExpr fuel right rightIn rightOut cg8 m8 with
      | error e => simp [hr] at h
      | ok rr =>
      obtain ⟨cg9, m9⟩ := rr
      simp only [hr, Except.ok.injEq, Prod.mk.injEq] at h
      obtain ⟨rfl, rfl⟩ := h
      obtain ⟨hm9, ha9, hg9⟩ := ih right rightIn rightOut cg8 m8 cg9 m9 hr hm8 ha8
        (hg8.placeIds_subset (by simp [placeIds])) (hg8.placeIds_subset (by simp [placeIds]))
      have hg19 := hg18.trans hg9
      have hgl := Grows.append m9 [] []
        [⟨PLACE_TO_TRANS, leftOut, join⟩, ⟨PLACE_TO_TRANS, rightOut, join⟩,
          ⟨TRANS_TO_PLACE, join, out⟩]
      simp only [List.append_nil] at hgl
      refine ⟨hm9, ha9.extend hgl _ rfl ?_, hg19.trans hgl⟩
      intro a ha
      have hP := (hg19.trans hgl).placeIds_subset
      have hT := ((hg8.trans hg9).trans hgl).transIds_subset
      simp only [List.mem_cons, List.mem_singleton, List.not_mem_nil, or_false] at ha
      rcases ha with rfl | rfl | rfl
      · exact ⟨(hg8.trans (hg9.trans hgl)).placeIds_subset (by simp [placeIds]),
          hT (by simp [transIds])⟩
      · exact ⟨(hg8.trans (hg9.trans hgl)).placeIds_subset (by simp [placeIds]),
          hT (by simp [transIds])⟩
      · exact ⟨hT (by simp [transIds]), hP hout⟩
    | ChoiceNode left right =>
      simp only [compileExpr] at h
      cases h1 : compileExpr fuel left inp out cg m with
      | error e => simp [h1] at h
      | ok r =>
        obtain ⟨cg2, m2⟩ := r
        simp only [h1] at h
        obtain ⟨hm2, ha2, hg2⟩ := ih left inp out cg m cg2 m2 h1 hmemo halt hin hout
        obtain ⟨hm3, ha3, hg3⟩ := ih right inp out cg2 m2 cg1 m1 h hm2 ha2
          (hg2.placeIds_subset hin) (hg2.placeIds_subset hout)
        exact ⟨hm3, ha3, hg2.trans hg3⟩
    | PrioNode priority child =>
      simp only [compileExpr] at h
      cases hf1 : fresh cg "P" with
      | error e => simp [hf1] at h
      | ok r1 =>
      obtain ⟨mid, cg2⟩ := r1
      simp only [hf1] at h
      cases hf2 : fresh cg2 "T" with
      | error e => simp [hf2] at h
      | ok r2 =>
      obtain ⟨tid, cg3⟩ := r2
      simp only [hf2] at h
      have hg1 := Grows.append m [⟨mid⟩] [⟨tid, priority⟩]
        [⟨PLACE_TO_TRANS, inp, tid⟩, ⟨TRANS_TO_PLACE, tid, mid⟩]
      have ha1 := halt.extend hg1 _ rfl (by
        intro a ha
        have hi := hg1.placeIds_subset hin
        simp only [List.mem_cons, List.mem_singleton, List.not_mem_nil, or_false] at ha
        rcases ha with rfl | rfl
        · exact ⟨hi, by simp [transIds]⟩
        · exact ⟨by simp [transIds], by simp [placeIds]⟩)
      obtain ⟨hm4, ha4, hg4⟩ := ih child mid out cg3 _ cg1 m1 h
        ((hmemo.fresh hf1).fresh hf2) ha1 (by simp [placeIds]) (hg1.placeIds_subset hout)
      exact ⟨hm4, ha4, hg1.trans hg4⟩
    | CallModuleNode moduleName =>
      simp only [compileExpr] at h
      cases hgen : generateWith (compileExpr fuel) cg moduleName with
      | error e => simp [hgen] at h
      | ok r0 =>
      obtain ⟨sub, cg2⟩ := r0
      simp only [hgen] at h
      obtain ⟨hm2, hsub, hsubE, hsubX⟩ := generateWith_alt ih hgen hmemo
      cases hf1 : fresh cg2 "T_call" with
      | error e => simp [hf1] at h
      | ok r1 =>
      obtain ⟨callT, cg3⟩ := r1
      simp only [hf1] at h
      cases hf2 : fresh cg3 "T_ret" with
      | error e => simp [hf2] at h
      | ok r2 =>
      obtain ⟨retT, cg4⟩ := r2
      simp only [hf2, Except.ok.injEq, Prod.mk.injEq] at h
      obtain ⟨rfl, rfl⟩ := h
      have hg := Grows.append m sub.places (sub.transitions ++ [⟨callT, 0⟩, ⟨retT, 0⟩])
        (sub.arcs ++ [⟨PLACE_TO_TRANS, inp, callT⟩, ⟨TRANS_TO_PLACE, callT, sub.entry.id⟩,
          ⟨PLACE_TO_TRANS, sub.exit.id, retT⟩, ⟨TRANS_TO_PLACE, retT, out⟩])
      simp only [← List.append_assoc] at hg
      refine ⟨(hm2.fresh hf1).fresh hf2, halt.extend hg
        (sub.arcs ++ [⟨PLACE_TO_TRANS, inp, callT⟩, ⟨TRANS_TO_PLACE, callT, sub.entry.id⟩,
          ⟨PLACE_TO_TRANS, sub.exit.id, retT⟩, ⟨TRANS_TO_PLACE, retT, out⟩])
        (by simp) ?_, hg⟩
      intro a ha
      have hP := hg.placeIds_subset
      have hsP : placeIds sub ⊆ placeIds
          { m with places := m.places ++ sub.places,
                   transitions := m.transitions ++ sub.transitions ++ [⟨callT, 0⟩, ⟨retT, 0⟩],
                   arcs := m.arcs ++ sub.arcs ++ [⟨PLACE_TO_TRANS, inp, callT⟩,
                     ⟨TRANS_TO_PLACE, callT, sub.entry.id⟩,
                     ⟨PLACE_TO_TRANS, sub.exit.id, retT⟩, ⟨TRANS_TO_PLACE, retT, out⟩] } := by
        intro x hx
        simp only [placeIds, List.map_append, List.mem_append] at hx ⊢
        exact Or.inr hx
      have hsT : transIds sub ⊆ transIds
          { m with places := m.places ++ sub.places,
                   transitions := m.transitions ++ sub.transitions ++ [⟨callT, 0⟩, ⟨retT, 0⟩],
                   arcs := m.arcs ++ sub.arcs ++ [⟨PLACE_TO_TRANS, inp, callT⟩,
                     ⟨TRANS_TO_PLACE, callT, sub.entry.id⟩,
                     ⟨PLACE_TO_TRANS, sub.exit.id, retT⟩, ⟨TRANS_TO_PLACE, retT, out⟩] } := by
        intro x hx
        simp only [transIds, List.map_append, List.mem_append] at hx ⊢
        exact Or.inl (Or.inr hx)
      simp only [List.mem_append, List.mem_cons, List.mem_singleton, List.not_mem_nil,
        or_false] at ha
      rcases ha with ha | rfl | rfl | rfl | rfl
      · exact Arc.alternates_mono hsP hsT (hsub a ha)
      · exact ⟨hP hin, by simp [transIds]⟩
      · exact ⟨by simp [transIds], hsP hsubE⟩
      · exact ⟨hsP hsubX, by simp [transIds]⟩
      · exact ⟨by simp [transIds], hP hout⟩

theorem session_generated_aux (regs : List (String × AstNode)) :
    ∀ cg : CodegenVisitor,
      (regs.foldl (fun cg r => register_module cg r.1 r.2) cg).generated = cg.generated := by
  induction regs with
  | nil => intro cg; rfl
  | cons r rs ih => intro cg; rw [List.foldl_cons, ih]; rfl

theorem session_generated (regs : List (String × AstNode)) : (session regs).generated = [] := by
  unfold session
  rw [session_generated_aux]
  rfl

/-- C1: on every session built by `register_module` calls on a fresh visitor, a fragment
returned by `generate` satisfies the alternation invariant: each PLACE_TO_TRANS arc goes
from a place id of the fragment to a transition id of the fragment, and each
TRANS_TO_PLACE arc from a transition id to a place id. -/
theorem generate_alternation (regs : List (String × AstNode)) (name : String) (fuel : Nat)
    (F : PetriModule) (cg1 : CodegenVisitor)
    (h : generate fuel (session regs) name = .ok (F, cg1)) :
    ∀ a ∈ F.arcs,
      (a.type = .PLACE_TO_TRANS → a.src ∈ placeIds F ∧ a.dst ∈ transIds F) ∧
      (a.type = .TRANS_TO_PLACE → a.src ∈ transIds F ∧ a.dst ∈ placeIds F) := by
  have hmemo : MemoAlt (session regs) := by
    intro n G hG
    rw [session_generated] at hG
    cases hG
  have hF := (generateWith_alt (compileExpr_alt fuel) h hmemo).2.1
  intro a ha
  have := hF a ha
  unfold Arc.alternates at this
  constructor
  · intro ht; rw [ht] at this; exact this
  · intro ht; rw [ht] at this; exact this

theorem generate_alternation_witness :
    generate 3 (session callTwice) "main" = .ok (callTwiceMain, callTwiceAfter) ∧
    ∀ a ∈ callTwiceMain.arcs,
      (a.type = .PLACE_TO_TRANS →
        a.src ∈ placeIds callTwiceMain ∧ a.dst ∈ transIds callTwiceMain) ∧
      (a.type = .TRANS_TO_PLACE →
        a.src ∈ transIds callTwiceMain ∧ a.dst ∈ placeIds callTwiceMain) :=
  ⟨rfl, generate_alternation callTwice "main" 3 callTwiceMain callTwiceAfter rfl⟩

theorem seqLoop_le {r1 r2 : Compile} (hle : CompileLe r1 r2) (out : String) :
    ∀ (cs : List AstNode) (current : String) (cg : CodegenVisitor) (m : PetriModule)
      (res : CodegenVisitor × PetriModule),
      seqLoop r1 out cs current cg m = .ok res → seqLoop r2 out cs current cg m = .ok res := by
  intro cs
  induction cs with
  | nil => intro current cg m res h; simpa [seqLoop] using h
  | cons c cs ih =>
    intro current cg m res h
    cases cs with
    | nil =>
      simp only [seqLoop] at h ⊢
      exact hle _ _ _ _ _ _ h
    | cons c2 cs2 =>
      simp only [seqLoop] at h ⊢
      cases hf : fresh cg "P" with
      | error e => simp [hf] at h
      | ok r =>
        obtain ⟨next, cg2⟩ := r
        simp only [hf] at h ⊢
        cases hr : r1 c current next cg2 { m with places := m.places ++ [⟨next⟩] } with
        | error e => simp [hr] at h
        | ok r2' =>
          obtain ⟨cg3, m3⟩ := r2'
          simp only [hr] at h
          rw [hle _ _ _ _ _ _ hr]
          exact ih next cg3 m3 res h

theorem generateWith_le {r1 r2 : Compile} (hle : CompileLe r1 r2) (cg : CodegenVisitor)
    (name : String) (res : PetriModule × CodegenVisitor)
    (h : generateWith r1 cg name = .ok res) : generateWith r2 cg name = .ok res := by
  unfold generateWith at h ⊢
  cases hg : mapFind cg.generated name with
  | some G => simpa [hg] using h
  | none =>
    simp only [hg] at h ⊢
    cases hf : fresh cg "entry" with
    | error e => simp [hf] at h
    | ok r =>
      obtain ⟨entryId, cg2⟩ := r
      simp only [hf] at h ⊢
      cases hf2 : fresh cg2 "exit" with
      | error e => simp [hf2] at h
      | ok r2' =>
        obtain ⟨exitId, cg3⟩ := r2'
        simp only [hf2] at h ⊢
        split
        · rename_i hm; simpa [hm] using h
        · rename_i hm; simpa [hm] using h
        · rename_i root hm
          simp only [hm] at h
          cases hr : r1 root entryId exitId cg3
              { moduleName := name, entry := ⟨entryId⟩, exit := ⟨exitId⟩,
                places := [⟨entryId⟩, ⟨exitId⟩], transitions := [], arcs := [] } with
          | error e => simp [hr] at h
          | ok r3 =>
            rw [hle _ _ _ _ _ _ hr]
            simpa [hr] using h

theorem compileExpr_le_succ : ∀ fuel : Nat, CompileLe (compileExpr fuel) (compileExpr (fuel + 1)) := by
  intro fuel
  induction fuel with
  | zero => intro node inp out cg m res h; simp [compileExpr] at h
  | succ fuel ih =>
    intro node inp out cg m res h
    cases node with
    | ActionNode name => simpa [compileExpr] using h
    | SequenceNode children =>
      simp only [compileExpr] at h ⊢
      exact seqLoop_le ih out children inp cg m res h
    | ParallelNode left right =>
      rw [compileExpr] at h ⊢
      simp only at h ⊢
      cases hf1 : fresh cg "P" with
      | error e => simp [hf1] at h
      | ok r1 =>
      obtain ⟨leftIn, cg2⟩ := r1
      simp only [hf1] at h ⊢
      cases hf2 : fresh cg2 "P" with
      | error e => simp [hf2] at h
      | ok r2 =>
      obtain ⟨rightIn, cg3⟩ := r2
      simp only [hf2] at h ⊢
      cases hf3 : fresh cg3 "P" with
      | error e => simp [hf3] at h
      | ok r3 =>
      obtain ⟨leftOut, cg4⟩ := r3
      simp only [hf3] at h ⊢
      cases hf4 : fresh cg4 "P" with
      | error e => simp [hf4] at h
      | ok r4 =>
      obtain ⟨rightOut, cg5⟩ := r4
      simp only [hf4] at h ⊢
      cases hf5 : fresh cg5 "T" with
      | error e => simp [hf5] at h
      | ok r5 =>
      obtain ⟨fork, cg6⟩ := r5
      simp only [hf5] at h ⊢
      cases hf6 : fresh cg6 "T" with
      | error e => simp [hf6] at h
      | ok r6 =>
      obtain ⟨join, cg7⟩ := r6
      simp only [hf6] at h ⊢
      cases hl : compileExpr fuel left leftIn leftOut cg7
          { m with
            places := m.places ++ [⟨leftIn⟩, ⟨rightIn⟩, ⟨leftOut⟩, ⟨rightOut⟩],
            transitions := m.transitions ++ [⟨fork, 0⟩, ⟨join, 0⟩],
            arcs := m.arcs ++ [⟨.PLACE_TO_TRANS, inp, fork⟩, ⟨.TRANS_TO_PLACE, fork, leftIn⟩,
              ⟨.TRANS_TO_PLACE, fork, rightIn⟩] } with
      | error e => simp [hl] at h
      | ok rl =>
      obtain ⟨cg8, m8⟩ := rl
      simp only [hl] at h
      rw [ih _ _ _ _ _ _ hl]
      simp only
      cases hr : compileExpr fuel right rightIn rightOut cg8 m8 with
      | error e => simp [hr] at h
      | ok rr =>
      rw [ih _ _ _ _ _ _ hr]
      simpa [hr] using h
    | ChoiceNode left right =>
      rw [compileExpr] at h ⊢
      cases h1 : compileExpr fuel left inp out cg m with
      | error e => simp [h1] at h
      | ok r =>
        obtain ⟨cg2, m2⟩ := r
        simp only [h1] at h
        rw [ih _ _ _ _ _ _ h1]
        exact ih _ _ _ _ _ _ h
    | PrioNode priority child =>
      rw [compileExpr] at h ⊢
      cases hf1 : fresh cg "P" with
      | error e => simp [hf1] at h
      | ok r1 =>
      obtain ⟨mid, cg2⟩ := r1
      simp only [hf1] at h ⊢
      cases hf2 : fresh cg2 "T" with
      | error e => simp [hf2] at h
      | ok r2 =>
      obtain ⟨tid, cg3⟩ := r2
      simp only [hf2] at h ⊢
      exact ih _ _ _ _ _ _ h
    | CallModuleNode moduleName =>
      rw [compileExpr] at h ⊢
      cases hgen : generateWith (compileExpr fuel) cg moduleName with
      | error e => simp [hgen] at h
      | ok r0 =>
      rw [generateWith_le ih _ _ _ hgen]
      simpa [hgen] using h

theorem compileExpr_le_add (fuel k : Nat) : CompileLe (compileExpr fuel) (compileExpr (fuel + k)) := by
  induction k with
  | zero => intro node inp out cg m res h; exact h
  | succ k ih =>
    intro node inp out cg m res h
    exact compileExpr_le_succ (fuel + k) _ _ _ _ _ _ (ih _ _ _ _ _ _ h)

theorem generate_fuel_mono {fuel fuel1 : Nat} (hle : fuel ≤ fuel1) {cg : CodegenVisitor}
    {name : String} {res : PetriModule × CodegenVisitor}
    (h : generate fuel cg name = .ok res) : generate fuel1 cg name = .ok res := by
  obtain ⟨k, rfl⟩ := Nat.exists_eq_add_of_le hle
  exact generateWith_le (compileExpr_le_add fuel k) _ _ _ h

/-- A `CallModule` of a module that is already in the memo copies the cached fragment
verbatim, ids included, and links it through two fresh transitions. -/
theorem compileExpr_call_cached (fuel : Nat) (cg cg1 : CodegenVisitor) (m m1 sub : PetriModule)
    (name inp out : String) (hmemo : mapFind cg.generated name = some sub)
    (h : compileExpr (fuel + 1) (.CallModuleNode name) inp out cg m = .ok (cg1, m1)) :
    cg1 = { cg with counter := cg.counter + 2 } ∧
    m1 = { m with
      places := m.places ++ sub.places,
      transitions := m.transitions ++ sub.transitions ++
        [⟨"T_call" ++ toString cg.counter, 0⟩, ⟨"T_ret" ++ toString (cg.counter + 1), 0⟩],
      arcs := m.arcs ++ sub.arcs ++
        [⟨PLACE_TO_TRANS, inp, "T_call" ++ toString cg.counter⟩,
         ⟨TRANS_TO_PLACE, "T_call" ++ toString cg.counter, sub.entry.id⟩,
         ⟨PLACE_TO_TRANS, sub.exit.id, "T_ret" ++ toString (cg.counter + 1)⟩,
         ⟨TRANS_TO_PLACE, "T_ret" ++ toString (cg.counter + 1), out⟩] } := by
  rw [compileExpr] at h
  simp only [generateWith, hmemo] at h
  cases hf1 : fresh cg "T_call" with
  | error e => simp [hf1] at h
  | ok r1 =>
    obtain ⟨callT, cg2⟩ := r1
    simp only [hf1] at h
    cases hf2 : fresh cg2 "T_ret" with
    | error e => simp [hf2] at h
    | ok r2 =>
      obtain ⟨retT, cg3⟩ := r2
      simp only [hf2, Except.ok.injEq, Prod.mk.injEq] at h
      obtain ⟨rfl, rfl⟩ := h
      obtain ⟨rfl, rfl, -⟩ := fresh_ok hf1
      obtain ⟨rfl, rfl, -⟩ := fresh_ok hf2
      exact ⟨rfl, rfl⟩

/-- C2 (counterexample): with `sub := Action(a)` and
`main := Sequence(CallModule(sub), CallModule(sub))`, the fragment returned by
`generate("main")` lists the callee's place ids and its transition id twice, and both
call transitions lead to the same entry place `entry3`, both return transitions leave
the same exit place `exit4`. -/
theorem callTwice_not_disjoint :
    generate 3 (session callTwice) "main" = .ok (callTwiceMain, callTwiceAfter) ∧
    ¬ (placeIds callTwiceMain).Nodup ∧ ¬ (transIds callTwiceMain).Nodup ∧
    (⟨.TRANS_TO_PLACE, "T_call6", "entry3"⟩ ∈ callTwiceMain.arcs ∧
      ⟨.TRANS_TO_PLACE, "T_call8", "entry3"⟩ ∈ callTwiceMain.arcs) ∧
    (⟨.PLACE_TO_TRANS, "exit4", "T_ret7"⟩ ∈ callTwiceMain.arcs ∧
      ⟨.PLACE_TO_TRANS, "exit4", "T_ret9"⟩ ∈ callTwiceMain.arcs) :=
  ⟨rfl, by decide, by decide, by decide, by decide⟩

/-- C2 (amended): on the session `sub := Action(a)`,
`main := Sequence(CallModule(sub), CallModule(sub))`, whenever the recursion bound is at
least 3, `generate("main")` returns the fragment `callTwiceMain`: the second call is a
memo hit and inlines the cached fragment of `sub` again, so each place id and each
transition id of the callee occurs exactly twice, while the two call transitions and the
two return transitions are four distinct fresh transitions, wired to the one callee
entry place and the one callee exit place. In general, a `CallModule` of a module that
is already in the memo appends the places and transitions of the cached fragment
unchanged, followed by the two fresh transitions. -/
theorem generate_callTwice (fuel : Nat) (hfuel : 3 ≤ fuel) :
    generate fuel (session callTwice) "main" = .ok (callTwiceMain, callTwiceAfter) ∧
    (∀ x ∈ placeIds callTwiceSub, (placeIds callTwiceMain).count x = 2) ∧
    (∀ x ∈ transIds callTwiceSub, (transIds callTwiceMain).count x = 2) ∧
    (∀ x ∈ ["T_call6", "T_ret7", "T_call8", "T_ret9"],
      (transIds callTwiceMain).count x = 1) ∧
    callTwiceMain.arcs.filter (fun a => decide (a.dst = callTwiceSub.entry.id)) =
      [⟨.TRANS_TO_PLACE, "T_call6", "entry3"⟩, ⟨.TRANS_TO_PLACE, "T_call8", "entry3"⟩] ∧
    callTwiceMain.arcs.filter (fun a => decide (a.src = callTwiceSub.exit.id)) =
      [⟨.PLACE_TO_TRANS, "exit4", "T_ret7"⟩, ⟨.PLACE_TO_TRANS, "exit4", "T_ret9"⟩] ∧
    ∀ (cg cg1 : CodegenVisitor) (m m1 sub : PetriModule) (name inp out : String),
      mapFind cg.generated name = some sub →
      compileExpr fuel (.CallModuleNode name) inp out cg m = .ok (cg1, m1) →
      m1.places = m.places ++ sub.places ∧
      m1.transitions = m.transitions ++ sub.transitions ++
        [⟨"T_call" ++ toString cg.counter, 0⟩, ⟨"T_ret" ++ toString (cg.counter + 1), 0⟩] := by
  refine ⟨generate_fuel_mono hfuel (show generate 3 (session callTwice) "main" = _ from rfl),
    by decide, by decide, by decide, by decide, by decide, ?_⟩
  intro cg cg1 m m1 sub name inp out hmemo h
  obtain ⟨f, rfl⟩ : ∃ f, fuel = f + 1 := ⟨fuel - 1, by omega⟩
  obtain ⟨-, rfl⟩ := compileExpr_call_cached f cg cg1 m m1 sub name inp out hmemo h
  exact ⟨rfl, rfl⟩

theorem generate_callTwice_witness :
    3 ≤ 4 ∧ generate 4 (session callTwice) "main" = .ok (callTwiceMain, callTwiceAfter) :=
  ⟨by decide, (generate_callTwice 4 (by decide)).1⟩

theorem fresh_modules {cg cg1 : CodegenVisitor} {base id : String}
    (h : fresh cg base = .ok (id, cg1)) :
    cg1.modules = cg.modules ∧ cg1.generated = cg.generated := by
  obtain ⟨-, rfl, -⟩ := fresh_ok h
  exact ⟨rfl, rfl⟩

/-- One unfolding of `generate` on a module `x` bound to `CallModule(y)` and not in the
memo: it can only return if the nested `generate(y)` returns. -/
theorem generateWith_call_step (rec : Compile) (x y : String) (cg : CodegenVisitor)
    (hrec : ∀ (inp out : String) (cg2 : CodegenVisitor) (m : PetriModule),
      cg2.modules = cg.modules → cg2.generated = cg.generated →
      ∀ res, rec (CallModuleNode y) inp out cg2 m ≠ .ok res)
    (hx : mapFind cg.modules x = some ⟨some (CallModuleNode y)⟩)
    (hgx : mapFind cg.generated x = none) :
    ∀ res, generateWith rec cg x ≠ .ok res := by
  intro res h
  unfold generateWith at h
  simp only [hgx] at h
  cases hf : fresh cg "entry" with
  | error e => simp [hf] at h
  | ok r =>
    obtain ⟨entryId, cg2⟩ := r
    simp only [hf] at h
    cases hf2 : fresh cg2 "exit" with
    | error e => simp [hf2] at h
    | ok r2 =>
      obtain ⟨exitId, cg3⟩ := r2
      simp only [hf2] at h
      have hmod : cg3.modules = cg.modules :=
        (fresh_modules hf2).1.trans (fresh_modules hf).1
      have hgen : cg3.generated = cg.generated :=
        (fresh_modules hf2).2.trans (fresh_modules hf).2
      rw [hmod, hx] at h
      simp only at h
      cases hr : rec (CallModuleNode y) entryId exitId cg3
          { moduleName := x, entry := ⟨entryId⟩, exit := ⟨exitId⟩,
            places := [⟨entryId⟩, ⟨exitId⟩], transitions := [], arcs := [] } with
      | error e => simp [hr] at h
      | ok r3 => exact hrec _ _ _ _ hmod hgen r3 hr

/-- While `a` is bound to `CallModule(b)`, `b` to `CallModule(a)` and neither is in the
memo, no recursion bound lets `generate` return for either of them. -/
theorem generateWith_cycle (a b : String) :
    ∀ (fuel : Nat) (cg : CodegenVisitor),
      mapFind cg.modules a = some ⟨some (CallModuleNode b)⟩ →
      mapFind cg.modules b = some ⟨some (CallModuleNode a)⟩ →
      mapFind cg.generated a = none → mapFind cg.generated b = none →
      (∀ res, generateWith (compileExpr fuel) cg a ≠ .ok res) ∧
      (∀ res, generateWith (compileExpr fuel) cg b ≠ .ok res) := by
  intro fuel
  induction fuel with
  | zero =>
    intro cg ha hb hga hgb
    constructor
    · exact generateWith_call_step _ a b cg
        (fun _ _ _ _ _ _ res h => by simp [compileExpr] at h) ha hga
    · exact generateWith_call_step _ b a cg
        (fun _ _ _ _ _ _ res h => by simp [compileExpr] at h) hb hgb
  | succ fuel ih =>
    intro cg ha hb hga hgb
    have step : ∀ (x y : String), (∀ cg2 : CodegenVisitor, cg2.modules = cg.modules →
        cg2.generated = cg.generated → ∀ res, generateWith (compileExpr fuel) cg2 y ≠ .ok res) →
        ∀ (inp out : String) (cg2 : CodegenVisitor) (m : PetriModule),
        cg2.modules = cg.modules → cg2.generated = cg.generated →
        ∀ res, compileExpr (fuel + 1) (CallModuleNode y) inp out cg2 m ≠ .ok res := by
      intro x y hy inp out cg2 m hm hg res h
      rw [compileExpr] at h
      cases hsub : generateWith (compileExpr fuel) cg2 y with
      | error e => simp [hsub] at h
      | ok r3 => exact hy cg2 hm hg r3 hsub
    constructor
    · refine generateWith_call_step _ a b cg (step a b ?_) ha hga
      intro cg2 hm hg
      exact (ih cg2 (hm ▸ ha) (hm ▸ hb) (hg ▸ hga) (hg ▸ hgb)).2
    · refine generateWith_call_step _ b a cg (step b a ?_) hb hgb
      intro cg2 hm hg
      exact (ih cg2 (hm ▸ ha) (hm ▸ hb) (hg ▸ hga) (hg ▸ hgb)).1

/-- C3: on `A := CallModule(A)`, and on `A := CallModule(B)`, `B := CallModule(A)`,
`generate("A")` returns nothing at any recursion bound, neither a fragment nor a
cyclic-reference error: the source has no in-progress marker and recurses without
bound. At the bound 40 the evaluation is still descending. -/
theorem generate_cyclic_never_returns :
    (∀ fuel res, generate fuel (session selfCall) "A" ≠ .ok res) ∧
    (∀ fuel res, generate fuel (session mutualCall) "A" ≠ .ok res) ∧
    generate 40 (session selfCall) "A" = .error .outOfFuel ∧
    generate 40 (session mutualCall) "A" = .error .outOfFuel := by
  refine ⟨?_, ?_, rfl, rfl⟩
  · intro fuel res
    exact (generateWith_cycle "A" "A" fuel (session selfCall) rfl rfl rfl rfl).1 res
  · intro fuel res
    exact (generateWith_cycle "A" "B" fuel (session mutualCall) rfl rfl rfl rfl).1 res

theorem session_counter_aux (regs : List (String × AstNode)) :
    ∀ cg : CodegenVisitor,
      (regs.foldl (fun cg r => register_module cg r.1 r.2) cg).counter = cg.counter := by
  induction regs with
  | nil => intro cg; rfl
  | cons r rs ih => intro cg; rw [List.foldl_cons, ih]; rfl

theorem session_counter (regs : List (String × AstNode)) : (session regs).counter = 0 := by
  unfold session
  rw [session_counter_aux]
  rfl

theorem session_modules_aux (regs : List (String × AstNode)) (name : String)
    (h : name ∉ regs.map Prod.fst) :
    ∀ cg : CodegenVisitor,
      mapFind (regs.foldl (fun cg r => register_module cg r.1 r.2) cg).modules name =
        mapFind cg.modules name := by
  induction regs with
  | nil => intro cg; rfl
  | cons r rs ih =>
    intro cg
    simp only [List.map_cons, List.mem_cons, not_or] at h
    rw [List.foldl_cons, ih h.2]
    simp only [register_module]
    exact mapFind_mapAssign_ne _ _ _ _ (Ne.symm h.1)

theorem session_modules_unregistered (regs : List (String × AstNode)) (name : String)
    (h : name ∉ regs.map Prod.fst) : mapFind (session regs).modules name = none := by
  unfold session
  rw [session_modules_aux regs name h]
  rfl

theorem fresh_eq (cg : CodegenVisitor) (base : String) (h : cg.counter < INT_MAX) :
    fresh cg base = .ok (base ++ toString cg.counter, { cg with counter := cg.counter + 1 }) := by
  simp [fresh, h]

/-- In any state, `generate` of a name that is neither registered nor cached returns
the two-place fragment, whatever `rec` is. -/
theorem generateWith_unregistered (rec : Compile) (cg : CodegenVisitor) (name : String)
    (hm : mapFind cg.modules name = none) (hg : mapFind cg.generated name = none)
    (hc : cg.counter + 2 ≤ INT_MAX) :
    generateWith rec cg name =
      .ok (bareFragment name ("entry" ++ toString cg.counter)
            ("exit" ++ toString (cg.counter + 1)),
        { modules := mapAssign cg.modules name ⟨none⟩,
          generated := mapAssign cg.generated name
            (bareFragment name ("entry" ++ toString cg.counter)
              ("exit" ++ toString (cg.counter + 1))),
          counter := cg.counter + 2 }) := by
  unfold generateWith
  rw [hg]
  simp only
  rw [fresh_eq cg "entry" (by omega)]
  simp only
  rw [fresh_eq _ "exit" (by simp only; omega)]
  simp only [hm]
  rfl

/-- C4 (counterexample): `generate` of a name that was never registered returns a
fragment, and so does `generate` of a module whose body calls such a name. -/
theorem generate_unregistered_returns :
    (generate 0 (session callTwice) "ghost").map Prod.fst =
      .ok (bareFragment "ghost" "entry0" "exit1") ∧
    (generate 1 (session [("main", CallModuleNode "ghost")]) "main").map Prod.fst =
      .ok (callBareFragment "main") :=
  ⟨rfl, rfl⟩

/-- C4 (amended): referencing an unregistered module is not an error. On every session
and for every name never passed to `register_module`, `generate(name)` returns, at any
recursion bound, the fragment made of a fresh entry place and a fresh exit place with no
transition and no arc, binds the name to an empty body in the registry and caches the
fragment; and a module `main` registered next with body `CallModule(name)` compiles to
a fragment that inlines those two places between its call and return transitions. -/
theorem generate_unregistered (regs : List (String × AstNode)) (name : String) (fuel : Nat)
    (h : name ∉ regs.map Prod.fst) :
    generate fuel (session regs) name =
      .ok (bareFragment name "entry0" "exit1",
        { modules := mapAssign (session regs).modules name ⟨none⟩,
          generated := [(name, bareFragment name "entry0" "exit1")],
          counter := 2 }) ∧
    ∀ main : String, main ≠ name →
      generate (fuel + 1) (register_module (session regs) main (CallModuleNode name)) main =
        .ok (callBareFragment main,
          { modules := mapAssign
              (mapAssign (session regs).modules main ⟨some (CallModuleNode name)⟩) name ⟨none⟩,
            generated := [(main, callBareFragment main),
              (name, bareFragment name "entry2" "exit3")],
            counter := 6 }) := by
  have hg := session_generated regs
  have hc := session_counter regs
  have hm := session_modules_unregistered regs name h
  constructor
  · rw [generate, generateWith_unregistered _ _ _ hm (by rw [hg]; rfl)
      (by rw [hc]; decide), hc, hg]
    rfl
  · intro main hne
    have hmain : mapFind (register_module (session regs) main (CallModuleNode name)).modules
        main = some ⟨some (CallModuleNode name)⟩ := mapFind_mapAssign_same _ _ _
    have hname : mapFind (register_module (session regs) main (CallModuleNode name)).modules
        name = none := by
      simp only [register_module]
      rw [mapFind_mapAssign_ne _ _ _ _ hne, hm]
    rw [generate, generateWith]
    simp only [register_module, hg, mapFind]
    rw [fresh_eq _ "entry" (by simp only [hc]; decide)]
    simp only
    rw [fresh_eq _ "exit" (by simp only [hc]; decide)]
    simp only
    simp only [register_module] at hmain hname
    rw [hmain]
    simp only
    rw [compileExpr]
    rw [generateWith_unregistered _ _ _ hname (by simp only [hg]; rfl)
      (by simp only [hc]; decide)]
    simp only
    rw [fresh_eq _ "T_call" (by simp only [hc]; decide)]
    simp only
    rw [fresh_eq _ "T_ret" (by simp only [hc]; decide)]
    simp only [hc, hg, mapAssign, List.filter, bareFragment, callBareFragment]
    simp [Ne.symm hne]
    decide
theorem generate_unregistered_witness :
    "ghost" ∉ callTwice.map Prod.fst ∧
    generate 0 (session callTwice) "ghost" =
      .ok (bareFragment "ghost" "entry0" "exit1",
        { modules := mapAssign (session callTwice).modules "ghost" ⟨none⟩,
          generated := [("ghost", bareFragment "ghost" "entry0" "exit1")],
          counter := 2 }) :=
  ⟨by decide, (generate_unregistered callTwice "ghost" 0 (by decide)).1⟩

/-- After `generate` has returned `F` for `name`, the memo of the resulting state binds
`name` to `F`. -/
theorem generateWith_memo {rec : Compile} {cg cg1 : CodegenVisitor} {name : String}
    {F : PetriModule} (h : generateWith rec cg name = .ok (F, cg1)) :
    mapFind cg1.generated name = some F := by
  unfold generateWith at h
  cases hg : mapFind cg.generated name with
  | some G =>
    simp only [hg, Except.ok.injEq, Prod.mk.injEq] at h
    obtain ⟨rfl, rfl⟩ := h
    exact hg
  | none =>
    simp only [hg] at h
    cases hf : fresh cg "entry" with
    | error e => simp [hf] at h
    | ok r =>
      obtain ⟨entryId, cg2⟩ := r
      simp only [hf] at h
      cases hf2 : fresh cg2 "exit" with
      | error e => simp [hf2] at h
      | ok r2 =>
        obtain ⟨exitId, cg3⟩ := r2
        simp only [hf2] at h
        split at h
        · simp only [Except.ok.injEq, Prod.mk.injEq] at h
          obtain ⟨rfl, rfl⟩ := h
          exact mapFind_mapAssign_same _ _ _
        · simp only [Except.ok.injEq, Prod.mk.injEq] at h
          obtain ⟨rfl, rfl⟩ := h
          exact mapFind_mapAssign_same _ _ _
        · split at h
          · cases h
          · simp only [Except.ok.injEq, Prod.mk.injEq] at h
            obtain ⟨rfl, rfl⟩ := h
            exact mapFind_mapAssign_same _ _ _

/-- C5: `generate` is idempotent through its memo. In every state `cg`, if
`generate(name)` returns the fragment `F` and leaves the state `cg1`, then a second
`generate(name)` in `cg1` returns, at any recursion bound, the same fragment `F` and
leaves `cg1` as it is: counter, memo and registry are untouched. -/
theorem generate_idempotent (fuel fuel1 : Nat) (cg cg1 : CodegenVisitor) (name : String)
    (F : PetriModule) (h : generate fuel cg name = .ok (F, cg1)) :
    generate fuel1 cg1 name = .ok (F, cg1) := by
  have hmemo := generateWith_memo h
  simp only [generate, generateWith, hmemo]

theorem generate_idempotent_witness :
    generate 3 (session callTwice) "main" = .ok (callTwiceMain, callTwiceAfter) ∧
    generate 0 callTwiceAfter "main" = .ok (callTwiceMain, callTwiceAfter) :=
  ⟨rfl, generate_idempotent 3 0 (session callTwice) callTwiceAfter "main" callTwiceMain rfl⟩

theorem Tokenizer.read_chars (chars : List Char) (line col : Nat) :
    (Tokenizer.read chars line col).chars = chars := by
  unfold Tokenizer.read
  split
  · rfl
  · split <;> rfl

theorem Tokenizer.next_chars (tz : Tokenizer) : tz.next.chars = tz.chars.tail :=
  Tokenizer.read_chars _ _ _

theorem Tokenizer.scanWhile_run (q : Char → Bool) (pre tail : List Char)
    (hpre : ∀ c ∈ pre, q c = true) (htail : StopsAt q tail) :
    ∀ (line col : Nat) (acc : String), ∃ l c,
      Tokenizer.scanWhile q (pre ++ tail) line col acc = (⟨acc.data ++ pre⟩, ⟨tail, l, c⟩) := by
  induction pre with
  | nil =>
    intro line col acc
    refine ⟨line, col, ?_⟩
    cases tail with
    | nil => simp [Tokenizer.scanWhile]
    | cons c cs => simp [Tokenizer.scanWhile, htail c cs rfl]
  | cons x xs ih =>
    intro line col acc
    have hx : q x = true := hpre x (by simp)
    obtain ⟨l, c, h⟩ := ih (fun c hc => hpre c (by simp [hc]))
      (Tokenizer.read (xs ++ tail) line col).line (Tokenizer.read (xs ++ tail) line col).col
      (acc.push x)
    refine ⟨l, c, ?_⟩
    have hcons : (x :: xs) ++ tail = x :: (xs ++ tail) := rfl
    rw [hcons, Tokenizer.scanWhile]
    simp only [hx, if_true]
    rw [h]
    simp [String.push]

theorem Tokenizer.scanWhile_stop (q : Char → Bool) (chars : List Char) (h : StopsAt q chars)
    (line col : Nat) (acc : String) :
    Tokenizer.scanWhile q chars line col acc = (acc, ⟨chars, line, col⟩) := by
  cases chars with
  | nil => simp [Tokenizer.scanWhile]
  | cons c cs => simp [Tokenizer.scanWhile, h c cs rfl]

theorem stopsAt_nil (q : Char → Bool) : StopsAt q [] := by
  intro c cs h; cases h

theorem stopsAt_cons (q : Char → Bool) (c : Char) (cs : List Char) (h : q c = false) :
    StopsAt q (c :: cs) := by
  intro d ds hd
  cases hd
  exact h

theorem isalpha_not_space {c : Char} (h : isalpha c = true) : isspace c = false := by
  simp only [isalpha, isspace, Bool.or_eq_true, Bool.and_eq_true, decide_eq_true_eq,
    Bool.or_eq_false_iff, Bool.and_eq_false_iff, decide_eq_false_iff_not] at *
  omega

theorem isalpha_isIdChar {c : Char} (h : isalpha c = true) : isIdChar c = true := by
  simp [isIdChar, isalnum, h]

/-- An identifier followed by a character that cannot continue it is read as one ID
token carrying the identifier. -/
theorem Tokenizer.next_token_ident (n : String) (tail : List Char) (hn : IsIdent n)
    (htail : StopsAt isIdChar tail) (line col : Nat) :
    ∃ l c, Tokenizer.next_token ⟨n.data ++ tail, line, col⟩ =
      .ok (⟨ID, n, l, c⟩, ⟨tail, l, c⟩) := by
  obtain ⟨x, xs, hdata, hx, hxs⟩ := hn
  have hall : ∀ c ∈ n.data, isIdChar c = true := by
    intro c hc
    rw [hdata] at hc
    rcases List.mem_cons.mp hc with rfl | hc
    · exact isalpha_isIdChar hx
    · exact hxs c hc
  obtain ⟨l, c, hscan⟩ := Tokenizer.scanWhile_run isIdChar n.data tail hall htail line col ""
  refine ⟨l, c, ?_⟩
  have hsp : StopsAt isspace (n.data ++ tail) := by
    rw [hdata]
    exact stopsAt_cons _ _ _ (isalpha_not_space hx)
  unfold Tokenizer.next_token
  simp only [Tokenizer.scanWhile_stop isspace _ hsp]
  rw [hdata] at hscan ⊢
  simp only [List.cons_append, hx, if_true]
  simp only [List.cons_append] at hscan
  rw [hscan]
  simp
  rw [← hdata]

theorem Tokenizer.next_token_dot (tail : List Char) (line col : Nat) :
    Tokenizer.next_token ⟨'.' :: tail, line, col⟩ =
      .ok (⟨DOT, ".", line, col⟩, Tokenizer.read tail line col) := by
  have hsp : StopsAt isspace ('.' :: tail) := stopsAt_cons _ _ _ (by decide)
  unfold Tokenizer.next_token
  simp only [Tokenizer.scanWhile_stop isspace _ hsp]
  have h1 : isalpha '.' = false := by decide
  simp [h1, Tokenizer.next]

theorem Tokenizer.next_token_lbrack (tail : List Char) (line col : Nat) :
    Tokenizer.next_token ⟨'[' :: tail, line, col⟩ =
      .ok (⟨LBRACK, "[", line, col⟩, Tokenizer.read tail line col) := by
  have hsp : StopsAt isspace ('[' :: tail) := stopsAt_cons _ _ _ (by decide)
  unfold Tokenizer.next_token
  simp only [Tokenizer.scanWhile_stop isspace _ hsp]
  have h1 : isalpha '[' = false := by decide
  simp [h1, Tokenizer.next]

theorem Tokenizer.next_token_rbrack (tail : List Char) (line col : Nat) :
    Tokenizer.next_token ⟨']' :: tail, line, col⟩ =
      .ok (⟨RBRACK, "]", line, col⟩, Tokenizer.read tail line col) := by
  have hsp : StopsAt isspace (']' :: tail) := stopsAt_cons _ _ _ (by decide)
  unfold Tokenizer.next_token
  simp only [Tokenizer.scanWhile_stop isspace _ hsp]
  have h1 : isalpha ']' = false := by decide
  simp [h1, Tokenizer.next]

theorem Tokenizer.next_token_lparen (tail : List Char) (line col : Nat) :
    Tokenizer.next_token ⟨'(' :: tail, line, col⟩ =
      .ok (⟨LPAREN, "(", line, col⟩, Tokenizer.read tail line col) := by
  have hsp : StopsAt isspace ('(' :: tail) := stopsAt_cons _ _ _ (by decide)
  unfold Tokenizer.next_token
  simp only [Tokenizer.scanWhile_stop isspace _ hsp]
  have h1 : isalpha '(' = false := by decide
  simp [h1, Tokenizer.next]

theorem Tokenizer.next_token_rparen (tail : List Char) (line col : Nat) :
    Tokenizer.next_token ⟨')' :: tail, line, col⟩ =
      .ok (⟨RPAREN, ")", line, col⟩, Tokenizer.read tail line col) := by
  have hsp : StopsAt isspace (')' :: tail) := stopsAt_cons _ _ _ (by decide)
  unfold Tokenizer.next_token
  simp only [Tokenizer.scanWhile_stop isspace _ hsp]
  have h1 : isalpha ')' = false := by decide
  simp [h1, Tokenizer.next]

theorem Tokenizer.next_token_parallel (tail : List Char) (line col : Nat) :
    Tokenizer.next_token ⟨'|' :: '|' :: tail, line, col⟩ =
      .ok (⟨PARALLEL, "||", line, col⟩,
        (Tokenizer.read ('|' :: tail) line col).next) := by
  have hsp : StopsAt isspace ('|' :: '|' :: tail) := stopsAt_cons _ _ _ (by decide)
  unfold Tokenizer.next_token
  simp only [Tokenizer.scanWhile_stop isspace _ hsp]
  have h1 : isalpha '|' = false := by decide
  simp [h1, Tokenizer.next, Tokenizer.read]

theorem Tokenizer.next_token_end (line col : Nat) :
    Tokenizer.next_token ⟨[], line, col⟩ = .ok (⟨END, "", line, col⟩, ⟨[], line, col⟩) := by
  simp [Tokenizer.next_token, Tokenizer.scanWhile]

/-- A caret followed by a run of digits and then a character that is no digit is read as
one PRIO token carrying the digits. -/
theorem Tokenizer.next_token_prio (d : String) (tail : List Char)
    (hd : ∀ c ∈ d.data, isdigit c = true) (htail : StopsAt isdigit tail) (line col : Nat) :
    ∃ l c, Tokenizer.next_token ⟨'^' :: (d.data ++ tail), line, col⟩ =
      .ok (⟨TokenType.PRIO, d, line, col⟩, ⟨tail, l, c⟩) := by
  have hsp : StopsAt isspace ('^' :: (d.data ++ tail)) := stopsAt_cons _ _ _ (by decide)
  obtain ⟨l, c, hscan⟩ := Tokenizer.scanWhile_run isdigit d.data tail hd htail
    (Tokenizer.read (d.data ++ tail) line col).line
    (Tokenizer.read (d.data ++ tail) line col).col ""
  refine ⟨l, c, ?_⟩
  unfold Tokenizer.next_token
  simp only [Tokenizer.scanWhile_stop isspace _ hsp]
  have h1 : isalpha '^' = false := by decide
  simp [h1, Tokenizer.next, Tokenizer.read_chars, hscan]

theorem Parser.init_eq_advance (input : List Char) (t : Token) :
    Parser.init input = Parser.advance ⟨Tokenizer.init input, t⟩ := rfl

theorem Tokenizer.eta (tz : Tokenizer) : tz = ⟨tz.chars, tz.line, tz.col⟩ := rfl

theorem Parser.advance_ident (p : Parser) (n : String) (tail : List Char)
    (hc : p.tz.chars = n.data ++ tail) (hn : IsIdent n) (ht : StopsAt isIdChar tail) :
    ∃ p1, p.advance = .ok p1 ∧ p1.At ID n tail := by
  obtain ⟨l, c, h⟩ := Tokenizer.next_token_ident n tail hn ht p.tz.line p.tz.col
  refine ⟨⟨⟨tail, l, c⟩, ⟨ID, n, l, c⟩⟩, ?_, rfl, rfl, rfl⟩
  unfold Parser.advance
  rw [Tokenizer.eta p.tz, hc, h]

theorem Parser.advance_end (p : Parser) (hc : p.tz.chars = []) :
    ∃ p1, p.advance = .ok p1 ∧ p1.At END "" [] := by
  refine ⟨⟨⟨[], p.tz.line, p.tz.col⟩, ⟨END, "", p.tz.line, p.tz.col⟩⟩, ?_, rfl, rfl, rfl⟩
  unfold Parser.advance
  rw [Tokenizer.eta p.tz, hc, Tokenizer.next_token_end]

theorem Parser.advance_dot (p : Parser) (tail : List Char) (hc : p.tz.chars = '.' :: tail) :
    ∃ p1, p.advance = .ok p1 ∧ p1.At DOT "." tail := by
  refine ⟨⟨Tokenizer.read tail p.tz.line p.tz.col, ⟨DOT, ".", p.tz.line, p.tz.col⟩⟩, ?_,
    rfl, rfl, Tokenizer.read_chars _ _ _⟩
  unfold Parser.advance
  rw [Tokenizer.eta p.tz, hc, Tokenizer.next_token_dot]

theorem Parser.advance_lbrack (p : Parser) (tail : List Char) (hc : p.tz.chars = '[' :: tail) :
    ∃ p1, p.advance = .ok p1 ∧ p1.At LBRACK "[" tail := by
  refine ⟨⟨Tokenizer.read tail p.tz.line p.tz.col, ⟨LBRACK, "[", p.tz.line, p.tz.col⟩⟩, ?_,
    rfl, rfl, Tokenizer.read_chars _ _ _⟩
  unfold Parser.advance
  rw [Tokenizer.eta p.tz, hc, Tokenizer.next_token_lbrack]

theorem Parser.advance_rbrack (p : Parser) (tail : List Char) (hc : p.tz.chars = ']' :: tail) :
    ∃ p1, p.advance = .ok p1 ∧ p1.At RBRACK "]" tail := by
  refine ⟨⟨Tokenizer.read tail p.tz.line p.tz.col, ⟨RBRACK, "]", p.tz.line, p.tz.col⟩⟩, ?_,
    rfl, rfl, Tokenizer.read_chars _ _ _⟩
  unfold Parser.advance
  rw [Tokenizer.eta p.tz, hc, Tokenizer.next_token_rbrack]

theorem Parser.advance_lparen (p : Parser) (tail : List Char) (hc : p.tz.chars = '(' :: tail) :
    ∃ p1, p.advance = .ok p1 ∧ p1.At LPAREN "(" tail := by
  refine ⟨⟨Tokenizer.read tail p.tz.line p.tz.col, ⟨LPAREN, "(", p.tz.line, p.tz.col⟩⟩, ?_,
    rfl, rfl, Tokenizer.read_chars _ _ _⟩
  unfold Parser.advance
  rw [Tokenizer.eta p.tz, hc, Tokenizer.next_token_lparen]

theorem Parser.advance_rparen (p : Parser) (tail : List Char) (hc : p.tz.chars = ')' :: tail) :
    ∃ p1, p.advance = .ok p1 ∧ p1.At RPAREN ")" tail := by
  refine ⟨⟨Tokenizer.read tail p.tz.line p.tz.col, ⟨RPAREN, ")", p.tz.line, p.tz.col⟩⟩, ?_,
    rfl, rfl, Tokenizer.read_chars _ _ _⟩
  unfold Parser.advance
  rw [Tokenizer.eta p.tz, hc, Tokenizer.next_token_rparen]

theorem Parser.advance_parallel (p : Parser) (tail : List Char)
    (hc : p.tz.chars = '|' :: '|' :: tail) :
    ∃ p1, p.advance = .ok p1 ∧ p1.At PARALLEL "||" tail := by
  refine ⟨⟨(Tokenizer.read ('|' :: tail) p.tz.line p.tz.col).next,
    ⟨PARALLEL, "||", p.tz.line, p.tz.col⟩⟩, ?_, rfl, rfl, ?_⟩
  · unfold Parser.advance
    rw [Tokenizer.eta p.tz, hc, Tokenizer.next_token_parallel]
  · simp [Tokenizer.next_chars, Tokenizer.read_chars]

theorem Parser.advance_prio (p : Parser) (d : String) (tail : List Char)
    (hc : p.tz.chars = '^' :: (d.data ++ tail)) (hd : ∀ c ∈ d.data, isdigit c = true)
    (ht : StopsAt isdigit tail) :
    ∃ p1, p.advance = .ok p1 ∧ p1.At TokenType.PRIO d tail := by
  obtain ⟨l, c, h⟩ := Tokenizer.next_token_prio d tail hd ht p.tz.line p.tz.col
  refine ⟨⟨⟨tail, l, c⟩, ⟨TokenType.PRIO, d, p.tz.line, p.tz.col⟩⟩, ?_, rfl, rfl, rfl⟩
  unfold Parser.advance
  rw [Tokenizer.eta p.tz, hc, h]

/-- The action branch of `parse_term`: an identifier followed by neither `(` nor a
priority marker is an `ActionNode`. -/
theorem parse_term_action (fuel : Nat) (p p1 : Parser) (hid : p.cur.type = ID)
    (hadv : p.advance = .ok p1) (h1 : p1.cur.type ≠ LPAREN)
    (h2 : p1.cur.type ≠ TokenType.PRIO) :
    parse_term (fuel + 1) p = .ok (.ActionNode p.cur.value, p1) := by
  rw [parse_term]
  simp [hid, hadv, h1, Parser.optPrio, h2]

theorem chainTail_stops (rest : List (BinOp × String)) :
    StopsAt isIdChar (chainTail rest).data := by
  cases rest with
  | nil => exact stopsAt_nil _
  | cons p r =>
    obtain ⟨o, x⟩ := p
    cases o with
    | dot =>
      intro c cs h
      simp only [chainTail, BinOp.text, String.data_append] at h
      have : c = '.' := by
        have h2 : ('.' :: (x.data ++ (chainTail r).data)) = c :: cs := h
        exact (List.cons.inj h2).1.symm
      subst this
      decide
    | bars =>
      intro c cs h
      simp only [chainTail, BinOp.text, String.data_append] at h
      have : c = '|' := by
        have h2 : ('|' :: '|' :: (x.data ++ (chainTail r).data)) = c :: cs := h
        exact (List.cons.inj h2).1.symm
      subst this
      decide

/-- Advancing from the last identifier token of a chain positions the parser on what
follows it. -/
theorem Parser.advance_positioned (p : Parser) (rest : List (BinOp × String))
    (hc : p.tz.chars = (chainTail rest).data) :
    ∃ p1, p.advance = .ok p1 ∧ Positioned p1 rest := by
  cases rest with
  | nil =>
    obtain ⟨p1, h1, ht, -, -⟩ := Parser.advance_end p hc
    exact ⟨p1, h1, ht⟩
  | cons q r =>
    obtain ⟨o, x⟩ := q
    cases o with
    | dot =>
      obtain ⟨p1, h1, ht, -, hch⟩ := Parser.advance_dot p (x.data ++ (chainTail r).data)
        (by rw [hc]; simp [chainTail, BinOp.text])
      exact ⟨p1, h1, ht, hch⟩
    | bars =>
      obtain ⟨p1, h1, ht, -, hch⟩ := Parser.advance_parallel p (x.data ++ (chainTail r).data)
        (by rw [hc]; simp [chainTail, BinOp.text])
      exact ⟨p1, h1, ht, hch⟩

theorem Positioned.type (p : Parser) (rest : List (BinOp × String)) (h : Positioned p rest) :
    p.cur.type = END ∨ p.cur.type = DOT ∨ p.cur.type = PARALLEL := by
  cases rest with
  | nil => exact Or.inl h
  | cons q r =>
    obtain ⟨o, x⟩ := q
    cases o with
    | dot => exact Or.inr (Or.inl h.1)
    | bars => exact Or.inr (Or.inr h.1)

/-- With the tokenizer at an identifier of a chain, `advance` then `parse_term` yields
the identifier's `ActionNode` and leaves the parser positioned behind it. -/
theorem parse_term_chain (fuel : Nat) (p : Parser) (x : String) (rest : List (BinOp × String))
    (hx : IsIdent x) (hc : p.tz.chars = x.data ++ (chainTail rest).data) :
    ∃ p1 p2, p.advance = .ok p1 ∧
      parse_term (fuel + 1) p1 = .ok (.ActionNode x, p2) ∧ Positioned p2 rest := by
  obtain ⟨p1, h1, hty, hval, hch⟩ := Parser.advance_ident p x _ hc hx (chainTail_stops rest)
  obtain ⟨p2, h2, hpos⟩ := Parser.advance_positioned p1 rest hch
  refine ⟨p1, p2, h1, ?_, hpos⟩
  have ht := Positioned.type p2 rest hpos
  rw [← hval]
  apply parse_term_action fuel p1 p2 hty h2
  · rcases ht with h | h | h <;> rw [h] <;> decide
  · rcases ht with h | h | h <;> rw [h] <;> decide

theorem parse_expr_loop_chain :
    ∀ (rest : List (BinOp × String)) (acc : AstNode) (p : Parser) (fuel : Nat),
      Positioned p rest → (∀ q ∈ rest, IsIdent q.2) → rest.length + 1 ≤ fuel →
      ∃ p1, parse_expr_loop fuel acc p =
          .ok (rest.foldl (fun a q => q.1.node a (.ActionNode q.2)) acc, p1) ∧
        p1.cur.type = END := by
  intro rest
  induction rest with
  | nil =>
    intro acc p fuel hpos _ hfuel
    obtain ⟨f, rfl⟩ : ∃ f, fuel = f + 1 := ⟨fuel - 1, by omega⟩
    refine ⟨p, ?_, hpos⟩
    have hp : p.cur.type = END := hpos
    rw [parse_expr_loop]
    simp [hp]
  | cons q r ih =>
    intro acc p fuel hpos hid hfuel
    obtain ⟨o, x⟩ := q
    obtain ⟨f, rfl⟩ : ∃ f, fuel = f + 1 := ⟨fuel - 1, by omega⟩
    obtain ⟨g, rfl⟩ : ∃ g, f = g + 1 := ⟨f - 1, by simp at hfuel; omega⟩
    obtain ⟨hty, hch⟩ := hpos
    obtain ⟨p1, p2, h1, h2, hpos2⟩ := parse_term_chain g p x r (hid (o, x) (by simp)) hch
    obtain ⟨p3, h3, hend⟩ := ih (o.node acc (.ActionNode x)) p2 (g + 1) hpos2
      (fun q hq => hid q (by simp [hq])) (by simp at hfuel; omega)
    refine ⟨p3, ?_, hend⟩
    rw [parse_expr_loop]
    have hop : p.cur.type = DOT ∨ p.cur.type = PARALLEL ∨ p.cur.type = CHOICE := by
      cases o with
      | dot => exact Or.inl hty
      | bars => exact Or.inr (Or.inl hty)
    have hcomb : combine p.cur.type acc (.ActionNode x) = o.node acc (.ActionNode x) := by
      cases o <;> simp [hty, combine, BinOp.token, BinOp.node]
    simp only [hop, if_true, h1, h2, hcomb]
    simpa using h3

theorem chainTail_length (rest : List (BinOp × String)) :
    rest.length ≤ (chainTail rest).length := by
  induction rest with
  | nil => simp
  | cons q r ih =>
    obtain ⟨o, x⟩ := q
    have h1 : ".".length = 1 := rfl
    have h2 : "||".length = 2 := rfl
    cases o <;> simp only [chainTail, BinOp.text, String.length_append, List.length_cons] <;>
      omega

/-- C8: binary operators are left-associative without precedence and build binary
nodes. For identifiers `x1 .. xn` (n ≥ 2) and operators `o1 .. o(n-1)`, each `.` or
`||`, parsing the text `x1 o1 x2 ... o(n-1) xn` returns the left fold that starts from
`Action(x1)` and wraps, at step i, the accumulated tree and `Action(x(i+1))` in a
two-child `SequenceNode` for `.` and in a `ParallelNode` for `||`. -/
theorem parse_chain_left_fold (x1 : String) (rest : List (BinOp × String))
    (hx1 : IsIdent x1) (hrest : ∀ q ∈ rest, IsIdent q.2) (_hn : 2 ≤ rest.length + 1) :
    parse (chainText x1 rest) = .ok (leftFold x1 rest) := by
  have hdata : (chainText x1 rest).data = x1.data ++ (chainTail rest).data := by
    simp [chainText]
  unfold parse
  rw [Parser.init_eq_advance _ ⟨END, "", 0, 0⟩]
  obtain ⟨p1, p2, h1, h2, hpos⟩ := parse_term_chain
    (parseFuel (chainText x1 rest).data - 2)
    ⟨Tokenizer.init (chainText x1 rest).data, ⟨END, "", 0, 0⟩⟩ x1 rest hx1
    (by simp only [Tokenizer.init, Tokenizer.read_chars]; exact hdata)
  have hlen : rest.length ≤ (chainTail rest).data.length := chainTail_length rest
  have hfuel : parseFuel (chainText x1 rest).data =
      (parseFuel (chainText x1 rest).data - 2) + 1 + 1 := by
    simp [parseFuel]
  obtain ⟨p3, h3, hend⟩ := parse_expr_loop_chain rest (.ActionNode x1) p2
    (parseFuel (chainText x1 rest).data - 2 + 1) hpos hrest
    (by simp only [parseFuel, hdata, List.length_append]; omega)
  rw [h1]
  simp only
  rw [hfuel, parse_expr, h2]
  simp only
  rw [h3]
  simp [hend, leftFold]

theorem isIdent_of_data (s : String) (c : Char) (cs : List Char) (h : s.data = c :: cs)
    (hc : isalpha c = true) (hcs : ∀ d ∈ cs, isIdChar d = true) : IsIdent s :=
  ⟨c, cs, h, hc, hcs⟩

theorem parse_chain_left_fold_witness :
    (IsIdent "a" ∧ (∀ q ∈ [(BinOp.dot, "b"), (BinOp.bars, "c")], IsIdent q.2) ∧
      2 ≤ [(BinOp.dot, "b"), (BinOp.bars, "c")].length + 1) ∧
    parse "a.b||c" = .ok (.ParallelNode
      (.SequenceNode [.ActionNode "a", .ActionNode "b"]) (.ActionNode "c")) ∧
    parse "a.b.c" = .ok (.SequenceNode
      [.SequenceNode [.ActionNode "a", .ActionNode "b"], .ActionNode "c"]) ∧
    parse "a||b" = .ok (.ParallelNode (.ActionNode "a") (.ActionNode "b")) := by
  have ha : IsIdent "a" := isIdent_of_data "a" 'a' [] rfl (by decide) (by simp)
  have hb : IsIdent "b" := isIdent_of_data "b" 'b' [] rfl (by decide) (by simp)
  have hc : IsIdent "c" := isIdent_of_data "c" 'c' [] rfl (by decide) (by simp)
  have hbc : ∀ q ∈ [(BinOp.dot, "b"), (BinOp.bars, "c")], IsIdent q.2 := by
    intro q hq
    simp only [List.mem_cons, List.mem_singleton, List.not_mem_nil, or_false] at hq
    rcases hq with rfl | rfl
    · exact hb
    · exact hc
  exact ⟨⟨ha, hbc, by decide⟩,
    parse_chain_left_fold "a" [(BinOp.dot, "b"), (BinOp.bars, "c")] ha hbc (by decide),
    rfl, rfl⟩

theorem digitsValue_append (l : List Char) (c : Char) :
    digitsValue (l ++ [c]) = digitsValue l * 10 + (c.toNat - 48) := by
  simp [digitsValue, List.foldl_append]

theorem digitsValue_eq_ofDigits (l : List Char) :
    digitsValue l = Nat.ofDigits 10 (l.reverse.map (fun c => c.toNat - 48)) := by
  induction l using List.reverseRecOn with
  | nil => simp [digitsValue]
  | append_singleton l c ih =>
    rw [digitsValue_append, ih]
    simp [Nat.ofDigits_cons]
    omega

/-- On a non-empty digit string whose value fits an `int`, `stoi` returns the decimal
value. -/
theorem stoi_digits (d : String) (hd : IsDigits d) (hv : decimalValue d ≤ INT_MAX) :
    stoi d = .ok (Int.ofNat (decimalValue d)) := by
  obtain ⟨hne, hall⟩ := hd
  have htake : d.data.takeWhile isdigit = d.data :=
    List.takeWhile_eq_self_iff.mpr hall
  have hval : digitsValue d.data = decimalValue d := digitsValue_eq_ofDigits d.data
  unfold stoi
  rw [htake]
  cases hdd : d.data with
  | nil => exact absurd hdd hne
  | cons x xs =>
    simp only
    rw [← hdd, hval]
    simp [hv]

theorem Parser.optPrio_none (p : Parser) (node : AstNode) (h : p.cur.type ≠ TokenType.PRIO) :
    p.optPrio node = .ok (node, p) := by
  simp [Parser.optPrio, h]

theorem Parser.optPrio_some (p p1 : Parser) (node : AstNode) (v : Int)
    (h : p.cur.type = TokenType.PRIO) (hs : stoi p.cur.value = .ok v)
    (hadv : p.advance = .ok p1) :
    p.optPrio node = .ok (.PrioNode v node, p1) := by
  simp [Parser.optPrio, h, hs, hadv]

/-- When the term is followed by no operator, `parse_expr` returns the term. -/
theorem parse_expr_single (fuel : Nat) (p p1 : Parser) (node : AstNode)
    (ht : parse_term (fuel + 1) p = .ok (node, p1))
    (h1 : p1.cur.type ≠ DOT) (h2 : p1.cur.type ≠ PARALLEL) (h3 : p1.cur.type ≠ CHOICE) :
    parse_expr (fuel + 2) p = .ok (node, p1) := by
  rw [parse_expr, ht]
  simp only
  rw [parse_expr_loop]
  simp [h1, h2, h3]

/-- The last step of `parse`: the expression must be followed by the end of input. -/
theorem parse_of_expr (s : String) (p p1 : Parser) (ast : AstNode)
    (hinit : Parser.init s.data = .ok p)
    (he : parse_expr (parseFuel s.data) p = .ok (ast, p1)) (hend : p1.cur.type = END) :
    parse s = .ok ast := by
  simp [parse, hinit, he, hend]

theorem parseFuel_eq (l : List Char) : parseFuel l = (2 * l.length + 1) + 1 + 2 := by
  simp [parseFuel]

theorem stopsAt_of_head (q : Char → Bool) (c : Char) (cs : List Char) (h : q c = false) :
    StopsAt q (c :: cs) := stopsAt_cons q c cs h

theorem parse_ident_prio (n d : String) (hn : IsIdent n) (hd : IsDigits d)
    (hv : decimalValue d ≤ INT_MAX) :
    parse (n ++ "^" ++ d) = .ok (.PrioNode (Int.ofNat (decimalValue d)) (.ActionNode n)) := by
  have hdata : (n ++ "^" ++ d).data = n.data ++ ('^' :: (d.data ++ [])) := by simp
  obtain ⟨p0, h0, ht0, hv0, hc0⟩ := Parser.advance_ident
    ⟨Tokenizer.init (n ++ "^" ++ d).data, ⟨END, "", 0, 0⟩⟩ n _
    (by simp only [Tokenizer.init, Tokenizer.read_chars]; exact hdata) hn
    (stopsAt_cons _ _ _ (by decide))
  obtain ⟨p1, h1, ht1, hv1, hc1⟩ := Parser.advance_prio p0 d [] hc0 hd.2 (stopsAt_nil _)
  obtain ⟨p2, h2, ht2, -, -⟩ := Parser.advance_end p1 hc1
  have hterm : ∀ f, parse_term (f + 1) p0 =
      .ok (.PrioNode (Int.ofNat (decimalValue d)) (.ActionNode n), p2) := by
    intro f
    rw [parse_term]
    simp [ht0, h1, ht1, Parser.optPrio, hv1, stoi_digits d hd hv, h2, hv0]
  refine parse_of_expr _ p0 p2 _ (by rw [Parser.init_eq_advance]; exact h0) ?_ ht2
  rw [parseFuel_eq]
  exact parse_expr_single _ p0 p2 _ (hterm _) (by rw [ht2]; decide) (by rw [ht2]; decide)
    (by rw [ht2]; decide)

theorem parse_call (n : String) (hn : IsIdent n) :
    parse (n ++ "()") = .ok (.CallModuleNode n) := by
  have hdata : (n ++ "()").data = n.data ++ ('(' :: ')' :: []) := by simp
  obtain ⟨p0, h0, ht0, hv0, hc0⟩ := Parser.advance_ident
    ⟨Tokenizer.init (n ++ "()").data, ⟨END, "", 0, 0⟩⟩ n _
    (by simp only [Tokenizer.init, Tokenizer.read_chars]; exact hdata) hn
    (stopsAt_cons _ _ _ (by decide))
  obtain ⟨p1, h1, ht1, -, hc1⟩ := Parser.advance_lparen p0 _ hc0
  obtain ⟨p2, h2, ht2, -, hc2⟩ := Parser.advance_rparen p1 _ hc1
  obtain ⟨p3, h3, ht3, -, -⟩ := Parser.advance_end p2 hc2
  have hterm : ∀ f, parse_term (f + 1) p0 = .ok (.CallModuleNode n, p3) := by
    intro f
    rw [parse_term]
    simp [ht0, h1, ht1, h2, Parser.expect, ht2, h3, Parser.optPrio, ht3, hv0]
  refine parse_of_expr _ p0 p3 _ (by rw [Parser.init_eq_advance]; exact h0) ?_ ht3
  rw [parseFuel_eq]
  exact parse_expr_single _ p0 p3 _ (hterm _) (by rw [ht3]; decide) (by rw [ht3]; decide)
    (by rw [ht3]; decide)

theorem parse_call_prio (n d : String) (hn : IsIdent n) (hd : IsDigits d)
    (hv : decimalValue d ≤ INT_MAX) :
    parse (n ++ "()^" ++ d) =
      .ok (.PrioNode (Int.ofNat (decimalValue d)) (.CallModuleNode n)) := by
  have hdata : (n ++ "()^" ++ d).data = n.data ++ ('(' :: ')' :: '^' :: (d.data ++ [])) := by
    simp
  obtain ⟨p0, h0, ht0, hv0, hc0⟩ := Parser.advance_ident
    ⟨Tokenizer.init (n ++ "()^" ++ d).data, ⟨END, "", 0, 0⟩⟩ n _
    (by simp only [Tokenizer.init, Tokenizer.read_chars]; exact hdata) hn
    (stopsAt_cons _ _ _ (by decide))
  obtain ⟨p1, h1, ht1, -, hc1⟩ := Parser.advance_lparen p0 _ hc0
  obtain ⟨p2, h2, ht2, -, hc2⟩ := Parser.advance_rparen p1 _ hc1
  obtain ⟨p3, h3, ht3, hv3, hc3⟩ := Parser.advance_prio p2 d [] hc2 hd.2 (stopsAt_nil _)
  obtain ⟨p4, h4, ht4, -, -⟩ := Parser.advance_end p3 hc3
  have hterm : ∀ f, parse_term (f + 1) p0 =
      .ok (.PrioNode (Int.ofNat (decimalValue d)) (.CallModuleNode n), p4) := by
    intro f
    rw [parse_term]
    simp [ht0, h1, ht1, h2, Parser.expect, ht2, h3, Parser.optPrio, ht3, hv3,
      stoi_digits d hd hv, h4, hv0]
  refine parse_of_expr _ p0 p4 _ (by rw [Parser.init_eq_advance]; exact h0) ?_ ht4
  rw [parseFuel_eq]
  exact parse_expr_single _ p0 p4 _ (hterm _) (by rw [ht4]; decide) (by rw [ht4]; decide)
    (by rw [ht4]; decide)

theorem parse_group_prio (n d : String) (hn : IsIdent n) (hd : IsDigits d)
    (hv : decimalValue d ≤ INT_MAX) :
    parse ("[" ++ n ++ "]^" ++ d) =
      .ok (.PrioNode (Int.ofNat (decimalValue d)) (.ActionNode n)) := by
  have hdata : ("[" ++ n ++ "]^" ++ d).data =
      '[' :: (n.data ++ (']' :: '^' :: (d.data ++ []))) := by
    simp
  obtain ⟨p0, h0, ht0, -, hc0⟩ := Parser.advance_lbrack
    ⟨Tokenizer.init ("[" ++ n ++ "]^" ++ d).data, ⟨END, "", 0, 0⟩⟩ _
    (by simp only [Tokenizer.init, Tokenizer.read_chars]; exact hdata)
  obtain ⟨p1, h1, ht1, hv1, hc1⟩ := Parser.advance_ident p0 n _ hc0 hn
    (stopsAt_cons _ _ _ (by decide))
  obtain ⟨p2, h2, ht2, -, hc2⟩ := Parser.advance_rbrack p1 _ hc1
  obtain ⟨p3, h3, ht3, hv3, hc3⟩ := Parser.advance_prio p2 d [] hc2 hd.2 (stopsAt_nil _)
  obtain ⟨p4, h4, ht4, -, -⟩ := Parser.advance_end p3 hc3
  have hinner : ∀ f, parse_expr (f + 2) p1 = .ok (.ActionNode n, p2) := by
    intro f
    have := parse_term_action f p1 p2 ht1 h2 (by rw [ht2]; decide) (by rw [ht2]; decide)
    rw [hv1] at this
    exact parse_expr_single f p1 p2 _ this (by rw [ht2]; decide) (by rw [ht2]; decide)
      (by rw [ht2]; decide)
  have hterm : ∀ f, parse_term (f + 3) p0 =
      .ok (.PrioNode (Int.ofNat (decimalValue d)) (.ActionNode n), p4) := by
    intro f
    rw [parse_term]
    simp [ht0, h1, hinner f, Parser.expect, ht2, h3, Parser.optPrio, ht3, hv3,
      stoi_digits d hd hv, h4]
  refine parse_of_expr _ p0 p4 _ (by rw [Parser.init_eq_advance]; exact h0) ?_ ht4
  have hf : parseFuel ("[" ++ n ++ "]^" ++ d).data =
      (2 * ("[" ++ n ++ "]^" ++ d).data.length - 1 + 3) + 2 := by
    simp only [parseFuel, hdata, List.length_cons]; omega
  rw [hf]
  exact parse_expr_single _ p0 p4 _ (hterm _) (by rw [ht4]; decide) (by rw [ht4]; decide)
    (by rw [ht4]; decide)

theorem parse_prio_then_dot (n d m : String) (hn : IsIdent n) (hm : IsIdent m)
    (hd : IsDigits d) (hv : decimalValue d ≤ INT_MAX) :
    parse (n ++ "^" ++ d ++ "." ++ m) =
      .ok (.SequenceNode [.PrioNode (Int.ofNat (decimalValue d)) (.ActionNode n),
        .ActionNode m]) := by
  have hdata : (n ++ "^" ++ d ++ "." ++ m).data =
      n.data ++ ('^' :: (d.data ++ ('.' :: (m.data ++ (chainTail []).data)))) := by
    simp [chainTail]
  obtain ⟨p0, h0, ht0, hv0, hc0⟩ := Parser.advance_ident
    ⟨Tokenizer.init (n ++ "^" ++ d ++ "." ++ m).data, ⟨END, "", 0, 0⟩⟩ n _
    (by simp only [Tokenizer.init, Tokenizer.read_chars]; exact hdata) hn
    (stopsAt_cons _ _ _ (by decide))
  obtain ⟨p1, h1, ht1, hv1, hc1⟩ := Parser.advance_prio p0 d _ hc0 hd.2
    (stopsAt_cons _ _ _ (by decide))
  obtain ⟨p2, h2, ht2, -, hc2⟩ := Parser.advance_dot p1 _ hc1
  have hterm : ∀ f, parse_term (f + 1) p0 =
      .ok (.PrioNode (Int.ofNat (decimalValue d)) (.ActionNode n), p2) := by
    intro f
    rw [parse_term]
    simp [ht0, h1, ht1, Parser.optPrio, hv1, stoi_digits d hd hv, h2, hv0]
  have hpos : Positioned p2 [(BinOp.dot, m)] := ⟨ht2, hc2⟩
  obtain ⟨p3, h3, hend⟩ := parse_expr_loop_chain [(BinOp.dot, m)]
    (.PrioNode (Int.ofNat (decimalValue d)) (.ActionNode n)) p2
    (2 * (n ++ "^" ++ d ++ "." ++ m).data.length + 1 + 1 + 1) hpos
    (by intro q hq; simp only [List.mem_singleton] at hq; subst hq; exact hm)
    (by simp)
  refine parse_of_expr _ p0 p3 _ (by rw [Parser.init_eq_advance]; exact h0) ?_ hend
  rw [parseFuel_eq, parse_expr, hterm]
  simp only
  rw [h3]
  rfl

/-- C9 (counterexample): `2147483648` is a non-empty digit string, yet parsing
`x^2147483648` does not return `Priority(2147483648, Action(x))`: `stoi` throws
`out_of_range`. -/
theorem parse_priority_out_of_range :
    IsIdent "x" ∧ IsDigits "2147483648" ∧ decimalValue "2147483648" = 2147483648 ∧
    parse "x^2147483648" = .error .out_of_range :=
  ⟨isIdent_of_data "x" 'x' [] rfl (by decide) (by simp), ⟨by decide, by decide⟩,
    by decide, rfl⟩

/-- C9 (amended): a priority marker binds to the immediately preceding term and carries
the decimal value of its digit string, provided that value fits an `int`. For every
identifier `n`, every identifier `m` and every non-empty digit string `d` whose decimal
value `v` is at most `INT_MAX = 2147483647`: `n^d` parses to `Priority(v, Action(n))`,
`n()` to `CallModule(n)`, `n()^d` to `Priority(v, CallModule(n))`, `[n]^d` to
`Priority(v, Action(n))` and `n^d.m` to `Sequence(Priority(v, Action(n)), Action(m))`. -/
theorem parse_priority (n m d : String) (hn : IsIdent n) (hm : IsIdent m) (hd : IsDigits d)
    (hv : decimalValue d ≤ INT_MAX) :
    parse (n ++ "^" ++ d) = .ok (.PrioNode (Int.ofNat (decimalValue d)) (.ActionNode n)) ∧
    parse (n ++ "()") = .ok (.CallModuleNode n) ∧
    parse (n ++ "()^" ++ d) =
      .ok (.PrioNode (Int.ofNat (decimalValue d)) (.CallModuleNode n)) ∧
    parse ("[" ++ n ++ "]^" ++ d) =
      .ok (.PrioNode (Int.ofNat (decimalValue d)) (.ActionNode n)) ∧
    parse (n ++ "^" ++ d ++ "." ++ m) =
      .ok (.SequenceNode [.PrioNode (Int.ofNat (decimalValue d)) (.ActionNode n),
        .ActionNode m]) :=
  ⟨parse_ident_prio n d hn hd hv, parse_call n hn, parse_call_prio n d hn hd hv,
    parse_group_prio n d hn hd hv, parse_prio_then_dot n d m hn hm hd hv⟩

theorem parse_priority_witness :
    (IsIdent "a" ∧ IsIdent "b" ∧ IsDigits "2" ∧ decimalValue "2" ≤ INT_MAX) ∧
    parse "a^2" = .ok (.PrioNode 2 (.ActionNode "a")) ∧
    parse "a()" = .ok (.CallModuleNode "a") ∧
    parse "a()^2" = .ok (.PrioNode 2 (.CallModuleNode "a")) ∧
    parse "[a]^2" = .ok (.PrioNode 2 (.ActionNode "a")) ∧
    parse "a^2.b" = .ok (.SequenceNode [.PrioNode 2 (.ActionNode "a"), .ActionNode "b"]) := by
  have ha : IsIdent "a" := isIdent_of_data "a" 'a' [] rfl (by decide) (by simp)
  have hb : IsIdent "b" := isIdent_of_data "b" 'b' [] rfl (by decide) (by simp)
  have hd : IsDigits "2" := ⟨by decide, by decide⟩
  have hv : decimalValue "2" ≤ INT_MAX := by decide
  exact ⟨⟨ha, hb, hd, hv⟩, parse_priority "a" "b" "2" ha hb hd hv⟩

/-- C10: of the five inputs of the self-test's invalid list, `a|b`, `.a`, `[a.b` and
`a^^2` fail to parse, but the bare identifier `modA` parses to `Action(modA)`. -/
theorem selftest_invalid_list :
    parse "a|b" = .error (.ParseError "Expected '||'" 1 2) ∧
    parse ".a" = .error (.ParseError "Expected term" 1 1) ∧
    parse "[a.b" = .error (.ParseError "Unexpected token" 1 5) ∧
    parse "a^^2" = .error .invalid_argument ∧
    parse "modA" = .ok (.ActionNode "modA") :=
  ⟨rfl, rfl, rfl, rfl, rfl⟩

theorem tokensFrom_lexes : ∀ (fuel : Nat) (tz : Tokenizer) (toks : List Token),
    tokensFrom fuel tz = .ok toks → Lexes tz toks := by
  intro fuel
  induction fuel with
  | zero => intro tz toks h; simp [tokensFrom] at h
  | succ fuel ih =>
    intro tz toks h
    rw [tokensFrom] at h
    cases hn : tz.next_token with
    | error e => simp [hn] at h
    | ok r =>
      obtain ⟨t, tz1⟩ := r
      simp only [hn] at h
      by_cases hend : t.type = END
      · simp only [hend, if_true, Except.ok.injEq] at h
        subst h
        exact Lexes.last tz tz1 t hn hend
      · simp only [hend, if_false] at h
        cases hr : tokensFrom fuel tz1 with
        | error e => simp [hr] at h
        | ok ts =>
          simp only [hr, Except.ok.injEq] at h
          subst h
          exact Lexes.more tz tz1 t ts hn hend (ih tz1 ts hr)

theorem Rem.init {input : List Char} {toks : List Token}
    (h : Lexes (Tokenizer.init input) toks) :
    ∃ p, Parser.init input = .ok p ∧ Rem p toks := by
  cases h with
  | last _ tz1 t hn hend =>
    refine ⟨⟨tz1, t⟩, ?_, [], rfl, Or.inl ⟨hend, rfl⟩⟩
    simp [Parser.init, hn]
  | more _ tz1 t ts hn hend hrest =>
    refine ⟨⟨tz1, t⟩, ?_, ts, rfl, Or.inr ⟨hend, hrest⟩⟩
    simp [Parser.init, hn]

/-- Advancing past a token that is not END moves to the rest of the sequence. -/
theorem Rem.advance {p : Parser} {t : Token} {ts : List Token} (h : Rem p (t :: ts))
    (hne : t.type ≠ END) : p.cur = t ∧ ∃ p1, p.advance = .ok p1 ∧ Rem p1 ts := by
  obtain ⟨ts1, heq, hcase⟩ := h
  obtain ⟨rfl, rfl⟩ := List.cons.inj heq
  refine ⟨rfl, ?_⟩
  rcases hcase with ⟨hend, -⟩ | ⟨-, hlex⟩
  · exact absurd hend hne
  · cases hlex with
    | last _ tz1 t1 hn hend1 =>
      exact ⟨⟨tz1, t1⟩, by simp [Parser.advance, hn], [], rfl, Or.inl ⟨hend1, rfl⟩⟩
    | more _ tz1 t1 ts2 hn hend1 hrest =>
      exact ⟨⟨tz1, t1⟩, by simp [Parser.advance, hn], ts2, rfl, Or.inr ⟨hend1, hrest⟩⟩

theorem Rem.cur {p : Parser} {t : Token} {ts : List Token} (h : Rem p (t :: ts)) :
    p.cur = t := by
  obtain ⟨ts1, heq, -⟩ := h
  exact (List.cons.inj heq).1.symm

theorem Rem.ne_nil {p : Parser} {toks : List Token} (h : Rem p toks) : toks ≠ [] := by
  obtain ⟨ts1, heq, -⟩ := h
  rw [heq]
  exact List.cons_ne_nil _ _

/-- The converse of `Rem.advance`: a successful `advance` from a token that is not END
has a rest to move to. -/
theorem Rem.of_advance {p p1 : Parser} {toks : List Token} (h : Rem p toks)
    (hne : p.cur.type ≠ END) (hadv : p.advance = .ok p1) :
    ∃ ts, toks = p.cur :: ts ∧ Rem p1 ts := by
  obtain ⟨ts, heq, hcase⟩ := h
  refine ⟨ts, heq, ?_⟩
  rcases hcase with ⟨hend, -⟩ | ⟨-, hlex⟩
  · exact absurd hend hne
  · cases hlex with
    | last _ tz1 t1 hn hend1 =>
      simp only [Parser.advance, hn, Except.ok.injEq] at hadv
      subst hadv
      exact ⟨[], rfl, Or.inl ⟨hend1, rfl⟩⟩
    | more _ tz1 t1 ts2 hn hend1 hrest =>
      simp only [Parser.advance, hn, Except.ok.injEq] at hadv
      subst hadv
      exact ⟨ts2, rfl, Or.inr ⟨hend1, hrest⟩⟩

theorem NoChoice.tail {t : Token} {ts : List Token} (h : NoChoice (t :: ts)) : NoChoice ts :=
  fun x hx => h x (List.mem_cons_of_mem _ hx)

theorem NoChoice.right {pre rest : List Token} (h : NoChoice (pre ++ rest)) : NoChoice rest :=
  fun x hx => h x (List.mem_append_right _ hx)

theorem Parser.optPrio_sound {p p1 : Parser} {node ast : AstNode} {toks : List Token}
    (h : p.optPrio node = .ok (ast, p1)) (hrem : Rem p toks) :
    (p.cur.type ≠ TokenType.PRIO ∧ p1 = p) ∨
    (p.cur.type = TokenType.PRIO ∧ ∃ ts, toks = p.cur :: ts ∧ Rem p1 ts) := by
  unfold Parser.optPrio at h
  by_cases hp : p.cur.type = TokenType.PRIO
  · right
    refine ⟨hp, ?_⟩
    simp only [hp, if_true] at h
    cases hs : stoi p.cur.value with
    | error e => simp [hs] at h
    | ok v =>
      simp only [hs] at h
      cases hadv : p.advance with
      | error e => simp [hadv] at h
      | ok p2 =>
        simp only [hadv, Except.ok.injEq, Prod.mk.injEq] at h
        obtain ⟨-, rfl⟩ := h
        exact Rem.of_advance hrem (by rw [hp]; decide) hadv
  · left
    simp only [hp, if_false, Except.ok.injEq, Prod.mk.injEq] at h
    exact ⟨hp, h.2.symm⟩

theorem parse_term_sound (fuel : Nat) (ih : SoundFor .expr (parse_expr fuel)) :
    SoundFor .term (parse_term (fuel + 1)) := by
  intro p p1 ast toks h hrem hnc
  rw [parse_term] at h
  by_cases hid : p.cur.type = ID
  · simp only [hid, if_true] at h
    cases hadv : p.advance with
    | error e => simp [hadv] at h
    | ok p2 =>
      simp only [hadv] at h
      obtain ⟨ts, rfl, hrem2⟩ := Rem.of_advance hrem (by rw [hid]; decide) hadv
      by_cases hlp : p2.cur.type = LPAREN
      · simp only [hlp, if_true] at h
        cases hadv2 : p2.advance with
        | error e => simp [hadv2] at h
        | ok p3 =>
          simp only [hadv2] at h
          obtain ⟨ts2, rfl, hrem3⟩ := Rem.of_advance hrem2 (by rw [hlp]; decide) hadv2
          by_cases hrp : p3.cur.type = RPAREN
          · simp only [Parser.expect, hrp, ne_eq, not_true_eq_false, if_false] at h
            cases hadv3 : p3.advance with
            | error e => simp [hadv3] at h
            | ok p4 =>
              simp only [hadv3] at h
              obtain ⟨ts3, rfl, hrem4⟩ := Rem.of_advance hrem3 (by rw [hrp]; decide) hadv3
              rcases Parser.optPrio_sound h hrem4 with ⟨-, rfl⟩ | ⟨hq, ts4, rfl, hrem5⟩
              · exact ⟨[p.cur, p2.cur, p3.cur], ts3, rfl,
                  Derives.call _ _ _ hid hlp hrp, hrem4⟩
              · exact ⟨[p.cur, p2.cur, p3.cur, p4.cur], ts4, rfl,
                  Derives.callPrio _ _ _ _ hid hlp hrp hq, hrem5⟩
          · simp [Parser.expect, hrp] at h
      · simp only [hlp, if_false] at h
        rcases Parser.optPrio_sound h hrem2 with ⟨-, rfl⟩ | ⟨hq, ts4, rfl, hrem5⟩
        · exact ⟨[p.cur], ts, rfl, Derives.ident _ hid, hrem2⟩
        · exact ⟨[p.cur, p2.cur], ts4, rfl, Derives.identPrio _ _ hid hq, hrem5⟩
  · simp only [hid, if_false] at h
    by_cases hlb : p.cur.type = LBRACK
    · simp only [hlb, if_true] at h
      cases hadv : p.advance with
      | error e => simp [hadv] at h
      | ok p2 =>
        simp only [hadv] at h
        obtain ⟨ts, rfl, hrem2⟩ := Rem.of_advance hrem (by rw [hlb]; decide) hadv
        cases he : parse_expr fuel p2 with
        | error e => simp [he] at h
        | ok r =>
          obtain ⟨node, p3⟩ := r
          simp only [he] at h
          obtain ⟨pre, rest, rfl, hder, hrem3⟩ := ih p2 p3 node ts he hrem2 hnc.tail
          by_cases hrb : p3.cur.type = RBRACK
          · simp only [Parser.expect, hrb, ne_eq, not_true_eq_false, if_false] at h
            cases hadv3 : p3.advance with
            | error e => simp [hadv3] at h
            | ok p4 =>
              simp only [hadv3] at h
              obtain ⟨ts3, rfl, hrem4⟩ := Rem.of_advance hrem3 (by rw [hrb]; decide) hadv3
              rcases Parser.optPrio_sound h hrem4 with ⟨-, rfl⟩ | ⟨hq, ts4, rfl, hrem5⟩
              · exact ⟨p.cur :: pre ++ [p3.cur], ts3, by simp,
                  Derives.group _ _ _ hlb hder hrb, hrem4⟩
              · exact ⟨p.cur :: pre ++ [p3.cur, p4.cur], ts4, by simp,
                  Derives.groupPrio _ _ _ _ hlb hder hrb hq, hrem5⟩
          · simp [Parser.expect, hrb] at h
    · simp [hlb] at h

theorem parse_expr_loop_sound (fuel : Nat) (iht : SoundFor .term (parse_term fuel))
    (ihl : ∀ left, SoundFor .tail (parse_expr_loop fuel left)) :
    ∀ left, SoundFor .tail (parse_expr_loop (fuel + 1) left) := by
  intro left p p1 ast toks h hrem hnc
  rw [parse_expr_loop] at h
  by_cases hop : p.cur.type = DOT ∨ p.cur.type = PARALLEL ∨ p.cur.type = CHOICE
  · simp only [hop, if_true] at h
    have hcur : p.cur ∈ toks := by
      obtain ⟨ts, rfl, -⟩ := hrem
      simp
    have hop2 : p.cur.type = DOT ∨ p.cur.type = PARALLEL := by
      rcases hop with h1 | h1 | h1
      · exact Or.inl h1
      · exact Or.inr h1
      · exact absurd h1 (hnc _ hcur)
    cases hadv : p.advance with
    | error e => simp [hadv] at h
    | ok p2 =>
      simp only [hadv] at h
      obtain ⟨ts, rfl, hrem2⟩ := Rem.of_advance hrem
        (by rcases hop2 with h1 | h1 <;> rw [h1] <;> decide) hadv
      cases ht : parse_term fuel p2 with
      | error e => simp [ht] at h
      | ok r =>
        obtain ⟨right, p3⟩ := r
        simp only [ht] at h
        obtain ⟨pre, rest, rfl, hder, hrem3⟩ := iht p2 p3 right ts ht hrem2 hnc.tail
        obtain ⟨pre2, rest2, rfl, hder2, hrem4⟩ :=
          ihl _ p3 p1 ast rest h hrem3 hnc.tail.right
        exact ⟨p.cur :: pre ++ pre2, rest2, by simp,
          Derives.tailCons _ _ _ hop2 hder hder2, hrem4⟩
  · simp only [hop, if_false, Except.ok.injEq, Prod.mk.injEq] at h
    obtain ⟨-, rfl⟩ := h
    exact ⟨[], toks, rfl, Derives.tailNil, hrem⟩

theorem parse_expr_sound (fuel : Nat) (iht : SoundFor .term (parse_term fuel))
    (ihl : ∀ left, SoundFor .tail (parse_expr_loop fuel left)) :
    SoundFor .expr (parse_expr (fuel + 1)) := by
  intro p p1 ast toks h hrem hnc
  rw [parse_expr] at h
  cases ht : parse_term fuel p with
  | error e => simp [ht] at h
  | ok r =>
    obtain ⟨left, p2⟩ := r
    simp only [ht] at h
    obtain ⟨pre, rest, rfl, hder, hrem2⟩ := iht p p2 left toks ht hrem hnc
    obtain ⟨pre2, rest2, rfl, hder2, hrem3⟩ := ihl left p2 p1 ast rest h hrem2 hnc.right
    exact ⟨pre ++ pre2, rest2, by simp, Derives.expr _ _ hder hder2, hrem3⟩

/-- Soundness of the three parsing functions at every recursion bound. -/
theorem parser_sound : ∀ fuel : Nat,
    SoundFor .term (parse_term fuel) ∧ SoundFor .expr (parse_expr fuel) ∧
      ∀ left, SoundFor .tail (parse_expr_loop fuel left) := by
  intro fuel
  induction fuel with
  | zero =>
    refine ⟨?_, ?_, ?_⟩
    · intro p p1 ast toks h; simp [parse_term] at h
    · intro p p1 ast toks h; simp [parse_expr] at h
    · intro left p p1 ast toks h; simp [parse_expr_loop] at h
  | succ fuel ih =>
    exact ⟨parse_term_sound fuel ih.2.1, parse_expr_sound fuel ih.1 ih.2.2,
      parse_expr_loop_sound fuel ih.1 ih.2.2⟩

theorem EndsExpr.endsTerm {rest : List Token} (h : EndsExpr rest) : EndsTerm rest := by
  obtain ⟨t, ts, rfl, h1, h2, -⟩ := h
  exact ⟨t, ts, rfl, h1, h2⟩

theorem Derives.tail_endsTerm {r rest : List Token} (h : Derives .tail r)
    (hrest : EndsExpr rest) : EndsTerm (r ++ rest) := by
  cases h with
  | tailNil => exact hrest.endsTerm
  | tailCons op t r2 hop _ _ =>
    refine ⟨op, t ++ r2 ++ rest, by simp, ?_, ?_⟩
    · rcases hop with h | h <;> rw [h] <;> decide
    · rcases hop with h | h <;> rw [h] <;> decide

/-- The parser's `optPrio` in front of a token that ends a term. -/
theorem Parser.optPrio_end {p : Parser} {rest : List Token} (node : AstNode)
    (hrem : Rem p rest) (hend : EndsTerm rest) : p.optPrio node = .ok (node, p) := by
  obtain ⟨t, ts, rfl, -, h2⟩ := hend
  have := Rem.cur hrem
  exact Parser.optPrio_none p node (by rw [this]; exact h2)

/-- The parser's `optPrio` in front of a valid priority marker. -/
theorem Parser.optPrio_valid {p : Parser} {q : Token} {rest : List Token} (node : AstNode)
    (hrem : Rem p (q :: rest)) (hq : q.type = TokenType.PRIO) (hv : ValidPrio q) :
    ∃ ast p1, p.optPrio node = .ok (ast, p1) ∧ Rem p1 rest := by
  obtain ⟨hcur, p1, hadv, hrem1⟩ := Rem.advance hrem (by rw [hq]; decide)
  obtain ⟨hd, hval⟩ := hv hq
  have hs : stoi p.cur.value = .ok (Int.ofNat (decimalValue q.value)) := by
    rw [hcur]
    exact stoi_digits q.value hd hval
  exact ⟨.PrioNode (Int.ofNat (decimalValue q.value)) node, p1,
    Parser.optPrio_some p p1 node _ (by rw [hcur]; exact hq) hs hadv, hrem1⟩

theorem derives_accepts {nt : NT} {pre : List Token} (h : Derives nt pre) : Accepts nt pre := by
  induction h with
  | ident i hi =>
    intro fuel p rest hfuel hrem _ hend
    obtain ⟨f, rfl⟩ : ∃ f, fuel = f + 1 := ⟨fuel - 1, by omega⟩
    replace hrem : Rem p (i :: rest) := hrem
    obtain ⟨hcur, p1, hadv, hrem1⟩ := Rem.advance hrem (by rw [hi]; decide)
    obtain ⟨t, ts, rfl, h1, h2⟩ := hend
    have hc1 := Rem.cur hrem1
    exact ⟨.ActionNode p.cur.value, p1,
      parse_term_action f p p1 (by rw [hcur]; exact hi) hadv (by rw [hc1]; exact h1)
        (by rw [hc1]; exact h2), hrem1⟩
  | identPrio i q hi hq =>
    intro fuel p rest hfuel hrem hvalid _
    obtain ⟨f, rfl⟩ : ∃ f, fuel = f + 1 := ⟨fuel - 1, by omega⟩
    replace hrem : Rem p (i :: q :: rest) := hrem
    obtain ⟨hcur, p1, hadv, hrem1⟩ := Rem.advance hrem (by rw [hi]; decide)
    obtain ⟨ast, p2, hopt, hrem2⟩ := Parser.optPrio_valid (.ActionNode p.cur.value) hrem1 hq
      (hvalid q (by simp))
    refine ⟨ast, p2, ?_, hrem2⟩
    rw [parse_term]
    have hc1 := Rem.cur hrem1
    simp [hcur, hi, hadv, hc1, hq]
    rw [← hcur]
    exact hopt
  | call i l r hi hl hr =>
    intro fuel p rest hfuel hrem _ hend
    obtain ⟨f, rfl⟩ : ∃ f, fuel = f + 1 := ⟨fuel - 1, by omega⟩
    replace hrem : Rem p (i :: l :: r :: rest) := hrem
    obtain ⟨hcur, p1, hadv, hrem1⟩ := Rem.advance hrem (by rw [hi]; decide)
    obtain ⟨hcur1, p2, hadv1, hrem2⟩ := Rem.advance hrem1 (by rw [hl]; decide)
    obtain ⟨hcur2, p3, hadv2, hrem3⟩ := Rem.advance hrem2 (by rw [hr]; decide)
    refine ⟨.CallModuleNode p.cur.value, p3, ?_, hrem3⟩
    rw [parse_term]
    simp [hcur, hi, hadv, hcur1, hl, hadv1, Parser.expect, hcur2, hr, hadv2]
    rw [← hcur]
    exact Parser.optPrio_end _ hrem3 hend
  | callPrio i l r q hi hl hr hq =>
    intro fuel p rest hfuel hrem hvalid _
    obtain ⟨f, rfl⟩ : ∃ f, fuel = f + 1 := ⟨fuel - 1, by omega⟩
    replace hrem : Rem p (i :: l :: r :: q :: rest) := hrem
    obtain ⟨hcur, p1, hadv, hrem1⟩ := Rem.advance hrem (by rw [hi]; decide)
    obtain ⟨hcur1, p2, hadv1, hrem2⟩ := Rem.advance hrem1 (by rw [hl]; decide)
    obtain ⟨hcur2, p3, hadv2, hrem3⟩ := Rem.advance hrem2 (by rw [hr]; decide)
    obtain ⟨ast, p4, hopt, hrem4⟩ := Parser.optPrio_valid (.CallModuleNode p.cur.value) hrem3
      hq (hvalid q (by simp))
    refine ⟨ast, p4, ?_, hrem4⟩
    rw [parse_term]
    simp [hcur, hi, hadv, hcur1, hl, hadv1, Parser.expect, hcur2, hr, hadv2]
    rw [← hcur]
    exact hopt
  | group l r e hl _ hr ih =>
    intro fuel p rest hfuel hrem hvalid hend
    obtain ⟨f, rfl⟩ : ∃ f, fuel = f + 1 := ⟨fuel - 1, by omega⟩
    have hsplit : (l :: e ++ [r]) ++ rest = l :: (e ++ (r :: rest)) := by simp
    rw [hsplit] at hrem
    obtain ⟨hcur, p1, hadv, hrem1⟩ := Rem.advance hrem (by rw [hl]; decide)
    obtain ⟨node, p2, hexpr, hrem2⟩ := ih f p1 (r :: rest)
      (by simp only [List.length_cons, List.length_append, List.length_nil] at hfuel; omega)
      hrem1 (fun t ht => hvalid t (by simp [ht]))
      ⟨r, rest, rfl, by rw [hr]; decide, by rw [hr]; decide, by rw [hr]; decide,
        by rw [hr]; decide, by rw [hr]; decide⟩
    obtain ⟨hcur2, p3, hadv2, hrem3⟩ := Rem.advance hrem2 (by rw [hr]; decide)
    refine ⟨node, p3, ?_, hrem3⟩
    rw [parse_term]
    simp [hcur, hl, hadv, hexpr, Parser.expect, hcur2, hr, hadv2]
    exact Parser.optPrio_end _ hrem3 hend
  | groupPrio l r q e hl _ hr hq ih =>
    intro fuel p rest hfuel hrem hvalid _
    obtain ⟨f, rfl⟩ : ∃ f, fuel = f + 1 := ⟨fuel - 1, by omega⟩
    have hsplit : (l :: e ++ [r, q]) ++ rest = l :: (e ++ (r :: q :: rest)) := by simp
    rw [hsplit] at hrem
    obtain ⟨hcur, p1, hadv, hrem1⟩ := Rem.advance hrem (by rw [hl]; decide)
    obtain ⟨node, p2, hexpr, hrem2⟩ := ih f p1 (r :: q :: rest)
      (by simp only [List.length_cons, List.length_append, List.length_nil] at hfuel; omega)
      hrem1 (fun t ht => hvalid t (by simp [ht]))
      ⟨r, q :: rest, rfl, by rw [hr]; decide, by rw [hr]; decide, by rw [hr]; decide,
        by rw [hr]; decide, by rw [hr]; decide⟩
    obtain ⟨hcur2, p3, hadv2, hrem3⟩ := Rem.advance hrem2 (by rw [hr]; decide)
    obtain ⟨ast, p4, hopt, hrem4⟩ := Parser.optPrio_valid node hrem3 hq (hvalid q (by simp))
    refine ⟨ast, p4, ?_, hrem4⟩
    rw [parse_term]
    simp [hcur, hl, hadv, hexpr, Parser.expect, hcur2, hr, hadv2]
    exact hopt
  | expr t r _ hr iht ihr =>
    intro fuel p rest hfuel hrem hvalid hend
    obtain ⟨f, rfl⟩ : ∃ f, fuel = f + 1 := ⟨fuel - 1, by omega⟩
    rw [List.append_assoc] at hrem
    simp only [List.length_append] at hfuel
    obtain ⟨left, p1, hterm, hrem1⟩ := iht f p (r ++ rest) (by omega) hrem
      (fun x hx => hvalid x (by simp [hx])) (hr.tail_endsTerm hend)
    obtain ⟨ast, p2, hloop, hrem2⟩ := ihr f p1 rest left (by omega) hrem1
      (fun x hx => hvalid x (by simp [hx])) hend
    refine ⟨ast, p2, ?_, hrem2⟩
    rw [parse_expr, hterm]
    exact hloop
  | tailNil =>
    intro fuel p rest left hfuel hrem _ hend
    obtain ⟨f, rfl⟩ : ∃ f, fuel = f + 1 := ⟨fuel - 1, by omega⟩
    refine ⟨left, p, ?_, hrem⟩
    obtain ⟨t, ts, rfl, -, -, h3, h4, h5⟩ := hend
    have hcur := Rem.cur hrem
    rw [parse_expr_loop]
    simp [hcur, h3, h4, h5]
  | tailCons op t r hop _ hr iht ihr =>
    intro fuel p rest left hfuel hrem hvalid hend
    obtain ⟨f, rfl⟩ : ∃ f, fuel = f + 1 := ⟨fuel - 1, by omega⟩
    have hsplit : (op :: t ++ r) ++ rest = op :: (t ++ (r ++ rest)) := by simp
    rw [hsplit] at hrem
    simp only [List.length_cons, List.length_append] at hfuel
    obtain ⟨hcur, p1, hadv, hrem1⟩ := Rem.advance hrem
      (by rcases hop with h | h <;> rw [h] <;> decide)
    obtain ⟨right, p2, hterm, hrem2⟩ := iht f p1 (r ++ rest) (by omega) hrem1
      (fun x hx => hvalid x (by simp [hx])) (hr.tail_endsTerm hend)
    obtain ⟨ast, p3, hloop, hrem3⟩ := ihr f p2 rest (combine p.cur.type left right)
      (by omega) hrem2 (fun x hx => hvalid x (by simp [hx])) hend
    refine ⟨ast, p3, ?_, hrem3⟩
    rw [parse_expr_loop]
    have hop2 : p.cur.type = DOT ∨ p.cur.type = PARALLEL ∨ p.cur.type = CHOICE := by
      rw [hcur]
      rcases hop with h | h
      · exact Or.inl h
      · exact Or.inr (Or.inl h)
    simp only [hop2, if_true, hadv, hterm]
    exact hloop

theorem Tokenizer.scanWhile_length (q : Char → Bool) :
    ∀ (chars : List Char) (line col : Nat) (acc : String),
      (Tokenizer.scanWhile q chars line col acc).2.chars.length ≤ chars.length := by
  intro chars
  induction chars with
  | nil => intro line col acc; simp [Tokenizer.scanWhile]
  | cons c cs ih =>
    intro line col acc
    rw [Tokenizer.scanWhile]
    split
    · exact Nat.le_succ_of_le (ih _ _ _)
    · simp

theorem Tokenizer.scanWhile_length_lt (q : Char → Bool) (c : Char) (cs : List Char)
    (hc : q c = true) (line col : Nat) (acc : String) :
    (Tokenizer.scanWhile q (c :: cs) line col acc).2.chars.length ≤ cs.length := by
  rw [Tokenizer.scanWhile]
  simp only [hc, if_true]
  exact Tokenizer.scanWhile_length q cs _ _ _

/-- Every token consumes input, except END, which consumes at most blanks: the rest of
the stream never grows and shrinks strictly for a token other than END. The tokenizer
never makes a CHOICE token. -/
theorem Tokenizer.next_token_consumes {tz tz1 : Tokenizer} {t : Token}
    (h : tz.next_token = .ok (t, tz1)) :
    tz1.chars.length ≤ tz.chars.length ∧
      (t.type ≠ END → tz1.chars.length < tz.chars.length) ∧ t.type ≠ CHOICE := by
  unfold Tokenizer.next_token at h
  have hsp := Tokenizer.scanWhile_length isspace tz.chars tz.line tz.col ""
  generalize (Tokenizer.scanWhile isspace tz.chars tz.line tz.col "").2 = tzs at h hsp
  obtain ⟨chars, l, c⟩ := tzs
  simp only at h hsp
  cases chars with
  | nil =>
    simp only [Except.ok.injEq, Prod.mk.injEq] at h
    obtain ⟨rfl, rfl⟩ := h
    exact ⟨hsp, fun hne => absurd rfl hne, by simp⟩
  | cons x xs =>
    simp only [List.length_cons] at hsp
    simp only at h
    split at h
    · rename_i halpha
      simp only [Except.ok.injEq, Prod.mk.injEq] at h
      obtain ⟨rfl, rfl⟩ := h
      have := Tokenizer.scanWhile_length_lt isIdChar x xs (isalpha_isIdChar halpha) l c ""
      exact ⟨by omega, fun _ => by omega, by simp⟩
    · have hnext : (Tokenizer.next ⟨x :: xs, l, c⟩).chars = xs := Tokenizer.next_chars _
      split at h
      · simp only [Except.ok.injEq, Prod.mk.injEq] at h
        obtain ⟨rfl, rfl⟩ := h
        rw [hnext]
        exact ⟨by omega, fun _ => by omega, by simp⟩
      · split at h
        · split at h
          · rename_i rest heq
            simp only [Except.ok.injEq, Prod.mk.injEq] at h
            obtain ⟨rfl, rfl⟩ := h
            rw [Tokenizer.next_chars, heq]
            rw [hnext] at heq
            subst heq
            simp only [List.tail_cons, List.length_cons] at hsp ⊢
            exact ⟨by omega, fun _ => by omega, by simp⟩
          · cases h
        · split at h
          · simp only [Except.ok.injEq, Prod.mk.injEq] at h
            obtain ⟨rfl, rfl⟩ := h
            rw [hnext]
            exact ⟨by omega, fun _ => by omega, by simp⟩
          · split at h
            · simp only [Except.ok.injEq, Prod.mk.injEq] at h
              obtain ⟨rfl, rfl⟩ := h
              rw [hnext]
              exact ⟨by omega, fun _ => by omega, by simp⟩
            · split at h
              · simp only [Except.ok.injEq, Prod.mk.injEq] at h
                obtain ⟨rfl, rfl⟩ := h
                have := Tokenizer.scanWhile_length isdigit
                  (Tokenizer.next ⟨x :: xs, l, c⟩).chars
                  (Tokenizer.next ⟨x :: xs, l, c⟩).line
                  (Tokenizer.next ⟨x :: xs, l, c⟩).col ""
                have hlen : (Tokenizer.next ⟨x :: xs, l, c⟩).chars.length = xs.length := by
                  rw [hnext]
                exact ⟨by omega, fun _ => by omega, by simp⟩
              · split at h
                · simp only [Except.ok.injEq, Prod.mk.injEq] at h
                  obtain ⟨rfl, rfl⟩ := h
                  rw [hnext]
                  exact ⟨by omega, fun _ => by omega, by simp⟩
                · split at h
                  · simp only [Except.ok.injEq, Prod.mk.injEq] at h
                    obtain ⟨rfl, rfl⟩ := h
                    rw [hnext]
                    exact ⟨by omega, fun _ => by omega, by simp⟩
                  · cases h

theorem Lexes.length_le {tz : Tokenizer} {toks : List Token} (h : Lexes tz toks) :
    toks.length ≤ tz.chars.length + 1 := by
  induction h with
  | last tz tz1 t hn hend => simp
  | more tz tz1 t ts hn hend _ ih =>
    have := (Tokenizer.next_token_consumes hn).2.1 hend
    simp only [List.length_cons]
    omega

theorem Lexes.noChoice {tz : Tokenizer} {toks : List Token} (h : Lexes tz toks) :
    NoChoice toks := by
  induction h with
  | last tz tz1 t hn hend =>
    intro x hx
    simp only [List.mem_singleton] at hx
    subst hx
    exact (Tokenizer.next_token_consumes hn).2.2
  | more tz tz1 t ts hn hend _ ih =>
    intro x hx
    rcases List.mem_cons.mp hx with rfl | hx
    · exact (Tokenizer.next_token_consumes hn).2.2
    · exact ih x hx

/-- C7: the parser accepts exactly the language of the EBNF. For every input text that
tokenizes without a lexical error into `toks`, and in which every priority marker
carries a non-empty digit string whose value fits a 32-bit signed int, `parse` succeeds
if and only if `toks` is a sequence derivable from
`expr ::= term (('.' | '||') term)*`,
`term ::= IDENT ['(' ')'] ['^' DIGITS] | '[' expr ']' ['^' DIGITS]`
followed by the END token. -/
theorem parse_accepts_grammar (input : String) (toks : List Token)
    (htok : tokenize input.data = .ok toks) (hprio : ∀ t ∈ toks, ValidPrio t) :
    (∃ ast, parse input = .ok ast) ↔
      ∃ body e, toks = body ++ [e] ∧ e.type = END ∧ Derives .expr body := by
  have hlex : Lexes (Tokenizer.init input.data) toks := tokensFrom_lexes _ _ _ htok
  obtain ⟨p0, hinit, hrem0⟩ := Rem.init hlex
  constructor
  · rintro ⟨ast, h⟩
    unfold parse at h
    rw [hinit] at h
    simp only at h
    cases he : parse_expr (parseFuel input.data) p0 with
    | error e => simp [he] at h
    | ok r =>
      obtain ⟨ast1, p1⟩ := r
      simp only [he] at h
      by_cases hend : p1.cur.type = END
      · obtain ⟨pre, rest, rfl, hder, hrem1⟩ :=
          (parser_sound (parseFuel input.data)).2.1 p0 p1 ast1 toks he hrem0 hlex.noChoice
        obtain ⟨ts, rfl, hcase⟩ := hrem1
        rcases hcase with ⟨-, rfl⟩ | ⟨hne, -⟩
        · exact ⟨pre, p1.cur, rfl, hend, hder⟩
        · exact absurd hend hne
      · simp [hend] at h
  · rintro ⟨body, e, rfl, hend, hder⟩
    have hlen := hlex.length_le
    simp only [Tokenizer.init, Tokenizer.read_chars, List.length_append, List.length_cons,
      List.length_nil] at hlen
    obtain ⟨ast, p1, he, hrem1⟩ := derives_accepts hder (parseFuel input.data) p0 [e]
      (by simp only [parseFuel]; omega) hrem0
      (fun t ht => hprio t (List.mem_append_left _ ht))
      ⟨e, [], rfl, by rw [hend]; decide, by rw [hend]; decide, by rw [hend]; decide,
        by rw [hend]; decide, by rw [hend]; decide⟩
    refine ⟨ast, ?_⟩
    have hcur : p1.cur = e := Rem.cur hrem1
    unfold parse
    rw [hinit]
    simp only
    rw [he]
    simp [hcur, hend]

theorem parse_accepts_grammar_witness :
    (tokenize "[a||b]^3".data = .ok groupTokens ∧ ∀ t ∈ groupTokens, ValidPrio t) ∧
    ((∃ ast, parse "[a||b]^3" = .ok ast) ↔
      ∃ body e, groupTokens = body ++ [e] ∧ e.type = END ∧ Derives .expr body) ∧
    parse ".a" = .error (.ParseError "Expected term" 1 1) ∧
    parse "[a.b" = .error (.ParseError "Unexpected token" 1 5) ∧
    parse "a b" = .error (.ParseError "Extra input" 1 4) ∧
    parse "a]" = .error (.ParseError "Extra input" 1 2) ∧
    parse "a^1^2" = .error (.ParseError "Extra input" 1 4) ∧
    parse "a.b.c" = .ok (.SequenceNode
      [.SequenceNode [.ActionNode "a", .ActionNode "b"], .ActionNode "c"]) ∧
    parse "a||b" = .ok (.ParallelNode (.ActionNode "a") (.ActionNode "b")) ∧
    parse "[a||b]" = .ok (.ParallelNode (.ActionNode "a") (.ActionNode "b")) ∧
    parse "x^5" = .ok (.PrioNode 5 (.ActionNode "x")) ∧
    parse "modA()" = .ok (.CallModuleNode "modA") := by
  have hvalid : ∀ t ∈ groupTokens, ValidPrio t := by
    intro t ht hp
    simp only [groupTokens, List.mem_cons, List.mem_singleton, List.not_mem_nil,
      or_false] at ht
    rcases ht with rfl | rfl | rfl | rfl | rfl | rfl | rfl
    · cases hp
    · cases hp
    · cases hp
    · cases hp
    · cases hp
    · exact ⟨⟨by decide, by decide⟩, by decide⟩
    · cases hp
  exact ⟨⟨rfl, hvalid⟩, parse_accepts_grammar "[a||b]^3" groupTokens rfl hvalid,
    rfl, rfl, rfl, rfl, rfl, rfl, rfl, rfl, rfl, rfl⟩

theorem digitChar_lt_ten (m : Nat) (h : m < 10) :
    isdigit (Nat.digitChar m) = true ∧ (Nat.digitChar m).toNat - 48 = m := by
  interval_cases m <;> exact ⟨by decide, by decide⟩

/-- The digits `Nat.toDigitsCore` puts in front of its accumulator are decimal digits
whose value is the number. -/
theorem toDigitsCore_spec : ∀ (fuel n : Nat) (ds : List Char), n < fuel →
    ∃ xs, Nat.toDigitsCore 10 fuel n ds = xs ++ ds ∧ (∀ c ∈ xs, isdigit c = true) ∧
      digitsValue xs = n := by
  intro fuel
  induction fuel with
  | zero => intro n ds h; omega
  | succ fuel ih =>
    intro n ds h
    obtain ⟨hd, hv⟩ := digitChar_lt_ten (n % 10) (Nat.mod_lt _ (by decide))
    rw [Nat.toDigitsCore]
    by_cases h0 : n / 10 = 0
    · refine ⟨[Nat.digitChar (n % 10)], by simp [h0], ?_, ?_⟩
      · intro c hc
        simp only [List.mem_singleton] at hc
        subst hc
        exact hd
      · simp only [digitsValue, List.foldl_cons, List.foldl_nil, Nat.zero_mul, Nat.zero_add]
        rw [hv]
        omega
    · obtain ⟨xs, hxs, hall, hval⟩ := ih (n / 10) (Nat.digitChar (n % 10) :: ds) (by omega)
      refine ⟨xs ++ [Nat.digitChar (n % 10)], by simp [h0, hxs], ?_, ?_⟩
      · intro c hc
        rcases List.mem_append.mp hc with hc | hc
        · exact hall c hc
        · simp only [List.mem_singleton] at hc
          subst hc
          exact hd
      · rw [digitsValue_append, hval, hv]
        omega

/-- The decimal numeral of `k`: digits only, of value `k`. -/
theorem toString_nat_spec (k : Nat) :
    (∀ c ∈ (toString k).data, isdigit c = true) ∧ digitsValue (toString k).data = k := by
  obtain ⟨xs, hxs, hall, hval⟩ := toDigitsCore_spec (k + 1) k [] (by omega)
  have hdata : (toString k).data = xs := by
    show (Nat.repr k).data = xs
    simp only [Nat.repr, Nat.toDigits, List.asString, hxs, List.append_nil]
  rw [hdata]
  exact ⟨hall, hval⟩

theorem takeWhile_digits_append (xs : List Char) (c : Char) (rest : List Char)
    (hall : ∀ d ∈ xs, isdigit d = true) (hc : isdigit c = false) :
    (xs ++ c :: rest).takeWhile isdigit = xs := by
  induction xs with
  | nil => simp [List.takeWhile, hc]
  | cons x xs ih =>
    have hx : isdigit x = true := hall x (by simp)
    simp only [List.cons_append, List.takeWhile_cons, hx, if_true]
    rw [ih (fun d hd => hall d (by simp [hd]))]

theorem idBases_last (b : String) (hb : b ∈ idBases) :
    ∃ c init, b.data.reverse = c :: init ∧ isdigit c = false := by
  simp only [idBases, List.mem_cons, List.mem_singleton, List.not_mem_nil, or_false] at hb
  rcases hb with rfl | rfl | rfl | rfl | rfl | rfl
  · exact ⟨'y', ['r', 't', 'n', 'e'], rfl, by decide⟩
  · exact ⟨'t', ['i', 'x', 'e'], rfl, by decide⟩
  · exact ⟨'P', [], rfl, by decide⟩
  · exact ⟨'T', [], rfl, by decide⟩
  · exact ⟨'l', ['l', 'a', 'c', '_', 'T'], rfl, by decide⟩
  · exact ⟨'t', ['e', 'r', '_', 'T'], rfl, by decide⟩

/-- The counter value can be read back from a generated id: the digits after the last
character that is no digit. -/
theorem fresh_id_number (b : String) (hb : b ∈ idBases) (k : Nat) :
    digitsValue (((b ++ toString k).data.reverse.takeWhile isdigit).reverse) = k := by
  obtain ⟨c, init, hrev, hc⟩ := idBases_last b hb
  obtain ⟨hall, hval⟩ := toString_nat_spec k
  have h1 : (b ++ toString k).data.reverse = (toString k).data.reverse ++ c :: init := by
    rw [String.data_append, List.reverse_append, hrev]
  rw [h1, takeWhile_digits_append _ c init (fun d hd => hall d (List.mem_reverse.mp hd)) hc,
    List.reverse_reverse, hval]

/-- Ids made from different counter values differ, whatever the prefixes. -/
theorem fresh_id_injective {b1 b2 : String} (h1 : b1 ∈ idBases) (h2 : b2 ∈ idBases)
    {k1 k2 : Nat} (h : b1 ++ toString k1 = b2 ++ toString k2) : k1 = k2 := by
  have e1 := fresh_id_number b1 h1 k1
  have e2 := fresh_id_number b2 h2 k2
  rw [h] at e1
  exact e1.symm.trans e2

theorem FreshIn.mono {lo hi lo1 hi1 : Nat} {x : String} (h : FreshIn lo hi x)
    (hlo : lo1 ≤ lo) (hhi : hi ≤ hi1) : FreshIn lo1 hi1 x := by
  obtain ⟨b, k, hb, h1, h2, rfl⟩ := h
  exact ⟨b, k, hb, by omega, by omega, rfl⟩

/-- An id made below `mid` is not an id made at or above `mid`. -/
theorem FreshIn.ne {lo mid hi : Nat} {x y : String} (hx : FreshIn lo mid x)
    (hy : FreshIn mid hi y) : x ≠ y := by
  obtain ⟨b1, k1, hb1, -, hk1, rfl⟩ := hx
  obtain ⟨b2, k2, hb2, hk2, -, rfl⟩ := hy
  intro h
  have := fresh_id_injective hb1 hb2 h
  omega

theorem FreshIn.of_fresh {cg cg1 : CodegenVisitor} {base x : String}
    (h : fresh cg base = .ok (x, cg1)) (hb : base ∈ idBases) :
    FreshIn cg.counter cg1.counter x := by
  obtain ⟨rfl, rfl, -⟩ := fresh_ok h
  exact ⟨base, cg.counter, hb, Nat.le_refl _, Nat.lt_succ_self _, rfl⟩

theorem freshIds_spec (bs : List String) (hbs : ∀ b ∈ bs, b ∈ idBases) :
    ∀ c : Nat, (freshIds bs c).Nodup ∧ ∀ x ∈ freshIds bs c, FreshIn c (c + bs.length) x := by
  induction bs with
  | nil => intro c; simp [freshIds]
  | cons b bs ih =>
    intro c
    obtain ⟨hnd, hr⟩ := ih (fun x hx => hbs x (by simp [hx])) (c + 1)
    have hb : b ∈ idBases := hbs b (by simp)
    have hfirst : FreshIn c (c + 1) (b ++ toString c) :=
      ⟨b, c, hb, Nat.le_refl _, Nat.lt_succ_self _, rfl⟩
    constructor
    · rw [freshIds, List.nodup_cons]
      refine ⟨?_, hnd⟩
      intro hmem
      exact FreshIn.ne hfirst (hr _ hmem) rfl
    · intro x hx
      rw [freshIds, List.mem_cons] at hx
      rcases hx with rfl | hx
      · exact hfirst.mono (Nat.le_refl _) (by simp only [List.length_cons]; omega)
      · exact (hr x hx).mono (by omega) (by simp only [List.length_cons]; omega)

/-- Appending places and transitions whose ids were just made by `fresh` keeps the ids
well formed. -/
theorem IdsOK.grow {lo c hi : Nat} {m m1 : PetriModule} (h : IdsOK lo c m)
    (ps : List Place) (ts : List Transition)
    (hps : m1.places = m.places ++ ps) (hts : m1.transitions = m.transitions ++ ts)
    (hnd : (ps.map (fun p => p.id) ++ ts.map (fun t => t.id)).Nodup)
    (hnew : ∀ x ∈ ps.map (fun p => p.id) ++ ts.map (fun t => t.id), FreshIn c hi x)
    (hle : c ≤ hi) : IdsOK lo hi m1 := by
  have hold : ∀ x ∈ nodeIds m, ∀ y ∈ ps.map (fun p => p.id) ++ ts.map (fun t => t.id),
      x ≠ y := fun x hx y hy => FreshIn.ne (h.range x hx) (hnew y hy)
  have hP : placeIds m1 = placeIds m ++ ps.map (fun p => p.id) := by
    simp [placeIds, hps]
  have hT : transIds m1 = transIds m ++ ts.map (fun t => t.id) := by
    simp [transIds, hts]
  obtain ⟨hnp, hnt, hdis⟩ := List.nodup_append.mp hnd
  refine ⟨?_, ?_, ?_, ?_, Nat.le_trans h.le hle⟩
  · rw [hP, List.nodup_append]
    refine ⟨h.places, hnp, ?_⟩
    intro x hx hx2
    exact hold x (List.mem_append_left _ hx) x (List.mem_append_left _ hx2) rfl
  · rw [hT, List.nodup_append]
    refine ⟨h.transitions, hnt, ?_⟩
    intro x hx hx2
    exact hold x (List.mem_append_right _ hx) x (List.mem_append_right _ hx2) rfl
  · intro x hx hx2
    rw [hP, List.mem_append] at hx
    rw [hT, List.mem_append] at hx2
    rcases hx with hx | hx <;> rcases hx2 with hx2 | hx2
    · exact h.disjoint x hx hx2
    · exact hold x (List.mem_append_left _ hx) x (List.mem_append_right _ hx2) rfl
    · exact hold x (List.mem_append_right _ hx2) x (List.mem_append_left _ hx) rfl
    · exact hdis hx hx2
  · intro x hx
    simp only [nodeIds, hP, hT, List.mem_append] at hx
    rcases hx with (hx | hx) | (hx | hx)
    · exact (h.range x (List.mem_append_left _ hx)).mono (Nat.le_refl _) hle
    · exact (hnew x (List.mem_append_left _ hx)).mono h.le (Nat.le_refl _)
    · exact (h.range x (List.mem_append_right _ hx)).mono (Nat.le_refl _) hle
    · exact (hnew x (List.mem_append_right _ hx)).mono h.le (Nat.le_refl _)

/-- The step shared by all branches: `bs.length` calls of `fresh` from counter `c`, their
ids appended as places `ps` and transitions `ts`. -/
theorem IdsOK.growFresh {lo c : Nat} {m : PetriModule} (h : IdsOK lo c m)
    (m1 : PetriModule) (bs : List String) (hbs : ∀ b ∈ bs, b ∈ idBases)
    (ps : List Place) (ts : List Transition)
    (hps : m1.places = m.places ++ ps) (hts : m1.transitions = m.transitions ++ ts)
    (hids : ps.map (fun p => p.id) ++ ts.map (fun t => t.id) = freshIds bs c) :
    IdsOK lo (c + bs.length) m1 := by
  obtain ⟨hnd, hr⟩ := freshIds_spec bs hbs c
  exact h.grow ps ts hps hts (by rw [hids]; exact hnd) (by rw [hids]; exact hr)
    (Nat.le_add_right _ _)

theorem IdsOK.sameNodes {lo hi : Nat} {m m1 : PetriModule} (h : IdsOK lo hi m)
    (hps : m1.places = m.places) (hts : m1.transitions = m.transitions) : IdsOK lo hi m1 := by
  have hP : placeIds m1 = placeIds m := by simp [placeIds, hps]
  have hT : transIds m1 = transIds m := by simp [transIds, hts]
  exact ⟨hP ▸ h.places, hT ▸ h.transitions, by rw [hP, hT]; exact h.disjoint,
    by rw [nodeIds, hP, hT]; exact h.range, h.le⟩

theorem seqLoop_cf {rec : Compile} (hrec : CompileCF rec) (out : String) :
    ∀ (cs : List AstNode), (∀ c ∈ cs, CallFree c) →
      ∀ (current : String) (cg : CodegenVisitor) (m : PetriModule)
        (cg1 : CodegenVisitor) (m1 : PetriModule) (lo : Nat),
      seqLoop rec out cs current cg m = .ok (cg1, m1) → IdsOK lo cg.counter m →
      IdsOK lo cg1.counter m1 ∧ cg.counter ≤ cg1.counter := by
  intro cs
  induction cs with
  | nil =>
    intro _ current cg m cg1 m1 lo h hok
    simp only [seqLoop, Except.ok.injEq, Prod.mk.injEq] at h
    obtain ⟨rfl, rfl⟩ := h
    exact ⟨hok, Nat.le_refl _⟩
  | cons c cs ih =>
    intro hcf current cg m cg1 m1 lo h hok
    cases cs with
    | nil =>
      simp only [seqLoop] at h
      exact hrec c (hcf c (by simp)) current out cg m cg1 m1 lo h hok
    | cons c2 cs2 =>
      simp only [seqLoop] at h
      cases hf : fresh cg "P" with
      | error e => simp [hf] at h
      | ok r =>
        obtain ⟨next, cg2⟩ := r
        simp only [hf] at h
        obtain ⟨rfl, rfl, -⟩ := fresh_ok hf
        cases hr : rec c current ("P" ++ toString cg.counter)
            { cg with counter := cg.counter + 1 }
            { m with places := m.places ++ [⟨"P" ++ toString cg.counter⟩] } with
        | error e => simp [hr] at h
        | ok r2 =>
          obtain ⟨cg3, m3⟩ := r2
          simp only [hr] at h
          have hok2 : IdsOK lo (cg.counter + 1)
              { m with places := m.places ++ [⟨"P" ++ toString cg.counter⟩] } :=
            hok.growFresh _ ["P"] (by decide) [⟨"P" ++ toString cg.counter⟩] [] rfl
              (by simp) rfl
          obtain ⟨hok3, hle3⟩ := hrec c (hcf c (by simp)) _ _ _ _ cg3 m3 lo hr hok2
          obtain ⟨hok4, hle4⟩ := ih (fun x hx => hcf x (by simp [hx])) _ cg3 m3 cg1 m1 lo h hok3
          simp only at hle3
          exact ⟨hok4, by omega⟩

theorem compileExpr_cf : ∀ fuel : Nat, CompileCF (compileExpr fuel) := by
  intro fuel
  induction fuel with
  | zero => intro node _ inp out cg m cg1 m1 lo h; simp [compileExpr] at h
  | succ fuel ih =>
    intro node hcf inp out cg m cg1 m1 lo h hok
    cases hcf with
    | action name =>
      simp only [compileExpr] at h
      cases hf : fresh cg "T" with
      | error e => simp [hf] at h
      | ok r =>
        obtain ⟨tid, cg2⟩ := r
        simp only [hf, Except.ok.injEq, Prod.mk.injEq] at h
        obtain ⟨rfl, rfl⟩ := h
        obtain ⟨rfl, rfl, -⟩ := fresh_ok hf
        exact ⟨hok.growFresh _ ["T"] (by decide) [] [⟨"T" ++ toString cg.counter, 0⟩]
          (by simp) rfl rfl, Nat.le_succ _⟩
    | sequence children hch =>
      simp only [compileExpr] at h
      exact seqLoop_cf ih out children hch inp cg m cg1 m1 lo h hok
    | parallel left right hl hr =>
      simp only [compileExpr] at h
      cases hf1 : fresh cg "P" with
      | error e => simp [hf1] at h
      | ok r1 =>
      obtain ⟨leftIn, cg2⟩ := r1
      simp only [hf1] at h
      cases hf2 : fresh cg2 "P" with
      | error e => simp [hf2] at h
      | ok r2 =>
      obtain ⟨rightIn, cg3⟩ := r2
      simp only [hf2] at h
      cases hf3 : fresh cg3 "P" with
      | error e => simp [hf3] at h
      | ok r3 =>
      obtain ⟨leftOut, cg4⟩ := r3
      simp only [hf3] at h
      cases hf4 : fresh cg4 "P" with
      | error e => simp [hf4] at h
      | ok r4 =>
      obtain ⟨rightOut, cg5⟩ := r4
      simp only [hf4] at h
      cases hf5 : fresh cg5 "T" with
      | error e => simp [hf5] at h
      | ok r5 =>
      obtain ⟨fork, cg6⟩ := r5
      simp only [hf5] at h
      cases hf6 : fresh cg6 "T" with
      | error e => simp [hf6] at h
      | ok r6 =>
      obtain ⟨join, cg7⟩ := r6
      simp only [hf6] at h
      obtain ⟨rfl, rfl, -⟩ := fresh_ok hf1
      obtain ⟨rfl, rfl, -⟩ := fresh_ok hf2
      obtain ⟨rfl, rfl, -⟩ := fresh_ok hf3
      obtain ⟨rfl, rfl, -⟩ := fresh_ok hf4
      obtain ⟨rfl, rfl, -⟩ := fresh_ok hf5
      obtain ⟨rfl, rfl, -⟩ := fresh_ok hf6
      simp only at h
      generalize hmm : ({ m with
          places := m.places ++ [⟨"P" ++ toString cg.counter⟩,
            ⟨"P" ++ toString (cg.counter + 1)⟩, ⟨"P" ++ toString (cg.counter + 1 + 1)⟩,
            ⟨"P" ++ toString (cg.counter + 1 + 1 + 1)⟩],
          transitions := m.transitions ++ [⟨"T" ++ toString (cg.counter + 1 + 1 + 1 + 1), 0⟩,
            ⟨"T" ++ toString (cg.counter + 1 + 1 + 1 + 1 + 1), 0⟩],
          arcs := m.arcs ++ [⟨PLACE_TO_TRANS, inp, "T" ++ toString (cg.counter + 1 + 1 + 1 + 1)⟩,
            ⟨TRANS_TO_PLACE, "T" ++ toString (cg.counter + 1 + 1 + 1 + 1),
              "P" ++ toString cg.counter⟩,
            ⟨TRANS_TO_PLACE, "T" ++ toString (cg.counter + 1 + 1 + 1 + 1),
              "P" ++ toString (cg.counter + 1)⟩] } : PetriModule) = mm at h
      have hok1 : IdsOK lo (cg.counter + 6) mm :=
        hok.growFresh mm ["P", "P", "P", "P", "T", "T"] (by decide)
          [⟨"P" ++ toString cg.counter⟩,
            ⟨"P" ++ toString (cg.counter + 1)⟩, ⟨"P" ++ toString (cg.counter + 1 + 1)⟩,
            ⟨"P" ++ toString (cg.counter + 1 + 1 + 1)⟩]
          [⟨"T" ++ toString (cg.counter + 1 + 1 + 1 + 1), 0⟩,
            ⟨"T" ++ toString (cg.counter + 1 + 1 + 1 + 1 + 1), 0⟩]
          (by rw [← hmm]) (by rw [← hmm]) rfl
      cases hcl : compileExpr fuel left ("P" ++ toString cg.counter)
          ("P" ++ toString (cg.counter + 1 + 1))
          { cg with counter := cg.counter + 1 + 1 + 1 + 1 + 1 + 1 } mm with
      | error e => simp [hcl] at h
      | ok rl =>
      obtain ⟨cg8, m8⟩ := rl
      simp only [hcl] at h
      obtain ⟨hok8, hle8⟩ := ih left hl _ _ _ _ cg8 m8 lo hcl hok1
      cases hcr : compileExpr fuel right ("P" ++ toString (cg.counter + 1))
          ("P" ++ toString (cg.counter + 1 + 1 + 1)) cg8 m8 with
      | error e => simp [hcr] at h
      | ok rr =>
      obtain ⟨cg9, m9⟩ := rr
      simp only [hcr, Except.ok.injEq, Prod.mk.injEq] at h
      obtain ⟨rfl, rfl⟩ := h
      obtain ⟨hok9, hle9⟩ := ih right hr _ _ cg8 m8 _ m9 lo hcr hok8
      simp only at hle8
      exact ⟨hok9.sameNodes rfl rfl, by omega⟩
    | choice left right hl hr =>
      simp only [compileExpr] at h
      cases h1 : compileExpr fuel left inp out cg m with
      | error e => simp [h1] at h
      | ok r =>
        obtain ⟨cg2, m2⟩ := r
        simp only [h1] at h
        obtain ⟨hok2, hle2⟩ := ih left hl inp out cg m cg2 m2 lo h1 hok
        obtain ⟨hok3, hle3⟩ := ih right hr inp out cg2 m2 cg1 m1 lo h hok2
        exact ⟨hok3, by omega⟩
    | prio priority child hc =>
      simp only [compileExpr] at h
      cases hf1 : fresh cg "P" with
      | error e => simp [hf1] at h
      | ok r1 =>
      obtain ⟨mid, cg2⟩ := r1
      simp only [hf1] at h
      cases hf2 : fresh cg2 "T" with
      | error e => simp [hf2] at h
      | ok r2 =>
      obtain ⟨tid, cg3⟩ := r2
      simp only [hf2] at h
      obtain ⟨rfl, rfl, -⟩ := fresh_ok hf1
      obtain ⟨rfl, rfl, -⟩ := fresh_ok hf2
      simp only at h
      generalize hmm : ({ m with
          places := m.places ++ [⟨"P" ++ toString cg.counter⟩],
          transitions := m.transitions ++ [⟨"T" ++ toString (cg.counter + 1), priority⟩],
          arcs := m.arcs ++ [⟨PLACE_TO_TRANS, inp, "T" ++ toString (cg.counter + 1)⟩,
            ⟨TRANS_TO_PLACE, "T" ++ toString (cg.counter + 1), "P" ++ toString cg.counter⟩] }
          : PetriModule) = mm at h
      have hok1 : IdsOK lo (cg.counter + 2) mm :=
        hok.growFresh mm ["P", "T"] (by decide) [⟨"P" ++ toString cg.counter⟩]
          [⟨"T" ++ toString (cg.counter + 1), priority⟩] (by rw [← hmm]) (by rw [← hmm]) rfl
      obtain ⟨hok4, hle4⟩ := ih child hc _ _ _ _ cg1 m1 lo h hok1
      simp only at hle4
      exact ⟨hok4, by omega⟩

theorem Below.weaken {hi hi1 : Nat} {m : PetriModule} (h : Below hi m) (hle : hi ≤ hi1) :
    Below hi1 m :=
  fun x hx => (h x hx).mono (Nat.le_refl _) hle

theorem IdsOK.nodup {lo hi : Nat} {m : PetriModule} (h : IdsOK lo hi m) :
    (nodeIds m).Nodup :=
  List.nodup_append.mpr ⟨h.places, h.transitions, fun _ hx hx2 => h.disjoint _ hx hx2⟩

theorem ModStable.same (cg : CodegenVisitor) : ModStable cg cg := fun _ _ => Iff.rfl

theorem ModStable.andThen {a b c : CodegenVisitor} (h1 : ModStable a b) (h2 : ModStable b c) :
    ModStable a c := fun n body => (h2 n body).trans (h1 n body)

theorem ModStable.ofModulesEq {cg cg1 : CodegenVisitor} (h : cg1.modules = cg.modules) :
    ModStable cg cg1 := fun n body => by rw [h]

theorem ModStable.ofFresh {cg cg1 : CodegenVisitor} {base x : String}
    (hf : fresh cg base = .ok (x, cg1)) : ModStable cg cg1 :=
  ModStable.ofModulesEq (fresh_modules hf).1

/-- The default entry `modules[name]` creates for an absent name binds no body. -/
theorem ModStable.default_insert (cg : CodegenVisitor) (name : String)
    (h : mapFind cg.modules name = none) :
    ModStable cg { cg with modules := mapAssign cg.modules name ⟨none⟩ } := by
  intro n body
  by_cases hn : name = n
  · subst hn
    simp [mapFind_mapAssign_same, h]
  · simp only
    rw [mapFind_mapAssign_ne _ _ _ _ hn]

/-- The invariant does not depend on the counter, as long as it does not decrease. -/
theorem SessionInv.counter_mono {cg cg1 : CodegenVisitor} (h : SessionInv cg)
    (hm : cg1.modules = cg.modules) (hg : cg1.generated = cg.generated)
    (hc : cg.counter ≤ cg1.counter) : SessionInv cg1 := by
  constructor
  · intro n G hG
    rw [hg] at hG
    exact (h.ids n G hG).weaken hc
  · intro n G body hG hb hcf
    rw [hg] at hG
    rw [hm] at hb
    exact h.wf n G body hG hb hcf

theorem SessionInv.afterFresh {cg cg1 : CodegenVisitor} {base x : String} (h : SessionInv cg)
    (hf : fresh cg base = .ok (x, cg1)) : SessionInv cg1 := by
  obtain ⟨-, rfl, -⟩ := fresh_ok hf
  exact h.counter_mono rfl rfl (Nat.le_succ _)

/-- Caching a fragment whose ids are below the counter, and which is well formed if the
registered body has no module call, keeps the invariant. -/
theorem SessionInv.cache {cg : CodegenVisitor} (h : SessionInv cg) (name : String)
    (F : PetriModule) (hF : Below cg.counter F)
    (hwf : ∀ body, mapFind cg.modules name = some ⟨some body⟩ → CallFree body →
      WellFormedIds F) :
    SessionInv { cg with generated := mapAssign cg.generated name F } := by
  constructor
  · intro n G hG
    by_cases hn : name = n
    · subst hn
      rw [mapFind_mapAssign_same] at hG
      cases hG
      exact hF
    · rw [mapFind_mapAssign_ne _ _ _ _ hn] at hG
      exact h.ids n G hG
  · intro n G body hG hb hcf
    by_cases hn : name = n
    · subst hn
      rw [mapFind_mapAssign_same] at hG
      cases hG
      exact hwf body hb hcf
    · rw [mapFind_mapAssign_ne _ _ _ _ hn] at hG
      exact h.wf n G body hG hb hcf

theorem bareFragment_idsOK (name : String) (c : Nat) :
    IdsOK c (c + 2) (bareFragment name ("entry" ++ toString c) ("exit" ++ toString (c + 1))) := by
  have h0 : IdsOK c c
      { moduleName := name, entry := ⟨"entry" ++ toString c⟩,
        exit := ⟨"exit" ++ toString (c + 1)⟩, places := [], transitions := [], arcs := [] } :=
    ⟨List.nodup_nil, List.nodup_nil, fun _ hx => by simp [placeIds] at hx,
      fun _ hx => by simp [nodeIds, placeIds, transIds] at hx, Nat.le_refl _⟩
  exact h0.growFresh _ ["entry", "exit"] (by decide)
    [⟨"entry" ++ toString c⟩, ⟨"exit" ++ toString (c + 1)⟩] [] rfl rfl rfl

theorem IdsOK.below {lo hi : Nat} {m : PetriModule} (h : IdsOK lo hi m) : Below hi m :=
  fun x hx => (h.range x hx).mono (Nat.zero_le _) (Nat.le_refl _)

theorem generateWith_inv {rec : Compile} (hrec : GenInv rec) (hcf : CompileCF rec)
    {cg cg1 : CodegenVisitor} {name : String} {F : PetriModule}
    (h : generateWith rec cg name = .ok (F, cg1)) (hinv : SessionInv cg) :
    SessionInv cg1 ∧ Below cg1.counter F ∧ cg.counter ≤ cg1.counter ∧ ModStable cg cg1 := by
  unfold generateWith at h
  cases hg : mapFind cg.generated name with
  | some G =>
    simp only [hg, Except.ok.injEq, Prod.mk.injEq] at h
    obtain ⟨rfl, rfl⟩ := h
    exact ⟨hinv, hinv.ids name G hg, Nat.le_refl _, ModStable.same _⟩
  | none =>
    simp only [hg] at h
    cases hf : fresh cg "entry" with
    | error e => simp [hf] at h
    | ok r =>
      obtain ⟨entryId, cg2⟩ := r
      simp only [hf] at h
      cases hf2 : fresh cg2 "exit" with
      | error e => simp [hf2] at h
      | ok r2 =>
        obtain ⟨exitId, cg3⟩ := r2
        simp only [hf2] at h
        obtain ⟨rfl, rfl, -⟩ := fresh_ok hf
        obtain ⟨rfl, rfl, -⟩ := fresh_ok hf2
        simp only at h
        have hbare := bareFragment_idsOK name cg.counter
        have hinv3 : SessionInv { cg with counter := cg.counter + 1 + 1 } :=
          hinv.counter_mono rfl rfl (by simp only; omega)
        cases hmod : mapFind cg.modules name with
        | none =>
          simp only [hmod, Except.ok.injEq, Prod.mk.injEq] at h
          obtain ⟨rfl, rfl⟩ := h
          have hst := ModStable.default_insert cg name hmod
          have hinv4 : SessionInv
              { modules := mapAssign cg.modules name ⟨none⟩, generated := cg.generated,
                counter := cg.counter + 1 + 1 } :=
            ⟨fun n G hG => (hinv.ids n G hG).weaken (by simp only; omega),
              fun n G body hG hb hc => hinv.wf n G body hG ((hst n body).mp hb) hc⟩
          refine ⟨hinv4.cache name _ hbare.below ?_, hbare.below, by simp only; omega, hst⟩
          intro body hb
          simp only [mapFind_mapAssign_same] at hb
          cases hb
        | some fd =>
          obtain ⟨root⟩ := fd
          cases root with
          | none =>
            simp only [hmod, Except.ok.injEq, Prod.mk.injEq] at h
            obtain ⟨rfl, rfl⟩ := h
            refine ⟨hinv3.cache name _ hbare.below ?_, hbare.below, by simp only; omega,
              ModStable.ofModulesEq rfl⟩
            intro body hb
            simp only [hmod] at hb
            cases hb
          | some root =>
            simp only [hmod] at h
            cases hr : rec root ("entry" ++ toString cg.counter)
                ("exit" ++ toString (cg.counter + 1))
                { cg with counter := cg.counter + 1 + 1 }
                { moduleName := name, entry := ⟨"entry" ++ toString cg.counter⟩,
                  exit := ⟨"exit" ++ toString (cg.counter + 1)⟩,
                  places := [⟨"entry" ++ toString cg.counter⟩,
                    ⟨"exit" ++ toString (cg.counter + 1)⟩],
                  transitions := [], arcs := [] } with
            | error e => simp [hr] at h
            | ok r3 =>
              obtain ⟨cg4, m4⟩ := r3
              simp only [hr, Except.ok.injEq, Prod.mk.injEq] at h
              obtain ⟨rfl, rfl⟩ := h
              obtain ⟨hinv4, hb4, hle4, hst4, hg4⟩ := hrec _ _ _ _ _ cg4 m4 hr hinv3 hbare.below
              simp only at hle4
              refine ⟨hinv4.cache name m4 hb4 ?_, hb4, by simp only; omega,
                hst4.andThen (ModStable.ofModulesEq rfl)⟩
              intro body hb hcfb
              have hb0 : mapFind cg.modules name = some ⟨some body⟩ := (hst4 name body).mp hb
              rw [hmod] at hb0
              cases hb0
              obtain ⟨hok4, -⟩ := hcf _ hcfb _ _ _ _ cg4 m4 cg.counter hr hbare
              refine ⟨?_, ?_, ?_, hok4.nodup⟩
              · rw [hg4.entry]; exact hg4.placeIds_subset (by simp [placeIds])
              · rw [hg4.exit]; exact hg4.placeIds_subset (by simp [placeIds])
              · rw [hg4.entry, hg4.exit]
                intro heq
                have := @fresh_id_injective "entry" "exit" (by decide) (by decide) _ _ heq
                omega

theorem Below.enlarge {c hi : Nat} {m : PetriModule} (h : Below c m) (m1 : PetriModule)
    (ps : List Place) (ts : List Transition)
    (hps : m1.places = m.places ++ ps) (hts : m1.transitions = m.transitions ++ ts)
    (hnew : ∀ x ∈ ps.map (fun p => p.id) ++ ts.map (fun t => t.id), FreshIn 0 hi x)
    (hle : c ≤ hi) : Below hi m1 := by
  intro x hx
  simp only [nodeIds, placeIds, transIds, hps, hts, List.map_append, List.mem_append] at hx
  rcases hx with (hx | hx) | (hx | hx)
  · exact (h x (List.mem_append_left _ hx)).mono (Nat.le_refl _) hle
  · exact hnew x (List.mem_append_left _ hx)
  · exact (h x (List.mem_append_right _ hx)).mono (Nat.le_refl _) hle
  · exact hnew x (List.mem_append_right _ hx)

theorem Below.enlargeFresh {c : Nat} {m : PetriModule} (h : Below c m) (m1 : PetriModule)
    (bs : List String) (hbs : ∀ b ∈ bs, b ∈ idBases)
    (ps : List Place) (ts : List Transition)
    (hps : m1.places = m.places ++ ps) (hts : m1.transitions = m.transitions ++ ts)
    (hids : ps.map (fun p => p.id) ++ ts.map (fun t => t.id) = freshIds bs c) :
    Below (c + bs.length) m1 :=
  h.enlarge m1 ps ts hps hts
    (fun x hx => ((freshIds_spec bs hbs c).2 x (hids ▸ hx)).mono (Nat.zero_le _)
      (Nat.le_refl _))
    (Nat.le_add_right _ _)

theorem seqLoop_inv {rec : Compile} (hrec : GenInv rec) (out : String) :
    ∀ (cs : List AstNode) (current : String) (cg : CodegenVisitor) (m : PetriModule)
      (cg1 : CodegenVisitor) (m1 : PetriModule),
      seqLoop rec out cs current cg m = .ok (cg1, m1) → SessionInv cg → Below cg.counter m →
      SessionInv cg1 ∧ Below cg1.counter m1 ∧ cg.counter ≤ cg1.counter ∧
        ModStable cg cg1 ∧ Grows m m1 := by
  intro cs
  induction cs with
  | nil =>
    intro current cg m cg1 m1 h hinv hb
    simp only [seqLoop, Except.ok.injEq, Prod.mk.injEq] at h
    obtain ⟨rfl, rfl⟩ := h
    exact ⟨hinv, hb, Nat.le_refl _, ModStable.same _, Grows.refl _⟩
  | cons c cs ih =>
    intro current cg m cg1 m1 h hinv hb
    cases cs with
    | nil =>
      simp only [seqLoop] at h
      exact hrec c current out cg m cg1 m1 h hinv hb
    | cons c2 cs2 =>
      simp only [seqLoop] at h
      cases hf : fresh cg "P" with
      | error e => simp [hf] at h
      | ok r =>
        obtain ⟨next, cg2⟩ := r
        simp only [hf] at h
        obtain ⟨rfl, rfl, -⟩ := fresh_ok hf
        cases hr : rec c current ("P" ++ toString cg.counter)
            { cg with counter := cg.counter + 1 }
            { m with places := m.places ++ [⟨"P" ++ toString cg.counter⟩] } with
        | error e => simp [hr] at h
        | ok r2 =>
          obtain ⟨cg3, m3⟩ := r2
          simp only [hr] at h
          have hb2 : Below (cg.counter + 1)
              { m with places := m.places ++ [⟨"P" ++ toString cg.counter⟩] } :=
            hb.enlargeFresh _ ["P"] (by decide) [⟨"P" ++ toString cg.counter⟩] [] rfl
              (by simp) rfl
          have hg2 : Grows m { m with places := m.places ++ [⟨"P" ++ toString cg.counter⟩] } := by
            simpa using Grows.append m [⟨"P" ++ toString cg.counter⟩] [] []
          obtain ⟨hinv3, hb3, hle3, hst3, hg3⟩ := hrec c _ _ _ _ cg3 m3 hr
            (hinv.counter_mono rfl rfl (Nat.le_succ _)) hb2
          obtain ⟨hinv4, hb4, hle4, hst4, hg4⟩ := ih _ cg3 m3 cg1 m1 h hinv3 hb3
          simp only at hle3
          exact ⟨hinv4, hb4, by omega, ((ModStable.ofModulesEq rfl).andThen hst3).andThen hst4,
            (hg2.trans hg3).trans hg4⟩

theorem compileExpr_inv : ∀ fuel : Nat, GenInv (compileExpr fuel) := by
  intro fuel
  induction fuel with
  | zero => intro node inp out cg m cg1 m1 h; simp [compileExpr] at h
  | succ fuel ih =>
    intro node inp out cg m cg1 m1 h hinv hb
    cases node with
    | ActionNode name =>
      simp only [compileExpr] at h
      cases hf : fresh cg "T" with
      | error e => simp [hf] at h
      | ok r =>
        obtain ⟨tid, cg2⟩ := r
        simp only [hf, Except.ok.injEq, Prod.mk.injEq] at h
        obtain ⟨rfl, rfl⟩ := h
        obtain ⟨rfl, rfl, -⟩ := fresh_ok hf
        have hg := Grows.append m [] [⟨"T" ++ toString cg.counter, 0⟩]
          [⟨PLACE_TO_TRANS, inp, "T" ++ toString cg.counter⟩,
            ⟨TRANS_TO_PLACE, "T" ++ toString cg.counter, out⟩]
        simp only [List.append_nil] at hg
        exact ⟨hinv.counter_mono rfl rfl (Nat.le_succ _),
          hb.enlargeFresh _ ["T"] (by decide) [] [⟨"T" ++ toString cg.counter, 0⟩]
            (by simp) rfl rfl,
          Nat.le_succ _, ModStable.ofModulesEq rfl, hg⟩
    | SequenceNode children =>
      simp only [compileExpr] at h
      exact seqLoop_inv ih out children inp cg m cg1 m1 h hinv hb
    | ParallelNode left right =>
      simp only [compileExpr] at h
      cases hf1 : fresh cg "P" with
      | error e => simp [hf1] at h
      | ok r1 =>
      obtain ⟨leftIn, cg2⟩ := r1
      simp only [hf1] at h
      cases hf2 : fresh cg2 "P" with
      | error e => simp [hf2] at h
      | ok r2 =>
      obtain ⟨rightIn, cg3⟩ := r2
      simp only [hf2] at h
      cases hf3 : fresh cg3 "P" with
      | error e => simp [hf3] at h
      | ok r3 =>
      obtain ⟨leftOut, cg4⟩ := r3
      simp only [hf3] at h
      cases hf4 : fresh cg4 "P" with
      | error e => simp [hf4] at h
      | ok r4 =>
      obtain ⟨rightOut, cg5⟩ := r4
      simp only [hf4] at h
      cases hf5 : fresh cg5 "T" with
      | error e => simp [hf5] at h
      | ok r5 =>
      obtain ⟨fork, cg6⟩ := r5
      simp only [hf5] at h
      cases hf6 : fresh cg6 "T" with
      | error e => simp [hf6] at h
      | ok r6 =>
      obtain ⟨join, cg7⟩ := r6
      simp only [hf6] at h
      obtain ⟨rfl, rfl, -⟩ := fresh_ok hf1
      obtain ⟨rfl, rfl, -⟩ := fresh_ok hf2
      obtain ⟨rfl, rfl, -⟩ := fresh_ok hf3
      obtain ⟨rfl, rfl, -⟩ := fresh_ok hf4
      obtain ⟨rfl, rfl, -⟩ := fresh_ok hf5
      obtain ⟨rfl, rfl, -⟩ := fresh_ok hf6
      simp only at h
      have hg1 := Grows.append m [⟨"P" ++ toString cg.counter⟩,
            ⟨"P" ++ toString (cg.counter + 1)⟩, ⟨"P" ++ toString (cg.counter + 1 + 1)⟩,
            ⟨"P" ++ toString (cg.counter + 1 + 1 + 1)⟩]
          [⟨"T" ++ toString (cg.counter + 1 + 1 + 1 + 1), 0⟩,
            ⟨"T" ++ toString (cg.counter + 1 + 1 + 1 + 1 + 1), 0⟩]
          [⟨PLACE_TO_TRANS, inp, "T" ++ toString (cg.counter + 1 + 1 + 1 + 1)⟩,
            ⟨TRANS_TO_PLACE, "T" ++ toString (cg.counter + 1 + 1 + 1 + 1),
              "P" ++ toString cg.counter⟩,
            ⟨TRANS_TO_PLACE, "T" ++ toString (cg.counter + 1 + 1 + 1 + 1),
              "P" ++ toString (cg.counter + 1)⟩]
      generalize hmm : ({ m with
          places := m.places ++ [⟨"P" ++ toString cg.counter⟩,
            ⟨"P" ++ toString (cg.counter + 1)⟩, ⟨"P" ++ toString (cg.counter + 1 + 1)⟩,
            ⟨"P" ++ toString (cg.counter + 1 + 1 + 1)⟩],
          transitions := m.transitions ++ [⟨"T" ++ toString (cg.counter + 1 + 1 + 1 + 1), 0⟩,
            ⟨"T" ++ toString (cg.counter + 1 + 1 + 1 + 1 + 1), 0⟩],
          arcs := m.arcs ++ [⟨PLACE_TO_TRANS, inp, "T" ++ toString (cg.counter + 1 + 1 + 1 + 1)⟩,
            ⟨TRANS_TO_PLACE, "T" ++ toString (cg.counter + 1 + 1 + 1 + 1),
              "P" ++ toString cg.counter⟩,
            ⟨TRANS_TO_PLACE, "T" ++ toString (cg.counter + 1 + 1 + 1 + 1),
              "P" ++ toString (cg.counter + 1)⟩] } : PetriModule) = mm at h hg1
      have hb1 : Below (cg.counter + 6) mm :=
        hb.enlargeFresh mm ["P", "P", "P", "P", "T", "T"] (by decide)
          [⟨"P" ++ toString cg.counter⟩,
            ⟨"P" ++ toString (cg.counter + 1)⟩, ⟨"P" ++ toString (cg.counter + 1 + 1)⟩,
            ⟨"P" ++ toString (cg.counter + 1 + 1 + 1)⟩]
          [⟨"T" ++ toString (cg.counter + 1 + 1 + 1 + 1), 0⟩,
            ⟨"T" ++ toString (cg.counter + 1 + 1 + 1 + 1 + 1), 0⟩]
          (by rw [← hmm]) (by rw [← hmm]) rfl
      cases hcl : compileExpr fuel left ("P" ++ toString cg.counter)
          ("P" ++ toString (cg.counter + 1 + 1))
          { cg with counter := cg.counter + 1 + 1 + 1 + 1 + 1 + 1 } mm with
      | error e => simp [hcl] at h
      | ok rl =>
      obtain ⟨cg8, m8⟩ := rl
      simp only [hcl] at h
      obtain ⟨hinv8, hb8, hle8, hst8, hg8⟩ := ih left _ _ _ _ cg8 m8 hcl
        (hinv.counter_mono rfl rfl (by simp only; omega)) hb1
      cases hcr : compileExpr fuel right ("P" ++ toString (cg.counter + 1))
          ("P" ++ toString (cg.counter + 1 + 1 + 1)) cg8 m8 with
      | error e => simp [hcr] at h
      | ok rr =>
      obtain ⟨cg9, m9⟩ := rr
      simp only [hcr, Except.ok.injEq, Prod.mk.injEq] at h
      obtain ⟨rfl, rfl⟩ := h
      obtain ⟨hinv9, hb9, hle9, hst9, hg9⟩ := ih right _ _ cg8 m8 _ m9 hcr hinv8 hb8
      simp only at hle8
      have hgl := Grows.append m9 [] []
        [⟨PLACE_TO_TRANS, "P" ++ toString (cg.counter + 1 + 1),
            "T" ++ toString (cg.counter + 1 + 1 + 1 + 1 + 1)⟩,
          ⟨PLACE_TO_TRANS, "P" ++ toString (cg.counter + 1 + 1 + 1),
            "T" ++ toString (cg.counter + 1 + 1 + 1 + 1 + 1)⟩,
          ⟨TRANS_TO_PLACE, "T" ++ toString (cg.counter + 1 + 1 + 1 + 1 + 1), out⟩]
      simp only [List.append_nil] at hgl
      refine ⟨hinv9, ?_, by omega, ((ModStable.ofModulesEq rfl).andThen hst8).andThen hst9,
        ((hg1.trans hg8).trans hg9).trans hgl⟩
      exact hb9.enlarge _ [] [] (by simp) (by simp) (by simp) (Nat.le_refl _)
    | ChoiceNode left right =>
      simp only [compileExpr] at h
      cases h1 : compileExpr fuel left inp out cg m with
      | error e => simp [h1] at h
      | ok r =>
        obtain ⟨cg2, m2⟩ := r
        simp only [h1] at h
        obtain ⟨hinv2, hb2, hle2, hst2, hg2⟩ := ih left inp out cg m cg2 m2 h1 hinv hb
        obtain ⟨hinv3, hb3, hle3, hst3, hg3⟩ := ih right inp out cg2 m2 cg1 m1 h hinv2 hb2
        exact ⟨hinv3, hb3, by omega, hst2.andThen hst3, hg2.trans hg3⟩
    | PrioNode priority child =>
      simp only [compileExpr] at h
      cases hf1 : fresh cg "P" with
      | error e => simp [hf1] at h
      | ok r1 =>
      obtain ⟨mid, cg2⟩ := r1
      simp only [hf1] at h
      cases hf2 : fresh cg2 "T" with
      | error e => simp [hf2] at h
      | ok r2 =>
      obtain ⟨tid, cg3⟩ := r2
      simp only [hf2] at h
      obtain ⟨rfl, rfl, -⟩ := fresh_ok hf1
      obtain ⟨rfl, rfl, -⟩ := fresh_ok hf2
      simp only at h
      have hg1 := Grows.append m [⟨"P" ++ toString cg.counter⟩]
          [⟨"T" ++ toString (cg.counter + 1), priority⟩]
          [⟨PLACE_TO_TRANS, inp, "T" ++ toString (cg.counter + 1)⟩,
            ⟨TRANS_TO_PLACE, "T" ++ toString (cg.counter + 1), "P" ++ toString cg.counter⟩]
      generalize hmm : ({ m with
          places := m.places ++ [⟨"P" ++ toString cg.counter⟩],
          transitions := m.transitions ++ [⟨"T" ++ toString (cg.counter + 1), priority⟩],
          arcs := m.arcs ++ [⟨PLACE_TO_TRANS, inp, "T" ++ toString (cg.counter + 1)⟩,
            ⟨TRANS_TO_PLACE, "T" ++ toString (cg.counter + 1), "P" ++ toString cg.counter⟩] }
          : PetriModule) = mm at h hg1
      have hb1 : Below (cg.counter + 2) mm :=
        hb.enlargeFresh mm ["P", "T"] (by decide) [⟨"P" ++ toString cg.counter⟩]
          [⟨"T" ++ toString (cg.counter + 1), priority⟩] (by rw [← hmm]) (by rw [← hmm]) rfl
      obtain ⟨hinv4, hb4, hle4, hst4, hg4⟩ := ih child _ _ _ _ cg1 m1 h
        (hinv.counter_mono rfl rfl (by simp only; omega)) hb1
      simp only at hle4
      exact ⟨hinv4, hb4, by omega, (ModStable.ofModulesEq rfl).andThen hst4, hg1.trans hg4⟩
    | CallModuleNode moduleName =>
      simp only [compileExpr] at h
      cases hgen : generateWith (compileExpr fuel) cg moduleName with
      | error e => simp [hgen] at h
      | ok r0 =>
      obtain ⟨sub, cg2⟩ := r0
      simp only [hgen] at h
      obtain ⟨hinv2, hsub, hle2, hst2⟩ := generateWith_inv ih (compileExpr_cf fuel) hgen hinv
      cases hf1 : fresh cg2 "T_call" with
      | error e => simp [hf1] at h
      | ok r1 =>
      obtain ⟨callT, cg3⟩ := r1
      simp only [hf1] at h
      cases hf2 : fresh cg3 "T_ret" with
      | error e => simp [hf2] at h
      | ok r2 =>
      obtain ⟨retT, cg4⟩ := r2
      simp only [hf2, Except.ok.injEq, Prod.mk.injEq] at h
      obtain ⟨rfl, rfl⟩ := h
      obtain ⟨rfl, rfl, -⟩ := fresh_ok hf1
      obtain ⟨rfl, rfl, -⟩ := fresh_ok hf2
      have hg := Grows.append m sub.places
        (sub.transitions ++ [⟨"T_call" ++ toString cg2.counter, 0⟩,
          ⟨"T_ret" ++ toString (cg2.counter + 1), 0⟩])
        (sub.arcs ++ [⟨PLACE_TO_TRANS, inp, "T_call" ++ toString cg2.counter⟩,
          ⟨TRANS_TO_PLACE, "T_call" ++ toString cg2.counter, sub.entry.id⟩,
          ⟨PLACE_TO_TRANS, sub.exit.id, "T_ret" ++ toString (cg2.counter + 1)⟩,
          ⟨TRANS_TO_PLACE, "T_ret" ++ toString (cg2.counter + 1), out⟩])
      simp only [← List.append_assoc] at hg
      refine ⟨hinv2.counter_mono rfl rfl (by simp only; omega), ?_, by simp only; omega,
        hst2.andThen (ModStable.ofModulesEq rfl), hg⟩
      refine (hb.weaken hle2).enlarge _ sub.places
        (sub.transitions ++ [⟨"T_call" ++ toString cg2.counter, 0⟩,
          ⟨"T_ret" ++ toString (cg2.counter + 1), 0⟩]) rfl (by simp) ?_
        (by simp only; omega)
      intro x hx
      simp only [List.map_append, List.mem_append, List.map_cons, List.map_nil,
        List.mem_cons, List.mem_singleton, List.not_mem_nil, or_false] at hx
      have hfr := (freshIds_spec ["T_call", "T_ret"] (by decide) cg2.counter).2
      rcases hx with hx | hx | rfl | rfl
      · exact (hsub x (List.mem_append_left _ hx)).mono (Nat.le_refl _) (by simp only; omega)
      · exact (hsub x (List.mem_append_right _ hx)).mono (Nat.le_refl _) (by simp only; omega)
      · exact (hfr _ (by simp [freshIds])).mono (Nat.zero_le _) (Nat.le_refl _)
      · exact (hfr _ (by simp [freshIds])).mono (Nat.zero_le _) (Nat.le_refl _)

theorem Reachable.sessionInv {cg : CodegenVisitor} (h : Reachable cg) : SessionInv cg := by
  induction h with
  | init =>
    exact ⟨fun n G hG => by simp [CodegenVisitor.init, mapFind] at hG,
      fun n G body hG => by simp [CodegenVisitor.init, mapFind] at hG⟩
  | register cg name root _ hnew ih =>
    constructor
    · intro n G hG
      exact ih.ids n G hG
    · intro n G body hG hb hcf
      have hG0 : mapFind cg.generated n = some G := hG
      have hn : name ≠ n := by
        intro hn
        subst hn
        rw [hnew] at hG0
        cases hG0
      simp only [register_module] at hb
      rw [mapFind_mapAssign_ne _ _ _ _ hn] at hb
      exact ih.wf n G body hG0 hb hcf
  | generate cg cg1 fuel name F _ hgen ih =>
    exact (generateWith_inv (compileExpr_inv fuel) (compileExpr_cf fuel) hgen ih).1

theorem Reachable.session (regs : List (String × AstNode)) : Reachable (session regs) := by
  have key : ∀ (rs : List (String × AstNode)) (cg : CodegenVisitor), Reachable cg →
      cg.generated = [] →
      Reachable (rs.foldl (fun cg r => register_module cg r.1 r.2) cg) := by
    intro rs
    induction rs with
    | nil => intro cg h _; exact h
    | cons r rs ih =>
      intro cg h hg
      rw [List.foldl_cons]
      exact ih _ (Reachable.register cg r.1 r.2 h (by rw [hg]; rfl)) hg
  exact key regs _ Reachable.init rfl

theorem Tokenizer.next_token_ne_outOfFuel (tz : Tokenizer) :
    tz.next_token ≠ .error .outOfFuel := by
  intro h
  unfold Tokenizer.next_token at h
  generalize (Tokenizer.scanWhile isspace tz.chars tz.line tz.col "").2 = tzs at h
  obtain ⟨chars, l, c⟩ := tzs
  cases chars with
  | nil => simp at h
  | cons x xs =>
    simp only at h
    repeat' split at h
    all_goals simp at h

theorem Parser.advance_ne_outOfFuel (p : Parser) : p.advance ≠ .error .outOfFuel := by
  intro h
  unfold Parser.advance at h
  cases hn : p.tz.next_token with
  | error e =>
    rw [hn] at h
    simp only [Except.error.injEq] at h
    exact Tokenizer.next_token_ne_outOfFuel p.tz (by rw [hn, h])
  | ok r => simp [hn] at h

theorem stoi_ne_outOfFuel (s : String) : stoi s ≠ .error .outOfFuel := by
  intro h
  unfold stoi at h
  split at h
  · simp at h
  · split at h <;> simp at h

theorem Parser.optPrio_ne_outOfFuel (p : Parser) (node : AstNode) :
    p.optPrio node ≠ .error .outOfFuel := by
  intro h
  unfold Parser.optPrio at h
  split at h
  · cases hs : stoi p.cur.value with
    | error e =>
      rw [hs] at h
      simp only [Except.error.injEq] at h
      exact stoi_ne_outOfFuel _ (by rw [hs, h])
    | ok v =>
      simp only [hs] at h
      cases ha : p.advance with
      | error e =>
        rw [ha] at h
        simp only [Except.error.injEq] at h
        exact Parser.advance_ne_outOfFuel p (by rw [ha, h])
      | ok p1 => simp [ha] at h
  · simp at h

theorem Parser.advance_pending {p p1 : Parser} (h : p.advance = .ok p1)
    (hne : p.cur.type ≠ END) : p1.pending < p.pending := by
  unfold Parser.advance at h
  cases hn : p.tz.next_token with
  | error e => simp [hn] at h
  | ok r =>
    obtain ⟨t, tz1⟩ := r
    simp only [hn, Except.ok.injEq] at h
    subst h
    obtain ⟨hle, hlt, -⟩ := Tokenizer.next_token_consumes hn
    simp only [Parser.pending, hne, if_false]
    by_cases ht : t.type = END
    · simp only [ht, if_true]; omega
    · have := hlt ht
      simp only [ht, if_false]; omega

theorem Parser.optPrio_pending {p p1 : Parser} {node ast : AstNode}
    (h : p.optPrio node = .ok (ast, p1)) : p1.pending ≤ p.pending := by
  unfold Parser.optPrio at h
  by_cases hp : p.cur.type = TokenType.PRIO
  · simp only [hp, if_true] at h
    cases hs : stoi p.cur.value with
    | error e => simp [hs] at h
    | ok v =>
      simp only [hs] at h
      cases ha : p.advance with
      | error e => simp [ha] at h
      | ok p2 =>
        simp only [ha, Except.ok.injEq, Prod.mk.injEq] at h
        obtain ⟨-, rfl⟩ := h
        exact Nat.le_of_lt (Parser.advance_pending ha (by rw [hp]; decide))
  · simp only [hp, if_false, Except.ok.injEq, Prod.mk.injEq] at h
    obtain ⟨-, rfl⟩ := h
    exact Nat.le_refl _

/-- Every successful call consumes input: `parse_term` and `parse_expr` strictly, the
loop of `parse_expr` possibly nothing. -/
theorem parser_consumes : ∀ fuel : Nat,
    (∀ p ast p1, parse_term fuel p = .ok (ast, p1) → p1.pending < p.pending) ∧
    (∀ p ast p1, parse_expr fuel p = .ok (ast, p1) → p1.pending < p.pending) ∧
    (∀ left p ast p1, parse_expr_loop fuel left p = .ok (ast, p1) →
      p1.pending ≤ p.pending) := by
  intro fuel
  induction fuel with
  | zero =>
    refine ⟨?_, ?_, ?_⟩
    · intro p ast p1 h; simp [parse_term] at h
    · intro p ast p1 h; simp [parse_expr] at h
    · intro left p ast p1 h; simp [parse_expr_loop] at h
  | succ fuel ih =>
    obtain ⟨iht, ihe, ihl⟩ := ih
    refine ⟨?_, ?_, ?_⟩
    · intro p ast p1 h
      rw [parse_term] at h
      by_cases hid : p.cur.type = ID
      · simp only [hid, if_true] at h
        cases ha : p.advance with
        | error e => simp [ha] at h
        | ok p2 =>
          simp only [ha] at h
          have h2 := Parser.advance_pending ha (by rw [hid]; decide)
          by_cases hlp : p2.cur.type = LPAREN
          · simp only [hlp, if_true] at h
            cases ha2 : p2.advance with
            | error e => simp [ha2] at h
            | ok p3 =>
              simp only [ha2] at h
              have h3 := Parser.advance_pending ha2 (by rw [hlp]; decide)
              by_cases hrp : p3.cur.type = RPAREN
              · simp only [Parser.expect, hrp, ne_eq, not_true_eq_false, if_false] at h
                cases ha3 : p3.advance with
                | error e => simp [ha3] at h
                | ok p4 =>
                  simp only [ha3] at h
                  have h4 := Parser.advance_pending ha3 (by rw [hrp]; decide)
                  have h5 := Parser.optPrio_pending h
                  omega
              · simp [Parser.expect, hrp] at h
          · simp only [hlp, if_false] at h
            have h5 := Parser.optPrio_pending h
            omega
      · simp only [hid, if_false] at h
        by_cases hlb : p.cur.type = LBRACK
        · simp only [hlb, if_true] at h
          cases ha : p.advance with
          | error e => simp [ha] at h
          | ok p2 =>
            simp only [ha] at h
            have h2 := Parser.advance_pending ha (by rw [hlb]; decide)
            cases he : parse_expr fuel p2 with
            | error e => simp [he] at h
            | ok r =>
              obtain ⟨node, p3⟩ := r
              simp only [he] at h
              have h3 := ihe p2 node p3 he
              by_cases hrb : p3.cur.type = RBRACK
              · simp only [Parser.expect, hrb, ne_eq, not_true_eq_false, if_false] at h
                cases ha3 : p3.advance with
                | error e => simp [ha3] at h
                | ok p4 =>
                  simp only [ha3] at h
                  have h4 := Parser.advance_pending ha3 (by rw [hrb]; decide)
                  have h5 := Parser.optPrio_pending h
                  omega
              · simp [Parser.expect, hrb] at h
        · simp [hlb] at h
    · intro p ast p1 h
      rw [parse_expr] at h
      cases ht : parse_term fuel p with
      | error e => simp [ht] at h
      | ok r =>
        obtain ⟨left, p2⟩ := r
        simp only [ht] at h
        have h2 := iht p left p2 ht
        have h3 := ihl left p2 ast p1 h
        omega
    · intro left p ast p1 h
      rw [parse_expr_loop] at h
      by_cases hop : p.cur.type = DOT ∨ p.cur.type = PARALLEL ∨ p.cur.type = CHOICE
      · simp only [hop, if_true] at h
        cases ha : p.advance with
        | error e => simp [ha] at h
        | ok p2 =>
          simp only [ha] at h
          have h2 := Parser.advance_pending ha
            (by rcases hop with h1 | h1 | h1 <;> rw [h1] <;> decide)
          cases ht : parse_term fuel p2 with
          | error e => simp [ht] at h
          | ok r =>
            obtain ⟨right, p3⟩ := r
            simp only [ht] at h
            have h3 := iht p2 right p3 ht
            have h4 := ihl _ p3 ast p1 h
            omega
      · simp only [hop, if_false, Except.ok.injEq, Prod.mk.injEq] at h
        obtain ⟨-, rfl⟩ := h
        exact Nat.le_refl _

/-- With a recursion bound of at least twice the pending input plus two, none of the
three parsing functions stops for lack of fuel. -/
theorem parser_bound_suffices : ∀ fuel : Nat,
    (∀ p, 2 * p.pending + 1 ≤ fuel → parse_term fuel p ≠ .error .outOfFuel) ∧
    (∀ p, 2 * p.pending + 2 ≤ fuel → parse_expr fuel p ≠ .error .outOfFuel) ∧
    (∀ left p, 2 * p.pending + 1 ≤ fuel →
      parse_expr_loop fuel left p ≠ .error .outOfFuel) := by
  intro fuel
  induction fuel with
  | zero =>
    refine ⟨?_, ?_, ?_⟩
    · intro p hf; omega
    · intro p hf; omega
    · intro left p hf; omega
  | succ fuel ih =>
    obtain ⟨iht, ihe, ihl⟩ := ih
    refine ⟨?_, ?_, ?_⟩
    · intro p hf h
      rw [parse_term] at h
      by_cases hid : p.cur.type = ID
      · simp only [hid, if_true] at h
        cases ha : p.advance with
        | error e =>
          simp only [ha, Except.error.injEq] at h
          exact Parser.advance_ne_outOfFuel p (by rw [ha, h])
        | ok p2 =>
          simp only [ha] at h
          by_cases hlp : p2.cur.type = LPAREN
          · simp only [hlp, if_true] at h
            cases ha2 : p2.advance with
            | error e =>
              simp only [ha2, Except.error.injEq] at h
              exact Parser.advance_ne_outOfFuel p2 (by rw [ha2, h])
            | ok p3 =>
              simp only [ha2] at h
              by_cases hrp : p3.cur.type = RPAREN
              · simp only [Parser.expect, hrp, ne_eq, not_true_eq_false, if_false] at h
                cases ha3 : p3.advance with
                | error e =>
                  simp only [ha3, Except.error.injEq] at h
                  exact Parser.advance_ne_outOfFuel p3 (by rw [ha3, h])
                | ok p4 =>
                  simp only [ha3] at h
                  exact Parser.optPrio_ne_outOfFuel _ _ h
              · simp [Parser.expect, hrp] at h
          · simp only [hlp, if_false] at h
            exact Parser.optPrio_ne_outOfFuel _ _ h
      · simp only [hid, if_false] at h
        by_cases hlb : p.cur.type = LBRACK
        · simp only [hlb, if_true] at h
          cases ha : p.advance with
          | error e =>
            simp only [ha, Except.error.injEq] at h
            exact Parser.advance_ne_outOfFuel p (by rw [ha, h])
          | ok p2 =>
            simp only [ha] at h
            have h2 := Parser.advance_pending ha (by rw [hlb]; decide)
            cases he : parse_expr fuel p2 with
            | error e =>
              simp only [he, Except.error.injEq] at h
              exact ihe p2 (by omega) (by rw [he, h])
            | ok r =>
              obtain ⟨node, p3⟩ := r
              simp only [he] at h
              by_cases hrb : p3.cur.type = RBRACK
              · simp only [Parser.expect, hrb, ne_eq, not_true_eq_false, if_false] at h
                cases ha3 : p3.advance with
                | error e =>
                  simp only [ha3, Except.error.injEq] at h
                  exact Parser.advance_ne_outOfFuel p3 (by rw [ha3, h])
                | ok p4 =>
                  simp only [ha3] at h
                  exact Parser.optPrio_ne_outOfFuel _ _ h
              · simp [Parser.expect, hrb] at h
        · simp [hlb] at h
    · intro p hf h
      rw [parse_expr] at h
      cases ht : parse_term fuel p with
      | error e =>
        simp only [ht, Except.error.injEq] at h
        exact iht p (by omega) (by rw [ht, h])
      | ok r =>
        obtain ⟨left, p2⟩ := r
        simp only [ht] at h
        have h2 := (parser_consumes fuel).1 p left p2 ht
        exact ihl left p2 (by omega) h
    · intro left p hf h
      rw [parse_expr_loop] at h
      by_cases hop : p.cur.type = DOT ∨ p.cur.type = PARALLEL ∨ p.cur.type = CHOICE
      · simp only [hop, if_true] at h
        cases ha : p.advance with
        | error e =>
          simp only [ha, Except.error.injEq] at h
          exact Parser.advance_ne_outOfFuel p (by rw [ha, h])
        | ok p2 =>
          simp only [ha] at h
          have h2 := Parser.advance_pending ha
            (by rcases hop with h1 | h1 | h1 <;> rw [h1] <;> decide)
          cases ht : parse_term fuel p2 with
          | error e =>
            simp only [ht, Except.error.injEq] at h
            exact iht p2 (by omega) (by rw [ht, h])
          | ok r =>
            obtain ⟨right, p3⟩ := r
            simp only [ht] at h
            have h3 := (parser_consumes fuel).1 p2 right p3 ht
            exact ihl _ p3 (by omega) h
      · simp [hop] at h

/-- The recursion bound `parse` hands out is never reached: `parse` fails only with a
`ParseError` or an exception of `stoi`. -/
theorem parse_total (input : String) : parse input ≠ .error .outOfFuel := by
  intro h
  unfold parse at h
  cases hi : Parser.init input.data with
  | error e =>
    simp only [hi, Except.error.injEq] at h
    rw [Parser.init_eq_advance _ ⟨END, "", 0, 0⟩] at hi
    exact Parser.advance_ne_outOfFuel _ (by rw [hi, h])
  | ok p =>
    simp only [hi] at h
    have hp : p.pending ≤ input.data.length + 1 := by
      unfold Parser.init at hi
      cases hn : (Tokenizer.init input.data).next_token with
      | error e => simp [hn] at hi
      | ok r =>
        obtain ⟨t, tz1⟩ := r
        simp only [hn, Except.ok.injEq] at hi
        subst hi
        have := (Tokenizer.next_token_consumes hn).1
        simp only [Tokenizer.init, Tokenizer.read_chars] at this
        simp only [Parser.pending]
        split <;> omega
    cases he : parse_expr (parseFuel input.data) p with
    | error e =>
      simp only [he, Except.error.injEq] at h
      exact (parser_bound_suffices (parseFuel input.data)).2.1 p
        (by simp only [parseFuel]; omega) (by rw [he, h])
    | ok r =>
      obtain ⟨ast, p1⟩ := r
      simp only [he] at h
      split at h <;> simp at h

/-- The bound of `tokenize` is never reached either. -/
theorem tokensFrom_total : ∀ (fuel : Nat) (tz : Tokenizer), tz.chars.length + 1 ≤ fuel →
    tokensFrom fuel tz ≠ .error .outOfFuel := by
  intro fuel
  induction fuel with
  | zero => intro tz hf; omega
  | succ fuel ih =>
    intro tz hf h
    rw [tokensFrom] at h
    cases hn : tz.next_token with
    | error e =>
      simp only [hn, Except.error.injEq] at h
      exact Tokenizer.next_token_ne_outOfFuel tz (by rw [hn, h])
    | ok r =>
      obtain ⟨t, tz1⟩ := r
      simp only [hn] at h
      by_cases hend : t.type = END
      · simp [hend] at h
      · simp only [hend, if_false] at h
        have hlt := (Tokenizer.next_token_consumes hn).2.1 hend
        cases hr : tokensFrom fuel tz1 with
        | error e =>
          simp only [hr, Except.error.injEq] at h
          exact ih tz1 (by omega) (by rw [hr, h])
        | ok ts => simp [hr] at h

theorem tokenize_total (input : List Char) : tokenize input ≠ .error .outOfFuel :=
  tokensFrom_total _ _ (by simp [Tokenizer.init, Tokenizer.read_chars])

/-! ## One step of `compileExpr` and of `generate` -/

theorem PetriModule.plus_nil (m : PetriModule) : m.plus [] [] [] = m := by
  simp [PetriModule.plus]

theorem compileExpr_action_step (fuel : Nat) (name inp out : String) (cg : CodegenVisitor)
    (m : PetriModule) (h : cg.counter < INT_MAX) :
    compileExpr (fuel + 1) (ActionNode name) inp out cg m =
      .ok (cg.bump 1, m.plus [] [⟨"T" ++ toString cg.counter, 0⟩]
        [⟨PLACE_TO_TRANS, inp, "T" ++ toString cg.counter⟩,
         ⟨TRANS_TO_PLACE, "T" ++ toString cg.counter, out⟩]) := by
  rw [compileExpr]
  simp [fresh_eq cg "T" h, PetriModule.plus, CodegenVisitor.bump]

theorem compileExpr_choice_step (fuel : Nat) (l r : AstNode) (inp out : String)
    (cg : CodegenVisitor) (m : PetriModule) :
    compileExpr (fuel + 1) (ChoiceNode l r) inp out cg m =
      (compileExpr fuel l inp out cg m).bind
        (fun s => compileExpr fuel r inp out s.1 s.2) := by
  rw [compileExpr]
  cases compileExpr fuel l inp out cg m with
  | error e => rfl
  | ok s => rfl

theorem compileExpr_prio_step (fuel : Nat) (level : Int) (child : AstNode) (inp out : String)
    (cg : CodegenVisitor) (m : PetriModule) (h : cg.counter + 2 ≤ INT_MAX) :
    compileExpr (fuel + 1) (PrioNode level child) inp out cg m =
      compileExpr fuel child ("P" ++ toString cg.counter) out (cg.bump 2)
        (m.plus [⟨"P" ++ toString cg.counter⟩] [⟨"T" ++ toString (cg.counter + 1), level⟩]
          [⟨PLACE_TO_TRANS, inp, "T" ++ toString (cg.counter + 1)⟩,
           ⟨TRANS_TO_PLACE, "T" ++ toString (cg.counter + 1), "P" ++ toString cg.counter⟩]) := by
  rw [compileExpr]
  have h1 := fresh_eq cg "P" (by omega)
  have h2 := fresh_eq { cg with counter := cg.counter + 1 } "T" (by simp only; omega)
  simp only [h1, h2]
  rfl

theorem compileExpr_parallel_step (fuel : Nat) (l r : AstNode) (inp out : String)
    (cg : CodegenVisitor) (m : PetriModule) (h : cg.counter + 6 ≤ INT_MAX) :
    compileExpr (fuel + 1) (ParallelNode l r) inp out cg m =
      (compileExpr fuel l ("P" ++ toString cg.counter) ("P" ++ toString (cg.counter + 2))
        (cg.bump 6)
        (m.plus [⟨"P" ++ toString cg.counter⟩, ⟨"P" ++ toString (cg.counter + 1)⟩,
            ⟨"P" ++ toString (cg.counter + 2)⟩, ⟨"P" ++ toString (cg.counter + 3)⟩]
          [⟨"T" ++ toString (cg.counter + 4), 0⟩, ⟨"T" ++ toString (cg.counter + 5), 0⟩]
          [⟨PLACE_TO_TRANS, inp, "T" ++ toString (cg.counter + 4)⟩,
           ⟨TRANS_TO_PLACE, "T" ++ toString (cg.counter + 4), "P" ++ toString cg.counter⟩,
           ⟨TRANS_TO_PLACE, "T" ++ toString (cg.counter + 4),
             "P" ++ toString (cg.counter + 1)⟩])).bind
        (fun s => (compileExpr fuel r ("P" ++ toString (cg.counter + 1))
            ("P" ++ toString (cg.counter + 3)) s.1 s.2).bind
          (fun s1 => .ok (s1.1, s1.2.plus [] []
            [⟨PLACE_TO_TRANS, "P" ++ toString (cg.counter + 2), "T" ++ toString (cg.counter + 5)⟩,
             ⟨PLACE_TO_TRANS, "P" ++ toString (cg.counter + 3), "T" ++ toString (cg.counter + 5)⟩,
             ⟨TRANS_TO_PLACE, "T" ++ toString (cg.counter + 5), out⟩]))) := by
  rw [compileExpr]
  have h1 := fresh_eq cg "P" (by omega)
  have h2 := fresh_eq { cg with counter := cg.counter + 1 } "P" (by simp only; omega)
  have h3 := fresh_eq { cg with counter := cg.counter + 1 + 1 } "P" (by simp only; omega)
  have h4 := fresh_eq { cg with counter := cg.counter + 1 + 1 + 1 } "P" (by simp only; omega)
  have h5 := fresh_eq { cg with counter := cg.counter + 1 + 1 + 1 + 1 } "T" (by simp only; omega)
  have h6 := fresh_eq { cg with counter := cg.counter + 1 + 1 + 1 + 1 + 1 } "T"
    (by simp only; omega)
  simp only [h1, h2, h3, h4, h5, h6, CodegenVisitor.bump, PetriModule.plus, Nat.add_assoc,
    Nat.reduceAdd]
  generalize compileExpr fuel l _ _ _ _ = x
  cases x with
  | error e => rfl
  | ok s =>
    obtain ⟨cg7, m2⟩ := s
    simp only [Except.bind]
    generalize compileExpr fuel r _ _ _ _ = y
    cases y with
    | error e => rfl
    | ok s1 => simp

theorem seqLoop_single (rec : Compile) (out : String) (c : AstNode) (current : String)
    (cg : CodegenVisitor) (m : PetriModule) :
    seqLoop rec out [c] current cg m = rec c current out cg m := rfl

theorem seqLoop_step (rec : Compile) (out : String) (c c2 : AstNode) (cs : List AstNode)
    (current : String) (cg : CodegenVisitor) (m : PetriModule) (h : cg.counter < INT_MAX) :
    seqLoop rec out (c :: c2 :: cs) current cg m =
      (rec c current ("P" ++ toString cg.counter) (cg.bump 1)
        (m.plus [⟨"P" ++ toString cg.counter⟩] [] [])).bind
        (fun s => seqLoop rec out (c2 :: cs) ("P" ++ toString cg.counter) s.1 s.2) := by
  rw [seqLoop]
  simp only [fresh_eq cg "P" h, CodegenVisitor.bump, PetriModule.plus, List.append_nil]
  generalize rec c _ _ _ _ = x
  cases x with
  | error e => rfl
  | ok s => rfl

theorem compileExpr_call_step (fuel : Nat) (name inp out : String) (cg : CodegenVisitor)
    (m : PetriModule) :
    compileExpr (fuel + 1) (CallModuleNode name) inp out cg m =
      (generate fuel cg name).bind (fun r =>
        if r.2.counter + 2 ≤ INT_MAX then
          .ok (r.2.bump 2, m.plus r.1.places
            (r.1.transitions ++ [⟨"T_call" ++ toString r.2.counter, 0⟩,
              ⟨"T_ret" ++ toString (r.2.counter + 1), 0⟩])
            (r.1.arcs ++ [⟨PLACE_TO_TRANS, inp, "T_call" ++ toString r.2.counter⟩,
              ⟨TRANS_TO_PLACE, "T_call" ++ toString r.2.counter, r.1.entry.id⟩,
              ⟨PLACE_TO_TRANS, r.1.exit.id, "T_ret" ++ toString (r.2.counter + 1)⟩,
              ⟨TRANS_TO_PLACE, "T_ret" ++ toString (r.2.counter + 1), out⟩]))
        else .error .intOverflow) := by
  rw [compileExpr, generate]
  cases generateWith (compileExpr fuel) cg name with
  | error e => rfl
  | ok r =>
    obtain ⟨sub, cg1⟩ := r
    simp only [Except.bind]
    by_cases h : cg1.counter + 2 ≤ INT_MAX
    · have h1 := fresh_eq cg1 "T_call" (by omega)
      have h2 := fresh_eq { cg1 with counter := cg1.counter + 1 } "T_ret" (by simp only; omega)
      simp [h, h1, h2, CodegenVisitor.bump, PetriModule.plus, Nat.add_assoc]
    · simp only [h, if_false]
      by_cases h0 : cg1.counter < INT_MAX
      · have h1 := fresh_eq cg1 "T_call" h0
        have h2 : fresh { cg1 with counter := cg1.counter + 1 } "T_ret" = .error .intOverflow := by
          simp only [fresh]
          rw [if_neg]
          omega
        simp only [h1, h2]
      · have h1 : fresh cg1 "T_call" = .error .intOverflow := by
          simp only [fresh]
          rw [if_neg h0]
        simp only [h1]

theorem generateWith_hit (rec : Compile) (cg : CodegenVisitor) (name : String)
    (F : PetriModule) (h : mapFind cg.generated name = some F) :
    generateWith rec cg name = .ok (F, cg) := by
  simp [generateWith, h]

theorem generateWith_miss (rec : Compile) (cg : CodegenVisitor) (name : String)
    (root : AstNode) (hmemo : mapFind cg.generated name = none)
    (hreg : mapFind cg.modules name = some ⟨some root⟩) (h : cg.counter + 2 ≤ INT_MAX) :
    generateWith rec cg name =
      (rec root ("entry" ++ toString cg.counter) ("exit" ++ toString (cg.counter + 1))
        (cg.bump 2)
        (bareFragment name ("entry" ++ toString cg.counter)
          ("exit" ++ toString (cg.counter + 1)))).bind
        (fun s => .ok (s.2, { s.1 with generated := mapAssign s.1.generated name s.2 })) := by
  have h1 := fresh_eq cg "entry" (by omega)
  have h2 := fresh_eq { cg with counter := cg.counter + 1 } "exit" (by simp only; omega)
  simp only [generateWith, hmemo, h1, h2, hreg, CodegenVisitor.bump, bareFragment,
    Nat.add_assoc, Nat.reduceAdd]
  generalize rec root _ _ _ _ = x
  cases x with
  | error e => rfl
  | ok s => rfl

theorem generateWith_nullRoot (rec : Compile) (cg : CodegenVisitor) (name : String)
    (hm : mapFind cg.modules name = some ⟨none⟩) (hg : mapFind cg.generated name = none)
    (hc : cg.counter + 2 ≤ INT_MAX) :
    generateWith rec cg name =
      .ok (bareFragment name ("entry" ++ toString cg.counter)
            ("exit" ++ toString (cg.counter + 1)),
        { modules := cg.modules,
          generated := mapAssign cg.generated name
            (bareFragment name ("entry" ++ toString cg.counter)
              ("exit" ++ toString (cg.counter + 1))),
          counter := cg.counter + 2 }) := by
  have h1 := fresh_eq cg "entry" (by omega)
  have h2 := fresh_eq { cg with counter := cg.counter + 1 } "exit" (by simp only; omega)
  simp only [generateWith, hg, h1, h2, hm, bareFragment, Nat.add_assoc, Nat.reduceAdd]

theorem fresh_overflow (cg : CodegenVisitor) (base : String) (h : ¬ cg.counter < INT_MAX) :
    fresh cg base = .error .intOverflow := by
  simp [fresh, h]

theorem compileExpr_parallel_overflow (fuel : Nat) (l r : AstNode) (inp out : String)
    (cg : CodegenVisitor) (m : PetriModule) (h : ¬ cg.counter + 6 ≤ INT_MAX) :
    compileExpr (fuel + 1) (ParallelNode l r) inp out cg m = .error .intOverflow := by
  rw [compileExpr]
  by_cases h1 : cg.counter < INT_MAX
  · rw [fresh_eq cg "P" h1]
    by_cases h2 : cg.counter + 1 < INT_MAX
    · simp only [fresh_eq { cg with counter := cg.counter + 1 } "P" h2]
      by_cases h3 : cg.counter + 1 + 1 < INT_MAX
      · simp only [fresh_eq { cg with counter := cg.counter + 1 + 1 } "P" h3]
        by_cases h4 : cg.counter + 1 + 1 + 1 < INT_MAX
        · simp only [fresh_eq { cg with counter := cg.counter + 1 + 1 + 1 } "P" h4]
          by_cases h5 : cg.counter + 1 + 1 + 1 + 1 < INT_MAX
          · simp only [fresh_eq { cg with counter := cg.counter + 1 + 1 + 1 + 1 } "T" h5]
            have h6 : ¬ cg.counter + 1 + 1 + 1 + 1 + 1 < INT_MAX := by omega
            simp only [fresh_overflow { cg with counter := cg.counter + 1 + 1 + 1 + 1 + 1 } "T" h6]
          · simp only [fresh_overflow { cg with counter := cg.counter + 1 + 1 + 1 + 1 } "T" h5]
        · simp only [fresh_overflow { cg with counter := cg.counter + 1 + 1 + 1 } "P" h4]
      · simp only [fresh_overflow { cg with counter := cg.counter + 1 + 1 } "P" h3]
    · simp only [fresh_overflow { cg with counter := cg.counter + 1 } "P" h2]
  · rw [fresh_overflow cg "P" h1]

theorem compileExpr_prio_overflow (fuel : Nat) (level : Int) (child : AstNode)
    (inp out : String) (cg : CodegenVisitor) (m : PetriModule)
    (h : ¬ cg.counter + 2 ≤ INT_MAX) :
    compileExpr (fuel + 1) (PrioNode level child) inp out cg m = .error .intOverflow := by
  rw [compileExpr]
  by_cases h1 : cg.counter < INT_MAX
  · rw [fresh_eq cg "P" h1]
    have h2 : ¬ cg.counter + 1 < INT_MAX := by omega
    simp only [fresh_overflow { cg with counter := cg.counter + 1 } "T" h2]
  · rw [fresh_overflow cg "P" h1]

theorem compileExpr_action_overflow (fuel : Nat) (name inp out : String) (cg : CodegenVisitor)
    (m : PetriModule) (h : ¬ cg.counter < INT_MAX) :
    compileExpr (fuel + 1) (ActionNode name) inp out cg m = .error .intOverflow := by
  rw [compileExpr, fresh_overflow cg "T" h]

theorem seqLoop_overflow (rec : Compile) (out : String) (c c2 : AstNode) (cs : List AstNode)
    (current : String) (cg : CodegenVisitor) (m : PetriModule) (h : ¬ cg.counter < INT_MAX) :
    seqLoop rec out (c :: c2 :: cs) current cg m = .error .intOverflow := by
  rw [seqLoop, fresh_overflow cg "P" h]

theorem generateWith_miss_overflow (rec : Compile) (cg : CodegenVisitor) (name : String)
    (hmemo : mapFind cg.generated name = none) (h : ¬ cg.counter + 2 ≤ INT_MAX) :
    generateWith rec cg name = .error .intOverflow := by
  simp only [generateWith, hmemo]
  by_cases h1 : cg.counter < INT_MAX
  · rw [fresh_eq cg "entry" h1]
    have h2 : ¬ cg.counter + 1 < INT_MAX := by omega
    simp only [fresh_overflow { cg with counter := cg.counter + 1 } "exit" h2]
  · rw [fresh_overflow cg "entry" h1]

theorem compileExpr_action_eq (fuel : Nat) (name inp out : String) (cg : CodegenVisitor)
    (m : PetriModule) :
    compileExpr (fuel + 1) (ActionNode name) inp out cg m =
      if cg.counter < INT_MAX then
        .ok (cg.bump 1, m.plus [] [⟨"T" ++ toString cg.counter, 0⟩]
          [⟨PLACE_TO_TRANS, inp, "T" ++ toString cg.counter⟩,
           ⟨TRANS_TO_PLACE, "T" ++ toString cg.counter, out⟩])
      else .error .intOverflow := by
  by_cases h : cg.counter < INT_MAX
  · rw [if_pos h, compileExpr_action_step fuel name inp out cg m h]
  · rw [if_neg h, compileExpr_action_overflow fuel name inp out cg m h]

theorem compileExpr_prio_eq (fuel : Nat) (level : Int) (child : AstNode) (inp out : String)
    (cg : CodegenVisitor) (m : PetriModule) :
    compileExpr (fuel + 1) (PrioNode level child) inp out cg m =
      if cg.counter + 2 ≤ INT_MAX then
        compileExpr fuel child ("P" ++ toString cg.counter) out (cg.bump 2)
          (m.plus [⟨"P" ++ toString cg.counter⟩] [⟨"T" ++ toString (cg.counter + 1), level⟩]
            [⟨PLACE_TO_TRANS, inp, "T" ++ toString (cg.counter + 1)⟩,
             ⟨TRANS_TO_PLACE, "T" ++ toString (cg.counter + 1), "P" ++ toString cg.counter⟩])
      else .error .intOverflow := by
  by_cases h : cg.counter + 2 ≤ INT_MAX
  · rw [if_pos h, compileExpr_prio_step fuel level child inp out cg m h]
  · rw [if_neg h, compileExpr_prio_overflow fuel level child inp out cg m h]

theorem compileExpr_parallel_eq (fuel : Nat) (l r : AstNode) (inp out : String)
    (cg : CodegenVisitor) (m : PetriModule) :
    compileExpr (fuel + 1) (ParallelNode l r) inp out cg m =
      if cg.counter + 6 ≤ INT_MAX then
        (compileExpr fuel l ("P" ++ toString cg.counter) ("P" ++ toString (cg.counter + 2))
          (cg.bump 6)
          (m.plus [⟨"P" ++ toString cg.counter⟩, ⟨"P" ++ toString (cg.counter + 1)⟩,
              ⟨"P" ++ toString (cg.counter + 2)⟩, ⟨"P" ++ toString (cg.counter + 3)⟩]
            [⟨"T" ++ toString (cg.counter + 4), 0⟩, ⟨"T" ++ toString (cg.counter + 5), 0⟩]
            [⟨PLACE_TO_TRANS, inp, "T" ++ toString (cg.counter + 4)⟩,
             ⟨TRANS_TO_PLACE, "T" ++ toString (cg.counter + 4), "P" ++ toString cg.counter⟩,
             ⟨TRANS_TO_PLACE, "T" ++ toString (cg.counter + 4),
               "P" ++ toString (cg.counter + 1)⟩])).bind
          (fun s => (compileExpr fuel r ("P" ++ toString (cg.counter + 1))
              ("P" ++ toString (cg.counter + 3)) s.1 s.2).bind
            (fun s1 => .ok (s1.1, s1.2.plus [] []
              [⟨PLACE_TO_TRANS, "P" ++ toString (cg.counter + 2),
                 "T" ++ toString (cg.counter + 5)⟩,
               ⟨PLACE_TO_TRANS, "P" ++ toString (cg.counter + 3),
                 "T" ++ toString (cg.counter + 5)⟩,
               ⟨TRANS_TO_PLACE, "T" ++ toString (cg.counter + 5), out⟩])))
      else .error .intOverflow := by
  by_cases h : cg.counter + 6 ≤ INT_MAX
  · rw [if_pos h, compileExpr_parallel_step fuel l r inp out cg m h]
  · rw [if_neg h, compileExpr_parallel_overflow fuel l r inp out cg m h]

theorem seqLoop_eq (rec : Compile) (out : String) (c c2 : AstNode) (cs : List AstNode)
    (current : String) (cg : CodegenVisitor) (m : PetriModule) :
    seqLoop rec out (c :: c2 :: cs) current cg m =
      if cg.counter < INT_MAX then
        (rec c current ("P" ++ toString cg.counter) (cg.bump 1)
          (m.plus [⟨"P" ++ toString cg.counter⟩] [] [])).bind
          (fun s => seqLoop rec out (c2 :: cs) ("P" ++ toString cg.counter) s.1 s.2)
      else .error .intOverflow := by
  by_cases h : cg.counter < INT_MAX
  · rw [if_pos h, seqLoop_step rec out c c2 cs current cg m h]
  · rw [if_neg h, seqLoop_overflow rec out c c2 cs current cg m h]

theorem bind_ok {ε α β : Type} {x : Except ε α} {f : α → Except ε β} {b : β}
    (h : x.bind f = .ok b) : ∃ a, x = .ok a ∧ f a = .ok b := by
  cases x with
  | error e => cases h
  | ok a => exact ⟨a, rfl, h⟩

theorem compileExpr_action_ok {fuel : Nat} {name inp out : String} {cg cg1 : CodegenVisitor}
    {m m1 : PetriModule}
    (h : compileExpr (fuel + 1) (ActionNode name) inp out cg m = .ok (cg1, m1)) :
    cg.counter < INT_MAX ∧ cg1 = cg.bump 1 ∧
      m1 = m.plus [] [⟨"T" ++ toString cg.counter, 0⟩]
        [⟨PLACE_TO_TRANS, inp, "T" ++ toString cg.counter⟩,
         ⟨TRANS_TO_PLACE, "T" ++ toString cg.counter, out⟩] := by
  by_cases hb : cg.counter < INT_MAX
  · rw [compileExpr_action_step fuel name inp out cg m hb] at h
    simp only [Except.ok.injEq, Prod.mk.injEq] at h
    exact ⟨hb, h.1.symm, h.2.symm⟩
  · rw [compileExpr_action_overflow fuel name inp out cg m hb] at h
    cases h

theorem seqLoop_ok {rec : Compile} {out : String} {c c2 : AstNode} {cs : List AstNode}
    {current : String} {cg cg1 : CodegenVisitor} {m m1 : PetriModule}
    (h : seqLoop rec out (c :: c2 :: cs) current cg m = .ok (cg1, m1)) :
    cg.counter < INT_MAX ∧ ∃ cg2 m2,
      rec c current ("P" ++ toString cg.counter) (cg.bump 1)
        (m.plus [⟨"P" ++ toString cg.counter⟩] [] []) = .ok (cg2, m2) ∧
      seqLoop rec out (c2 :: cs) ("P" ++ toString cg.counter) cg2 m2 = .ok (cg1, m1) := by
  by_cases hb : cg.counter < INT_MAX
  · rw [seqLoop_step rec out c c2 cs current cg m hb] at h
    obtain ⟨⟨cg2, m2⟩, h1, h2⟩ := bind_ok h
    exact ⟨hb, cg2, m2, h1, h2⟩
  · rw [seqLoop_overflow rec out c c2 cs current cg m hb] at h
    cases h

theorem compileExpr_parallel_ok {fuel : Nat} {l r : AstNode} {inp out : String}
    {cg cg1 : CodegenVisitor} {m m1 : PetriModule}
    (h : compileExpr (fuel + 1) (ParallelNode l r) inp out cg m = .ok (cg1, m1)) :
    cg.counter + 6 ≤ INT_MAX ∧ ∃ cg2 m2 m3,
      compileExpr fuel l ("P" ++ toString cg.counter) ("P" ++ toString (cg.counter + 2))
        (cg.bump 6)
        (m.plus [⟨"P" ++ toString cg.counter⟩, ⟨"P" ++ toString (cg.counter + 1)⟩,
            ⟨"P" ++ toString (cg.counter + 2)⟩, ⟨"P" ++ toString (cg.counter + 3)⟩]
          [⟨"T" ++ toString (cg.counter + 4), 0⟩, ⟨"T" ++ toString (cg.counter + 5), 0⟩]
          [⟨PLACE_TO_TRANS, inp, "T" ++ toString (cg.counter + 4)⟩,
           ⟨TRANS_TO_PLACE, "T" ++ toString (cg.counter + 4), "P" ++ toString cg.counter⟩,
           ⟨TRANS_TO_PLACE, "T" ++ toString (cg.counter + 4),
             "P" ++ toString (cg.counter + 1)⟩]) = .ok (cg2, m2) ∧
      compileExpr fuel r ("P" ++ toString (cg.counter + 1)) ("P" ++ toString (cg.counter + 3))
        cg2 m2 = .ok (cg1, m3) ∧
      m1 = m3.plus [] []
        [⟨PLACE_TO_TRANS, "P" ++ toString (cg.counter + 2), "T" ++ toString (cg.counter + 5)⟩,
         ⟨PLACE_TO_TRANS, "P" ++ toString (cg.counter + 3), "T" ++ toString (cg.counter + 5)⟩,
         ⟨TRANS_TO_PLACE, "T" ++ toString (cg.counter + 5), out⟩] := by
  by_cases hb : cg.counter + 6 ≤ INT_MAX
  · rw [compileExpr_parallel_step fuel l r inp out cg m hb] at h
    obtain ⟨⟨cg2, m2⟩, h1, h2⟩ := bind_ok h
    obtain ⟨⟨cg3, m3⟩, h3, h4⟩ := bind_ok h2
    simp only [Except.ok.injEq, Prod.mk.injEq] at h4
    obtain ⟨rfl, rfl⟩ := h4
    exact ⟨hb, cg2, m2, m3, h1, h3, rfl⟩
  · rw [compileExpr_parallel_overflow fuel l r inp out cg m hb] at h
    cases h

theorem compileExpr_choice_ok {fuel : Nat} {l r : AstNode} {inp out : String}
    {cg cg1 : CodegenVisitor} {m m1 : PetriModule}
    (h : compileExpr (fuel + 1) (ChoiceNode l r) inp out cg m = .ok (cg1, m1)) :
    ∃ cg2 m2, compileExpr fuel l inp out cg m = .ok (cg2, m2) ∧
      compileExpr fuel r inp out cg2 m2 = .ok (cg1, m1) := by
  rw [compileExpr_choice_step] at h
  obtain ⟨⟨cg2, m2⟩, h1, h2⟩ := bind_ok h
  exact ⟨cg2, m2, h1, h2⟩

theorem compileExpr_prio_ok {fuel : Nat} {level : Int} {child : AstNode} {inp out : String}
    {cg cg1 : CodegenVisitor} {m m1 : PetriModule}
    (h : compileExpr (fuel + 1) (PrioNode level child) inp out cg m = .ok (cg1, m1)) :
    cg.counter + 2 ≤ INT_MAX ∧
      compileExpr fuel child ("P" ++ toString cg.counter) out (cg.bump 2)
        (m.plus [⟨"P" ++ toString cg.counter⟩] [⟨"T" ++ toString (cg.counter + 1), level⟩]
          [⟨PLACE_TO_TRANS, inp, "T" ++ toString (cg.counter + 1)⟩,
           ⟨TRANS_TO_PLACE, "T" ++ toString (cg.counter + 1), "P" ++ toString cg.counter⟩]) =
        .ok (cg1, m1) := by
  by_cases hb : cg.counter + 2 ≤ INT_MAX
  · rw [compileExpr_prio_step fuel level child inp out cg m hb] at h
    exact ⟨hb, h⟩
  · rw [compileExpr_prio_overflow fuel level child inp out cg m hb] at h
    cases h

theorem compileExpr_call_ok {fuel : Nat} {name inp out : String}
    {cg cg1 : CodegenVisitor} {m m1 : PetriModule}
    (h : compileExpr (fuel + 1) (CallModuleNode name) inp out cg m = .ok (cg1, m1)) :
    ∃ sub cg2, generate fuel cg name = .ok (sub, cg2) ∧ cg2.counter + 2 ≤ INT_MAX ∧
      cg1 = cg2.bump 2 ∧
      m1 = m.plus sub.places
        (sub.transitions ++ [⟨"T_call" ++ toString cg2.counter, 0⟩,
          ⟨"T_ret" ++ toString (cg2.counter + 1), 0⟩])
        (sub.arcs ++ [⟨PLACE_TO_TRANS, inp, "T_call" ++ toString cg2.counter⟩,
          ⟨TRANS_TO_PLACE, "T_call" ++ toString cg2.counter, sub.entry.id⟩,
          ⟨PLACE_TO_TRANS, sub.exit.id, "T_ret" ++ toString (cg2.counter + 1)⟩,
          ⟨TRANS_TO_PLACE, "T_ret" ++ toString (cg2.counter + 1), out⟩]) := by
  rw [compileExpr_call_step] at h
  obtain ⟨⟨sub, cg2⟩, h1, h2⟩ := bind_ok h
  by_cases hb : cg2.counter + 2 ≤ INT_MAX
  · simp only [hb, if_true, Except.ok.injEq, Prod.mk.injEq] at h2
    exact ⟨sub, cg2, h1, hb, h2.1.symm, h2.2.symm⟩
  · simp [hb] at h2

/-- What a returning `generate` did: a memo hit, or a compilation of the registered body
(or of nothing, when there is none) from the two-place fragment. -/
theorem generateWith_ok {rec : Compile} {cg cg1 : CodegenVisitor} {name : String}
    {F : PetriModule} (h : generateWith rec cg name = .ok (F, cg1)) :
    (mapFind cg.generated name = some F ∧ cg1 = cg) ∨
    (mapFind cg.generated name = none ∧ cg.counter + 2 ≤ INT_MAX ∧
      ((∃ root cg2, mapFind cg.modules name = some ⟨some root⟩ ∧
          rec root ("entry" ++ toString cg.counter) ("exit" ++ toString (cg.counter + 1))
            (cg.bump 2) (bareFragment name ("entry" ++ toString cg.counter)
              ("exit" ++ toString (cg.counter + 1))) = .ok (cg2, F) ∧
          cg1 = { cg2 with generated := mapAssign cg2.generated name F }) ∨
       ((mapFind cg.modules name = none ∨ mapFind cg.modules name = some ⟨none⟩) ∧
          F = bareFragment name ("entry" ++ toString cg.counter)
            ("exit" ++ toString (cg.counter + 1)) ∧
          cg1.generated = mapAssign cg.generated name F ∧
          cg1.counter = cg.counter + 2))) := by
  cases hg : mapFind cg.generated name with
  | some G =>
    rw [generateWith_hit rec cg name G hg] at h
    simp only [Except.ok.injEq, Prod.mk.injEq] at h
    exact .inl ⟨by rw [h.1], h.2.symm⟩
  | none =>
    right
    by_cases hb : cg.counter + 2 ≤ INT_MAX
    · refine ⟨rfl, hb, ?_⟩
      cases hmod : mapFind cg.modules name with
      | none =>
        right
        have h1 := fresh_eq cg "entry" (by omega)
        have h2 := fresh_eq { cg with counter := cg.counter + 1 } "exit" (by simp only; omega)
        simp only [generateWith, hg, h1, h2, hmod, Except.ok.injEq, Prod.mk.injEq] at h
        obtain ⟨rfl, rfl⟩ := h
        exact ⟨.inl rfl, rfl, rfl, rfl⟩
      | some fd =>
        obtain ⟨root⟩ := fd
        cases root with
        | none =>
          right
          have h1 := fresh_eq cg "entry" (by omega)
          have h2 := fresh_eq { cg with counter := cg.counter + 1 } "exit" (by simp only; omega)
          simp only [generateWith, hg, h1, h2, hmod, Except.ok.injEq, Prod.mk.injEq] at h
          obtain ⟨rfl, rfl⟩ := h
          exact ⟨.inr rfl, rfl, rfl, rfl⟩
        | some root =>
          left
          rw [generateWith_miss rec cg name root hg hmod hb] at h
          obtain ⟨⟨cg2, m2⟩, h1, h2⟩ := bind_ok h
          simp only [Except.ok.injEq, Prod.mk.injEq] at h2
          obtain ⟨rfl, rfl⟩ := h2
          exact ⟨root, cg2, rfl, h1, rfl⟩
    · rw [generateWith_miss_overflow rec cg name hg hb] at h
      cases h

/-! ## What a compilation leaves unchanged -/

theorem mem_nodeIds_plus (m : PetriModule) (ps : List Place) (ts : List Transition)
    (as : List Arc) (x : String) :
    x ∈ nodeIds (m.plus ps ts as) ↔
      x ∈ nodeIds m ∨ x ∈ ps.map (fun p => p.id) ∨ x ∈ ts.map (fun t => t.id) := by
  simp only [nodeIds, placeIds, transIds, PetriModule.plus, List.map_append, List.mem_append]
  tauto

theorem Grows.ofPlus (m : PetriModule) (ps : List Place) (ts : List Transition) (as : List Arc) :
    Grows m (m.plus ps ts as) :=
  Grows.append m ps ts as

theorem freshIn_mk (b : String) (hb : b ∈ idBases) (c i k : Nat) (h : i < k) :
    FreshIn c (c + k) (b ++ toString (c + i)) :=
  ⟨b, c + i, hb, by omega, by omega, rfl⟩

theorem Frame.unchanged (cg : CodegenVisitor) (m : PetriModule) : Frame cg m cg m :=
  ⟨Nat.le_refl _, Grows.refl m, fun _ _ h => h, fun _ h => .inl h, fun _ h => .inl h⟩

theorem Frame.compose {cg cg1 cg2 : CodegenVisitor} {m m1 m2 : PetriModule}
    (h1 : Frame cg m cg1 m1) (h2 : Frame cg1 m1 cg2 m2) : Frame cg m cg2 m2 := by
  have c1 := h1.counter
  have c2 := h2.counter
  have memo1 : ∀ x, MemoId cg1 x → MemoId cg x ∨ FreshIn cg.counter cg2.counter x := by
    intro x hx
    rcases h1.memoIds x hx with h | h
    · exact .inl h
    · exact .inr (h.mono (Nat.le_refl _) c2)
  refine ⟨by omega, h1.grows.trans h2.grows, fun n G h => h2.memo n G (h1.memo n G h), ?_, ?_⟩
  · intro x hx
    rcases h2.memoIds x hx with h | h
    · exact memo1 x h
    · exact .inr (h.mono c1 (Nat.le_refl _))
  · intro x hx
    rcases h2.ids x hx with h | h | h
    · rcases h1.ids x h with h | h | h
      · exact .inl h
      · exact .inr (.inl h)
      · exact .inr (.inr (h.mono (Nat.le_refl _) c2))
    · rcases memo1 x h with h | h
      · exact .inr (.inl h)
      · exact .inr (.inr h)
    · exact .inr (.inr (h.mono c1 (Nat.le_refl _)))

/-- Appending nodes whose ids `fresh` has just made, and any arcs. -/
theorem Frame.appendFresh (cg : CodegenVisitor) (m : PetriModule) (k : Nat) (ps : List Place)
    (ts : List Transition) (as : List Arc)
    (hnew : ∀ x, x ∈ ps.map (fun p => p.id) ∨ x ∈ ts.map (fun t => t.id) →
      FreshIn cg.counter (cg.counter + k) x) :
    Frame cg m (cg.bump k) (m.plus ps ts as) := by
  refine ⟨Nat.le_add_right _ _, Grows.ofPlus m ps ts as, fun _ _ h => h, fun _ h => .inl h, ?_⟩
  intro x hx
  rcases (mem_nodeIds_plus m ps ts as x).mp hx with h | h
  · exact .inl h
  · exact .inr (.inr (hnew x h))

theorem bareFragment_fresh (name : String) (c : Nat) (x : String)
    (hx : x ∈ nodeIds (bareFragment name ("entry" ++ toString c) ("exit" ++ toString (c + 1)))) :
    FreshIn c (c + 2) x := by
  simp only [nodeIds, placeIds, transIds, bareFragment, List.map_cons, List.map_nil,
    List.append_nil, List.mem_cons, List.mem_singleton, List.not_mem_nil, or_false] at hx
  rcases hx with rfl | rfl
  · exact freshIn_mk "entry" (by decide) c 0 2 (by omega)
  · exact freshIn_mk "exit" (by decide) c 1 2 (by omega)

/-- The frame of `generate`: the counter does not decrease, no memo entry is dropped or
replaced, and every node id of the returned fragment and of the new memo entries was
cached before or has just been made by `fresh`. -/
theorem generateWith_frame {rec : Compile} (hrec : GenFrame rec) {cg cg1 : CodegenVisitor}
    {name : String} {F : PetriModule} (h : generateWith rec cg name = .ok (F, cg1)) :
    cg.counter ≤ cg1.counter ∧
    (∀ n G, mapFind cg.generated n = some G → mapFind cg1.generated n = some G) ∧
    (∀ x, MemoId cg1 x → MemoId cg x ∨ FreshIn cg.counter cg1.counter x) ∧
    (∀ x ∈ nodeIds F, MemoId cg x ∨ FreshIn cg.counter cg1.counter x) := by
  rcases generateWith_ok h with ⟨hhit, rfl⟩ | ⟨hmiss, hb, hcase⟩
  · exact ⟨Nat.le_refl _, fun _ _ h => h, fun _ h => .inl h,
      fun x hx => .inl ⟨name, F, hhit, hx⟩⟩
  · have hne : ∀ n G, mapFind cg.generated n = some G → name ≠ n := by
      intro n G hn heq
      rw [← heq, hmiss] at hn
      cases hn
    rcases hcase with ⟨root, cg2, -, hr, rfl⟩ | ⟨-, rfl, hgen, hc⟩
    · have fr := hrec _ _ _ _ _ _ _ hr
      have hc : cg.counter + 2 ≤ cg2.counter := fr.counter
      have hF : ∀ x ∈ nodeIds F, MemoId cg x ∨ FreshIn cg.counter cg2.counter x := by
        intro x hx
        rcases fr.ids x hx with h | h | h
        · exact .inr ((bareFragment_fresh name cg.counter x h).mono (Nat.le_refl _) hc)
        · exact .inl h
        · exact .inr (h.mono (Nat.le_add_right _ _) (Nat.le_refl _))
      refine ⟨by simp only; omega, ?_, ?_, hF⟩
      · intro n G hn
        simp only
        rw [mapFind_mapAssign_ne _ _ _ _ (hne n G hn)]
        exact fr.memo n G hn
      · rintro x ⟨n, G, hn, hx⟩
        simp only at hn
        by_cases heq : name = n
        · rw [← heq, mapFind_mapAssign_same] at hn
          cases hn
          exact hF x hx
        · rw [mapFind_mapAssign_ne _ _ _ _ heq] at hn
          rcases fr.memoIds x ⟨n, G, hn, hx⟩ with h | h
          · exact .inl h
          · exact .inr (h.mono (Nat.le_add_right _ _) (Nat.le_refl _))
    · have hF : ∀ x ∈ nodeIds (bareFragment name ("entry" ++ toString cg.counter)
          ("exit" ++ toString (cg.counter + 1))),
          MemoId cg x ∨ FreshIn cg.counter cg1.counter x := by
        intro x hx
        rw [hc]
        exact .inr (bareFragment_fresh name cg.counter x hx)
      refine ⟨by omega, ?_, ?_, hF⟩
      · intro n G hn
        rw [hgen, mapFind_mapAssign_ne _ _ _ _ (hne n G hn)]
        exact hn
      · rintro x ⟨n, G, hn, hx⟩
        rw [hgen] at hn
        by_cases heq : name = n
        · rw [← heq, mapFind_mapAssign_same] at hn
          cases hn
          exact hF x hx
        · rw [mapFind_mapAssign_ne _ _ _ _ heq] at hn
          exact .inl ⟨n, G, hn, hx⟩

theorem seqLoop_frame {rec : Compile} (hrec : GenFrame rec) (out : String) :
    ∀ (cs : List AstNode) (current : String) (cg : CodegenVisitor) (m : PetriModule)
      (cg1 : CodegenVisitor) (m1 : PetriModule),
      seqLoop rec out cs current cg m = .ok (cg1, m1) → Frame cg m cg1 m1 := by
  intro cs
  induction cs with
  | nil =>
    intro current cg m cg1 m1 h
    simp only [seqLoop, Except.ok.injEq, Prod.mk.injEq] at h
    obtain ⟨rfl, rfl⟩ := h
    exact Frame.unchanged _ _
  | cons c cs ih =>
    intro current cg m cg1 m1 h
    cases cs with
    | nil => exact hrec c current out cg m cg1 m1 h
    | cons c2 cs2 =>
      obtain ⟨-, cg2, m2, h1, h2⟩ := seqLoop_ok h
      refine ((Frame.appendFresh cg m 1 [⟨"P" ++ toString cg.counter⟩] [] [] ?_).compose
        (hrec _ _ _ _ _ _ _ h1)).compose (ih _ _ _ _ _ h2)
      intro x hx
      simp only [List.map_cons, List.map_nil, List.mem_singleton, List.not_mem_nil,
        or_false] at hx
      subst hx
      exact freshIn_mk "P" (by decide) cg.counter 0 1 (by omega)

theorem compileExpr_frame : ∀ fuel : Nat, GenFrame (compileExpr fuel) := by
  intro fuel
  induction fuel with
  | zero => intro node inp out cg m cg1 m1 h; simp [compileExpr] at h
  | succ fuel ih =>
    intro node inp out cg m cg1 m1 h
    cases node with
    | ActionNode name =>
      obtain ⟨-, rfl, rfl⟩ := compileExpr_action_ok h
      refine Frame.appendFresh cg m 1 _ _ _ ?_
      intro x hx
      simp only [List.map_cons, List.map_nil, List.mem_singleton, List.not_mem_nil,
        false_or] at hx
      subst hx
      exact freshIn_mk "T" (by decide) cg.counter 0 1 (by omega)
    | SequenceNode children =>
      rw [compileExpr] at h
      exact seqLoop_frame ih out children inp cg m cg1 m1 h
    | ParallelNode left right =>
      obtain ⟨-, cg2, m2, m3, h1, h2, rfl⟩ := compileExpr_parallel_ok h
      have f0 := Frame.appendFresh cg m 6 [⟨"P" ++ toString cg.counter⟩,
          ⟨"P" ++ toString (cg.counter + 1)⟩, ⟨"P" ++ toString (cg.counter + 2)⟩,
          ⟨"P" ++ toString (cg.counter + 3)⟩]
        [⟨"T" ++ toString (cg.counter + 4), 0⟩, ⟨"T" ++ toString (cg.counter + 5), 0⟩]
        [⟨PLACE_TO_TRANS, inp, "T" ++ toString (cg.counter + 4)⟩,
         ⟨TRANS_TO_PLACE, "T" ++ toString (cg.counter + 4), "P" ++ toString cg.counter⟩,
         ⟨TRANS_TO_PLACE, "T" ++ toString (cg.counter + 4), "P" ++ toString (cg.counter + 1)⟩]
        (by
          intro x hx
          simp only [List.map_cons, List.map_nil, List.mem_cons, List.mem_singleton,
            List.not_mem_nil, or_false] at hx
          rcases hx with (rfl | rfl | rfl | rfl) | (rfl | rfl)
          · exact freshIn_mk "P" (by decide) cg.counter 0 6 (by omega)
          · exact freshIn_mk "P" (by decide) cg.counter 1 6 (by omega)
          · exact freshIn_mk "P" (by decide) cg.counter 2 6 (by omega)
          · exact freshIn_mk "P" (by decide) cg.counter 3 6 (by omega)
          · exact freshIn_mk "T" (by decide) cg.counter 4 6 (by omega)
          · exact freshIn_mk "T" (by decide) cg.counter 5 6 (by omega))
      have f3 := Frame.appendFresh cg1 m3 0 [] [] 
        [⟨PLACE_TO_TRANS, "P" ++ toString (cg.counter + 2), "T" ++ toString (cg.counter + 5)⟩,
         ⟨PLACE_TO_TRANS, "P" ++ toString (cg.counter + 3), "T" ++ toString (cg.counter + 5)⟩,
         ⟨TRANS_TO_PLACE, "T" ++ toString (cg.counter + 5), out⟩] (by simp)
      exact ((f0.compose (ih _ _ _ _ _ _ _ h1)).compose (ih _ _ _ _ _ _ _ h2)).compose f3
    | ChoiceNode left right =>
      obtain ⟨cg2, m2, h1, h2⟩ := compileExpr_choice_ok h
      exact (ih _ _ _ _ _ _ _ h1).compose (ih _ _ _ _ _ _ _ h2)
    | PrioNode priority child =>
      obtain ⟨-, h1⟩ := compileExpr_prio_ok h
      refine (Frame.appendFresh cg m 2 _ _ _ ?_).compose (ih _ _ _ _ _ _ _ h1)
      intro x hx
      simp only [List.map_cons, List.map_nil, List.mem_singleton, List.not_mem_nil] at hx
      rcases hx with rfl | rfl
      · exact freshIn_mk "P" (by decide) cg.counter 0 2 (by omega)
      · exact freshIn_mk "T" (by decide) cg.counter 1 2 (by omega)
    | CallModuleNode name =>
      obtain ⟨sub, cg2, hg, -, rfl, rfl⟩ := compileExpr_call_ok h
      obtain ⟨hc, hmemo, hmids, hsub⟩ := generateWith_frame ih hg
      refine ⟨by simp only [CodegenVisitor.bump]; omega, Grows.ofPlus _ _ _ _, hmemo, ?_, ?_⟩
      · intro x hx
        rcases hmids x hx with h | h
        · exact .inl h
        · exact .inr (h.mono (Nat.le_refl _) (Nat.le_add_right _ _))
      · intro x hx
        rcases (mem_nodeIds_plus _ _ _ _ x).mp hx with h | h
        · exact .inl h
        · have hx2 : x ∈ nodeIds sub ∨ x = "T_call" ++ toString cg2.counter ∨
              x = "T_ret" ++ toString (cg2.counter + 1) := by
            simp only [nodeIds, placeIds, transIds, List.map_append, List.mem_append,
              List.map_cons, List.map_nil, List.mem_cons, List.mem_singleton,
              List.not_mem_nil, or_false] at h ⊢
            tauto
          rcases hx2 with h | rfl | rfl
          · rcases hsub x h with h | h
            · exact .inr (.inl h)
            · exact .inr (.inr (h.mono (Nat.le_refl _) (Nat.le_add_right _ _)))
          · exact .inr (.inr ((freshIn_mk "T_call" (by decide) cg2.counter 0 2
              (by omega)).mono hc (Nat.le_refl _)))
          · exact .inr (.inr ((freshIn_mk "T_ret" (by decide) cg2.counter 1 2
              (by omega)).mono hc (Nat.le_refl _)))

theorem ModStable.ofBump (cg : CodegenVisitor) (k : Nat) : ModStable cg (cg.bump k) :=
  ModStable.ofModulesEq rfl

theorem generateWith_bodies {rec : Compile} (hrec : GenBodies rec) {cg cg1 : CodegenVisitor}
    {name : String} {F : PetriModule} (h : generateWith rec cg name = .ok (F, cg1)) :
    ModStable cg cg1 := by
  cases hg : mapFind cg.generated name with
  | some G =>
    rw [generateWith_hit rec cg name G hg] at h
    simp only [Except.ok.injEq, Prod.mk.injEq] at h
    rw [← h.2]
    exact ModStable.same cg
  | none =>
    by_cases hb : cg.counter + 2 ≤ INT_MAX
    · cases hm : mapFind cg.modules name with
      | none =>
        rw [generateWith_unregistered rec cg name hm hg hb] at h
        simp only [Except.ok.injEq, Prod.mk.injEq] at h
        rw [← h.2]
        exact ModStable.default_insert cg name hm
      | some d =>
        obtain ⟨r⟩ := d
        cases r with
        | none =>
          rw [generateWith_nullRoot rec cg name hm hg hb] at h
          simp only [Except.ok.injEq, Prod.mk.injEq] at h
          rw [← h.2]
          exact ModStable.ofModulesEq rfl
        | some root =>
          rw [generateWith_miss rec cg name root hg hm hb] at h
          obtain ⟨⟨cg2, m2⟩, h1, h2⟩ := bind_ok h
          simp only [Except.ok.injEq, Prod.mk.injEq] at h2
          rw [← h2.2]
          exact ((ModStable.ofBump cg 2).andThen (hrec _ _ _ _ _ _ _ h1)).andThen
            (ModStable.ofModulesEq rfl)
    · rw [generateWith_miss_overflow rec cg name hg hb] at h
      cases h

theorem seqLoop_bodies {rec : Compile} (hrec : GenBodies rec) (out : String) :
    ∀ (cs : List AstNode) (current : String) (cg : CodegenVisitor) (m : PetriModule)
      (cg1 : CodegenVisitor) (m1 : PetriModule),
      seqLoop rec out cs current cg m = .ok (cg1, m1) → ModStable cg cg1 := by
  intro cs
  induction cs with
  | nil =>
    intro current cg m cg1 m1 h
    simp only [seqLoop, Except.ok.injEq, Prod.mk.injEq] at h
    rw [← h.1]
    exact ModStable.same cg
  | cons c cs ih =>
    intro current cg m cg1 m1 h
    cases cs with
    | nil => exact hrec c current out cg m cg1 m1 h
    | cons c2 cs2 =>
      obtain ⟨-, cg2, m2, h1, h2⟩ := seqLoop_ok h
      exact ((ModStable.ofBump cg 1).andThen (hrec _ _ _ _ _ _ _ h1)).andThen (ih _ _ _ _ _ h2)

theorem compileExpr_bodies : ∀ fuel : Nat, GenBodies (compileExpr fuel) := by
  intro fuel
  induction fuel with
  | zero => intro node inp out cg m cg1 m1 h; simp [compileExpr] at h
  | succ fuel ih =>
    intro node inp out cg m cg1 m1 h
    cases node with
    | ActionNode name =>
      obtain ⟨-, rfl, -⟩ := compileExpr_action_ok h
      exact ModStable.ofBump cg 1
    | SequenceNode children =>
      rw [compileExpr] at h
      exact seqLoop_bodies ih out children inp cg m cg1 m1 h
    | ParallelNode left right =>
      obtain ⟨-, cg2, m2, m3, h1, h2, -⟩ := compileExpr_parallel_ok h
      exact ((ModStable.ofBump cg 6).andThen (ih _ _ _ _ _ _ _ h1)).andThen (ih _ _ _ _ _ _ _ h2)
    | ChoiceNode left right =>
      obtain ⟨cg2, m2, h1, h2⟩ := compileExpr_choice_ok h
      exact (ih _ _ _ _ _ _ _ h1).andThen (ih _ _ _ _ _ _ _ h2)
    | PrioNode priority child =>
      obtain ⟨-, h1⟩ := compileExpr_prio_ok h
      exact (ModStable.ofBump cg 2).andThen (ih _ _ _ _ _ _ _ h1)
    | CallModuleNode name =>
      obtain ⟨sub, cg2, hg, -, rfl, -⟩ := compileExpr_call_ok h
      exact (generateWith_bodies ih hg).andThen (ModStable.ofBump cg2 2)

/-! ## A recursion bound that is enough when there is no call cycle -/

theorem bind_ne_outOfFuel {α β : Type} {x : Except Fault α} {f : α → Except Fault β}
    (hx : x ≠ .error .outOfFuel) (hf : ∀ a, x = .ok a → f a ≠ .error .outOfFuel) :
    x.bind f ≠ .error .outOfFuel := by
  cases x with
  | error e =>
    intro h
    have he : e = Fault.outOfFuel := by simpa [Except.bind] using h
    exact hx (by rw [he])
  | ok a => exact hf a rfl

theorem Enough.raise {cg0 : CodegenVisitor} {node : AstNode} {f0 f1 : Nat}
    (h : Enough cg0 node f0) (hle : f0 ≤ f1) : Enough cg0 node f1 :=
  fun fuel hf => h fuel (Nat.le_trans hle hf)

theorem enough_uniform (cg0 : CodegenVisitor) :
    ∀ cs : List AstNode, (∀ c ∈ cs, ∃ f, Enough cg0 c f) → ∃ F, ∀ c ∈ cs, Enough cg0 c F := by
  intro cs
  induction cs with
  | nil => intro _; exact ⟨0, fun c hc => by cases hc⟩
  | cons c cs ih =>
    intro h
    obtain ⟨f, hf⟩ := h c (by simp)
    obtain ⟨F, hF⟩ := ih (fun d hd => h d (by simp [hd]))
    refine ⟨max f F, fun d hd => ?_⟩
    rcases List.mem_cons.mp hd with rfl | hd
    · exact hf.raise (Nat.le_max_left _ _)
    · exact (hF d hd).raise (Nat.le_max_right _ _)

theorem seqLoop_enough {rec : Compile} (hb : GenBodies rec) (cg0 : CodegenVisitor)
    (out : String) :
    ∀ (cs : List AstNode),
      (∀ c ∈ cs, ∀ (inp out : String) (cg : CodegenVisitor) (m : PetriModule),
        ModStable cg0 cg → rec c inp out cg m ≠ .error .outOfFuel) →
      ∀ (current : String) (cg : CodegenVisitor) (m : PetriModule), ModStable cg0 cg →
        seqLoop rec out cs current cg m ≠ .error .outOfFuel := by
  intro cs
  induction cs with
  | nil => intro _ current cg m _; simp [seqLoop]
  | cons c cs ih =>
    intro hc current cg m hcg
    cases cs with
    | nil => exact hc c (by simp) current out cg m hcg
    | cons c2 cs2 =>
      rw [seqLoop_eq]
      by_cases hlt : cg.counter < INT_MAX
      · simp only [hlt, if_true]
        refine bind_ne_outOfFuel (hc c (by simp) _ _ _ _ (hcg.andThen (ModStable.ofBump cg 1)))
          (fun s hs => ?_)
        obtain ⟨cg2, m2⟩ := s
        exact ih (fun d hd => hc d (by simp [hd])) _ cg2 m2
          ((hcg.andThen (ModStable.ofBump cg 1)).andThen (hb _ _ _ _ _ _ _ hs))
      · simp [hlt]

/-- Without a call cycle there is a recursion bound that is enough. -/
theorem compileExpr_enough {cg0 : CodegenVisitor} {node : AstNode}
    (h : Halts cg0.modules node) : ∃ fuel0, Enough cg0 node fuel0 := by
  induction h with
  | action name =>
    refine ⟨1, fun fuel hf inp out cg m _ => ?_⟩
    obtain ⟨f, rfl⟩ : ∃ f, fuel = f + 1 := ⟨fuel - 1, by omega⟩
    rw [compileExpr_action_eq]
    split <;> simp
  | sequence children _ ih =>
    obtain ⟨F, hF⟩ := enough_uniform cg0 children ih
    refine ⟨F + 1, fun fuel hf inp out cg m hcg => ?_⟩
    obtain ⟨f, rfl⟩ : ∃ f, fuel = f + 1 := ⟨fuel - 1, by omega⟩
    rw [compileExpr]
    exact seqLoop_enough (compileExpr_bodies f) cg0 out children
      (fun c hc i o s m1 hs => hF c hc f (by omega) i o s m1 hs) inp cg m hcg
  | parallel l r _ _ ihl ihr =>
    obtain ⟨fl, hl⟩ := ihl
    obtain ⟨fr, hr⟩ := ihr
    refine ⟨max fl fr + 1, fun fuel hf inp out cg m hcg => ?_⟩
    obtain ⟨f, rfl⟩ : ∃ f, fuel = f + 1 := ⟨fuel - 1, by omega⟩
    have h1 : fl ≤ f := by have := Nat.le_max_left fl fr; omega
    have h2 : fr ≤ f := by have := Nat.le_max_right fl fr; omega
    rw [compileExpr_parallel_eq]
    by_cases hb : cg.counter + 6 ≤ INT_MAX
    · simp only [hb, if_true]
      refine bind_ne_outOfFuel (hl f h1 _ _ _ _ (hcg.andThen (ModStable.ofBump cg 6)))
        (fun s hs => ?_)
      obtain ⟨cg2, m2⟩ := s
      refine bind_ne_outOfFuel (hr f h2 _ _ _ _
        ((hcg.andThen (ModStable.ofBump cg 6)).andThen (compileExpr_bodies f _ _ _ _ _ _ _ hs)))
        (fun s2 _ => ?_)
      simp
    · simp [hb]
  | choice l r _ _ ihl ihr =>
    obtain ⟨fl, hl⟩ := ihl
    obtain ⟨fr, hr⟩ := ihr
    refine ⟨max fl fr + 1, fun fuel hf inp out cg m hcg => ?_⟩
    obtain ⟨f, rfl⟩ : ∃ f, fuel = f + 1 := ⟨fuel - 1, by omega⟩
    have h1 : fl ≤ f := by have := Nat.le_max_left fl fr; omega
    have h2 : fr ≤ f := by have := Nat.le_max_right fl fr; omega
    rw [compileExpr_choice_step]
    refine bind_ne_outOfFuel (hl f h1 _ _ _ _ hcg) (fun s hs => ?_)
    obtain ⟨cg2, m2⟩ := s
    exact hr f h2 _ _ _ _ (hcg.andThen (compileExpr_bodies f _ _ _ _ _ _ _ hs))
  | prio priority child _ ih =>
    obtain ⟨fc, hc⟩ := ih
    refine ⟨fc + 1, fun fuel hf inp out cg m hcg => ?_⟩
    obtain ⟨f, rfl⟩ : ∃ f, fuel = f + 1 := ⟨fuel - 1, by omega⟩
    rw [compileExpr_prio_eq]
    by_cases hb : cg.counter + 2 ≤ INT_MAX
    · simp only [hb, if_true]
      exact hc f (by omega) _ _ _ _ (hcg.andThen (ModStable.ofBump cg 2))
    · simp [hb]
  | call name _ ih =>
    have hfuel : ∃ F, ∀ body, mapFind cg0.modules name = some ⟨some body⟩ →
        Enough cg0 body F := by
      cases hm : mapFind cg0.modules name with
      | none => exact ⟨0, fun body hb => by cases hb⟩
      | some d =>
        obtain ⟨r⟩ := d
        cases r with
        | none => exact ⟨0, fun body hb => by cases hb⟩
        | some body =>
          obtain ⟨F, hF⟩ := ih body hm
          refine ⟨F, fun b hb => ?_⟩
          cases hb
          exact hF
    obtain ⟨F, hF⟩ := hfuel
    refine ⟨F + 1, fun fuel hf inp out cg m hcg => ?_⟩
    obtain ⟨f, rfl⟩ : ∃ f, fuel = f + 1 := ⟨fuel - 1, by omega⟩
    rw [compileExpr_call_step]
    have hgen : generate f cg name ≠ .error .outOfFuel := by
      rw [generate]
      cases hg : mapFind cg.generated name with
      | some G => rw [generateWith_hit _ cg name G hg]; simp
      | none =>
        by_cases hb : cg.counter + 2 ≤ INT_MAX
        · cases hm : mapFind cg.modules name with
          | none => rw [generateWith_unregistered _ cg name hm hg hb]; simp
          | some d =>
            obtain ⟨r⟩ := d
            cases r with
            | none => rw [generateWith_nullRoot _ cg name hm hg hb]; simp
            | some root =>
              rw [generateWith_miss _ cg name root hg hm hb]
              refine bind_ne_outOfFuel ?_ (fun s _ => by simp)
              exact hF root ((hcg name root).mp hm) f (by omega) _ _ _ _
                (hcg.andThen (ModStable.ofBump cg 2))
        · rw [generateWith_miss_overflow _ cg name hg hb]; simp
    refine bind_ne_outOfFuel hgen (fun r _ => ?_)
    split <;> simp

/-- Without a call cycle some recursion bound is enough, in every state and for every
fragment under construction. -/
theorem halts_boundSuffices {node : AstNode} {cg : CodegenVisitor} (h : Halts cg.modules node)
    (inp out : String) (m : PetriModule) : BoundSuffices node inp out cg m := by
  obtain ⟨fuel0, h0⟩ := compileExpr_enough h
  exact ⟨fuel0, fun fuel1 hle => h0 fuel1 hle inp out cg m (ModStable.same cg)⟩

/-! ## Positions of lexical errors -/

theorem lineOf_snoc (pre : List Char) (c : Char) :
    lineOf (pre ++ [c]) = if c = '\n' then lineOf pre + 1 else lineOf pre := by
  by_cases h : c = '\n'
  · subst h
    simp [lineOf, List.count_append]
    omega
  · have h2 : ('\n' == c) = false := by
      simp only [beq_eq_false_iff_ne, ne_eq]
      exact fun e => h e.symm
    simp [lineOf, List.count_append, List.count_cons, h, h2]

theorem colOf_snoc (pre : List Char) (c : Char) :
    colOf (pre ++ [c]) = if c = '\n' then 1 else colOf pre + 1 := by
  by_cases h : c = '\n'
  · subst h
    simp [colOf, List.takeWhile]
  · simp [colOf, List.takeWhile, h]

theorem colOf_pos (pre : List Char) : 1 ≤ colOf pre := by
  simp [colOf]

theorem Tokenizer.At_chars (pre chars : List Char) : (Tokenizer.At pre chars).chars = chars :=
  Tokenizer.read_chars _ _ _

/-- Reading on from a state at `pre` with current character `c` gives the state at
`pre ++ [c]`. -/
theorem Tokenizer.At_next (pre : List Char) (c : Char) (cs : List Char) :
    Tokenizer.read cs (Tokenizer.At pre (c :: cs)).line (Tokenizer.At pre (c :: cs)).col =
      Tokenizer.At (pre ++ [c]) cs := by
  have hp := colOf_pos pre
  by_cases h : c = '\n'
  · simp only [Tokenizer.At, Tokenizer.read, h, if_true, lineOf_snoc, colOf_snoc]
  · have e : colOf pre - 1 + 1 = colOf pre + 1 - 1 := by omega
    simp only [Tokenizer.At, Tokenizer.read, h, if_false, lineOf_snoc, colOf_snoc, e]

/-- The position of a current character that is not a newline. -/
theorem Tokenizer.At_pos (pre : List Char) (c : Char) (cs : List Char) (h : c ≠ '\n') :
    (Tokenizer.At pre (c :: cs)).line = lineOf pre ∧
      (Tokenizer.At pre (c :: cs)).col = colOf pre := by
  have hp := colOf_pos pre
  refine ⟨?_, ?_⟩
  · simp only [Tokenizer.At, Tokenizer.read, h, if_false]
  · simp only [Tokenizer.At, Tokenizer.read, h, if_false]
    omega

theorem Tokenizer.At_eta (pre chars : List Char) :
    (⟨chars, (Tokenizer.At pre chars).line, (Tokenizer.At pre chars).col⟩ : Tokenizer) =
      Tokenizer.At pre chars := by
  have h := Tokenizer.At_chars pre chars
  cases hz : Tokenizer.At pre chars with
  | mk ch l k =>
    rw [hz] at h
    simp only at h
    subst h
    rfl

/-- A scanning loop started in the state at `pre` stops in the state at `pre` followed by
what it has scanned. -/
theorem Tokenizer.scanWhile_at (q : Char → Bool) :
    ∀ (chars pre : List Char) (acc : String),
      (Tokenizer.scanWhile q chars (Tokenizer.At pre chars).line (Tokenizer.At pre chars).col
        acc).2 = Tokenizer.At (pre ++ chars.takeWhile q) (chars.dropWhile q) := by
  intro chars
  induction chars with
  | nil =>
    intro pre acc
    simp only [Tokenizer.scanWhile, List.takeWhile_nil, List.dropWhile_nil, List.append_nil]
    exact Tokenizer.At_eta pre []
  | cons c cs ih =>
    intro pre acc
    by_cases h : q c = true
    · simp only [Tokenizer.scanWhile, h, if_true, List.takeWhile_cons_of_pos,
        List.dropWhile_cons_of_pos, Tokenizer.At_next]
      rw [ih (pre ++ [c]) (acc.push c)]
      simp
    · simp only [Tokenizer.scanWhile, h, List.takeWhile_cons_of_neg, Bool.false_eq_true,
        if_false, not_false_eq_true, List.dropWhile_cons_of_neg, List.append_nil]
      exact Tokenizer.At_eta pre (c :: cs)

theorem Tokenizer.At_advance (pre : List Char) (c : Char) (cs : List Char) :
    (Tokenizer.At pre (c :: cs)).next = Tokenizer.At (pre ++ [c]) cs := by
  rw [Tokenizer.next, Tokenizer.At_chars, List.tail_cons, Tokenizer.At_next]

/-- The method `next_token` in the state at `pre`: the whitespace `ws` that `chars`
starts with is skipped, and the token is cut from the state at `pre ++ ws`. -/
theorem Tokenizer.next_token_at (pre chars : List Char) :
    (Tokenizer.At pre chars).next_token =
      Tokenizer.next_token (Tokenizer.At (pre ++ chars.takeWhile isspace)
        (chars.dropWhile isspace)) := by
  have h0 : ∀ l : List Char, (∀ c ∈ l.head?, isspace c = false) →
      l.takeWhile isspace = [] ∧ l.dropWhile isspace = l := by
    intro l hl
    cases l with
    | nil => simp
    | cons c cs =>
      have := hl c (by simp)
      simp [this]
  have hd : ∀ c ∈ (chars.dropWhile isspace).head?, isspace c = false := by
    intro c hc
    have hne : chars.dropWhile isspace ≠ [] := by
      intro e
      rw [e] at hc
      simp at hc
    have := List.head_dropWhile_not isspace chars hne
    rw [List.head?_eq_head hne] at hc
    simp only [Option.mem_def, Option.some.injEq] at hc
    rw [← hc]
    simpa using this
  obtain ⟨e1, e2⟩ := h0 _ hd
  simp only [Tokenizer.next_token, Tokenizer.At_chars, Tokenizer.scanWhile_at, e1, e2,
    List.append_nil]

theorem isspace_newline {c : Char} (h : isspace c = false) : c ≠ '\n' := by
  intro e
  subst e
  exact absurd h (by decide)

/-- A character other than whitespace that starts no token makes `next_token` fail with a
`ParseError` at the position of that character. -/
theorem Tokenizer.next_token_offending (pre : List Char) (c : Char) (cs : List Char)
    (hs : isspace c = false) (hoff : Offending c cs) :
    ∃ msg, (Tokenizer.At pre (c :: cs)).next_token =
      .error (.ParseError msg (lineOf pre) (colOf pre)) := by
  obtain ⟨hl, hc⟩ := Tokenizer.At_pos pre c cs (isspace_newline hs)
  have e1 : (c :: cs).takeWhile isspace = [] := by simp [hs]
  have e2 : (c :: cs).dropWhile isspace = c :: cs := by simp [hs]
  rcases hoff with ⟨ha, hmem⟩ | ⟨rfl, hnext⟩
  · simp only [List.mem_cons, List.mem_singleton, List.not_mem_nil, or_false, not_or] at hmem
    obtain ⟨h1, h2, h3, h4, h5, h6, h7⟩ := hmem
    refine ⟨"Unknown character: ".push c, ?_⟩
    simp only [Tokenizer.next_token, Tokenizer.At_chars, Tokenizer.scanWhile_at, e1, e2,
      List.append_nil]
    simp only [ha, h1, h2, h3, h4, h5, h6, h7, if_false, Bool.false_eq_true, hl, hc]
  · refine ⟨"Expected '||'", ?_⟩
    have ha : isalpha '|' = false := by decide
    simp only [Tokenizer.next_token, Tokenizer.At_chars, Tokenizer.scanWhile_at, e1, e2,
      List.append_nil]
    simp only [ha, if_false, Bool.false_eq_true, Tokenizer.At_advance, Tokenizer.At_chars,
      hl, hc]
    cases cs with
    | nil => simp
    | cons d ds =>
      have hd : d ≠ '|' := by
        intro e
        subst e
        exact hnext rfl
      simp [hd]

/-- In every other case `next_token` returns, and leaves the state at the end of what it
has consumed. -/
theorem Tokenizer.next_token_returns (pre : List Char) (rest : List Char)
    (hs : ∀ c cs, rest = c :: cs → isspace c = false ∧ ¬ Offending c cs) :
    ∃ used left, rest = used ++ left ∧
      ∃ t, (Tokenizer.At pre rest).next_token = .ok (t, Tokenizer.At (pre ++ used) left) := by
  cases rest with
  | nil =>
    refine ⟨[], [], rfl, ?_⟩
    simp [Tokenizer.next_token, Tokenizer.At_chars, Tokenizer.scanWhile_at]
  | cons c cs =>
    obtain ⟨hsp, hoff⟩ := hs c cs rfl
    have e1 : (c :: cs).takeWhile isspace = [] := by simp [hsp]
    have e2 : (c :: cs).dropWhile isspace = c :: cs := by simp [hsp]
    by_cases ha : isalpha c = true
    · refine ⟨(c :: cs).takeWhile isIdChar, (c :: cs).dropWhile isIdChar,
        (List.takeWhile_append_dropWhile _ _).symm, ?_⟩
      simp [Tokenizer.next_token, Tokenizer.At_chars, Tokenizer.scanWhile_at, ha, hsp]
    · have ha2 : isalpha c = false := by simpa using ha
      have hmem : c ∈ ['.', '[', ']', '(', ')', '^', '|'] := by
        by_contra hn
        exact hoff (.inl ⟨ha2, hn⟩)
      simp only [List.mem_cons, List.mem_singleton, List.not_mem_nil, or_false] at hmem
      rcases hmem with rfl | rfl | rfl | rfl | rfl | rfl | rfl
      · refine ⟨['.'], cs, rfl, ?_⟩
        simp [Tokenizer.next_token, Tokenizer.At_chars, Tokenizer.scanWhile_at, e1, e2,
          ha2, Tokenizer.At_advance]
      · refine ⟨['['], cs, rfl, ?_⟩
        simp [Tokenizer.next_token, Tokenizer.At_chars, Tokenizer.scanWhile_at, e1, e2,
          ha2, Tokenizer.At_advance]
      · refine ⟨[']'], cs, rfl, ?_⟩
        simp [Tokenizer.next_token, Tokenizer.At_chars, Tokenizer.scanWhile_at, e1, e2,
          ha2, Tokenizer.At_advance]
      · refine ⟨['('], cs, rfl, ?_⟩
        simp [Tokenizer.next_token, Tokenizer.At_chars, Tokenizer.scanWhile_at, e1, e2,
          ha2, Tokenizer.At_advance]
      · refine ⟨[')'], cs, rfl, ?_⟩
        simp [Tokenizer.next_token, Tokenizer.At_chars, Tokenizer.scanWhile_at, e1, e2,
          ha2, Tokenizer.At_advance]
      · refine ⟨'^' :: cs.takeWhile isdigit, cs.dropWhile isdigit, by simp, ?_⟩
        simp [Tokenizer.next_token, Tokenizer.At_chars, Tokenizer.scanWhile_at, e1, e2,
          ha2, Tokenizer.At_advance]
      · cases cs with
        | nil => exact absurd (.inr ⟨rfl, by simp⟩) hoff
        | cons d ds =>
          by_cases hd : d = '|'
          · subst hd
            refine ⟨['|', '|'], ds, rfl, ?_⟩
            simp [Tokenizer.next_token, Tokenizer.At_chars, Tokenizer.scanWhile_at, e1, e2,
              ha2, Tokenizer.At_advance]
          · refine absurd (.inr ⟨rfl, ?_⟩) hoff
            simpa using hd

theorem dropWhile_isspace_head (chars : List Char) (c : Char) (cs : List Char)
    (h : chars.dropWhile isspace = c :: cs) : isspace c = false := by
  have hne : chars.dropWhile isspace ≠ [] := by rw [h]; simp
  have := List.head_dropWhile_not isspace chars hne
  simpa [h] using this

/-- Whatever `next_token` returns in the state at `pre`, it leaves the state at the end of
what it has consumed. -/
theorem Tokenizer.next_token_synced (pre chars : List Char) (t : Token) (tz1 : Tokenizer)
    (h : (Tokenizer.At pre chars).next_token = .ok (t, tz1)) :
    ∃ used left, chars = used ++ left ∧ tz1 = Tokenizer.At (pre ++ used) left := by
  rw [Tokenizer.next_token_at] at h
  have hs : ∀ c cs, chars.dropWhile isspace = c :: cs → isspace c = false ∧ ¬ Offending c cs := by
    intro c cs hc
    have hsp := dropWhile_isspace_head chars c cs hc
    refine ⟨hsp, fun hoff => ?_⟩
    obtain ⟨msg, he⟩ := Tokenizer.next_token_offending (pre ++ chars.takeWhile isspace) c cs
      hsp hoff
    rw [hc, he] at h
    cases h
  obtain ⟨used, left, hsplit, t1, hok⟩ :=
    Tokenizer.next_token_returns (pre ++ chars.takeWhile isspace) _ hs
  rw [hok] at h
  simp only [Except.ok.injEq, Prod.mk.injEq] at h
  refine ⟨chars.takeWhile isspace ++ used, left, ?_, ?_⟩
  · rw [List.append_assoc, ← hsplit, List.takeWhile_append_dropWhile]
  · rw [← h.2, List.append_assoc]

/-- In every state in which `next_token` can be requested, line and column are those of
the current character. -/
theorem TokReach.synced {input : List Char} {tz : Tokenizer} (h : TokReach input tz) :
    ∃ pre, input = pre ++ tz.chars ∧ tz = Tokenizer.At pre tz.chars := by
  induction h with
  | init =>
    refine ⟨[], ?_, ?_⟩
    · simp [Tokenizer.init, Tokenizer.read_chars]
    · simp only [Tokenizer.init, Tokenizer.read_chars]
      rfl
  | step tz t tz1 _ hok ih =>
    obtain ⟨pre, hin, hat⟩ := ih
    rw [hat] at hok
    obtain ⟨used, left, hsplit, rfl⟩ := Tokenizer.next_token_synced pre tz.chars t tz1 hok
    refine ⟨pre ++ used, ?_, ?_⟩
    · rw [Tokenizer.At_chars, List.append_assoc, ← hsplit]
      exact hin
    · rw [Tokenizer.At_chars]

/-- C11: lexical errors are raised at the exact position of the offending character. In
every state in which `next_token` can be requested on a text `input`, with `pre` the part
of the text before the current character: if the first character that is left after the
whitespace is neither a letter nor one of `. [ ] ( ) ^ |`, or is a `|` not followed at
once by another `|`, then `next_token` fails with a `ParseError` whose line is 1 plus the
number of newlines before that character and whose column is the 1-based index of that
character within its line; in every other case `next_token` returns a token. -/
theorem next_token_error_position (input : List Char) (tz : Tokenizer)
    (hreach : TokReach input tz) (pre : List Char) (hpre : input = pre ++ tz.chars) :
    (∀ c cs, tz.chars.dropWhile isspace = c :: cs → Offending c cs →
      ∃ msg, tz.next_token = .error (.ParseError msg
        (lineOf (pre ++ tz.chars.takeWhile isspace))
        (colOf (pre ++ tz.chars.takeWhile isspace)))) ∧
    ((∀ c cs, tz.chars.dropWhile isspace = c :: cs → ¬ Offending c cs) →
      ∃ t tz1, tz.next_token = .ok (t, tz1)) := by
  obtain ⟨pre0, hin, hat⟩ := hreach.synced
  have hpp : pre0 = pre := List.append_cancel_right (hin.symm.trans hpre)
  subst hpp
  constructor
  · intro c cs hc hoff
    have hsp := dropWhile_isspace_head tz.chars c cs hc
    obtain ⟨msg, he⟩ := Tokenizer.next_token_offending (pre0 ++ tz.chars.takeWhile isspace)
      c cs hsp hoff
    refine ⟨msg, ?_⟩
    rw [← he, ← hc, ← Tokenizer.next_token_at, ← hat]
  · intro hno
    obtain ⟨used, left, -, t, hok⟩ := Tokenizer.next_token_returns
      (pre0 ++ tz.chars.takeWhile isspace) (tz.chars.dropWhile isspace)
      (fun c cs hc => ⟨dropWhile_isspace_head tz.chars c cs hc, hno c cs hc⟩)
    refine ⟨t, Tokenizer.At (pre0 ++ tz.chars.takeWhile isspace ++ used) left, ?_⟩
    rw [← hok, ← Tokenizer.next_token_at, ← hat]

theorem next_token_error_position_witness :
    Tokenizer.next_token (Tokenizer.init ['a', '\n', ' ', ' ', '|', 'b']) =
      .ok (⟨ID, "a", 2, 0⟩, ⟨['\n', ' ', ' ', '|', 'b'], 2, 0⟩) ∧
    ['a', '\n', ' ', ' ', '|', 'b'] = ['a'] ++ ['\n', ' ', ' ', '|', 'b'] ∧
    Offending '|' ['b'] ∧
    ∃ msg, Tokenizer.next_token ⟨['\n', ' ', ' ', '|', 'b'], 2, 0⟩ =
      .error (.ParseError msg 2 3) :=
  ⟨rfl, rfl, .inr ⟨rfl, by decide⟩,
    (next_token_error_position ['a', '\n', ' ', ' ', '|', 'b']
      ⟨['\n', ' ', ' ', '|', 'b'], 2, 0⟩
      (.step _ ⟨ID, "a", 2, 0⟩ _ .init rfl) ['a'] rfl).1 '|' ['b'] rfl
      (.inr ⟨rfl, by decide⟩)⟩

/-! ## The two serializers -/

theorem typeTag_eq (t : ArcType) :
    (if t = PLACE_TO_TRANS then "P2T" else "T2P") = typeTag t := by
  cases t <;> rfl

theorem listMember_snoc (acc : List Json) (v : Json) :
    some (((listMember acc).getD .null).push_back v) = listMember (acc ++ [v]) := by
  cases acc with
  | nil => rfl
  | cons a as => rfl

/-- The loop `for (x : xs) j[key].push_back(f(x))` on an object: member `key` ends up
holding the records of `xs` after those it held before, every other member is kept. -/
theorem foldl_pushAt {α : Type} (key : String) (f : α → Json) :
    ∀ (xs : List α) (ms : List (String × Json)) (acc : List Json),
      mapFind ms key = listMember acc →
      ∃ ms1, xs.foldl (fun (j : Json) (x : α) => j.pushAt key (f x)) (Json.object ms) =
          Json.object ms1 ∧
        mapFind ms1 key = listMember (acc ++ xs.map f) ∧
        ∀ k, key ≠ k → mapFind ms1 k = mapFind ms k := by
  intro xs
  induction xs with
  | nil =>
    intro ms acc h
    exact ⟨ms, rfl, by simpa using h, fun _ _ => rfl⟩
  | cons x xs ih =>
    intro ms acc h
    have hstep : (Json.object ms).pushAt key (f x) =
        .object (mapAssign ms key (((listMember acc).getD .null).push_back (f x))) := by
      simp only [Json.pushAt, Json.field, Json.set, h]
    obtain ⟨ms1, h1, h2, h3⟩ := ih (mapAssign ms key (((listMember acc).getD .null).push_back (f x)))
      (acc ++ [f x]) (by rw [mapFind_mapAssign_same, listMember_snoc])
    refine ⟨ms1, ?_, ?_, ?_⟩
    · rw [List.foldl_cons, hstep, h1]
    · rw [h2, List.map_cons, List.append_assoc, List.singleton_append]
    · intro k hk
      rw [h3 k hk, mapFind_mapAssign_ne _ _ _ _ hk]

/-- The members of `to_json(m)`: the three strings, and for each of the three lists the
array of its records, or no member when the list is empty. -/
theorem to_json_members (m : PetriModule) :
    m.to_json.field "moduleName" = some (.string m.moduleName) ∧
    m.to_json.field "entry" = some (.string m.entry.id) ∧
    m.to_json.field "exit" = some (.string m.exit.id) ∧
    m.to_json.field "places" = listMember (m.places.map placeRecord) ∧
    m.to_json.field "transitions" = listMember (m.transitions.map transitionRecord) ∧
    m.to_json.field "arcs" = listMember (m.arcs.map arcRecord) := by
  have hrec : (fun (j : Json) (a : Arc) => j.pushAt "arcs"
      (.object [("id", .string (a.src ++ "_to_" ++ a.dst)),
        ("type", .string (if a.type = .PLACE_TO_TRANS then "P2T" else "T2P")),
        ("src", .string a.src), ("dst", .string a.dst)])) =
      (fun (j : Json) (a : Arc) => j.pushAt "arcs" (arcRecord a)) := by
    funext j a
    simp only [arcRecord, typeTag_eq]
  obtain ⟨ms1, h1, p1, o1⟩ := foldl_pushAt "places" placeRecord m.places
    (mapAssign (mapAssign [("moduleName", Json.string m.moduleName)] "entry"
      (Json.string m.entry.id)) "exit" (Json.string m.exit.id)) [] (by
        simp [mapAssign, mapFind, listMember])
  obtain ⟨ms2, h2, p2, o2⟩ := foldl_pushAt "transitions" transitionRecord m.transitions ms1 []
    (by rw [o1 _ (by decide)]; simp [mapAssign, mapFind, listMember])
  obtain ⟨ms3, h3, p3, o3⟩ := foldl_pushAt "arcs" arcRecord m.arcs ms2 []
    (by rw [o2 _ (by decide), o1 _ (by decide)]; simp [mapAssign, mapFind, listMember])
  have hj : m.to_json = .object ms3 := by
    simp only [PetriModule.to_json, Json.set, hrec]
    rw [← h3, ← h2, ← h1]
    rfl
  rw [hj]
  simp only [Json.field, List.nil_append] at p1 p2 p3 ⊢
  refine ⟨?_, ?_, ?_, ?_, ?_, p3⟩
  · rw [o3 _ (by decide), o2 _ (by decide), o1 _ (by decide)]
    simp [mapAssign, mapFind]
  · rw [o3 _ (by decide), o2 _ (by decide), o1 _ (by decide)]
    simp [mapAssign, mapFind]
  · rw [o3 _ (by decide), o2 _ (by decide), o1 _ (by decide)]
    simp [mapAssign, mapFind]
  · rw [o3 _ (by decide), o2 _ (by decide), p1]
  · rw [o3 _ (by decide), p2]

/-- C12: the structured record of a fragment lacks the member of every empty list. For
every fragment `m`, `to_json(m)` has the members `moduleName`, `entry` and `exit`, and
for each of `places`, `transitions` and `arcs` the array of the records of that list in
order (`{id}`; `{id, priority}`; `{id = src_to_dst, type, src, dst}` with type `P2T`
exactly for a place-to-transition arc) when the list is not empty, but no member at all
when it is empty. The fragment that `generate` returns for a module without a body, two
places and nothing else, is serialized without the members `transitions` and `arcs`. -/
theorem to_json_empty_list_no_member (m : PetriModule) :
    m.to_json.field "moduleName" = some (.string m.moduleName) ∧
    m.to_json.field "entry" = some (.string m.entry.id) ∧
    m.to_json.field "exit" = some (.string m.exit.id) ∧
    m.to_json.field "places" = listMember (m.places.map placeRecord) ∧
    m.to_json.field "transitions" = listMember (m.transitions.map transitionRecord) ∧
    m.to_json.field "arcs" = listMember (m.arcs.map arcRecord) ∧
    listMember [] = none ∧
    (∀ t : ArcType, (typeTag t = "P2T" ↔ t = PLACE_TO_TRANS) ∧
      (typeTag t = "T2P" ↔ t ≠ PLACE_TO_TRANS)) ∧
    generate 0 CodegenVisitor.init "m" =
      .ok (bareFragment "m" "entry0" "exit1",
        { modules := [("m", ⟨none⟩)],
          generated := [("m", bareFragment "m" "entry0" "exit1")], counter := 2 }) ∧
    (bareFragment "m" "entry0" "exit1").to_json.field "places" =
      some (.array [.object [("id", .string "entry0")], .object [("id", .string "exit1")]]) ∧
    (bareFragment "m" "entry0" "exit1").to_json.field "transitions" = none ∧
    (bareFragment "m" "entry0" "exit1").to_json.field "arcs" = none := by
  obtain ⟨h1, h2, h3, h4, h5, h6⟩ := to_json_members m
  refine ⟨h1, h2, h3, h4, h5, h6, rfl, ?_, rfl, rfl, rfl, rfl⟩
  intro t
  cases t <;> simp [typeTag]

theorem foldl_append_init (l : List String) :
    ∀ init : String, l.foldl (fun r s => r ++ s) init = init ++ l.foldl (fun r s => r ++ s) "" := by
  induction l with
  | nil => intro init; simp
  | cons x xs ih =>
    intro init
    rw [List.foldl_cons, List.foldl_cons, ih (init ++ x), ih ("" ++ x), String.empty_append,
      String.append_assoc]

theorem join_cons (x : String) (xs : List String) :
    String.join (x :: xs) = x ++ String.join xs := by
  rw [String.join, List.foldl_cons, foldl_append_init, String.empty_append]
  rfl

/-- A loop that appends one piece per element writes the pieces in order. -/
theorem foldl_stream {α : Type} (g : α → String) :
    ∀ (xs : List α) (init : String),
      xs.foldl (fun os x => os ++ g x) init = init ++ String.join (xs.map g) := by
  intro xs
  induction xs with
  | nil => intro init; simp [String.join]
  | cons x xs ih =>
    intro init
    rw [List.foldl_cons, ih, List.map_cons, join_cons, String.append_assoc]

/-- A loop that appends one numbered piece per element writes the pieces in order,
numbered from the start value of the counter. -/
theorem foldl_stream_numbered {α β : Type} (h : α → β) (g : Nat × β → String) :
    ∀ (xs : List α) (init : String) (k : Nat),
      (xs.foldl (fun (st : String × Nat) a => (st.1 ++ g (st.2, h a), st.2 + 1)) (init, k)).1 =
        init ++ String.join (((xs.map h).enumFrom k).map g) := by
  intro xs
  induction xs with
  | nil => intro init k; simp [String.join]
  | cons x xs ih =>
    intro init k
    rw [List.foldl_cons, ih, List.map_cons, List.enumFrom_cons, List.map_cons, join_cons,
      String.append_assoc]

/-- The stream loops of `to_pnml` write the declarative document. -/
theorem to_pnml_document (m : PetriModule) :
    m.to_pnml = pnmlDocument m.moduleName (placeIds m)
      (m.transitions.map (fun t => (t.id, t.priority)))
      (m.arcs.map (fun a => (a.src, a.dst, typeTag a.type))) := by
  have hP : (fun (os : String) (p : Place) =>
      os ++ "    <place id=\"" ++ p.id ++ "\">\n"
        ++ "      <name><text>" ++ p.id ++ "</text></name>\n"
        ++ "      <initialMarking><text>0</text></initialMarking>\n"
        ++ "    </place>\n") = (fun os p => os ++ placeElement p.id) := by
    funext os p
    simp only [placeElement, String.append_assoc]
  have hT : (fun (os : String) (t : Transition) =>
      (if t.priority > 0 then
        os ++ "    <transition id=\"" ++ t.id ++ "\">\n"
          ++ "      <name><text>" ++ t.id ++ "</text></name>\n"
          ++ "      <toolspecific tool=\"FlowNetDSL\">\n"
          ++ "        <priority>" ++ toString t.priority ++ "</priority>\n"
          ++ "      </toolspecific>\n"
      else
        os ++ "    <transition id=\"" ++ t.id ++ "\">\n"
          ++ "      <name><text>" ++ t.id ++ "</text></name>\n")
        ++ "    </transition>\n") = (fun os t => os ++ transitionElement t.id t.priority) := by
    funext os t
    by_cases h : t.priority > 0
    · simp only [transitionElement, priorityBlock, h, if_true, String.append_assoc]
    · simp only [transitionElement, h, if_false, String.append_assoc, String.empty_append]
  have hA : (fun (st : String × Nat) (a : Arc) =>
      (st.1 ++ "    <arc id=\"a" ++ toString st.2
          ++ "\" source=\"" ++ a.src
          ++ "\" target=\"" ++ a.dst ++ "\">\n"
          ++ "      <toolspecific tool=\"FlowNetDSL\">\n"
          ++ "        <type>"
          ++ (if a.type = .PLACE_TO_TRANS then "P2T" else "T2P")
          ++ "</type>\n"
          ++ "      </toolspecific>\n"
          ++ "    </arc>\n", st.2 + 1)) =
      (fun st a => (st.1 ++ (fun (ka : Nat × String × String × String) =>
        arcElement ka.1 ka.2.1 ka.2.2.1 ka.2.2.2) (st.2, (a.src, a.dst, typeTag a.type)),
        st.2 + 1)) := by
    funext st a
    simp only [arcElement, typeTag_eq, String.append_assoc]
  simp only [PetriModule.to_pnml, hP, hT, hA]
  rw [foldl_stream_numbered (fun (a : Arc) => (a.src, a.dst, typeTag a.type))
    (fun (ka : Nat × String × String × String) => arcElement ka.1 ka.2.1 ka.2.2.1 ka.2.2.2),
    foldl_stream (fun (t : Transition) => transitionElement t.id t.priority),
    foldl_stream (fun (p : Place) => placeElement p.id)]
  simp only [pnmlDocument, arcElements, placeIds, List.enum, List.map_map, Function.comp_def,
    String.append_assoc, String.empty_append]

theorem items_listMember (l : List Json) : Json.items (listMember l) = l := by
  cases l <;> rfl

theorem to_json_lists (m : PetriModule) :
    jsonPlaceIds m.to_json = placeIds m ∧
    jsonTransitions m.to_json = m.transitions.map (fun t => (t.id, t.priority)) ∧
    jsonArcs m.to_json = m.arcs.map (fun a => (a.src, a.dst, typeTag a.type)) := by
  obtain ⟨-, -, -, hp, ht, ha⟩ := to_json_members m
  refine ⟨?_, ?_, ?_⟩
  · rw [jsonPlaceIds, hp, items_listMember, List.map_map]
    rfl
  · rw [jsonTransitions, ht, items_listMember, List.map_map]
    rfl
  · rw [jsonArcs, ha, items_listMember, List.map_map]
    rfl

/-- C13: the XML serializer renders the places, the transitions and the arcs of the
fragment in list order, for every fragment, also one without transitions or arcs. The
stream that `to_pnml(m)` writes is the document of the module name, the place ids, the
transition ids with their priorities and the arc sources, destinations and type tags of
`m`: one place element per place, with initial marking 0; one transition element per
transition, with the priority block exactly when the priority is greater than 0; one arc
element per arc, the `k`-th (from 0) with the id `a` followed by the decimal numeral of
`k`, the source, the target and the type tag, which is `P2T` exactly for a
place-to-transition arc and `T2P` otherwise. The structured record lists the same place
ids, transition ids and priorities, and arc endpoints and type tags, so the XML document
is the document of what the structured record lists. -/
theorem to_pnml_renders (m : PetriModule) :
    m.to_pnml = pnmlDocument m.moduleName (placeIds m)
      (m.transitions.map (fun t => (t.id, t.priority)))
      (m.arcs.map (fun a => (a.src, a.dst, typeTag a.type))) ∧
    m.to_pnml =
      "<?xml version=\"1.0\" encoding=\"UTF-8\"?>\n" ++ "<pnml>\n"
        ++ "  <net id=\"" ++ m.moduleName
        ++ "\" type=\"http://www.pnml.org/version-2009/grammar/pnml\">\n"
        ++ String.join (m.places.map (fun p => placeElement p.id))
        ++ String.join (m.transitions.map (fun t => transitionElement t.id t.priority))
        ++ String.join (m.arcs.enum.map
            (fun ka => arcElement ka.1 ka.2.src ka.2.dst (typeTag ka.2.type)))
        ++ "  </net>\n" ++ "</pnml>\n" ∧
    (∀ (k : Nat) (a : Arc), m.arcs[k]? = some a →
      (arcElements (m.arcs.map (fun a => (a.src, a.dst, typeTag a.type))))[k]? =
        some (arcElement k a.src a.dst (typeTag a.type))) ∧
    (arcElements (m.arcs.map (fun a => (a.src, a.dst, typeTag a.type)))).length =
      m.arcs.length ∧
    (∀ t : ArcType, (typeTag t = "P2T" ↔ t = PLACE_TO_TRANS) ∧
      (typeTag t = "T2P" ↔ t ≠ PLACE_TO_TRANS)) ∧
    jsonPlaceIds m.to_json = placeIds m ∧
    jsonTransitions m.to_json = m.transitions.map (fun t => (t.id, t.priority)) ∧
    jsonArcs m.to_json = m.arcs.map (fun a => (a.src, a.dst, typeTag a.type)) ∧
    m.to_pnml = pnmlDocument m.moduleName (jsonPlaceIds m.to_json)
      (jsonTransitions m.to_json) (jsonArcs m.to_json) := by
  obtain ⟨hp, ht, ha⟩ := to_json_lists m
  refine ⟨to_pnml_document m, ?_, ?_, ?_, ?_, hp, ht, ha, ?_⟩
  · rw [to_pnml_document m]
    simp only [pnmlDocument, arcElements, placeIds, List.enum, List.map_map,
      Function.comp_def, List.enumFrom_map, List.map_map, Prod.map, Function.id_def]
  · intro k a hk
    simp only [arcElements, List.getElem?_map, List.getElem?_enum, hk, Option.map_some']
  · simp [arcElements]
  · intro t
    cases t <;> simp [typeTag]
  · rw [hp, ht, ha]
    exact to_pnml_document m

theorem to_pnml_renders_witness :
    (bareFragment "m" "entry0" "exit1").arcs = [] ∧
    (bareFragment "m" "entry0" "exit1").to_pnml =
      "<?xml version=\"1.0\" encoding=\"UTF-8\"?>\n" ++ "<pnml>\n"
        ++ "  <net id=\"m\" type=\"http://www.pnml.org/version-2009/grammar/pnml\">\n"
        ++ "    <place id=\"entry0\">\n"
        ++ "      <name><text>entry0</text></name>\n"
        ++ "      <initialMarking><text>0</text></initialMarking>\n"
        ++ "    </place>\n"
        ++ "    <place id=\"exit1\">\n"
        ++ "      <name><text>exit1</text></name>\n"
        ++ "      <initialMarking><text>0</text></initialMarking>\n"
        ++ "    </place>\n"
        ++ "  </net>\n" ++ "</pnml>\n" ∧
    (seqFragment "m").arcs[2]? = some ⟨PLACE_TO_TRANS, "P2", "T4"⟩ ∧
    (arcElements ((seqFragment "m").arcs.map (fun a => (a.src, a.dst, typeTag a.type))))[2]? =
      some (arcElement 2 "P2" "T4" "P2T") ∧
    (seqFragment "m").to_pnml = pnmlDocument "m" ["entry0", "exit1", "P2"]
      [("T3", 0), ("T4", 0)]
      [("entry0", "T3", "P2T"), ("T3", "P2", "T2P"), ("P2", "T4", "P2T"),
        ("T4", "exit1", "T2P")] :=
  ⟨rfl,
    (to_pnml_renders (bareFragment "m" "entry0" "exit1")).1.trans
      (by simp [pnmlDocument, placeElement, arcElements, String.join, bareFragment, placeIds]),
    rfl,
    (to_pnml_renders (seqFragment "m")).2.2.1 2 ⟨PLACE_TO_TRANS, "P2", "T4"⟩ rfl,
    (to_pnml_renders (seqFragment "m")).1⟩

/-! ## The compilation of each construct -/

theorem seqLoop_chain {rec : Compile} (out : String) :
    ∀ (cs : List AstNode) (current : String) (cg : CodegenVisitor) (m : PetriModule)
      (cg1 : CodegenVisitor) (m1 : PetriModule), cs ≠ [] →
      seqLoop rec out cs current cg m = .ok (cg1, m1) →
      ∃ ps, SeqChain rec out cs current cg m ps cg1 m1 := by
  intro cs
  induction cs with
  | nil => intro current cg m cg1 m1 hne; exact absurd rfl hne
  | cons c cs ih =>
    intro current cg m cg1 m1 _ h
    cases cs with
    | nil => exact ⟨[], .last c current cg m cg1 m1 h⟩
    | cons c2 cs2 =>
      obtain ⟨hb, cg2, m2, h1, h2⟩ := seqLoop_ok h
      obtain ⟨ps, hps⟩ := ih _ cg2 m2 cg1 m1 (by simp) h2
      exact ⟨_, .step c c2 cs2 current cg m cg2 m2 ps cg1 m1 hb h1 hps⟩

theorem SeqChain.run {rec : Compile} {out : String} {cs : List AstNode}
    {current : String} {cg cg1 : CodegenVisitor} {m m1 : PetriModule} {ps : List String}
    (h : SeqChain rec out cs current cg m ps cg1 m1) :
    seqLoop rec out cs current cg m = .ok (cg1, m1) ∧ ps.length + 1 = cs.length := by
  induction h with
  | last c current cg m cg1 m1 h => exact ⟨h, rfl⟩
  | step c c2 cs current cg m cg2 m2 ps cg1 m1 hb h1 _ ih =>
    refine ⟨?_, by simp only [List.length_cons] at ih ⊢; omega⟩
    rw [seqLoop_step rec out c c2 cs current cg m hb, h1]
    exact ih.1

/-- The places a chain makes are places of the resulting fragment, all different, with
ids made by `fresh` during the chain. -/
theorem SeqChain.places {rec : Compile} (hrec : GenFrame rec) {out : String}
    {cs : List AstNode} {current : String} {cg cg1 : CodegenVisitor} {m m1 : PetriModule}
    {ps : List String} (h : SeqChain rec out cs current cg m ps cg1 m1) :
    (∀ p ∈ ps, p ∈ placeIds m1 ∧ FreshIn cg.counter cg1.counter p) ∧ ps.Nodup ∧
      Frame cg m cg1 m1 := by
  induction h with
  | last c current cg m cg1 m1 h => exact ⟨by simp, List.nodup_nil, hrec _ _ _ _ _ _ _ h⟩
  | step c c2 cs current cg m cg2 m2 ps cg1 m1 hb h1 _ ih =>
    obtain ⟨hps, hnd, hfr⟩ := ih
    have f0 := Frame.appendFresh cg m 1 [⟨"P" ++ toString cg.counter⟩] [] [] (by
      intro x hx
      simp only [List.map_cons, List.map_nil, List.mem_singleton, List.not_mem_nil,
        or_false] at hx
      subst hx
      exact freshIn_mk "P" (by decide) cg.counter 0 1 (by omega))
    have f1 := hrec _ _ _ _ _ _ _ h1
    have hc2 : cg.counter + 1 ≤ cg2.counter := f1.counter
    have hfirst : FreshIn cg.counter (cg.counter + 1) ("P" ++ toString cg.counter) :=
      freshIn_mk "P" (by decide) cg.counter 0 1 (by omega)
    refine ⟨?_, ?_, (f0.compose f1).compose hfr⟩
    · intro p hp
      rcases List.mem_cons.mp hp with rfl | hp
      · refine ⟨?_, hfirst.mono (Nat.le_refl _) (by have := hfr.counter; omega)⟩
        have hin : "P" ++ toString cg.counter ∈
            placeIds (m.plus [⟨"P" ++ toString cg.counter⟩] [] []) := by
          simp [placeIds, PetriModule.plus]
        exact (f1.grows.trans hfr.grows).placeIds_subset hin
      · exact ⟨(hps p hp).1, (hps p hp).2.mono (by omega) (Nat.le_refl _)⟩
    · rw [List.nodup_cons]
      refine ⟨fun hmem => ?_, hnd⟩
      exact FreshIn.ne hfirst ((hps _ hmem).2.mono hc2 (Nat.le_refl _)) rfl

/-- C14: sequence compilation chains the children through fresh places. Compiling a
sequence of one child is compiling that child; compiling `Sequence(c, c2, ..)` between
`inp` and `out` makes a fresh place `p`, appends it to the fragment, compiles `c` between
`inp` and `p` and goes on with `Sequence(c2, ..)` between `p` and `out` (or stops at the
overflow of the counter). So compiling `Sequence(c1..cn)`, `n ≥ 1`, returns exactly when
there is a chain through places `p1..p(n-1)`: these are `n - 1` places of the result, all
different and all made by `fresh` on the way, child `i` is compiled between `p(i-1)` and
`p(i)` with `p0 = inp` and `pn = out`, and nothing else is added; without a call cycle
below the children some recursion bound is enough for it. Hence a module whose body is
the parse of `a.b`, compiled first on a fresh session, has the fragment `seqFragment`:
the 3 places entry, exit and `P2`, the 2 transitions `T3`, `T4` of priority 0 and the
4 arcs entry→T3 (P2T), T3→P2 (T2P), P2→T4 (P2T), T4→exit (T2P). -/
theorem compile_sequence_chain (fuel : Nat) (c c2 : AstNode) (cs children : List AstNode)
    (inp out : String) (cg cg1 : CodegenVisitor) (m m1 : PetriModule) (name : String)
    (hne : children ≠ []) :
    compileExpr (fuel + 1) (SequenceNode [c]) inp out cg m = compileExpr fuel c inp out cg m ∧
    compileExpr (fuel + 1) (SequenceNode (c :: c2 :: cs)) inp out cg m =
      (if cg.counter < INT_MAX then
        (compileExpr fuel c inp ("P" ++ toString cg.counter) (cg.bump 1)
          (m.plus [⟨"P" ++ toString cg.counter⟩] [] [])).bind
          (fun s => compileExpr (fuel + 1) (SequenceNode (c2 :: cs))
            ("P" ++ toString cg.counter) out s.1 s.2)
      else .error .intOverflow) ∧
    (compileExpr (fuel + 1) (SequenceNode children) inp out cg m = .ok (cg1, m1) ↔
      ∃ ps, SeqChain (compileExpr fuel) out children inp cg m ps cg1 m1) ∧
    (∀ ps, SeqChain (compileExpr fuel) out children inp cg m ps cg1 m1 →
      ps.length + 1 = children.length ∧ ps.Nodup ∧
      ∀ p ∈ ps, p ∈ placeIds m1 ∧ FreshIn cg.counter cg1.counter p) ∧
    (Halts cg.modules (SequenceNode children) →
      BoundSuffices (SequenceNode children) inp out cg m) ∧
    parse "a.b" = .ok (SequenceNode [ActionNode "a", ActionNode "b"]) ∧
    generate (fuel + 2) (session [(name, SequenceNode [ActionNode "a", ActionNode "b"])])
        name =
      .ok (seqFragment name,
        { modules := [(name, ⟨some (SequenceNode [ActionNode "a", ActionNode "b"])⟩)],
          generated := [(name, seqFragment name)], counter := 5 }) := by
  refine ⟨?_, ?_, ?_, ?_, fun hh => halts_boundSuffices hh inp out m, rfl, ?_⟩
  · rw [compileExpr, seqLoop_single]
  · rw [compileExpr, seqLoop_eq]
    by_cases hb : cg.counter < INT_MAX
    · simp only [hb, if_true]
      rfl
    · simp only [hb, if_false]
  · rw [compileExpr]
    exact ⟨fun h => seqLoop_chain out children inp cg m cg1 m1 hne h, fun ⟨ps, h⟩ => h.run.1⟩
  · intro ps h
    obtain ⟨hps, hnd, -⟩ := h.places (compileExpr_frame fuel)
    exact ⟨h.run.2, hnd, hps⟩
  · have hS : session [(name, SequenceNode [ActionNode "a", ActionNode "b"])] =
        { modules := [(name, ⟨some (SequenceNode [ActionNode "a", ActionNode "b"])⟩)],
          generated := [], counter := 0 } := rfl
    have hgen := generateWith_miss (compileExpr (fuel + 2))
      { modules := [(name, ⟨some (SequenceNode [ActionNode "a", ActionNode "b"])⟩)],
        generated := [], counter := 0 } name (SequenceNode [ActionNode "a", ActionNode "b"])
      rfl (by simp [mapFind]) (by simp [INT_MAX])
    rw [hS, generate, hgen,
      compileExpr, seqLoop_step _ _ _ _ _ _ _ _ (by simp [INT_MAX, CodegenVisitor.bump]),
      compileExpr_action_step fuel "a" _ _ _ _ (by simp [INT_MAX, CodegenVisitor.bump])]
    simp only [Except.bind]
    rw [seqLoop_single,
      compileExpr_action_step fuel "b" _ _ _ _ (by simp [INT_MAX, CodegenVisitor.bump])]
    simp only [Except.bind, CodegenVisitor.bump, PetriModule.plus, bareFragment, seqFragment,
      mapAssign, List.filter_nil, List.nil_append, List.append_nil, List.cons_append,
      Nat.zero_add, Nat.reduceAdd]
    rfl

theorem compile_sequence_chain_witness :
    [ActionNode "a", ActionNode "b"] ≠ [] ∧
    generate 2 (session [("m", SequenceNode [ActionNode "a", ActionNode "b"])]) "m" =
      .ok (seqFragment "m",
        { modules := [("m", ⟨some (SequenceNode [ActionNode "a", ActionNode "b"])⟩)],
          generated := [("m", seqFragment "m")], counter := 5 }) :=
  ⟨by simp, (compile_sequence_chain 0 (ActionNode "a") (ActionNode "b") []
    [ActionNode "a", ActionNode "b"] "entry0" "exit1" CodegenVisitor.init CodegenVisitor.init
    (bareFragment "m" "entry0" "exit1") (bareFragment "m" "entry0" "exit1") "m"
    (by simp)).2.2.2.2.2.2⟩

/-- C15: parallel compilation builds a fork/join. Compiling `Parallel(l, r)` between `inp`
and `out` makes, in this order, the places `leftIn`, `rightIn`, `leftOut`, `rightOut` and
the transitions `fork`, `join`, six ids that are pairwise different; it appends the four
places, the two transitions with priority 0 and the arcs `inp → fork` (P2T),
`fork → leftIn` (T2P), `fork → rightIn` (T2P), compiles `l` between `leftIn` and `leftOut`
and then `r` between `rightIn` and `rightOut`, and appends the arcs `leftOut → join` (P2T),
`rightOut → join` (P2T), `join → out` (T2P); it stops at the overflow of the counter, and
without a call cycle below `l` and `r` some recursion bound is enough for it. Hence a
module whose body is the parse of `a||b`, compiled first on a fresh session, has the
fragment `parFragment`: 6 places, 4 transitions, 10 arcs, the fork with one input place
and two output places, the join with two input places and one output place. -/
theorem compile_parallel_fork_join (fuel : Nat) (l r : AstNode) (inp out : String)
    (cg : CodegenVisitor) (m : PetriModule) (name : String) :
    compileExpr (fuel + 1) (ParallelNode l r) inp out cg m =
      (if cg.counter + 6 ≤ INT_MAX then
        (compileExpr fuel l ("P" ++ toString cg.counter) ("P" ++ toString (cg.counter + 2))
          (cg.bump 6)
          (m.plus [⟨"P" ++ toString cg.counter⟩, ⟨"P" ++ toString (cg.counter + 1)⟩,
              ⟨"P" ++ toString (cg.counter + 2)⟩, ⟨"P" ++ toString (cg.counter + 3)⟩]
            [⟨"T" ++ toString (cg.counter + 4), 0⟩, ⟨"T" ++ toString (cg.counter + 5), 0⟩]
            [⟨PLACE_TO_TRANS, inp, "T" ++ toString (cg.counter + 4)⟩,
             ⟨TRANS_TO_PLACE, "T" ++ toString (cg.counter + 4), "P" ++ toString cg.counter⟩,
             ⟨TRANS_TO_PLACE, "T" ++ toString (cg.counter + 4),
               "P" ++ toString (cg.counter + 1)⟩])).bind
          (fun s => (compileExpr fuel r ("P" ++ toString (cg.counter + 1))
              ("P" ++ toString (cg.counter + 3)) s.1 s.2).bind
            (fun s1 => .ok (s1.1, s1.2.plus [] []
              [⟨PLACE_TO_TRANS, "P" ++ toString (cg.counter + 2),
                 "T" ++ toString (cg.counter + 5)⟩,
               ⟨PLACE_TO_TRANS, "P" ++ toString (cg.counter + 3),
                 "T" ++ toString (cg.counter + 5)⟩,
               ⟨TRANS_TO_PLACE, "T" ++ toString (cg.counter + 5), out⟩])))
      else .error .intOverflow) ∧
    ["P" ++ toString cg.counter, "P" ++ toString (cg.counter + 1),
      "P" ++ toString (cg.counter + 2), "P" ++ toString (cg.counter + 3),
      "T" ++ toString (cg.counter + 4), "T" ++ toString (cg.counter + 5)].Nodup ∧
    parse "a||b" = .ok (ParallelNode (ActionNode "a") (ActionNode "b")) ∧
    generate (fuel + 2) (session [(name, ParallelNode (ActionNode "a") (ActionNode "b"))])
        name =
      .ok (parFragment name,
        { modules := [(name, ⟨some (ParallelNode (ActionNode "a") (ActionNode "b"))⟩)],
          generated := [(name, parFragment name)], counter := 10 }) ∧
    (parFragment name).places.length = 6 ∧
    (parFragment name).transitions.length = 4 ∧
    (parFragment name).arcs.length = 10 ∧
    (parFragment name).inputPlaces "T6" = ["entry0"] ∧
    (parFragment name).outputPlaces "T6" = ["P2", "P3"] ∧
    (parFragment name).inputPlaces "T7" = ["P4", "P5"] ∧
    (parFragment name).outputPlaces "T7" = ["exit1"] ∧
    (Halts cg.modules (ParallelNode l r) →
      BoundSuffices (ParallelNode l r) inp out cg m) := by
  refine ⟨compileExpr_parallel_eq fuel l r inp out cg m, ?_, rfl, ?_, rfl, rfl, rfl, rfl, rfl,
    rfl, rfl, fun hh => halts_boundSuffices hh inp out m⟩
  · have h := (freshIds_spec ["P", "P", "P", "P", "T", "T"] (by decide) cg.counter).1
    simpa only [freshIds, Nat.add_assoc, Nat.reduceAdd] using h
  · have hS : session [(name, ParallelNode (ActionNode "a") (ActionNode "b"))] =
        { modules := [(name, ⟨some (ParallelNode (ActionNode "a") (ActionNode "b"))⟩)],
          generated := [], counter := 0 } := rfl
    have hgen := generateWith_miss (compileExpr (fuel + 2))
      { modules := [(name, ⟨some (ParallelNode (ActionNode "a") (ActionNode "b"))⟩)],
        generated := [], counter := 0 } name (ParallelNode (ActionNode "a") (ActionNode "b"))
      rfl (by simp [mapFind]) (by simp [INT_MAX])
    rw [hS, generate, hgen,
      compileExpr_parallel_step (fuel + 1) _ _ _ _ _ _ (by simp [INT_MAX, CodegenVisitor.bump]),
      compileExpr_action_step fuel "a" _ _ _ _ (by simp [INT_MAX, CodegenVisitor.bump])]
    simp only [Except.bind]
    rw [compileExpr_action_step fuel "b" _ _ _ _ (by simp [INT_MAX, CodegenVisitor.bump])]
    simp only [Except.bind, CodegenVisitor.bump, PetriModule.plus, bareFragment, parFragment,
      mapAssign, List.filter_nil, List.nil_append, List.append_nil, List.cons_append,
      Nat.zero_add, Nat.reduceAdd]
    rfl

theorem compile_parallel_fork_join_witness :
    Halts CodegenVisitor.init.modules (ParallelNode (ActionNode "a") (ActionNode "b")) ∧
    BoundSuffices (ParallelNode (ActionNode "a") (ActionNode "b")) "entry0" "exit1"
      CodegenVisitor.init (bareFragment "m" "entry0" "exit1") :=
  ⟨.parallel _ _ (.action "a") (.action "b"),
    (compile_parallel_fork_join 0 (ActionNode "a") (ActionNode "b") "entry0" "exit1"
      CodegenVisitor.init (bareFragment "m" "entry0" "exit1") "m").2.2.2.2.2.2.2.2.2.2.2
      (.parallel _ _ (.action "a") (.action "b"))⟩

theorem OwnPlace.not_mem {cg cg1 : CodegenVisitor} {x : String} (h : OwnPlace cg x)
    {sub : PetriModule}
    (hsub : ∀ y ∈ nodeIds sub, MemoId cg y ∨ FreshIn cg.counter cg1.counter y) :
    ∀ y ∈ nodeIds sub, x ≠ y := by
  intro y hy heq
  subst heq
  rcases hsub x hy with hm | hf
  · exact h.2 hm
  · exact FreshIn.ne h.1 hf rfl

theorem Reachable.memoAlt {cg : CodegenVisitor} (h : Reachable cg) : MemoAlt cg := by
  induction h with
  | init => intro n F hF; cases hF
  | register cg name root _ _ ih => exact ih
  | generate cg cg1 fuel name F _ hg ih => exact (generateWith_alt (compileExpr_alt fuel) hg ih).1

/-- A place made by `fresh` in a state whose cached ids are all below the counter is a
place of the caller's own, whatever the counter is advanced to. -/
theorem OwnPlace.justMade {cg : CodegenVisitor} (hinv : SessionInv cg) (b : String)
    (hb : b ∈ idBases) (i k : Nat) (hik : i < k) :
    OwnPlace (cg.bump k) (b ++ toString (cg.counter + i)) := by
  refine ⟨(freshIn_mk b hb cg.counter i k hik).mono (Nat.zero_le _) (Nat.le_refl _), ?_⟩
  rintro ⟨n, G, hn, hx⟩
  exact FreshIn.ne (hinv.ids n G hn _ hx) (freshIn_mk b hb cg.counter i k hik) rfl

/-- A place of the caller's own stays one while other nodes are compiled. -/
theorem OwnPlace.persist {cg cg1 : CodegenVisitor} {m m1 : PetriModule} {x : String}
    (h : OwnPlace cg x) (hf : Frame cg m cg1 m1) : OwnPlace cg1 x := by
  refine ⟨h.1.mono (Nat.le_refl _) hf.counter, fun hm => ?_⟩
  rcases hf.memoIds x hm with h1 | h1
  · exact h.2 h1
  · exact FreshIn.ne h.1 h1 rfl

/-- C16: module-call compilation inlines the callee and links it through its own call and
return transitions. Compiling `CallModule(name)` between `inp` and `out` runs
`generate(name)`; when that returns the fragment `sub`, it makes two transitions `callT`
and `retT`, different from each other, and appends to the caller's fragment the places of
`sub`, the transitions of `sub` followed by `callT` and `retT` with priority 0, and the
arcs of `sub` followed by `inp → callT` (P2T), `callT → sub.entry` (T2P),
`sub.exit → retT` (P2T), `retT → out` (T2P); it appends no place of its own, and it stops
at the overflow of the counter. When every cached fragment contains its entry and exit and
`inp`, `out` are places made for the caller's fragment, the entry and the exit of `sub` are
places of `sub` and no node of `sub` is `inp` or `out`: the caller's places are not
identified with the callee's entry and exit. Both assumptions hold in every reachable
state for the entry and the exit that `generate` has just made for the caller. When the
calls that start at `name` follow no cycle, some recursion bound is enough: from that bound
on the compilation of the call does not stop at the bound. -/
theorem compile_call_inlines (fuel : Nat) (name inp out : String) (cg : CodegenVisitor)
    (m : PetriModule) :
    compileExpr (fuel + 1) (CallModuleNode name) inp out cg m =
      (generate fuel cg name).bind (fun r =>
        if r.2.counter + 2 ≤ INT_MAX then
          .ok (r.2.bump 2, m.plus r.1.places
            (r.1.transitions ++ [⟨"T_call" ++ toString r.2.counter, 0⟩,
              ⟨"T_ret" ++ toString (r.2.counter + 1), 0⟩])
            (r.1.arcs ++ [⟨PLACE_TO_TRANS, inp, "T_call" ++ toString r.2.counter⟩,
              ⟨TRANS_TO_PLACE, "T_call" ++ toString r.2.counter, r.1.entry.id⟩,
              ⟨PLACE_TO_TRANS, r.1.exit.id, "T_ret" ++ toString (r.2.counter + 1)⟩,
              ⟨TRANS_TO_PLACE, "T_ret" ++ toString (r.2.counter + 1), out⟩]))
        else .error .intOverflow) ∧
    (∀ k : Nat, "T_call" ++ toString k ≠ "T_ret" ++ toString (k + 1)) ∧
    (∀ sub cg1, generate fuel cg name = .ok (sub, cg1) →
      MemoAlt cg → OwnPlace cg inp → OwnPlace cg out →
      sub.entry.id ∈ placeIds sub ∧ sub.exit.id ∈ placeIds sub ∧
      (∀ y ∈ nodeIds sub, inp ≠ y ∧ out ≠ y) ∧
      inp ≠ sub.entry.id ∧ inp ≠ sub.exit.id ∧ out ≠ sub.entry.id ∧ out ≠ sub.exit.id) ∧
    (∀ s : CodegenVisitor, Reachable s →
      MemoAlt (s.bump 2) ∧ OwnPlace (s.bump 2) ("entry" ++ toString s.counter) ∧
      OwnPlace (s.bump 2) ("exit" ++ toString (s.counter + 1))) ∧
    (Halts cg.modules (CallModuleNode name) →
      BoundSuffices (CallModuleNode name) inp out cg m) := by
  refine ⟨compileExpr_call_step fuel name inp out cg m, ?_, ?_, ?_, ?_⟩
  · intro k h
    have := @fresh_id_injective "T_call" "T_ret" (by decide) (by decide) _ _ h
    omega
  · intro sub cg1 hg hmemo hinp hout
    obtain ⟨-, -, hentry, hexit⟩ := generateWith_alt (compileExpr_alt fuel) hg hmemo
    obtain ⟨-, -, -, hsub⟩ := generateWith_frame (compileExpr_frame fuel) hg
    have hi := hinp.not_mem hsub
    have ho := hout.not_mem hsub
    have he : sub.entry.id ∈ nodeIds sub := List.mem_append_left _ hentry
    have hx : sub.exit.id ∈ nodeIds sub := List.mem_append_left _ hexit
    exact ⟨hentry, hexit, fun y hy => ⟨hi y hy, ho y hy⟩, hi _ he, hi _ hx, ho _ he, ho _ hx⟩
  · intro s hs
    have h0 := OwnPlace.justMade hs.sessionInv "entry" (by decide) 0 2 (by omega)
    exact ⟨hs.memoAlt, h0, OwnPlace.justMade hs.sessionInv "exit" (by decide) 1 2 (by omega)⟩
  · exact fun hh => halts_boundSuffices hh inp out m

theorem compile_call_inlines_witness :
    generate 2 (session callOnce) "main" =
      .ok (callOnceMain,
        { modules := [("main", ⟨some (CallModuleNode "sub")⟩), ("sub", ⟨some (ActionNode "a")⟩)],
          generated := [("main", callOnceMain), ("sub", callOnceSub)], counter := 7 }) ∧
    generate 1 ((session callOnce).bump 2) "sub" =
      .ok (callOnceSub, { ((session callOnce).bump 5) with
        generated := [("sub", callOnceSub)] }) ∧
    ("entry0" ≠ callOnceSub.entry.id ∧ "entry0" ≠ callOnceSub.exit.id ∧
      "exit1" ≠ callOnceSub.entry.id ∧ "exit1" ≠ callOnceSub.exit.id) ∧
    BoundSuffices (CallModuleNode "sub") "entry0" "exit1" ((session callOnce).bump 2)
      (bareFragment "main" "entry0" "exit1") :=
  ⟨rfl, rfl,
    ((compile_call_inlines 1 "sub" "entry0" "exit1" ((session callOnce).bump 2)
      (bareFragment "main" "entry0" "exit1")).2.2.1 callOnceSub _ rfl
      (fun n F h => by cases h)
      ⟨⟨"entry", 0, by decide, by decide, by decide, by decide⟩,
        fun ⟨n, G, h, _⟩ => by cases h⟩
      ⟨⟨"exit", 1, by decide, by decide, by decide, by decide⟩,
        fun ⟨n, G, h, _⟩ => by cases h⟩).2.2.2,
    (compile_call_inlines 1 "sub" "entry0" "exit1" ((session callOnce).bump 2)
      (bareFragment "main" "entry0" "exit1")).2.2.2.2
      (.call "sub" (fun body hb => by
        have h2 : mapFind ((session callOnce).bump 2).modules "sub" =
            some ⟨some (ActionNode "a")⟩ := rfl
        rw [h2] at hb
        cases hb
        exact .action "a"))⟩

/-- C17: choice compilation is pure place sharing. Compiling `Choice(l, r)` between `inp`
and `out` is compiling `l` between `inp` and `out` and then, from the state and fragment
that leaves, `r` between the same `inp` and `out`: nothing is added and no identifier is
consumed in between; without a call cycle below `l` and `r` some recursion bound is enough
for it. Hence a module `name` with body `Choice(Action(a), Action(b))`, compiled in a
state `s` with counter value `c`, has the fragment `choiceFragment name c`: the 2 places
entry and exit, 2 transitions of priority 0 and 4 arcs, each transition with the entry as
its only input place and the exit as its only output place. -/
theorem compile_choice_shares_places (fuel : Nat) (l r : AstNode) (inp out : String)
    (cg : CodegenVisitor) (m : PetriModule) (s : CodegenVisitor) (name a b : String)
    (hmemo : mapFind s.generated name = none)
    (hreg : mapFind s.modules name = some ⟨some (ChoiceNode (ActionNode a) (ActionNode b))⟩)
    (hc : s.counter + 4 ≤ INT_MAX) :
    compileExpr (fuel + 1) (ChoiceNode l r) inp out cg m =
      (compileExpr fuel l inp out cg m).bind (fun s1 => compileExpr fuel r inp out s1.1 s1.2) ∧
    (∃ s1, generate (fuel + 2) s name = .ok (choiceFragment name s.counter, s1) ∧
      s1.counter = s.counter + 4) ∧
    (choiceFragment name s.counter).places.length = 2 ∧
    (choiceFragment name s.counter).transitions.length = 2 ∧
    (choiceFragment name s.counter).arcs.length = 4 ∧
    (∀ t ∈ (choiceFragment name s.counter).transitions,
      t.priority = 0 ∧
      (choiceFragment name s.counter).inputPlaces t.id =
        [(choiceFragment name s.counter).entry.id] ∧
      (choiceFragment name s.counter).outputPlaces t.id =
        [(choiceFragment name s.counter).exit.id]) ∧
    (Halts cg.modules (ChoiceNode l r) → BoundSuffices (ChoiceNode l r) inp out cg m) := by
  refine ⟨compileExpr_choice_step fuel l r inp out cg m, ?_, rfl, rfl, rfl, ?_,
    fun hh => halts_boundSuffices hh inp out m⟩
  · rw [generate, generateWith_miss _ s name _ hmemo hreg (by omega),
      compileExpr_choice_step,
      compileExpr_action_step fuel a _ _ _ _ (by simp only [CodegenVisitor.bump]; omega)]
    simp only [Except.bind]
    rw [compileExpr_action_step fuel b _ _ _ _ (by simp only [CodegenVisitor.bump]; omega)]
    simp only [Except.bind, CodegenVisitor.bump, PetriModule.plus, bareFragment,
      choiceFragment, List.nil_append, List.append_nil, List.cons_append, Nat.add_assoc,
      Nat.reduceAdd]
    exact ⟨_, rfl, rfl⟩
  · have hne : "T" ++ toString (s.counter + 2) ≠ "T" ++ toString (s.counter + 3) := by
      intro h
      have := @fresh_id_injective "T" "T" (by decide) (by decide) _ _ h
      omega
    intro t ht
    simp only [choiceFragment, List.mem_cons, List.mem_singleton, List.not_mem_nil,
      or_false] at ht
    rcases ht with rfl | rfl
    · simp [choiceFragment, PetriModule.inputPlaces, PetriModule.outputPlaces, List.filter,
        hne, hne.symm]
    · simp [choiceFragment, PetriModule.inputPlaces, PetriModule.outputPlaces, List.filter,
        hne, hne.symm]

theorem compile_choice_shares_places_witness :
    generate 2 (session [("m", ChoiceNode (ActionNode "a") (ActionNode "b"))]) "m" =
      .ok (choiceFragment "m" 0,
        { modules := [("m", ⟨some (ChoiceNode (ActionNode "a") (ActionNode "b"))⟩)],
          generated := [("m", choiceFragment "m" 0)], counter := 4 }) ∧
    (choiceFragment "m" 0).inputPlaces "T2" = ["entry0"] ∧
    (choiceFragment "m" 0).outputPlaces "T3" = ["exit1"] ∧
    ∀ t ∈ (choiceFragment "m" 0).transitions, t.priority = 0 ∧
      (choiceFragment "m" 0).inputPlaces t.id = [(choiceFragment "m" 0).entry.id] ∧
      (choiceFragment "m" 0).outputPlaces t.id = [(choiceFragment "m" 0).exit.id] :=
  ⟨rfl, by decide, by decide,
    (compile_choice_shares_places 0 (ActionNode "a") (ActionNode "b") "entry0" "exit1"
      CodegenVisitor.init (bareFragment "m" "entry0" "exit1")
      (session [("m", ChoiceNode (ActionNode "a") (ActionNode "b"))])
      "m" "a" "b" rfl rfl (by decide)).2.2.2.2.2.1⟩

/-- C18: priority compilation inserts one gate transition carrying the level. Compiling
`Priority(level, child)` between `inp` and `out` makes a fresh place `mid` and a fresh
transition `t`, appends `mid`, the transition `t` with priority `level` and the arcs
`inp → t` (P2T), `t → mid` (T2P), and then compiles `child` between `mid` and `out`
(or stops at the overflow of the counter); without a call cycle below `child` some
recursion bound is enough for it. The transitions the other constructs make
themselves have priority 0: the one of an action, the fork and the join of a parallel,
the call and the return transition of a module call. Hence a module `name` whose body is
the parse of `x^5`, compiled in a state `s` with counter value `c`, has the fragment
`prioFragment name c`: 3 places, the gate of priority 5 and the action transition of
priority 0. -/
theorem compile_priority_gate (fuel : Nat) (level : Int) (child l r : AstNode)
    (inp out a callee : String) (cg : CodegenVisitor) (m : PetriModule)
    (s : CodegenVisitor) (name : String)
    (hmemo : mapFind s.generated name = none)
    (hreg : mapFind s.modules name = some ⟨some (PrioNode 5 (ActionNode "x"))⟩)
    (hc : s.counter + 5 ≤ INT_MAX) :
    compileExpr (fuel + 1) (PrioNode level child) inp out cg m =
      (if cg.counter + 2 ≤ INT_MAX then
        compileExpr fuel child ("P" ++ toString cg.counter) out (cg.bump 2)
          (m.plus [⟨"P" ++ toString cg.counter⟩] [⟨"T" ++ toString (cg.counter + 1), level⟩]
            [⟨PLACE_TO_TRANS, inp, "T" ++ toString (cg.counter + 1)⟩,
             ⟨TRANS_TO_PLACE, "T" ++ toString (cg.counter + 1), "P" ++ toString cg.counter⟩])
      else .error .intOverflow) ∧
    compileExpr (fuel + 1) (ActionNode a) inp out cg m =
      (if cg.counter < INT_MAX then
        .ok (cg.bump 1, m.plus [] [⟨"T" ++ toString cg.counter, 0⟩]
          [⟨PLACE_TO_TRANS, inp, "T" ++ toString cg.counter⟩,
           ⟨TRANS_TO_PLACE, "T" ++ toString cg.counter, out⟩])
      else .error .intOverflow) ∧
    (∀ cg1 m1, compileExpr (fuel + 1) (ParallelNode l r) inp out cg m = .ok (cg1, m1) →
      ∃ cg2 m2 m3,
        compileExpr fuel l ("P" ++ toString cg.counter) ("P" ++ toString (cg.counter + 2))
          (cg.bump 6)
          (m.plus [⟨"P" ++ toString cg.counter⟩, ⟨"P" ++ toString (cg.counter + 1)⟩,
              ⟨"P" ++ toString (cg.counter + 2)⟩, ⟨"P" ++ toString (cg.counter + 3)⟩]
            [⟨"T" ++ toString (cg.counter + 4), 0⟩, ⟨"T" ++ toString (cg.counter + 5), 0⟩]
            [⟨PLACE_TO_TRANS, inp, "T" ++ toString (cg.counter + 4)⟩,
             ⟨TRANS_TO_PLACE, "T" ++ toString (cg.counter + 4), "P" ++ toString cg.counter⟩,
             ⟨TRANS_TO_PLACE, "T" ++ toString (cg.counter + 4),
               "P" ++ toString (cg.counter + 1)⟩]) = .ok (cg2, m2) ∧
        compileExpr fuel r ("P" ++ toString (cg.counter + 1))
          ("P" ++ toString (cg.counter + 3)) cg2 m2 = .ok (cg1, m3) ∧
        m1.transitions = m3.transitions) ∧
    (∀ cg1 m1, compileExpr (fuel + 1) (CallModuleNode callee) inp out cg m = .ok (cg1, m1) →
      ∃ sub cg2, generate fuel cg callee = .ok (sub, cg2) ∧
        m1.transitions = m.transitions ++ sub.transitions ++
          [⟨"T_call" ++ toString cg2.counter, 0⟩, ⟨"T_ret" ++ toString (cg2.counter + 1), 0⟩]) ∧
    parse "x^5" = .ok (PrioNode 5 (ActionNode "x")) ∧
    (∃ s1, generate (fuel + 2) s name = .ok (prioFragment name s.counter, s1) ∧
      s1.counter = s.counter + 5) ∧
    (prioFragment name s.counter).places.length = 3 ∧
    (prioFragment name s.counter).transitions.map (fun t => t.priority) = [5, 0] ∧
    (Halts cg.modules (PrioNode level child) →
      BoundSuffices (PrioNode level child) inp out cg m) := by
  refine ⟨compileExpr_prio_eq fuel level child inp out cg m,
    compileExpr_action_eq fuel a inp out cg m, ?_, ?_, ?_, ?_, rfl, rfl,
    fun hh => halts_boundSuffices hh inp out m⟩
  · intro cg1 m1 h
    obtain ⟨-, cg2, m2, m3, h1, h2, rfl⟩ := compileExpr_parallel_ok h
    exact ⟨cg2, m2, m3, h1, h2, by simp [PetriModule.plus]⟩
  · intro cg1 m1 h
    obtain ⟨sub, cg2, hg, -, -, rfl⟩ := compileExpr_call_ok h
    exact ⟨sub, cg2, hg, by simp [PetriModule.plus]⟩
  · rfl
  · rw [generate, generateWith_miss _ s name _ hmemo hreg (by omega),
      compileExpr_prio_step (fuel + 1) _ _ _ _ _ _ (by simp only [CodegenVisitor.bump]; omega),
      compileExpr_action_step fuel "x" _ _ _ _ (by simp only [CodegenVisitor.bump]; omega)]
    simp only [Except.bind, CodegenVisitor.bump, PetriModule.plus, bareFragment,
      prioFragment, List.nil_append, List.append_nil, List.cons_append, Nat.add_assoc,
      Nat.reduceAdd]
    exact ⟨_, rfl, rfl⟩

theorem compile_priority_gate_witness :
    generate 2 (session [("m", PrioNode 5 (ActionNode "x"))]) "m" =
      .ok (prioFragment "m" 0,
        { modules := [("m", ⟨some (PrioNode 5 (ActionNode "x"))⟩)],
          generated := [("m", prioFragment "m" 0)], counter := 5 }) ∧
    (prioFragment "m" 0).transitions = [⟨"T3", 5⟩, ⟨"T4", 0⟩] ∧
    ∃ s1, generate 2 (session [("m", PrioNode 5 (ActionNode "x"))]) "m" =
      .ok (prioFragment "m" 0, s1) ∧ s1.counter = 5 :=
  ⟨rfl, by decide,
    (compile_priority_gate 0 7 (ActionNode "y") (ActionNode "l") (ActionNode "r")
      "entry0" "exit1" "a" "callee" CodegenVisitor.init (bareFragment "m" "entry0" "exit1")
      (session [("m", PrioNode 5 (ActionNode "x"))]) "m" rfl rfl (by decide)).2.2.2.2.2.1⟩

/-! ## Independence of action names -/

theorem seqLoop_congr {rec : Compile} (out : String) {cs1 cs2 : List AstNode}
    (h : List.Forall₂ (fun a b => ∀ inp out cg m, rec a inp out cg m = rec b inp out cg m)
      cs1 cs2) :
    ∀ (current : String) (cg : CodegenVisitor) (m : PetriModule),
      seqLoop rec out cs1 current cg m = seqLoop rec out cs2 current cg m := by
  induction h with
  | nil => intro current cg m; rfl
  | @cons a b l1 l2 hab hl ih =>
    intro current cg m
    cases hl with
    | nil => rw [seqLoop_single, seqLoop_single, hab]
    | @cons a2 b2 l3 l4 hab2 hl2 =>
      rw [seqLoop_eq, seqLoop_eq, hab]
      by_cases hb : cg.counter < INT_MAX
      · simp only [hb, if_true]
        congr 1
        funext s
        exact ih _ _ _
      · simp only [hb, if_false]

/-- The result of `compileExpr` does not depend on the names of the actions. -/
theorem compileExpr_names : ∀ (fuel : Nat) (a b : AstNode), SameShape a b →
    ∀ (inp out : String) (cg : CodegenVisitor) (m : PetriModule),
      compileExpr fuel a inp out cg m = compileExpr fuel b inp out cg m := by
  intro fuel
  induction fuel with
  | zero => intro a b _ inp out cg m; rfl
  | succ fuel ih =>
    intro a b hab inp out cg m
    cases hab with
    | action n1 n2 => rw [compileExpr_action_eq, compileExpr_action_eq]
    | sequence cs1 cs2 hcs =>
      rw [compileExpr, compileExpr]
      exact seqLoop_congr out (hcs.imp (fun x y hxy => ih x y hxy)) inp cg m
    | parallel l1 r1 l2 r2 hl hr =>
      rw [compileExpr_parallel_eq, compileExpr_parallel_eq]
      simp only [ih _ _ hl, ih _ _ hr]
    | choice l1 r1 l2 r2 hl hr =>
      rw [compileExpr_choice_step, compileExpr_choice_step]
      simp only [ih _ _ hl, ih _ _ hr]
    | prio level c1 c2 hc =>
      rw [compileExpr_prio_eq, compileExpr_prio_eq]
      simp only [ih _ _ hc]
    | call name => rfl

theorem StateSim.bump {s1 s2 : CodegenVisitor} (h : StateSim s1 s2) (k : Nat) :
    StateSim (s1.bump k) (s2.bump k) :=
  ⟨h.modules, h.generated, by simp only [CodegenVisitor.bump, h.counter]⟩

theorem StateSim.memoize {s1 s2 : CodegenVisitor} (h : StateSim s1 s2) (name : String)
    (F : PetriModule) :
    StateSim { s1 with generated := mapAssign s1.generated name F }
      { s2 with generated := mapAssign s2.generated name F } :=
  ⟨h.modules, by simp only [h.generated], h.counter⟩

theorem ResSim.error (e : Fault) : ResSim (.error e) (.error e) := by
  simp [ResSim]

theorem ResSim.bindRes2 {r1 r2 : Except Fault (CodegenVisitor × PetriModule)} (h : ResSim r1 r2)
    {f g : CodegenVisitor × PetriModule → Except Fault (CodegenVisitor × PetriModule)}
    (hfg : ∀ s1 s2 m, StateSim s1 s2 → ResSim (f (s1, m)) (g (s2, m))) :
    ResSim (r1.bind f) (r2.bind g) := by
  cases r1 with
  | error e1 =>
    cases r2 with
    | error e2 => exact h
    | ok b => simp [ResSim] at h
  | ok a =>
    cases r2 with
    | error e2 => simp [ResSim] at h
    | ok b =>
      obtain ⟨s1, m1⟩ := a
      obtain ⟨s2, m2⟩ := b
      simp only [ResSim] at h
      obtain ⟨rfl, hs⟩ := h
      exact hfg s1 s2 m1 hs

theorem GenSim.bindRes {r1 r2 : Except Fault (PetriModule × CodegenVisitor)} (h : GenSim r1 r2)
    {f g : PetriModule × CodegenVisitor → Except Fault (CodegenVisitor × PetriModule)}
    (hfg : ∀ s1 s2 m, StateSim s1 s2 → ResSim (f (m, s1)) (g (m, s2))) :
    ResSim (r1.bind f) (r2.bind g) := by
  cases r1 with
  | error e1 =>
    cases r2 with
    | error e2 => exact h
    | ok b => simp [GenSim] at h
  | ok a =>
    cases r2 with
    | error e2 => simp [GenSim] at h
    | ok b =>
      obtain ⟨m1, s1⟩ := a
      obtain ⟨m2, s2⟩ := b
      simp only [GenSim] at h
      obtain ⟨rfl, hs⟩ := h
      exact hfg s1 s2 m1 hs

theorem ResSim.toGen {r1 r2 : Except Fault (CodegenVisitor × PetriModule)} (h : ResSim r1 r2)
    (name : String) :
    GenSim (r1.bind (fun s => .ok (s.2, { s.1 with generated := mapAssign s.1.generated name s.2 })))
      (r2.bind (fun s => .ok (s.2, { s.1 with generated := mapAssign s.1.generated name s.2 }))) := by
  cases r1 with
  | error e1 =>
    cases r2 with
    | error e2 => exact h
    | ok b => simp [ResSim] at h
  | ok a =>
    cases r2 with
    | error e2 => simp [ResSim] at h
    | ok b =>
      obtain ⟨s1, m1⟩ := a
      obtain ⟨s2, m2⟩ := b
      simp only [ResSim] at h
      obtain ⟨rfl, hs⟩ := h
      exact ⟨rfl, hs.memoize name m1⟩

theorem generateWith_sim {rec : Compile}
    (hrec : ∀ a b, SameShape a b → ∀ (inp out : String) (s1 s2 : CodegenVisitor)
      (m : PetriModule), StateSim s1 s2 → ResSim (rec a inp out s1 m) (rec b inp out s2 m))
    {s1 s2 : CodegenVisitor} (h : StateSim s1 s2) (name : String) :
    GenSim (generateWith rec s1 name) (generateWith rec s2 name) := by
  obtain ⟨M1, G1, c1⟩ := s1
  obtain ⟨M2, G2, c2⟩ := s2
  have hG := h.generated
  have hc := h.counter
  simp only at hG hc
  subst hG
  subst hc
  cases hg : mapFind G1 name with
  | some G =>
    rw [generateWith_hit rec ⟨M1, G1, c1⟩ name G hg, generateWith_hit rec ⟨M2, G1, c1⟩ name G hg]
    exact ⟨rfl, h⟩
  | none =>
    by_cases hb : c1 + 2 ≤ INT_MAX
    · rcases h.modules name with ⟨h1, h2⟩ | ⟨d1, d2, h1, h2, hd⟩
      · rw [generateWith_unregistered rec ⟨M1, G1, c1⟩ name h1 hg hb,
          generateWith_unregistered rec ⟨M2, G1, c1⟩ name h2 hg hb]
        refine ⟨rfl, ?_, rfl, rfl⟩
        intro n
        by_cases hn : name = n
        · subst hn
          exact .inr ⟨⟨none⟩, ⟨none⟩, mapFind_mapAssign_same _ _ _,
            mapFind_mapAssign_same _ _ _, .inl ⟨rfl, rfl⟩⟩
        · simp only [mapFind_mapAssign_ne _ _ _ _ hn]
          exact h.modules n
      · obtain ⟨r1⟩ := d1
        obtain ⟨r2⟩ := d2
        rcases hd with ⟨e1, e2⟩ | ⟨a, b, e1, e2, hab⟩
        · simp only at e1 e2
          subst e1
          subst e2
          rw [generateWith_nullRoot rec ⟨M1, G1, c1⟩ name h1 hg hb,
            generateWith_nullRoot rec ⟨M2, G1, c1⟩ name h2 hg hb]
          exact ⟨rfl, h.modules, rfl, rfl⟩
        · simp only at e1 e2
          subst e1
          subst e2
          rw [generateWith_miss rec ⟨M1, G1, c1⟩ name a hg h1 hb,
            generateWith_miss rec ⟨M2, G1, c1⟩ name b hg h2 hb]
          exact (hrec a b hab _ _ _ _ _ (h.bump 2)).toGen name
    · rw [generateWith_miss_overflow rec ⟨M1, G1, c1⟩ name hg hb,
        generateWith_miss_overflow rec ⟨M2, G1, c1⟩ name hg hb]
      rfl

theorem seqLoop_sim {rec : Compile}
    (hrec : ∀ (node : AstNode) (inp out : String) (s1 s2 : CodegenVisitor) (m : PetriModule),
      StateSim s1 s2 → ResSim (rec node inp out s1 m) (rec node inp out s2 m))
    (out : String) :
    ∀ (cs : List AstNode) (current : String) (s1 s2 : CodegenVisitor) (m : PetriModule),
      StateSim s1 s2 →
      ResSim (seqLoop rec out cs current s1 m) (seqLoop rec out cs current s2 m) := by
  intro cs
  induction cs with
  | nil => intro current s1 s2 m h; exact ⟨rfl, h⟩
  | cons c cs ih =>
    intro current s1 s2 m h
    cases cs with
    | nil => exact hrec c current out s1 s2 m h
    | cons c2 cs2 =>
      rw [seqLoop_eq, seqLoop_eq, h.counter]
      by_cases hb : s2.counter < INT_MAX
      · simp only [hb, if_true]
        exact (hrec _ _ _ _ _ _ (h.bump 1)).bindRes2 (fun t1 t2 m1 ht => ih _ t1 t2 m1 ht)
      · simp only [hb, if_false]
        rfl

/-- Compiling the same node in two states that agree except for the names of the actions
in the registered bodies gives results that agree in the same sense. -/
theorem compileExpr_sim : ∀ (fuel : Nat) (node : AstNode) (inp out : String)
    (s1 s2 : CodegenVisitor) (m : PetriModule), StateSim s1 s2 →
    ResSim (compileExpr fuel node inp out s1 m) (compileExpr fuel node inp out s2 m) := by
  intro fuel
  induction fuel with
  | zero => intro node inp out s1 s2 m _; rfl
  | succ fuel ih =>
    intro node inp out s1 s2 m h
    cases node with
    | ActionNode name =>
      rw [compileExpr_action_eq, compileExpr_action_eq, h.counter]
      by_cases hb : s2.counter < INT_MAX
      · simp only [hb, if_true]
        exact ⟨rfl, h.bump 1⟩
      · simp only [hb, if_false]
        rfl
    | SequenceNode children =>
      rw [compileExpr, compileExpr]
      exact seqLoop_sim ih out children inp s1 s2 m h
    | ParallelNode left right =>
      rw [compileExpr_parallel_eq, compileExpr_parallel_eq, h.counter]
      by_cases hb : s2.counter + 6 ≤ INT_MAX
      · simp only [hb, if_true]
        refine (ih _ _ _ _ _ _ (h.bump 6)).bindRes2 (fun t1 t2 m1 ht => ?_)
        exact (ih _ _ _ _ _ _ ht).bindRes2 (fun u1 u2 m2 hu => ⟨rfl, hu⟩)
      · simp only [hb, if_false]
        rfl
    | ChoiceNode left right =>
      rw [compileExpr_choice_step, compileExpr_choice_step]
      exact (ih _ _ _ _ _ _ h).bindRes2 (fun t1 t2 m1 ht => ih _ _ _ _ _ _ ht)
    | PrioNode priority child =>
      rw [compileExpr_prio_eq, compileExpr_prio_eq, h.counter]
      by_cases hb : s2.counter + 2 ≤ INT_MAX
      · simp only [hb, if_true]
        exact ih _ _ _ _ _ _ (h.bump 2)
      · simp only [hb, if_false]
        rfl
    | CallModuleNode name =>
      rw [compileExpr_call_step, compileExpr_call_step]
      have hgen : GenSim (generate fuel s1 name) (generate fuel s2 name) := by
        refine generateWith_sim ?_ h name
        intro a b hab inp out t1 t2 m1 ht
        rw [← compileExpr_names fuel a b hab inp out t2 m1]
        exact ih a inp out t1 t2 m1 ht
      refine hgen.bindRes (fun t1 t2 sub ht => ?_)
      simp only [ht.counter]
      by_cases hb : t2.counter + 2 ≤ INT_MAX
      · simp only [hb, if_true]
        exact ⟨rfl, ht.bump 2⟩
      · simp only [hb, if_false]
        rfl

mutual
theorem SameShape.rfl_node : ∀ a : AstNode, SameShape a a
  | .ActionNode n => .action n n
  | .SequenceNode cs => .sequence cs cs (SameShape.rfl_list cs)
  | .ParallelNode l r => .parallel l r l r (SameShape.rfl_node l) (SameShape.rfl_node r)
  | .ChoiceNode l r => .choice l r l r (SameShape.rfl_node l) (SameShape.rfl_node r)
  | .PrioNode p c => .prio p c c (SameShape.rfl_node c)
  | .CallModuleNode n => .call n
theorem SameShape.rfl_list : ∀ cs : List AstNode, List.Forall₂ SameShape cs cs
  | [] => .nil
  | c :: cs => .cons (SameShape.rfl_node c) (SameShape.rfl_list cs)
end

theorem FlowDefSim.rfl_def (d : FlowDef) : FlowDefSim d d := by
  obtain ⟨r⟩ := d
  cases r with
  | none => exact .inl ⟨rfl, rfl⟩
  | some a => exact .inr ⟨a, a, rfl, rfl, SameShape.rfl_node a⟩

theorem StateSim.rfl_state (s : CodegenVisitor) : StateSim s s := by
  refine ⟨fun n => ?_, rfl, rfl⟩
  cases h : mapFind s.modules n with
  | none => exact .inl ⟨rfl, rfl⟩
  | some d => exact .inr ⟨d, d, rfl, rfl, FlowDefSim.rfl_def d⟩

theorem StateSim.register {s1 s2 : CodegenVisitor} (h : StateSim s1 s2) (name : String)
    {a b : AstNode} (hab : SameShape a b) :
    StateSim (register_module s1 name a) (register_module s2 name b) := by
  refine ⟨fun n => ?_, h.generated, h.counter⟩
  by_cases hn : name = n
  · subst hn
    exact .inr ⟨⟨some a⟩, ⟨some b⟩, mapFind_mapAssign_same _ _ _,
      mapFind_mapAssign_same _ _ _, .inr ⟨a, b, rfl, rfl, hab⟩⟩
  · simp only [register_module, mapFind_mapAssign_ne _ _ _ _ hn]
    exact h.modules n

/-- C19: the compiled fragment does not depend on action names. For two ASTs `a` and `b`
that are identical except for the names of their actions, compiling `a` and compiling `b`
from the same session state into the same fragment give the same result: the same fault,
or equal fragments and equal session states; in particular the action branch gives the
same result for any two names. Registered as the body of a module `name` in the same
state and compiled by `generate(name)`, they give the same fault, or equal fragments,
hence equal serializations, and states with the same counter and the same memo, whose
registries differ only in the names of the actions of the registered bodies. -/
theorem compile_ignores_action_names (a b : AstNode) (hab : SameShape a b) (fuel : Nat)
    (inp out : String) (cg : CodegenVisitor) (m : PetriModule) (name n1 n2 : String) :
    compileExpr fuel a inp out cg m = compileExpr fuel b inp out cg m ∧
    compileExpr fuel (ActionNode n1) inp out cg m =
      compileExpr fuel (ActionNode n2) inp out cg m ∧
    GenSim (generate fuel (register_module cg name a) name)
      (generate fuel (register_module cg name b) name) ∧
    ∀ F cg1, generate fuel (register_module cg name a) name = .ok (F, cg1) →
      ∃ F2 cg2, generate fuel (register_module cg name b) name = .ok (F2, cg2) ∧
        F2 = F ∧ F2.to_json = F.to_json ∧ F2.to_pnml = F.to_pnml ∧
        cg2.counter = cg1.counter ∧ cg2.generated = cg1.generated ∧ StateSim cg1 cg2 := by
  have hsim : GenSim (generate fuel (register_module cg name a) name)
      (generate fuel (register_module cg name b) name) := by
    refine generateWith_sim ?_ ((StateSim.rfl_state cg).register name hab) name
    intro x y hxy i o t1 t2 m1 ht
    rw [← compileExpr_names fuel x y hxy i o t2 m1]
    exact compileExpr_sim fuel x i o t1 t2 m1 ht
  refine ⟨compileExpr_names fuel a b hab inp out cg m,
    compileExpr_names fuel _ _ (.action n1 n2) inp out cg m, hsim, ?_⟩
  intro F cg1 h
  rw [h] at hsim
  cases h2 : generate fuel (register_module cg name b) name with
  | error e => rw [h2] at hsim; simp [GenSim] at hsim
  | ok r =>
    obtain ⟨F2, cg2⟩ := r
    rw [h2] at hsim
    simp only [GenSim] at hsim
    obtain ⟨rfl, hs⟩ := hsim
    exact ⟨F, cg2, rfl, rfl, rfl, rfl, hs.counter.symm, hs.generated.symm, hs⟩

theorem compile_ignores_action_names_witness :
    SameShape (SequenceNode [ActionNode "a", ActionNode "b"])
      (SequenceNode [ActionNode "x", ActionNode "y"]) ∧
    generate 2 (register_module CodegenVisitor.init "m"
        (SequenceNode [ActionNode "a", ActionNode "b"])) "m" =
      .ok (seqFragment "m",
        { modules := [("m", ⟨some (SequenceNode [ActionNode "a", ActionNode "b"])⟩)],
          generated := [("m", seqFragment "m")], counter := 5 }) ∧
    ∃ cg2, generate 2 (register_module CodegenVisitor.init "m"
        (SequenceNode [ActionNode "x", ActionNode "y"])) "m" = .ok (seqFragment "m", cg2) ∧
      cg2.counter = 5 ∧ cg2.generated = [("m", seqFragment "m")] := by
  obtain ⟨F2, cg2, h1, rfl, -, -, h2, h3, -⟩ :=
    (compile_ignores_action_names (SequenceNode [ActionNode "a", ActionNode "b"])
      (SequenceNode [ActionNode "x", ActionNode "y"])
      (.sequence _ _ (.cons (.action "a" "x") (.cons (.action "b" "y") .nil)))
      2 "entry0" "exit1" CodegenVisitor.init (bareFragment "m" "entry0" "exit1")
      "m" "a" "x").2.2.2 (seqFragment "m")
      { modules := [("m", ⟨some (SequenceNode [ActionNode "a", ActionNode "b"])⟩)],
        generated := [("m", seqFragment "m")], counter := 5 } rfl
  exact ⟨.sequence _ _ (.cons (.action "a" "x") (.cons (.action "b" "y") .nil)), rfl,
    cg2, h1, h2, h3⟩

/-! ## Registering a compiled module again -/

theorem Inlined.kept {F m m1 : PetriModule} (h : Inlined F m) (hg : Grows m m1) :
    Inlined F m1 := by
  obtain ⟨hp, ht, ha, callT, retT, h1, h2⟩ := h
  exact ⟨hp.trans hg.places.isInfix, ht.trans hg.transitions.isInfix,
    ha.trans hg.arcs.isInfix, callT, retT, hg.arcs.subset h1, hg.arcs.subset h2⟩

theorem seqLoop_inlines {rec : Compile} (hfr : GenFrame rec) (name : String)
    (F : PetriModule)
    (hrec : ∀ node inp out cg m cg1 m1, rec node inp out cg m = .ok (cg1, m1) →
      Calls name node → mapFind cg.generated name = some F → Inlined F m1)
    (out : String) :
    ∀ (cs : List AstNode) (current : String) (cg : CodegenVisitor) (m : PetriModule)
      (cg1 : CodegenVisitor) (m1 : PetriModule),
      seqLoop rec out cs current cg m = .ok (cg1, m1) →
      (∃ c ∈ cs, Calls name c) → mapFind cg.generated name = some F → Inlined F m1 := by
  intro cs
  induction cs with
  | nil =>
    intro current cg m cg1 m1 _ hc
    obtain ⟨c, hmem, -⟩ := hc
    cases hmem
  | cons c cs ih =>
    intro current cg m cg1 m1 h hc hmemo
    cases cs with
    | nil =>
      obtain ⟨c1, hmem, hcalls⟩ := hc
      simp only [List.mem_singleton] at hmem
      subst hmem
      exact hrec c1 current out cg m cg1 m1 h hcalls hmemo
    | cons c2 cs2 =>
      obtain ⟨-, cg2, m2, h1, h2⟩ := seqLoop_ok h
      obtain ⟨c1, hmem, hcalls⟩ := hc
      rcases List.mem_cons.mp hmem with rfl | hmem
      · exact (hrec _ _ _ _ _ _ _ h1 hcalls hmemo).kept
          (seqLoop_frame hfr out _ _ _ _ _ _ h2).grows
      · exact ih _ _ _ _ _ h2 ⟨c1, hmem, hcalls⟩ ((hfr _ _ _ _ _ _ _ h1).memo name F hmemo)

/-- Compiling a node that contains `CallModule(name)`, in a state whose memo binds `name`
to `F`, inlines `F`. -/
theorem compileExpr_inlines (name : String) (F : PetriModule) :
    ∀ (fuel : Nat) (node : AstNode) (inp out : String) (cg : CodegenVisitor)
      (m : PetriModule) (cg1 : CodegenVisitor) (m1 : PetriModule),
      compileExpr fuel node inp out cg m = .ok (cg1, m1) →
      Calls name node → mapFind cg.generated name = some F → Inlined F m1 := by
  intro fuel
  induction fuel with
  | zero => intro node inp out cg m cg1 m1 h; simp [compileExpr] at h
  | succ fuel ih =>
    intro node inp out cg m cg1 m1 h hcalls hmemo
    have hfr := compileExpr_frame fuel
    cases hcalls with
    | call =>
      obtain ⟨sub, cg2, hg, -, rfl, rfl⟩ := compileExpr_call_ok h
      rw [generate, generateWith_hit _ cg name F hmemo] at hg
      simp only [Except.ok.injEq, Prod.mk.injEq] at hg
      obtain ⟨rfl, rfl⟩ := hg
      refine ⟨(List.suffix_append _ _).isInfix, List.infix_append' _ _ _,
        List.infix_append' _ _ _,
        "T_call" ++ toString cg.counter, "T_ret" ++ toString (cg.counter + 1), ?_, ?_⟩
      · simp [PetriModule.plus]
      · simp [PetriModule.plus]
    | sequence children c hmem hc =>
      rw [compileExpr] at h
      exact seqLoop_inlines hfr name F ih out children inp cg m cg1 m1 h ⟨c, hmem, hc⟩ hmemo
    | parallelLeft l r hc =>
      obtain ⟨-, cg2, m2, m3, h1, h2, rfl⟩ := compileExpr_parallel_ok h
      exact ((ih _ _ _ _ _ _ _ h1 hc hmemo).kept (hfr _ _ _ _ _ _ _ h2).grows).kept
        (Grows.ofPlus _ _ _ _)
    | parallelRight l r hc =>
      obtain ⟨-, cg2, m2, m3, h1, h2, rfl⟩ := compileExpr_parallel_ok h
      exact (ih _ _ _ _ _ _ _ h2 hc ((hfr _ _ _ _ _ _ _ h1).memo name F hmemo)).kept
        (Grows.ofPlus _ _ _ _)
    | choiceLeft l r hc =>
      obtain ⟨cg2, m2, h1, h2⟩ := compileExpr_choice_ok h
      exact (ih _ _ _ _ _ _ _ h1 hc hmemo).kept (hfr _ _ _ _ _ _ _ h2).grows
    | choiceRight l r hc =>
      obtain ⟨cg2, m2, h1, h2⟩ := compileExpr_choice_ok h
      exact ih _ _ _ _ _ _ _ h2 hc ((hfr _ _ _ _ _ _ _ h1).memo name F hmemo)
    | prio priority child hc =>
      obtain ⟨-, h1⟩ := compileExpr_prio_ok h
      exact ih _ _ _ _ _ _ _ h1 hc hmemo

theorem Later.memo {cg cg2 : CodegenVisitor} (h : Later cg cg2) (n : String) (G : PetriModule)
    (hn : mapFind cg.generated n = some G) : mapFind cg2.generated n = some G := by
  induction h with
  | here => exact hn
  | register cg1 name root _ ih => exact ih
  | generate cg1 cg2 fuel name F _ hg ih =>
    exact (generateWith_frame (compileExpr_frame fuel) hg).2.1 n G ih

/-- C20: registering a module again after it has been compiled does not change what
`generate` returns. If `generate(name)` has returned the fragment `F` and
`register_module(name, ast2)` is then called with any `ast2`, then `generate(name)`
returns `F` at once, at any recursion bound and without a change of state; so it does in
every later state `cg2` of the session, whatever is registered or compiled in between;
and whenever a module `caller` that is not compiled yet and whose registered body contains
`CallModule(name)` is compiled in such a state, its fragment contains `F` inlined. -/
theorem reregister_keeps_fragment (fuel : Nat) (cg cg1 : CodegenVisitor) (name : String)
    (F : PetriModule) (h : generate fuel cg name = .ok (F, cg1)) (ast2 : AstNode) :
    (∀ fuel2, generate fuel2 (register_module cg1 name ast2) name =
      .ok (F, register_module cg1 name ast2)) ∧
    ∀ cg2, Later (register_module cg1 name ast2) cg2 →
      (∀ fuel2, generate fuel2 cg2 name = .ok (F, cg2)) ∧
      ∀ (fuel2 : Nat) (caller : String) (body : AstNode) (G : PetriModule)
        (cg3 : CodegenVisitor),
        mapFind cg2.generated caller = none →
        mapFind cg2.modules caller = some ⟨some body⟩ → Calls name body →
        generate fuel2 cg2 caller = .ok (G, cg3) → Inlined F G := by
  have hmemo1 : mapFind cg1.generated name = some F := generateWith_memo h
  have hmemo : mapFind (register_module cg1 name ast2).generated name = some F := hmemo1
  refine ⟨fun fuel2 => generateWith_hit _ _ name F hmemo, ?_⟩
  intro cg2 hlater
  have hmemo2 := hlater.memo name F hmemo
  refine ⟨fun fuel2 => generateWith_hit _ _ name F hmemo2, ?_⟩
  intro fuel2 caller body G cg3 hnone hreg hcalls hg
  rcases generateWith_ok hg with ⟨hhit, -⟩ | ⟨-, -, hcase⟩
  · rw [hnone] at hhit
    cases hhit
  · rcases hcase with ⟨root, cg4, hroot, hr, -⟩ | ⟨hno, -⟩
    · rw [hreg] at hroot
      cases hroot
      exact compileExpr_inlines name F fuel2 _ _ _ _ _ _ _ hr hcalls hmemo2
    · rw [hreg] at hno
      rcases hno with hno | hno <;> cases hno

theorem reregister_keeps_fragment_witness :
    generate 1 (session subOnly) "sub" = .ok (subOnlyFragment, subOnlyAfter) ∧
    ∀ fuel2, generate fuel2 (register_module subOnlyAfter "sub" (ActionNode "b")) "sub" =
      .ok (subOnlyFragment, register_module subOnlyAfter "sub" (ActionNode "b")) :=
  ⟨rfl, (reregister_keeps_fragment 1 (session subOnly) subOnlyAfter "sub" subOnlyFragment rfl
    (ActionNode "b")).1⟩

/-! ## Well-formed ids in every state -/

theorem generateWith_miss_idsOK {rec : Compile} (hcf : CompileCF rec) (hfr : GenFrame rec)
    {cg cg1 : CodegenVisitor} {name : String} {F : PetriModule}
    (hmiss : mapFind cg.generated name = none)
    (hb : ∀ body, mapFind cg.modules name = some ⟨some body⟩ → CallFree body)
    (h : generateWith rec cg name = .ok (F, cg1)) :
    IdsOK cg.counter cg1.counter F ∧ WellFormedIds F := by
  have hwf : ∀ {c : Nat} {F : PetriModule},
      Grows (bareFragment name ("entry" ++ toString cg.counter)
        ("exit" ++ toString (cg.counter + 1))) F → IdsOK cg.counter c F →
      WellFormedIds F := by
    intro c F hg hok
    refine ⟨?_, ?_, ?_, hok.nodup⟩
    · rw [hg.entry]; exact hg.placeIds_subset (by simp [placeIds, bareFragment])
    · rw [hg.exit]; exact hg.placeIds_subset (by simp [placeIds, bareFragment])
    · rw [hg.entry, hg.exit]; intro heq
      have := @fresh_id_injective "entry" "exit" (by decide) (by decide) _ _ heq
      omega
  rcases generateWith_ok h with ⟨hhit, -⟩ | ⟨-, hc, hcase⟩
  · rw [hmiss] at hhit; cases hhit
  · rcases hcase with ⟨root, cg2, hroot, hr, rfl⟩ | ⟨-, rfl, -, hctr⟩
    · have hbare := bareFragment_idsOK name cg.counter
      obtain ⟨hok, -⟩ := hcf root (hb root hroot) _ _ _ _ cg2 F cg.counter hr hbare
      exact ⟨hok, hwf (hfr _ _ _ _ _ _ _ hr).grows hok⟩
    · have hbare := bareFragment_idsOK name cg.counter
      rw [hctr]
      exact ⟨hbare, hwf (Grows.refl _) hbare⟩

theorem Later.memoBelow {cg : CodegenVisitor} (h : Later CodegenVisitor.init cg) :
    ∀ n G, mapFind cg.generated n = some G → Below cg.counter G := by
  induction h with
  | here => intro n G hG; simp [CodegenVisitor.init, mapFind] at hG
  | register cg1 name root _ ih => exact ih
  | generate cg1 cg2 fuel name F _ hg ih =>
    intro n G hG x hx
    obtain ⟨hle, -, hids, -⟩ := generateWith_frame (compileExpr_frame fuel) hg
    rcases hids x ⟨n, G, hG, hx⟩ with ⟨n0, G0, hG0, hx0⟩ | hfr
    · exact (ih n0 G0 hG0 x hx0).mono (Nat.le_refl _) hle
    · exact hfr.mono (Nat.zero_le _) (Nat.le_refl _)

theorem Provenance.step {cg cg1 : CodegenVisitor} (h : Provenance cg)
    (hg : cg1.generated = cg.generated) (hm : ModStable cg cg1) : Provenance cg1 := by
  intro n G hG
  rw [hg] at hG
  obtain ⟨fuel, cg0, cg2, h1, h2, h3⟩ := h n G hG
  exact ⟨fuel, cg0, cg2, h1, h2, fun b hb => (hm n b).mpr (h3 b hb)⟩

theorem Provenance.cacheEntry {cg cg2 cg1 : CodegenVisitor} {name : String} {F : PetriModule}
    {fuel : Nat} (hmiss : mapFind cg.generated name = none)
    (h : generate fuel cg name = .ok (F, cg1)) (hm : ModStable cg cg1)
    (h2 : Provenance cg2) (hm2 : ModStable cg2 cg1)
    (hg : cg1.generated = mapAssign cg2.generated name F) : Provenance cg1 := by
  intro n G hG
  rw [hg] at hG
  by_cases hn : name = n
  · subst hn
    rw [mapFind_mapAssign_same] at hG
    cases hG
    exact ⟨fuel, cg, cg1, hmiss, h, fun b hb => (hm name b).mpr hb⟩
  · rw [mapFind_mapAssign_ne _ _ _ _ hn] at hG
    obtain ⟨fuel0, cg0, cg3, h1, h3, h4⟩ := h2 n G hG
    exact ⟨fuel0, cg0, cg3, h1, h3, fun b hb => (hm2 n b).mpr (h4 b hb)⟩

theorem generateWith_provenance (fuel : Nat)
    (ih : ∀ (node : AstNode) (inp out : String) (cg : CodegenVisitor) (m : PetriModule)
      (cg1 : CodegenVisitor) (m1 : PetriModule),
      compileExpr fuel node inp out cg m = .ok (cg1, m1) → Provenance cg → Provenance cg1)
    {cg cg1 : CodegenVisitor} {name : String} {F : PetriModule}
    (h : generateWith (compileExpr fuel) cg name = .ok (F, cg1)) (hp : Provenance cg) :
    Provenance cg1 := by
  have hst : ModStable cg cg1 := generateWith_bodies (compileExpr_bodies fuel) h
  rcases generateWith_ok h with ⟨-, rfl⟩ | ⟨hmiss, -, hcase⟩
  · exact hp
  · rcases hcase with ⟨root, cg2, -, hr, hcg1⟩ | ⟨-, -, hgen, -⟩
    · have hp2 : Provenance cg2 :=
        ih _ _ _ _ _ _ _ hr (hp.step rfl (ModStable.ofBump cg 2))
      refine Provenance.cacheEntry hmiss h hst hp2 ?_ (by rw [hcg1])
      rw [hcg1]
      exact ModStable.ofModulesEq rfl
    · exact Provenance.cacheEntry hmiss h hst hp hst hgen

theorem seqLoop_provenance {rec : Compile}
    (hrec : ∀ (node : AstNode) (inp out : String) (cg : CodegenVisitor) (m : PetriModule)
      (cg1 : CodegenVisitor) (m1 : PetriModule),
      rec node inp out cg m = .ok (cg1, m1) → Provenance cg → Provenance cg1)
    (out : String) :
    ∀ (cs : List AstNode) (current : String) (cg : CodegenVisitor) (m : PetriModule)
      (cg1 : CodegenVisitor) (m1 : PetriModule),
      seqLoop rec out cs current cg m = .ok (cg1, m1) → Provenance cg → Provenance cg1 := by
  intro cs
  induction cs with
  | nil =>
    intro current cg m cg1 m1 h hp
    simp only [seqLoop, Except.ok.injEq, Prod.mk.injEq] at h
    rw [← h.1]
    exact hp
  | cons c cs ih =>
    intro current cg m cg1 m1 h hp
    cases cs with
    | nil => exact hrec c current out cg m cg1 m1 h hp
    | cons c2 cs2 =>
      obtain ⟨-, cg2, m2, h1, h2⟩ := seqLoop_ok h
      exact ih _ _ _ _ _ h2 (hrec _ _ _ _ _ _ _ h1 (hp.step rfl (ModStable.ofBump cg 1)))

theorem compileExpr_provenance : ∀ (fuel : Nat) (node : AstNode) (inp out : String)
    (cg : CodegenVisitor) (m : PetriModule) (cg1 : CodegenVisitor) (m1 : PetriModule),
    compileExpr fuel node inp out cg m = .ok (cg1, m1) → Provenance cg → Provenance cg1 := by
  intro fuel
  induction fuel with
  | zero => intro node inp out cg m cg1 m1 h; simp [compileExpr] at h
  | succ fuel ih =>
    intro node inp out cg m cg1 m1 h hp
    cases node with
    | ActionNode name =>
      obtain ⟨-, rfl, -⟩ := compileExpr_action_ok h
      exact hp.step rfl (ModStable.ofBump cg 1)
    | SequenceNode children =>
      rw [compileExpr] at h
      exact seqLoop_provenance ih out children inp cg m cg1 m1 h hp
    | ParallelNode left right =>
      obtain ⟨-, cg2, m2, m3, h1, h2, -⟩ := compileExpr_parallel_ok h
      exact ih _ _ _ _ _ _ _ h2 (ih _ _ _ _ _ _ _ h1 (hp.step rfl (ModStable.ofBump cg 6)))
    | ChoiceNode left right =>
      obtain ⟨cg2, m2, h1, h2⟩ := compileExpr_choice_ok h
      exact ih _ _ _ _ _ _ _ h2 (ih _ _ _ _ _ _ _ h1 hp)
    | PrioNode priority child =>
      obtain ⟨-, h1⟩ := compileExpr_prio_ok h
      exact ih _ _ _ _ _ _ _ h1 (hp.step rfl (ModStable.ofBump cg 2))
    | CallModuleNode name =>
      obtain ⟨sub, cg2, hg, -, rfl, -⟩ := compileExpr_call_ok h
      exact (generateWith_provenance fuel ih hg hp).step rfl (ModStable.ofBump cg2 2)

theorem Reachable.provenance {cg : CodegenVisitor} (h : Reachable cg) : Provenance cg := by
  induction h with
  | init => intro n G hG; simp [CodegenVisitor.init, mapFind] at hG
  | register cg name root _ hnew ih =>
    intro n G hG
    have hG0 : mapFind cg.generated n = some G := hG
    have hn : name ≠ n := by
      intro hn
      subst hn
      rw [hnew] at hG0
      cases hG0
    obtain ⟨fuel, cg0, cg1, h1, h2, h3⟩ := ih n G hG0
    refine ⟨fuel, cg0, cg1, h1, h2, fun b hb => ?_⟩
    simp only [register_module]
    rw [mapFind_mapAssign_ne _ _ _ _ hn]
    exact h3 b hb
  | generate cg cg1 fuel name F _ hgen ih =>
    exact generateWith_provenance fuel (compileExpr_provenance fuel) hgen ih

/-- In a session in which no module is registered again after it has been compiled, the
memo entry of a module whose registered body has no module call was compiled from that
body. -/
theorem Reachable.compiledCallFree {cg : CodegenVisitor} (h : Reachable cg) (name : String)
    (body : AstNode) (hbody : mapFind cg.modules name = some ⟨some body⟩)
    (hcf : CallFree body) :
    ∀ G, mapFind cg.generated name = some G → CompiledCallFree name G := by
  intro G hG
  obtain ⟨fuel, cg0, cg1, h1, h2, h3⟩ := h.provenance name G hG
  refine ⟨fuel, cg0, cg1, h1, fun b hb => ?_, h2⟩
  have := h3 b hb
  rw [hbody] at this
  simp only [Option.some.injEq, FlowDef.mk.injEq] at this
  rw [← this]
  exact hcf

/-- C6 (counterexample): after `generate("main")` on the session `callTwice`, register
`main` again as `Action(b)`. The body of `main` now has no module call, yet
`generate("main")` returns the cached fragment, in which `entry3`, `exit4` and `T5`
occur twice. -/
theorem stale_memo_ids_not_distinct :
    generate 3 (session callTwice) "main" = .ok (callTwiceMain, callTwiceAfter) ∧
    mapFind callTwiceStale.modules "main" = some ⟨some (.ActionNode "b")⟩ ∧
    CallFree (.ActionNode "b") ∧
    generate 3 callTwiceStale "main" = .ok (callTwiceMain, callTwiceStale) ∧
    ¬ (placeIds callTwiceMain ++ transIds callTwiceMain).Nodup :=
  ⟨rfl, rfl, CallFree.action "b", rfl, by decide⟩

/-- C6 (amended): node ids of a compiled fragment are well formed unless `generate`
returns a memo entry that was compiled from a body with a module call. In every state
`cg` whatever (reached by a session or not), for every module whose registered body
contains no `CallModule` node and whose memo entry, if there is one, was compiled by
`generate` from a body without `CallModule` node (as it is when the module has not been
registered again since), the fragment `generate` returns has its entry and exit among
its places, entry and exit differ, and the ids of its places and transitions taken
together are pairwise distinct. When the call compiles the module (no memo entry yet),
every id of the fragment is made from a counter value at or above the counter at the
call; so none of them is an id of a memo entry whose ids were made below that counter,
and in every state that a session reaches from a fresh visitor by any `register_module`
and `generate` calls, none of them is an id of any fragment compiled earlier. -/
theorem generate_ids_wellformed (cg cg1 : CodegenVisitor) (fuel : Nat) (name : String)
    (body : AstNode) (F : PetriModule)
    (hbody : mapFind cg.modules name = some ⟨some body⟩) (hcf : CallFree body)
    (hmemo : ∀ G, mapFind cg.generated name = some G → CompiledCallFree name G)
    (h : generate fuel cg name = .ok (F, cg1)) :
    F.entry.id ∈ placeIds F ∧ F.exit.id ∈ placeIds F ∧ F.entry.id ≠ F.exit.id ∧
    (placeIds F ++ transIds F).Nodup ∧
    (mapFind cg.generated name = none →
      (∀ x ∈ placeIds F ++ transIds F, FreshIn cg.counter cg1.counter x) ∧
      (∀ n G, mapFind cg.generated n = some G → Below cg.counter G →
        ∀ x ∈ placeIds F ++ transIds F, x ∉ placeIds G ++ transIds G) ∧
      (Later CodegenVisitor.init cg → ∀ n G, mapFind cg.generated n = some G →
        ∀ x ∈ placeIds F ++ transIds F, x ∉ placeIds G ++ transIds G)) := by
  have hb : ∀ b, mapFind cg.modules name = some ⟨some b⟩ → CallFree b := by
    intro b hb
    rw [hbody] at hb
    simp only [Option.some.injEq, FlowDef.mk.injEq] at hb
    rw [← hb]
    exact hcf
  have hwf : WellFormedIds F := by
    cases hg : mapFind cg.generated name with
    | none =>
      exact (generateWith_miss_idsOK (compileExpr_cf fuel) (compileExpr_frame fuel) hg hb h).2
    | some G =>
      have hF : F = G := by
        have h2 := h
        unfold generate at h2
        rw [generateWith_hit _ cg name G hg] at h2
        simp only [Except.ok.injEq, Prod.mk.injEq] at h2
        exact h2.1.symm
      subst hF
      obtain ⟨fuel0, cg0, cg2, hmiss0, hb0, h0⟩ := hmemo F hg
      exact (generateWith_miss_idsOK (compileExpr_cf fuel0) (compileExpr_frame fuel0)
        hmiss0 hb0 h0).2
  refine ⟨hwf.1, hwf.2.1, hwf.2.2.1, hwf.2.2.2, ?_⟩
  intro hmiss
  have hrange : ∀ x ∈ placeIds F ++ transIds F, FreshIn cg.counter cg1.counter x :=
    (generateWith_miss_idsOK (compileExpr_cf fuel) (compileExpr_frame fuel) hmiss hb h).1.range
  have hbelow : ∀ n G, mapFind cg.generated n = some G → Below cg.counter G →
      ∀ x ∈ placeIds F ++ transIds F, x ∉ placeIds G ++ transIds G :=
    fun n G _ hG x hx hxG => FreshIn.ne (hG x hxG) (hrange x hx) rfl
  exact ⟨hrange, hbelow, fun hs n G hG => hbelow n G hG (hs.memoBelow n G hG)⟩

theorem generate_ids_wellformed_witness :
    (mapFind callTwiceAux.modules "aux" = some ⟨some (.ActionNode "c")⟩ ∧
      CallFree (.ActionNode "c") ∧
      mapFind callTwiceAux.generated "aux" = none ∧
      mapFind callTwiceAux.generated "main" = some callTwiceMain ∧
      generate 1 callTwiceAux "aux" = .ok (auxFragment, callTwiceAuxAfter) ∧
      (placeIds auxFragment ++ transIds auxFragment).Nodup ∧
      (∀ x ∈ placeIds auxFragment ++ transIds auxFragment, FreshIn 10 13 x) ∧
      ∀ x ∈ placeIds auxFragment ++ transIds auxFragment,
        x ∉ placeIds callTwiceMain ++ transIds callTwiceMain) ∧
    (mapFind callTwiceStale.modules "sub" = some ⟨some (.ActionNode "a")⟩ ∧
      mapFind callTwiceStale.generated "sub" = some callTwiceSub ∧
      CompiledCallFree "sub" callTwiceSub ∧
      generate 0 callTwiceStale "sub" = .ok (callTwiceSub, callTwiceStale) ∧
      (placeIds callTwiceSub ++ transIds callTwiceSub).Nodup) := by
  have hmiss := generate_ids_wellformed callTwiceAux callTwiceAuxAfter 1 "aux"
    (.ActionNode "c") auxFragment rfl (CallFree.action "c")
    (fun G hG => by cases hG) rfl
  have hsub : CompiledCallFree "sub" callTwiceSub :=
    ⟨1, callTwiceInner, _, rfl, fun b hb => by
      have h0 : mapFind callTwiceInner.modules "sub" = some ⟨some (.ActionNode "a")⟩ := rfl
      rw [h0] at hb
      simp only [Option.some.injEq, FlowDef.mk.injEq] at hb
      rw [← hb]
      exact CallFree.action "a", rfl⟩
  have hhit := generate_ids_wellformed callTwiceStale callTwiceStale 0 "sub"
    (.ActionNode "a") callTwiceSub rfl (CallFree.action "a")
    (fun G hG => by
      have h0 : mapFind callTwiceStale.generated "sub" = some callTwiceSub := rfl
      rw [h0] at hG
      cases hG
      exact hsub) rfl
  have hlater : Later CodegenVisitor.init callTwiceAux :=
    Later.register _ "aux" (.ActionNode "c")
      (Later.register _ "main" (.ActionNode "b")
        (Later.generate (session callTwice) callTwiceAfter 3 "main" callTwiceMain
          (Later.register _ "main"
            (.SequenceNode [.CallModuleNode "sub", .CallModuleNode "sub"])
            (Later.register _ "sub" (.ActionNode "a") Later.here)) rfl))
  exact ⟨⟨rfl, CallFree.action "c", rfl, rfl, rfl, hmiss.2.2.2.1, (hmiss.2.2.2.2 rfl).1,
      (hmiss.2.2.2.2 rfl).2.2 hlater "main" callTwiceMain rfl⟩,
    ⟨rfl, rfl, hsub, rfl, hhit.2.2.2.1⟩⟩

end FlowNet
